import Mathlib

/-!
# Augustus content router: FIB, PIT, CS, parser, forwarding engine and controller

A shallow embedding of `src/lib/fib/fib.c`, `src/lib/fib/fib_hash_table.c`,
`src/lib/fib/fib_hash_table.h`, `src/lib/pit/pit.c`, `src/lib/pit/pit.h`,
`src/lib/cs/cs.c`, `src/lib/cs/cs.h`, `src/lib/packet.c`, `src/lib/packet.h`,
of `send_burst`, `send_single_packet`, `icn_fwd` and `reset_stats` of
`src/main/data_plane.c`, of `get_nb_lcores_available` of `src/lib/util.c` and
of the loop body of `ctrl_loop` of `src/main/control_plane.c`.

Conventions of the embedding:

* a C array is a total map `Nat → α`, written with `upd`; the tables come from
  `rte_zmalloc_socket`, so every cell starts as zero;
* a byte string is a `List Nat`; a `(pointer, length)` argument pair of the C
  code is a list together with its length argument, and only the first
  `length` bytes are ever read (`List.take`);
* `crc : List Nat → Nat` stands for `rte_hash_crc(data, len, MASTER_CRC_SEED)`
  of DPDK, applied to the bytes `data[0 .. len)`;
* `rng : Nat → Nat` is the sequence of words that successive calls of DPDK's
  `rte_rand()` return: a draw reads `rng 0` and leaves `fun i => rng (i + 1)`;
* return codes are `Int`; a narrowing conversion of the C code is written out
  (`to_int8`, `to_int16`, `% 256`);
* a packet buffer (`struct rte_mbuf *`) is its address, a `Nat`, with 0 for
  `NULL`; the buffers handed to `rte_pktmbuf_free` are returned as a list;
* the `while` loop of the PIT purge takes a bound on the number of its
  iterations and gives `none` when the bound is reached; the theorems name a
  bound that suffices;
* the state of a worker carries the memory of the packet buffers, the values
  that the next calls of `rte_eth_tx_burst` return, and the history of the
  DPDK calls and of the calls of `send_single_packet` made so far;
* `rte_memcpy` into the array `name[MAX_NAME_LEN]` of an entry keeps all the
  bytes copied: a copy of more than 33 bytes, which in C runs past the array
  into the fields and entries behind it, gives a longer list. The entries of
  the model are those of the C code for names of at most `MAX_NAME_LEN`
  bytes only, so the states of `PitReachable`, `PitTimed`, `CsReachable`,
  `CsTrace` and `FibBounded` are built from such names, and a theorem about a
  stored name takes the bound as a hypothesis;
* the controller reads one byte past its array `command`; that byte is the
  parameter `command_end`.
-/

namespace Augustus

/-! ## Constants (`config/defaults.h`, `fib_hash_table.h`, `errno.h`) -/

/-- Number of entries in a bucket. -/
def BUCKET_SIZE : Nat := 7

/-- Size of the name array of a FIB record and of a PIT entry. -/
def MAX_NAME_LEN : Nat := 33

/-- Size of the `crc` array of a parsed packet. -/
def MAX_NAME_COMPONENTS : Nat := 16

/-- Size of the `match` array of the FIB lookup. -/
def APP_MAX_ETH_PORTS : Nat := 10

/-- The errno value EINVAL. -/
def EINVAL : Int := 22

/-- The errno value ENOSPC. -/
def ENOSPC : Int := 28

/-- The errno value ENOENT. -/
def ENOENT : Int := 2

/-! ## Machine-level helpers -/

/-- Conversion of an integer value to `int8_t` (two's complement wrap-around). -/
def to_int8 (x : Int) : Int := (x + 128) % 256 - 128

/-- Conversion of an integer value to `int16_t` (two's complement wrap-around). -/
def to_int16 (x : Int) : Int := (x + 32768) % 65536 - 32768

/-- Array write `a[i] = v`. -/
def upd {α : Type} (a : Nat → α) (i : Nat) (v : α) : Nat → α :=
  fun j => if j = i then v else a j

/-- The array `dst` after `rte_memcpy(dst, src, n)`: its first `n` bytes are those of `src`. -/
def memcpy (dst src : List Nat) (n : Nat) : List Nat := src.take n ++ dst.drop n

/-- The test `memcmp(a, b, n) == 0`. -/
def memcmp_eq (a b : List Nat) (n : Nat) : Prop := a.take n = b.take n

instance (a b : List Nat) (n : Nat) : Decidable (memcmp_eq a b n) :=
  inferInstanceAs (Decidable (a.take n = b.take n))

/-! ## FIB data model (`fib_hash_table.h`, `fib.h`, `packet.h`) -/

/-- A single entry of a bucket: `struct fib_htbl_entry`. -/
structure fib_htbl_entry where
  /-- CRC hash of the entry -/
  crc : Nat
  /-- Index of the name entry in the forwarding table -/
  index : Nat

/-- A bucket: `struct fib_htbl_bucket`, with `busy[BUCKET_SIZE]` and `entry[BUCKET_SIZE]`. -/
structure fib_htbl_bucket where
  busy : Nat → Nat
  entry : Nat → fib_htbl_entry

/-- Forwarding entry, mapping name to face: `struct fib_fwd_entry`
(`uint8_t face`, `uint8_t name_len`, `uint8_t name[MAX_NAME_LEN]`). -/
structure fib_fwd_entry where
  face : Nat
  name_len : Nat
  name : List Nat

/-- FIB hash table: `fibh_t`. -/
structure fibh_t where
  htbl : Nat → fib_htbl_bucket
  fwd_table : Nat → fib_fwd_entry
  max_elements : Nat
  num_buckets : Nat
  next_free_element : Nat

/-- FIB data type: `fib_t`, holding the hash table. -/
structure fib_t where
  table : fibh_t

/-- The fields of `struct icn_packet` that the parser and the FIB read and write
(`pkt`, `payload` and `lpm_crc` are never touched). `name` is the memory at the
name pointer, `component_offsets` the bytes at the start of the value of the
component-offsets TLV, `crc` the array `crc[MAX_NAME_COMPONENTS]`, `hdr` the
memory at the header pointer. -/
structure icn_packet where
  name_len : Nat
  name : List Nat
  component_offsets : List Nat
  component_nr : Nat
  crc : Nat → Nat
  hdr : List Nat := []
  component_offsets_size : Nat := 0

/-- The value `rte_be_to_cpu_16(((uint16_t*)component_offsets)[comp])`. -/
def component_offset (component_offsets : List Nat) (comp : Nat) : Nat :=
  256 * component_offsets.getD (2 * comp) 0 + component_offsets.getD (2 * comp + 1) 0

/-! ## FIB hash table (`fib_hash_table.c`) -/

/-- The tables of `fib_hash_table_create` (all allocations succeeding): zeroed memory. -/
def fib_hash_table_create (num_buckets max_elements : Nat) : fibh_t :=
  { htbl := fun _ => { busy := fun _ => 0, entry := fun _ => { crc := 0, index := 0 } }
    fwd_table := fun _ => { face := 0, name_len := 0, name := List.replicate MAX_NAME_LEN 0 }
    max_elements := max_elements
    num_buckets := num_buckets
    next_free_element := 0 }

/-- Return whether the FIB hash table is full or not. -/
def is_fib_hash_table_full (t : fibh_t) : Bool :=
  t.next_free_element == t.max_elements

/-- The function `__fib_hash_table_add_key_with_hash`: the loop over
`entry = 0 .. BUCKET_SIZE-1` stops at the first entry that is not busy.
`next_free_element < max_elements` holds at the increment, which therefore
does not wrap. -/
def __fib_hash_table_add_key_with_hash (t : fibh_t) (name : List Nat)
    (name_len face crc : Nat) : Int × fibh_t :=
  if is_fib_hash_table_full t then (-ENOSPC, t)
  else
    let bucket := crc % t.num_buckets
    match (List.range BUCKET_SIZE).find? (fun entry => (t.htbl bucket).busy entry == 0) with
    | some entry =>
      (0, { t with
            htbl := upd t.htbl bucket
              { busy := upd (t.htbl bucket).busy entry 1
                entry := upd (t.htbl bucket).entry entry
                  { crc := crc, index := t.next_free_element } }
            fwd_table := upd t.fwd_table t.next_free_element
              { face := face
                name_len := name_len
                name := memcpy (t.fwd_table t.next_free_element).name name name_len }
            next_free_element := t.next_free_element + 1 })
    | none => (-ENOSPC, t)

/-- The function `fib_hash_table_add_key` (`name_len` is a `uint8_t` here). -/
def fib_hash_table_add_key (crc : List Nat → Nat) (t : fibh_t) (name : List Nat)
    (name_len face : Nat) : Int × fibh_t :=
  __fib_hash_table_add_key_with_hash t name name_len face (crc (name.take name_len))

/-- The test made on one bucket entry by the lookup loop: busy, same CRC, same
name length, same name bytes. -/
def fib_entry_matches (t : fibh_t) (name : List Nat) (name_len crc bucket entry : Nat) : Prop :=
  (t.htbl bucket).busy entry ≠ 0 ∧
  ((t.htbl bucket).entry entry).crc = crc ∧
  name_len = (t.fwd_table ((t.htbl bucket).entry entry).index).name_len ∧
  memcmp_eq name (t.fwd_table ((t.htbl bucket).entry entry).index).name name_len

instance (t : fibh_t) (name : List Nat) (name_len crc bucket entry : Nat) :
    Decidable (fib_entry_matches t name name_len crc bucket entry) :=
  inferInstanceAs (Decidable (_ ∧ _ ∧ _ ∧ _))

/-- The array `match[0 .. nmatch)` that the lookup loop has filled when it ends:
the faces of the matching entries of the bucket, in entry order. -/
def fib_match_array (t : fibh_t) (name : List Nat) (name_len crc : Nat) : List Nat :=
  ((List.range BUCKET_SIZE).filter
      (fun entry => decide (fib_entry_matches t name name_len crc (crc % t.num_buckets) entry))).map
    (fun entry =>
      (t.fwd_table ((t.htbl (crc % t.num_buckets)).entry entry).index).face)

/-- The function `__fib_hash_table_lookup_with_hash`: the `int16_t` result and
the random sequence left after the call. -/
def __fib_hash_table_lookup_with_hash (t : fibh_t) (name : List Nat) (name_len crc : Nat)
    (rng : Nat → Nat) : Int × (Nat → Nat) :=
  let match_array := fib_match_array t name name_len crc
  let nmatch := match_array.length
  if nmatch = 0 then (-ENOENT, rng)
  else if nmatch > 1 then
    (to_int16 (match_array.getD (rng 0 % nmatch) 0), fun i => rng (i + 1))
  else (to_int16 (match_array.getD 0 0), rng)

/-- The function `fib_hash_table_lookup_with_hash`. -/
def fib_hash_table_lookup_with_hash (t : fibh_t) (name : List Nat) (name_len crc : Nat)
    (rng : Nat → Nat) : Int × (Nat → Nat) :=
  __fib_hash_table_lookup_with_hash t name name_len crc rng

/-- The test made on one bucket entry by the deletion loop: busy, same CRC, same
name length, same name bytes, same face. -/
def fib_entry_matches_face (t : fibh_t) (name : List Nat)
    (name_len crc face bucket entry : Nat) : Prop :=
  (t.htbl bucket).busy entry ≠ 0 ∧
  ((t.htbl bucket).entry entry).crc = crc ∧
  name_len = (t.fwd_table ((t.htbl bucket).entry entry).index).name_len ∧
  memcmp_eq name (t.fwd_table ((t.htbl bucket).entry entry).index).name name_len ∧
  (t.fwd_table ((t.htbl bucket).entry entry).index).face = face

instance (t : fibh_t) (name : List Nat) (name_len crc face bucket entry : Nat) :
    Decidable (fib_entry_matches_face t name name_len crc face bucket entry) :=
  inferInstanceAs (Decidable (_ ∧ _ ∧ _ ∧ _ ∧ _))

/-- The function `__fib_hash_table_del_key_with_hash`: the loop stops at the first
matching entry and clears its busy flag. -/
def __fib_hash_table_del_key_with_hash (t : fibh_t) (name : List Nat)
    (name_len crc face : Nat) : Int × fibh_t :=
  let bucket := crc % t.num_buckets
  match (List.range BUCKET_SIZE).find?
      (fun entry => decide (fib_entry_matches_face t name name_len crc face bucket entry)) with
  | some entry =>
    (0, { t with
          htbl := upd t.htbl bucket
            { busy := upd (t.htbl bucket).busy entry 0
              entry := (t.htbl bucket).entry } })
  | none => (-ENOENT, t)

/-- The function `fib_hash_table_del_key` (`name_len` is a `uint8_t` here). -/
def fib_hash_table_del_key (crc : List Nat → Nat) (t : fibh_t) (name : List Nat)
    (name_len face : Nat) : Int × fibh_t :=
  __fib_hash_table_del_key_with_hash t name name_len (crc (name.take name_len)) face

/-! ## FIB (`fib.c`) -/

/-- The FIB of `fib_create` (all allocations succeeding). -/
def fib_create (num_buckets max_elements : Nat) : fib_t :=
  { table := fib_hash_table_create num_buckets max_elements }

/-- The function `fib_add`: its `uint16_t name_len` is narrowed to the `uint8_t`
parameter of `fib_hash_table_add_key`. -/
def fib_add (crc : List Nat → Nat) (fib : fib_t) (name : List Nat) (name_len face : Nat) :
    Int × fib_t :=
  if name_len = 0 ∨ name.getD 0 0 = 0 then (-EINVAL, fib)
  else
    let r := fib_hash_table_add_key crc fib.table name (name_len % 256) face
    if r.1 < 0 then (r.1, { table := r.2 }) else (0, { table := r.2 })

/-- The function `fib_del`: its `uint16_t name_len` is narrowed to the `uint8_t`
parameter of `fib_hash_table_del_key`. -/
def fib_del (crc : List Nat → Nat) (fib : fib_t) (name : List Nat) (name_len face : Nat) :
    Int × fib_t :=
  if name_len = 0 ∨ name.getD 0 0 = 0 then (-EINVAL, fib)
  else
    let r := fib_hash_table_del_key crc fib.table name (name_len % 256) face
    if r.1 < 0 then (r.1, { table := r.2 }) else (r.1, { table := r.2 })

/-- The loop of `fib_lookup` with `comp + 1` components left to try, the next one
being component `comp`: `offset` is a `uint16_t`, the name length handed to the
hash table a `uint8_t`, the result an `int8_t`. Returns the result, the packet
with its `crc` array updated, and the random sequence left. -/
def fib_lookup_loop (crc : List Nat → Nat) (fib : fib_t) :
    Nat → icn_packet → (Nat → Nat) → Int × icn_packet × (Nat → Nat)
  | 0, pkt, rng => (to_int8 (-ENOENT), pkt, rng)
  | comp + 1, pkt, rng =>
    let offset := (component_offset pkt.component_offsets comp + 1) % 65536
    let c := crc (pkt.name.take offset)
    let pkt1 := { pkt with crc := upd pkt.crc comp c }
    let r := fib_hash_table_lookup_with_hash fib.table pkt.name (offset % 256) c rng
    if r.1 ≥ 0 then (to_int8 r.1, pkt1, r.2)
    else fib_lookup_loop crc fib comp pkt1 r.2

/-- The function `fib_lookup`: `comp` is an `int16_t` that starts at
`component_nr - 1` and counts down to 0. -/
def fib_lookup (crc : List Nat → Nat) (fib : fib_t) (pkt : icn_packet)
    (rng : Nat → Nat) : Int × icn_packet × (Nat → Nat) :=
  fib_lookup_loop crc fib (to_int16 ((pkt.component_nr : Int) - 1) + 1).toNat
    pkt rng

/-! ## States of the FIB -/

/-- The record holds the byte string `name[0 .. len)`: same length, same bytes. -/
def fwd_entry_has_name (r : fib_fwd_entry) (name : List Nat) (len : Nat) : Prop :=
  r.name_len = len ∧ r.name.take len = name.take len

instance (r : fib_fwd_entry) (name : List Nat) (len : Nat) :
    Decidable (fwd_entry_has_name r name len) :=
  inferInstanceAs (Decidable (_ ∧ _))

/-- The forwarding record that entry `entry` of bucket `bucket` refers to. -/
def fib_record (t : fibh_t) (bucket entry : Nat) : fib_fwd_entry :=
  t.fwd_table ((t.htbl bucket).entry entry).index

/-- The table after entry `entry` of bucket `bucket` has been claimed for a new
record at `next_free_element` (the writes of the add loop). -/
def fib_store (t : fibh_t) (bucket entry : Nat) (name : List Nat)
    (name_len face crc : Nat) : fibh_t :=
  { t with
    htbl := upd t.htbl bucket
      { busy := upd (t.htbl bucket).busy entry 1
        entry := upd (t.htbl bucket).entry entry
          { crc := crc, index := t.next_free_element } }
    fwd_table := upd t.fwd_table t.next_free_element
      { face := face
        name_len := name_len
        name := memcpy (t.fwd_table t.next_free_element).name name name_len }
    next_free_element := t.next_free_element + 1 }

/-- The table after the busy flag of entry `entry` of bucket `bucket` has been
cleared (the write of the deletion loop). -/
def fib_clear (t : fibh_t) (bucket entry : Nat) : fibh_t :=
  { t with
    htbl := upd t.htbl bucket
      { busy := upd (t.htbl bucket).busy entry 0
        entry := (t.htbl bucket).entry } }

/-- The FIB states that the API produces: `fib_create` with at least one bucket,
then any calls of `fib_add` and `fib_del` whose arguments are valid C values
(`face` a `uint8_t`, `name` a buffer of at least `name_len` bytes). -/
inductive FibReachable (crc : List Nat → Nat) : fib_t → Prop
  | create (num_buckets max_elements : Nat) (hb : 0 < num_buckets) :
      FibReachable crc (fib_create num_buckets max_elements)
  | add (fib : fib_t) (name : List Nat) (name_len face : Nat)
      (h : FibReachable crc fib) (hface : face < 256) (hlen : name_len ≤ name.length) :
      FibReachable crc (fib_add crc fib name name_len face).2
  | del (fib : fib_t) (name : List Nat) (name_len face : Nat)
      (h : FibReachable crc fib) :
      FibReachable crc (fib_del crc fib name name_len face).2

/-- The FIB states reached by a run of the API, with the number of calls of
`fib_add` that returned 0 so far. -/
inductive FibRun (crc : List Nat → Nat) : fib_t → Nat → Prop
  | create (num_buckets max_elements : Nat) (hb : 0 < num_buckets) :
      FibRun crc (fib_create num_buckets max_elements) 0
  | add_ok (fib : fib_t) (k : Nat) (name : List Nat) (name_len face : Nat)
      (h : FibRun crc fib k) (hface : face < 256) (hlen : name_len ≤ name.length)
      (hret : (fib_add crc fib name name_len face).1 = 0) :
      FibRun crc (fib_add crc fib name name_len face).2 (k + 1)
  | add_failed (fib : fib_t) (k : Nat) (name : List Nat) (name_len face : Nat)
      (h : FibRun crc fib k) (hface : face < 256) (hlen : name_len ≤ name.length)
      (hret : (fib_add crc fib name name_len face).1 ≠ 0) :
      FibRun crc (fib_add crc fib name name_len face).2 k
  | del (fib : fib_t) (k : Nat) (name : List Nat) (name_len face : Nat)
      (h : FibRun crc fib k) :
      FibRun crc (fib_del crc fib name name_len face).2 k

/-- The FIB states that the API produces from names that fit the array
`name[MAX_NAME_LEN]` of a forwarding record: `fib_create` with at least one
bucket, then calls of `fib_add` with a name of at most `MAX_NAME_LEN` bytes and
any calls of `fib_del`. For these names `rte_memcpy` stays inside the array,
and the record of the model is the record of the C code byte for byte. -/
inductive FibBounded (crc : List Nat → Nat) : fib_t → Prop
  | create (num_buckets max_elements : Nat) (hb : 0 < num_buckets) :
      FibBounded crc (fib_create num_buckets max_elements)
  | add (fib : fib_t) (name : List Nat) (name_len face : Nat)
      (h : FibBounded crc fib) (hface : face < 256) (hlen : name_len ≤ name.length)
      (hmax : name_len ≤ MAX_NAME_LEN) :
      FibBounded crc (fib_add crc fib name name_len face).2
  | del (fib : fib_t) (name : List Nat) (name_len face : Nat)
      (h : FibBounded crc fib) :
      FibBounded crc (fib_del crc fib name name_len face).2

/-- The invariant of the FIB tables. -/
structure FibInv (crc : List Nat → Nat) (t : fibh_t) : Prop where
  buckets_pos : 0 < t.num_buckets
  nfe_le : t.next_free_element ≤ t.max_elements
  face_lt : ∀ i, (t.fwd_table i).face < 256
  busy_le : ∀ b e, (t.htbl b).busy e ≤ 1
  slot : ∀ b e, (t.htbl b).busy e ≠ 0 →
    e < BUCKET_SIZE ∧ ((t.htbl b).entry e).index < t.next_free_element ∧
    b = ((t.htbl b).entry e).crc % t.num_buckets ∧
    ((t.htbl b).entry e).crc =
      crc ((fib_record t b e).name.take (fib_record t b e).name_len)
  inj : ∀ b e b1 e1, (t.htbl b).busy e ≠ 0 → (t.htbl b1).busy e1 ≠ 0 →
    ((t.htbl b).entry e).index = ((t.htbl b1).entry e1).index → b = b1 ∧ e = e1

/-- The live entries of the table that hold the name `name[0 .. len)` with face
`face`, as (bucket, entry) pairs. -/
def fib_live_slots (t : fibh_t) (name : List Nat) (len face : Nat) : List (Nat × Nat) :=
  (List.product (List.range t.num_buckets) (List.range BUCKET_SIZE)).filter
    (fun s => decide ((t.htbl s.1).busy s.2 ≠ 0 ∧
      fwd_entry_has_name (fib_record t s.1 s.2) name len ∧
      (fib_record t s.1 s.2).face = face))

/-- At most one live record for each (name, face) pair: two live entries whose
records hold the same name and face refer to the same record. -/
def fib_unique_live (t : fibh_t) : Prop :=
  ∀ b e b1 e1, (t.htbl b).busy e ≠ 0 → (t.htbl b1).busy e1 ≠ 0 →
    (fib_record t b e).face = (fib_record t b1 e1).face →
    fwd_entry_has_name (fib_record t b e) (fib_record t b1 e1).name
      (fib_record t b1 e1).name_len →
    ((t.htbl b).entry e).index = ((t.htbl b1).entry e1).index

/-- A concrete hash function, used where a closed example needs a value for the
`crc` parameter. -/
def sample_crc (data : List Nat) : Nat :=
  data.foldl (fun h b => (31 * h + b) % 4294967296) 286331153

/-- The length of the byte string tried for component `k`. -/
def probe_len (pkt : icn_packet) (k : Nat) : Nat :=
  component_offset pkt.component_offsets k + 1

/-! ## PIT data model (`pit.h`) -/

/-- A single entry of a PIT bucket: `struct pit_table_entry`. -/
structure pit_table_entry where
  crc : Nat
  index : Nat

/-- A PIT bucket: `struct pit_bucket`, with `busy[BUCKET_SIZE]` and `entry[BUCKET_SIZE]`. -/
structure pit_bucket where
  busy : Nat → Nat
  entry : Nat → pit_table_entry

/-- Entry of the PIT ring: `struct pit_entry` (`expiry` and `face_bitmask` are
`uint64_t`, `name` is `uint8_t name[MAX_NAME_LEN]`). -/
structure pit_entry where
  active : Nat
  bucket : Nat
  tab : Nat
  expiry : Nat
  name_len : Nat
  name : List Nat
  face_bitmask : Nat

/-- Pending Interest Table: `pit_t`. -/
structure pit_t where
  table : Nat → pit_bucket
  ring : Nat → pit_entry
  max_elements : Nat
  num_buckets : Nat
  top : Nat
  bottom : Nat
  ttl : Nat

/-- The constant `US_PER_S` of DPDK. -/
def US_PER_S : Nat := 1000000

/-- The ttl in cycles that `pit_set_ttl_us` stores (`uint64_t` arithmetic), for the
TSC frequency `tsc_hz` that `rte_get_tsc_hz()` returns. -/
def pit_set_ttl_us (pit : pit_t) (tsc_hz ttl_us : Nat) : pit_t :=
  { pit with ttl := (((tsc_hz + US_PER_S - 1) % 2 ^ 64 / US_PER_S) * ttl_us) % 2 ^ 64 }

/-- Return whether the PIT is empty or not. -/
def is_pit_empty (pit : pit_t) : Bool := pit.top == pit.bottom

/-- Return whether the PIT is full or not (`uint32_t` arithmetic). -/
def is_pit_full (pit : pit_t) : Bool :=
  ((pit.top + 1) % 2 ^ 32) % pit.max_elements == pit.bottom

/-- Return PIT occupancy (`uint32_t` arithmetic). -/
def pit_occupancy (pit : pit_t) : Nat :=
  ((pit.top + pit.max_elements + (2 ^ 32 - pit.bottom % 2 ^ 32)) % 2 ^ 32) % pit.max_elements

/-- The PIT of `pit_create` (all allocations succeeding): zeroed memory, a ring of
`max_elements + 1` entries. -/
def pit_create (num_buckets max_elements tsc_hz ttl_us : Nat) : pit_t :=
  pit_set_ttl_us
    { table := fun _ => { busy := fun _ => 0, entry := fun _ => { crc := 0, index := 0 } }
      ring := fun _ =>
        { active := 0, bucket := 0, tab := 0, expiry := 0, name_len := 0,
          name := List.replicate MAX_NAME_LEN 0, face_bitmask := 0 }
      max_elements := max_elements + 1
      num_buckets := num_buckets
      top := 0
      bottom := 0
      ttl := 0 }
    tsc_hz ttl_us

/-! ## PIT operations (`pit.c`) -/

/-- The value of the C expression `1 << face` converted to `uint64_t`. The shift
is made on an `int`: for `face < 31` the value is `2 ^ face`. From `face = 31`
on the C standard leaves the shift undefined; the definition follows gcc on
x86-64, where the 32-bit shift uses the count modulo 32 and the `int` result is
sign-extended to 64 bits. -/
def face_mask (face : Nat) : Nat :=
  if 2 ^ (face % 32) < 2 ^ 31 then 2 ^ (face % 32)
  else 2 ^ (face % 32) + (2 ^ 64 - 2 ^ 32)

/-- The probe loop of `__pit_lookup_and_update_with_hash` over the entries still
to visit, with the current value of `free_tab`: `Sum.inl entry` when the loop
stops at the matching entry `entry`, `Sum.inr free_tab` when it runs to its end. -/
def pit_update_loop (pit : pit_t) (name : List Nat) (name_len crc bucket : Nat) :
    List Nat → Nat → Sum Nat Nat
  | [], free_tab => Sum.inr free_tab
  | entry :: rest, free_tab =>
    if (pit.table bucket).busy entry = 0 then
      pit_update_loop pit name name_len crc bucket rest
        (if entry < free_tab then entry else free_tab)
    else if ((pit.table bucket).entry entry).crc ≠ crc then
      pit_update_loop pit name name_len crc bucket rest free_tab
    else if name_len ≠ (pit.ring ((pit.table bucket).entry entry).index).name_len then
      pit_update_loop pit name name_len crc bucket rest free_tab
    else if ¬ memcmp_eq name (pit.ring ((pit.table bucket).entry entry).index).name name_len then
      pit_update_loop pit name name_len crc bucket rest free_tab
    else Sum.inl entry

/-- The function `__pit_lookup_and_update_with_hash`. `curr_time` is the pointer
argument (`none` for `NULL`), `now` the value that `get_curr_time()` returns. -/
def __pit_lookup_and_update_with_hash (pit : pit_t) (name : List Nat) (name_len face : Nat)
    (curr_time : Option Nat) (now crc : Nat) : Int × pit_t :=
  let bucket := crc % pit.num_buckets
  match pit_update_loop pit name name_len crc bucket (List.range BUCKET_SIZE) 255 with
  | Sum.inl entry =>
    let index := ((pit.table bucket).entry entry).index
    if (pit.ring index).face_bitmask &&& face_mask face = 0 then
      (0, { pit with
            ring := upd pit.ring index
              { pit.ring index with
                face_bitmask := (pit.ring index).face_bitmask ||| face_mask face } })
    else (0, pit)
  | Sum.inr free_tab =>
    if free_tab = 255 ∨ is_pit_full pit then (-ENOSPC, pit)
    else
      (1, { pit with
            table := upd pit.table bucket
              { busy := upd (pit.table bucket).busy free_tab 1
                entry := upd (pit.table bucket).entry free_tab
                  { crc := crc, index := pit.top } }
            ring := upd pit.ring pit.top
              { active := 1
                bucket := bucket
                tab := free_tab
                expiry :=
                  match curr_time with
                  | none => (now + pit.ttl) % 2 ^ 64
                  | some t => (t + pit.ttl) % 2 ^ 64
                name_len := name_len
                name := memcpy (pit.ring pit.top).name name name_len
                face_bitmask := face_mask face }
            top := ((pit.top + 1) % 2 ^ 32) % pit.max_elements })

/-- The function `pit_lookup_and_update_with_hash`. -/
def pit_lookup_and_update_with_hash (pit : pit_t) (name : List Nat) (name_len face : Nat)
    (curr_time : Option Nat) (now crc : Nat) : Int × pit_t :=
  __pit_lookup_and_update_with_hash pit name name_len face curr_time now crc

/-- The function `pit_lookup_and_update`. -/
def pit_lookup_and_update (crc : List Nat → Nat) (pit : pit_t) (name : List Nat)
    (name_len face : Nat) (curr_time : Option Nat) (now : Nat) : Int × pit_t :=
  __pit_lookup_and_update_with_hash pit name name_len face curr_time now
    (crc (name.take name_len))

/-- The test that stops the probe loop of the PIT at an entry: busy, same CRC, same
name length, same name bytes. -/
def pit_entry_matches (pit : pit_t) (name : List Nat) (name_len crc bucket entry : Nat) :
    Prop :=
  (pit.table bucket).busy entry ≠ 0 ∧
  ((pit.table bucket).entry entry).crc = crc ∧
  name_len = (pit.ring ((pit.table bucket).entry entry).index).name_len ∧
  memcmp_eq name (pit.ring ((pit.table bucket).entry entry).index).name name_len

instance (pit : pit_t) (name : List Nat) (name_len crc bucket entry : Nat) :
    Decidable (pit_entry_matches pit name name_len crc bucket entry) :=
  inferInstanceAs (Decidable (_ ∧ _ ∧ _ ∧ _))

/-- The ring entry holds the byte string `name[0 .. len)`: same length, same bytes. -/
def pit_entry_has_name (r : pit_entry) (name : List Nat) (len : Nat) : Prop :=
  r.name_len = len ∧ r.name.take len = name.take len

instance (r : pit_entry) (name : List Nat) (len : Nat) :
    Decidable (pit_entry_has_name r name len) :=
  inferInstanceAs (Decidable (_ ∧ _))

/-- The PIT after a new entry has been written at `top` and bucket entry
`free_tab` of bucket `bucket` claimed for it (the writes of the insertion). -/
def pit_store (pit : pit_t) (bucket free_tab : Nat) (name : List Nat)
    (name_len face expiry crc : Nat) : pit_t :=
  { pit with
    table := upd pit.table bucket
      { busy := upd (pit.table bucket).busy free_tab 1
        entry := upd (pit.table bucket).entry free_tab { crc := crc, index := pit.top } }
    ring := upd pit.ring pit.top
      { active := 1
        bucket := bucket
        tab := free_tab
        expiry := expiry
        name_len := name_len
        name := memcpy (pit.ring pit.top).name name name_len
        face_bitmask := face_mask face }
    top := ((pit.top + 1) % 2 ^ 32) % pit.max_elements }

/-- The PIT after the face bitmask of ring entry `index` has been set to `mask`. -/
def pit_set_mask (pit : pit_t) (index mask : Nat) : pit_t :=
  { pit with ring := upd pit.ring index { pit.ring index with face_bitmask := mask } }

/-- The value of `free_tab` after the probe loop has visited the entries `l`. -/
def pit_free_tab (pit : pit_t) (bucket : Nat) (l : List Nat) (free_tab : Nat) : Nat :=
  l.foldl (fun ft entry => if (pit.table bucket).busy entry = 0 ∧ entry < ft then entry else ft)
    free_tab

/-- The function `pit_lookup`: the ring position of the entry whose address is
returned, `none` for `NULL`. -/
def pit_lookup (pit : pit_t) (name : List Nat) (name_len crc : Nat) : Option Nat :=
  match (List.range BUCKET_SIZE).find?
      (fun entry => decide (pit_entry_matches pit name name_len crc (crc % pit.num_buckets) entry)) with
  | some entry => some ((pit.table (crc % pit.num_buckets)).entry entry).index
  | none => none

/-- The three writes that `__pit_lookup_and_remove_with_hash` makes at the entry
`entry` of bucket `bucket` that it found. -/
def pit_unlink (pit : pit_t) (bucket entry : Nat) : pit_t :=
  let index := ((pit.table bucket).entry entry).index
  { pit with
    table := upd pit.table bucket
      { (pit.table bucket) with busy := upd (pit.table bucket).busy entry 0 }
    ring := upd pit.ring index { pit.ring index with active := 0 }
    bottom :=
      if pit.bottom = index then ((pit.bottom + 1) % 2 ^ 32) % pit.max_elements
      else pit.bottom }

/-- The function `__pit_lookup_and_remove_with_hash`. -/
def __pit_lookup_and_remove_with_hash (pit : pit_t) (name : List Nat) (name_len crc : Nat) :
    Nat × pit_t :=
  match (List.range BUCKET_SIZE).find?
      (fun entry => decide (pit_entry_matches pit name name_len crc (crc % pit.num_buckets) entry)) with
  | some entry =>
    ((pit.ring ((pit.table (crc % pit.num_buckets)).entry entry).index).face_bitmask,
      pit_unlink pit (crc % pit.num_buckets) entry)
  | none => (0, pit)

/-- The function `pit_lookup_and_remove_with_hash`. -/
def pit_lookup_and_remove_with_hash (pit : pit_t) (name : List Nat) (name_len crc : Nat) :
    Nat × pit_t :=
  __pit_lookup_and_remove_with_hash pit name name_len crc

/-- The function `pit_lookup_and_remove`. -/
def pit_lookup_and_remove (crc : List Nat → Nat) (pit : pit_t) (name : List Nat)
    (name_len : Nat) : Nat × pit_t :=
  __pit_lookup_and_remove_with_hash pit name name_len (crc (name.take name_len))

/-- The two writes of the purge loop on an expired active entry at `bottom`: the
ring entry is set inactive, then its bucket entry is released. -/
def pit_expire_bottom (pit : pit_t) : pit_t :=
  { pit with
    ring := upd pit.ring pit.bottom { pit.ring pit.bottom with active := 0 }
    table := upd pit.table (pit.ring pit.bottom).bucket
      { (pit.table (pit.ring pit.bottom).bucket) with
        busy := upd (pit.table (pit.ring pit.bottom).bucket).busy (pit.ring pit.bottom).tab 0 } }

/-- The step of `bottom` at the end of an iteration of the purge loop. -/
def pit_advance_bottom (pit : pit_t) : pit_t :=
  { pit with
    bottom :=
      if pit.bottom = (pit.max_elements + 2 ^ 32 - 1) % 2 ^ 32 then 0
      else (pit.bottom + 1) % 2 ^ 32 }

/-- The `while` loop of `__pit_purge_expired_with_time`, with the current value of
`purged`. The first argument bounds the number of iterations of the body;
`none` when the bound is reached before the loop ends. -/
def pit_purge_loop (curr_time : Nat) : Nat → pit_t → Nat → Option (Nat × pit_t)
  | 0, pit, purged => if is_pit_empty pit then some (purged, pit) else none
  | fuel + 1, pit, purged =>
    if is_pit_empty pit then some (purged, pit)
    else if (pit.ring pit.bottom).active = 1 then
      if (pit.ring pit.bottom).expiry > curr_time then some (purged, pit)
      else
        pit_purge_loop curr_time fuel (pit_advance_bottom (pit_expire_bottom pit))
          ((purged + 1) % 2 ^ 32)
    else pit_purge_loop curr_time fuel (pit_advance_bottom pit) ((purged + 1) % 2 ^ 32)

/-- The function `__pit_purge_expired_with_time`, run for at most `fuel`
iterations of its loop. -/
def __pit_purge_expired_with_time (fuel : Nat) (pit : pit_t) (curr_time : Nat) :
    Option (Nat × pit_t) :=
  pit_purge_loop curr_time fuel pit 0

/-- The function `pit_purge_expired_with_time`. -/
def pit_purge_expired_with_time (fuel : Nat) (pit : pit_t) (curr_time : Nat) :
    Option (Nat × pit_t) :=
  __pit_purge_expired_with_time fuel pit curr_time

/-- The function `pit_purge_expired`; `now` is the value that `get_curr_time()`
returns. -/
def pit_purge_expired (fuel : Nat) (pit : pit_t) (now : Nat) : Option (Nat × pit_t) :=
  __pit_purge_expired_with_time fuel pit now

/-! ## States of the PIT -/

/-- The bucket entry `(bucket, entry)` is live: its busy flag is set, so that
the probe loops look at it. -/
def pit_live (pit : pit_t) (bucket entry : Nat) : Prop :=
  (pit.table bucket).busy entry ≠ 0

instance (pit : pit_t) (bucket entry : Nat) : Decidable (pit_live pit bucket entry) :=
  inferInstanceAs (Decidable (_ ≠ _))

/-- The ring entry that the bucket entry `(bucket, entry)` points to. -/
def pit_record (pit : pit_t) (bucket entry : Nat) : pit_entry :=
  pit.ring ((pit.table bucket).entry entry).index

/-- Position `i` lies in the window of a ring of `cap` positions that runs from
`bottom` up to, not including, `top`, around the end of the ring when
`top < bottom`. -/
def ring_window (cap bottom top i : Nat) : Prop :=
  if bottom ≤ top then bottom ≤ i ∧ i < top
  else (bottom ≤ i ∧ i < cap) ∨ i < top

instance (cap bottom top i : Nat) : Decidable (ring_window cap bottom top i) :=
  inferInstanceAs (Decidable (if _ then _ else _))

/-- The number of ring steps from `bottom` to position `i`. -/
def ring_dist (cap bottom i : Nat) : Nat :=
  if bottom ≤ i then i - bottom else i + cap - bottom

/-- The ring position that follows `x`. -/
def ring_next (cap x : Nat) : Nat :=
  if x + 1 = cap then 0 else x + 1

/-- Position `i` lies in the ring window of the PIT. -/
def pit_in_window (pit : pit_t) (i : Nat) : Prop :=
  ring_window pit.max_elements pit.bottom pit.top i

instance (pit : pit_t) (i : Nat) : Decidable (pit_in_window pit i) :=
  inferInstanceAs (Decidable (ring_window _ _ _ _))

/-- The number of ring steps from `bottom` to position `i` of the PIT. -/
def pit_ring_dist (pit : pit_t) (i : Nat) : Nat :=
  ring_dist pit.max_elements pit.bottom i

/-- The PIT states built by `pit_create` (whose `max_elements` is an `int`) and
changed by `pit_lookup_and_update`, `pit_lookup_and_remove` and terminating
runs of the purge, the names given to `pit_lookup_and_update` having at most
`MAX_NAME_LEN` bytes: these fit the array `name[MAX_NAME_LEN]` of a ring
entry, so that `rte_memcpy` writes no other field and the ring of the model is
the ring of the C code. -/
inductive PitReachable (crc : List Nat → Nat) : pit_t → Prop
  | create (num_buckets max_elements tsc_hz ttl_us : Nat) (hb : 0 < num_buckets)
      (hme : max_elements < 2 ^ 31) :
      PitReachable crc (pit_create num_buckets max_elements tsc_hz ttl_us)
  | update (pit : pit_t) (name : List Nat) (name_len face : Nat) (curr_time : Option Nat)
      (now : Nat) (h : PitReachable crc pit) (hlen : name_len ≤ name.length)
      (hmax : name_len ≤ MAX_NAME_LEN) :
      PitReachable crc (pit_lookup_and_update crc pit name name_len face curr_time now).2
  | remove (pit : pit_t) (name : List Nat) (name_len : Nat) (h : PitReachable crc pit) :
      PitReachable crc (pit_lookup_and_remove crc pit name name_len).2
  | purge (pit : pit_t) (fuel curr_time purged : Nat) (pit' : pit_t)
      (h : PitReachable crc pit)
      (hrun : pit_purge_expired_with_time fuel pit curr_time = some (purged, pit')) :
      PitReachable crc pit'

/-- The PIT states of a timed execution: `PitTimed crc pit now last` says that
`pit` is reached from the empty PIT by operations whose timestamps never
decrease, that the clock stands at `now`, that the latest purge was made at time
`last` (0 before the first purge), and that no expiry time wrapped around. The
names given to `pit_lookup_and_update` have at most `MAX_NAME_LEN` bytes, as
for `PitReachable`. -/
inductive PitTimed (crc : List Nat → Nat) : pit_t → Nat → Nat → Prop
  | create (num_buckets max_elements tsc_hz ttl_us : Nat) (hb : 0 < num_buckets)
      (hme : max_elements < 2 ^ 31) :
      PitTimed crc (pit_create num_buckets max_elements tsc_hz ttl_us) 0 0
  | wait (pit : pit_t) (now last t : Nat) (h : PitTimed crc pit now last) (ht : now ≤ t) :
      PitTimed crc pit t last
  | update (pit : pit_t) (now last : Nat) (name : List Nat) (name_len face t clock : Nat)
      (h : PitTimed crc pit now last) (hlen : name_len ≤ name.length)
      (hmax : name_len ≤ MAX_NAME_LEN) (ht : now ≤ t) (hwrap : t + pit.ttl < 2 ^ 64) :
      PitTimed crc (pit_lookup_and_update crc pit name name_len face (some t) clock).2 t last
  | update_now (pit : pit_t) (now last : Nat) (name : List Nat) (name_len face t : Nat)
      (h : PitTimed crc pit now last) (hlen : name_len ≤ name.length)
      (hmax : name_len ≤ MAX_NAME_LEN) (ht : now ≤ t) (hwrap : t + pit.ttl < 2 ^ 64) :
      PitTimed crc (pit_lookup_and_update crc pit name name_len face none t).2 t last
  | remove (pit : pit_t) (now last : Nat) (name : List Nat) (name_len : Nat)
      (h : PitTimed crc pit now last) :
      PitTimed crc (pit_lookup_and_remove crc pit name name_len).2 now last
  | purge (pit : pit_t) (now last fuel t purged : Nat) (pit' : pit_t)
      (h : PitTimed crc pit now last) (ht : now ≤ t)
      (hrun : pit_purge_expired_with_time fuel pit t = some (purged, pit')) :
      PitTimed crc pit' t t

/-- The consistency of the PIT: both ring positions lie inside the ring, a live
bucket entry points to an active ring entry inside the window that points back
to it, an active ring entry has a live bucket entry that points to it, the
stored CRC is the CRC of the stored name, an active entry has a requesting
face, and no two active entries hold the same name. -/
structure PitInv (crc : List Nat → Nat) (pit : pit_t) : Prop where
  cap_pos : 0 < pit.max_elements
  cap_le : pit.max_elements ≤ 2 ^ 31
  buckets_pos : 0 < pit.num_buckets
  top_lt : pit.top < pit.max_elements
  bottom_lt : pit.bottom < pit.max_elements
  busy_le : ∀ b e, (pit.table b).busy e ≤ 1
  active_le : ∀ i, (pit.ring i).active ≤ 1
  slot : ∀ b e, pit_live pit b e →
    e < BUCKET_SIZE ∧ b = ((pit.table b).entry e).crc % pit.num_buckets ∧
    pit_in_window pit ((pit.table b).entry e).index ∧
    (pit_record pit b e).active = 1 ∧
    (pit_record pit b e).bucket = b ∧ (pit_record pit b e).tab = e ∧
    ((pit.table b).entry e).crc =
      crc ((pit_record pit b e).name.take (pit_record pit b e).name_len)
  active : ∀ i, (pit.ring i).active ≠ 0 →
    pit_in_window pit i ∧ pit_live pit (pit.ring i).bucket (pit.ring i).tab ∧
    ((pit.table (pit.ring i).bucket).entry (pit.ring i).tab).index = i
  mask : ∀ i, (pit.ring i).active ≠ 0 → (pit.ring i).face_bitmask ≠ 0
  unique : ∀ i j, (pit.ring i).active ≠ 0 → (pit.ring j).active ≠ 0 →
    (pit.ring i).name_len = (pit.ring j).name_len →
    (pit.ring i).name.take (pit.ring i).name_len =
      (pit.ring j).name.take (pit.ring j).name_len → i = j

/-- The order of the expiry times in a timed execution: along the ring window the
expiry times never decrease, none is later than `now + ttl`, and an active
entry expires after the latest purge. -/
structure PitTimedInv (pit : pit_t) (now last : Nat) : Prop where
  last_le : last ≤ now
  order : ∀ i j, pit_in_window pit i → pit_in_window pit j →
    pit_ring_dist pit i ≤ pit_ring_dist pit j → (pit.ring i).expiry ≤ (pit.ring j).expiry
  upper : ∀ i, pit_in_window pit i → (pit.ring i).expiry ≤ now + pit.ttl
  lower : ∀ i, (pit.ring i).active ≠ 0 →
    last ≤ (pit.ring i).expiry ∧ (0 < pit.ttl → last < (pit.ring i).expiry)

/-- One call of `pit_lookup_and_update`: the name buffer and its length, the
face, the time pointer and the clock value. -/
structure pit_interest where
  name : List Nat
  name_len : Nat
  face : Nat
  curr_time : Option Nat
  now : Nat

/-- The calls of `pit_lookup_and_update` made one after the other: the values
returned and the last state. -/
def pit_update_all (crc : List Nat → Nat) (pit : pit_t) : List pit_interest → List Int × pit_t
  | [] => ([], pit)
  | r :: rs =>
    ((pit_lookup_and_update crc pit r.name r.name_len r.face r.curr_time r.now).1 ::
      (pit_update_all crc
        (pit_lookup_and_update crc pit r.name r.name_len r.face r.curr_time r.now).2 rs).1,
     (pit_update_all crc
        (pit_lookup_and_update crc pit r.name r.name_len r.face r.curr_time r.now).2 rs).2)

/-- Two calls of `pit_lookup_and_update` carry different names: the lengths or
the bytes differ. -/
def pit_interest_differs (r s : pit_interest) : Prop :=
  ¬ (r.name_len = s.name_len ∧ r.name.take r.name_len = s.name.take s.name_len)

instance (r s : pit_interest) : Decidable (pit_interest_differs r s) :=
  inferInstanceAs (Decidable (¬ _))

/-- Each call of the list, at the time it is made, finds a free entry in the
bucket of its name. -/
def pit_free_along (crc : List Nat → Nat) (pit : pit_t) : List pit_interest → Prop
  | [] => True
  | r :: rs =>
    (∃ e, e < BUCKET_SIZE ∧
      (pit.table (crc (r.name.take r.name_len) % pit.num_buckets)).busy e = 0) ∧
    pit_free_along crc
      (pit_lookup_and_update crc pit r.name r.name_len r.face r.curr_time r.now).2 rs

/-! ## CS data model (`cs.h`) -/

/-- A single entry of a CS bucket: `struct cs_table_entry`. -/
structure cs_table_entry where
  crc : Nat
  index : Nat

/-- A CS bucket: `struct cs_bucket`, with `busy[BUCKET_SIZE]` and `entry[BUCKET_SIZE]`. -/
structure cs_bucket where
  busy : Nat → Nat
  entry : Nat → cs_table_entry

/-- Entry of the CS ring: `struct cs_entry`. The field `mbuf` is the address of the
packet buffer, 0 for `NULL`. -/
structure cs_entry where
  active : Nat
  bucket : Nat
  tab : Nat
  name_len : Nat
  name : List Nat
  mbuf : Nat

/-- Content Store: `cs_t`. -/
structure cs_t where
  table : Nat → cs_bucket
  ring : Nat → cs_entry
  max_elements : Nat
  num_buckets : Nat
  top : Nat
  bottom : Nat

/-- Return CS occupancy (`uint32_t` arithmetic). -/
def cs_occupancy (cs : cs_t) : Nat :=
  ((cs.top + cs.max_elements + (2 ^ 32 - cs.bottom % 2 ^ 32)) % 2 ^ 32) % cs.max_elements

/-- Whether the CS ring is empty. -/
def is_cs_empty (cs : cs_t) : Bool :=
  cs.top == cs.bottom

/-- Whether the CS ring is full. -/
def is_cs_full (cs : cs_t) : Bool :=
  ((cs.top + 1) % 2 ^ 32) % cs.max_elements == cs.bottom

/-- The CS of `cs_create` (all allocations succeeding; the NUMA socket plays no
part): zeroed memory, a ring of `max_elements + 1` entries. -/
def cs_create (num_buckets max_elements : Nat) : cs_t :=
  { table := fun _ => { busy := fun _ => 0, entry := fun _ => { crc := 0, index := 0 } }
    ring := fun _ =>
      { active := 0, bucket := 0, tab := 0, name_len := 0,
        name := List.replicate MAX_NAME_LEN 0, mbuf := 0 }
    max_elements := max_elements + 1
    num_buckets := num_buckets
    top := 0
    bottom := 0 }

/-! ## CS operations (`cs.c`) -/

/-- The eviction made by `__cs_insert_with_hash` when the ring is full: the bucket
entry of the ring entry at `bottom` is released, the ring entry is set inactive
and `bottom` steps forward. -/
def cs_evict (cs : cs_t) : cs_t :=
  { cs with
    table := upd cs.table (cs.ring cs.bottom).bucket
      { (cs.table (cs.ring cs.bottom).bucket) with
        busy := upd (cs.table (cs.ring cs.bottom).bucket).busy (cs.ring cs.bottom).tab 0 }
    ring := upd cs.ring cs.bottom { cs.ring cs.bottom with active := 0 }
    bottom :=
      if cs.bottom = (cs.max_elements + 2 ^ 32 - 1) % 2 ^ 32 then 0
      else (cs.bottom + 1) % 2 ^ 32 }

/-- The writes of `__cs_insert_with_hash` for the new content: bucket entry `entry`
of bucket `bucket` is claimed and the ring entry at `top` filled. -/
def cs_store (cs : cs_t) (bucket entry : Nat) (name : List Nat) (name_len mbuf crc : Nat) :
    cs_t :=
  { cs with
    table := upd cs.table bucket
      { busy := upd (cs.table bucket).busy entry 1
        entry := upd (cs.table bucket).entry entry { crc := crc, index := cs.top } }
    ring := upd cs.ring cs.top
      { active := 1
        bucket := bucket
        tab := entry
        name_len := name_len
        name := memcpy (cs.ring cs.top).name name name_len
        mbuf := mbuf }
    top := ((cs.top + 1) % 2 ^ 32) % cs.max_elements }

/-- The function `__cs_insert_with_hash`: the value returned, the CS afterwards
and the buffers handed to `rte_pktmbuf_free`. -/
def __cs_insert_with_hash (cs : cs_t) (name : List Nat) (name_len mbuf crc : Nat) :
    Int × cs_t × List Nat :=
  match (List.range BUCKET_SIZE).find?
      (fun entry => decide ((cs.table (crc % cs.num_buckets)).busy entry = 0)) with
  | some entry =>
    if is_cs_full cs then
      (0, cs_store (cs_evict cs) (crc % cs.num_buckets) entry name name_len mbuf crc,
        [(cs.ring cs.bottom).mbuf])
    else (0, cs_store cs (crc % cs.num_buckets) entry name name_len mbuf crc, [])
  | none => (-ENOSPC, cs, [])

/-- The function `cs_insert_with_hash`. -/
def cs_insert_with_hash (cs : cs_t) (name : List Nat) (name_len mbuf crc : Nat) :
    Int × cs_t × List Nat :=
  __cs_insert_with_hash cs name name_len mbuf crc

/-- The function `cs_insert`. -/
def cs_insert (crc : List Nat → Nat) (cs : cs_t) (name : List Nat) (name_len mbuf : Nat) :
    Int × cs_t × List Nat :=
  __cs_insert_with_hash cs name name_len mbuf (crc (name.take name_len))

/-- The test that stops the probe loop of the CS lookup at an entry: busy, same
CRC, same name length, same name bytes. -/
def cs_entry_matches (cs : cs_t) (name : List Nat) (name_len crc bucket entry : Nat) : Prop :=
  (cs.table bucket).busy entry ≠ 0 ∧
  ((cs.table bucket).entry entry).crc = crc ∧
  name_len = (cs.ring ((cs.table bucket).entry entry).index).name_len ∧
  memcmp_eq name (cs.ring ((cs.table bucket).entry entry).index).name name_len

instance (cs : cs_t) (name : List Nat) (name_len crc bucket entry : Nat) :
    Decidable (cs_entry_matches cs name name_len crc bucket entry) :=
  inferInstanceAs (Decidable (_ ∧ _ ∧ _ ∧ _))

/-- The function `__cs_lookup_with_hash`: the address of the buffer found, 0 for
`NULL`. -/
def __cs_lookup_with_hash (cs : cs_t) (name : List Nat) (name_len crc : Nat) : Nat :=
  match (List.range BUCKET_SIZE).find?
      (fun entry => decide (cs_entry_matches cs name name_len crc (crc % cs.num_buckets) entry)) with
  | some entry => (cs.ring ((cs.table (crc % cs.num_buckets)).entry entry).index).mbuf
  | none => 0

/-- The function `cs_lookup_with_hash`. -/
def cs_lookup_with_hash (cs : cs_t) (name : List Nat) (name_len crc : Nat) : Nat :=
  __cs_lookup_with_hash cs name name_len crc

/-- The function `cs_lookup`. -/
def cs_lookup (crc : List Nat → Nat) (cs : cs_t) (name : List Nat) (name_len : Nat) : Nat :=
  __cs_lookup_with_hash cs name name_len (crc (name.take name_len))

/-! ## States of the CS -/

/-- The bucket entry `(bucket, entry)` of the CS is live: its busy flag is set. -/
def cs_live (cs : cs_t) (bucket entry : Nat) : Prop :=
  (cs.table bucket).busy entry ≠ 0

instance (cs : cs_t) (bucket entry : Nat) : Decidable (cs_live cs bucket entry) :=
  inferInstanceAs (Decidable (_ ≠ _))

/-- The ring entry that the bucket entry `(bucket, entry)` of the CS points to. -/
def cs_record (cs : cs_t) (bucket entry : Nat) : cs_entry :=
  cs.ring ((cs.table bucket).entry entry).index

/-- The ring entry holds the byte string `name[0 .. len)`: same length, same bytes. -/
def cs_entry_has_name (r : cs_entry) (name : List Nat) (len : Nat) : Prop :=
  r.name_len = len ∧ r.name.take len = name.take len

instance (r : cs_entry) (name : List Nat) (len : Nat) :
    Decidable (cs_entry_has_name r name len) :=
  inferInstanceAs (Decidable (_ ∧ _))

/-- Position `i` lies in the ring window of the CS. -/
def cs_in_window (cs : cs_t) (i : Nat) : Prop :=
  ring_window cs.max_elements cs.bottom cs.top i

instance (cs : cs_t) (i : Nat) : Decidable (cs_in_window cs i) :=
  inferInstanceAs (Decidable (ring_window _ _ _ _))

/-- The CS states built by `cs_create` (whose `max_elements` is an `int`) and
changed by `cs_insert` of names of at most `MAX_NAME_LEN` bytes: these fit the
array `name[MAX_NAME_LEN]` of a ring entry, so that `rte_memcpy` writes no
other field and the ring of the model is the ring of the C code. -/
inductive CsReachable (crc : List Nat → Nat) : cs_t → Prop
  | create (num_buckets max_elements : Nat) (hb : 0 < num_buckets)
      (hme : max_elements < 2 ^ 31) :
      CsReachable crc (cs_create num_buckets max_elements)
  | insert (cs : cs_t) (name : List Nat) (name_len mbuf : Nat) (h : CsReachable crc cs)
      (hlen : name_len ≤ name.length) (hmax : name_len ≤ MAX_NAME_LEN) :
      CsReachable crc (cs_insert crc cs name name_len mbuf).2.1

/-- The consistency of a CS with room for at least one content: both ring
positions lie inside the ring, a live bucket entry points to an active ring
entry inside the window that points back to it, the stored CRC is the CRC of
the stored name, every ring entry of the window is active, and an active ring
entry lies in the window and has a live bucket entry that points to it. -/
structure CsInv (crc : List Nat → Nat) (cs : cs_t) : Prop where
  cap_ge : 2 ≤ cs.max_elements
  cap_le : cs.max_elements ≤ 2 ^ 31
  buckets_pos : 0 < cs.num_buckets
  top_lt : cs.top < cs.max_elements
  bottom_lt : cs.bottom < cs.max_elements
  busy_le : ∀ b e, (cs.table b).busy e ≤ 1
  active_le : ∀ i, (cs.ring i).active ≤ 1
  slot : ∀ b e, cs_live cs b e →
    e < BUCKET_SIZE ∧ b = ((cs.table b).entry e).crc % cs.num_buckets ∧
    cs_in_window cs ((cs.table b).entry e).index ∧
    (cs_record cs b e).active = 1 ∧
    (cs_record cs b e).bucket = b ∧ (cs_record cs b e).tab = e ∧
    ((cs.table b).entry e).crc =
      crc ((cs_record cs b e).name.take (cs_record cs b e).name_len)
  active : ∀ i, (cs.ring i).active ≠ 0 →
    cs_in_window cs i ∧ cs_live cs (cs.ring i).bucket (cs.ring i).tab ∧
    ((cs.table (cs.ring i).bucket).entry (cs.ring i).tab).index = i
  window : ∀ i, cs_in_window cs i → (cs.ring i).active = 1

/-- The probe loop of the CS lookup for `name` stops at entry `entry` of the
bucket: the entry matches and no entry before it does. -/
def cs_lookup_stops (cs : cs_t) (name : List Nat) (name_len crc entry : Nat) : Prop :=
  entry < BUCKET_SIZE ∧
  cs_entry_matches cs name name_len crc (crc % cs.num_buckets) entry ∧
  ∀ e1, e1 < entry → ¬ cs_entry_matches cs name name_len crc (crc % cs.num_buckets) e1

instance (cs : cs_t) (name : List Nat) (name_len crc entry : Nat) :
    Decidable (cs_lookup_stops cs name name_len crc entry) :=
  inferInstanceAs (Decidable (_ ∧ _ ∧ _))

/-- The executions of a CS with room for at least one content, with their
history: `CsTrace crc cs born k` says that `cs` is reached from `cs_create` by
calls of `cs_insert` of names of at most `MAX_NAME_LEN` bytes, `k` of which
returned 0, and that the ring entry at position `i` was last written by the
call that came after `born i` of them. -/
inductive CsTrace (crc : List Nat → Nat) : cs_t → (Nat → Nat) → Nat → Prop
  | create (num_buckets max_elements : Nat) (hb : 0 < num_buckets)
      (hme : max_elements < 2 ^ 31) (hpos : 0 < max_elements) :
      CsTrace crc (cs_create num_buckets max_elements) (fun _ => 0) 0
  | insert (cs : cs_t) (born : Nat → Nat) (k : Nat) (name : List Nat) (name_len mbuf : Nat)
      (h : CsTrace crc cs born k) (hlen : name_len ≤ name.length)
      (hmax : name_len ≤ MAX_NAME_LEN) :
      CsTrace crc (cs_insert crc cs name name_len mbuf).2.1
        (if (cs_insert crc cs name name_len mbuf).1 = 0 then upd born cs.top k else born)
        (if (cs_insert crc cs name name_len mbuf).1 = 0 then k + 1 else k)

/-- The order of the ring of a CS: along the window, from `bottom` to `top`, the
contents were written one after the other. -/
structure CsOrder (cs : cs_t) (born : Nat → Nat) (k : Nat) : Prop where
  order : ∀ i j, cs_in_window cs i → cs_in_window cs j →
    ring_dist cs.max_elements cs.bottom i < ring_dist cs.max_elements cs.bottom j →
    born i < born j
  upper : ∀ i, cs_in_window cs i → born i < k

/-- The busy bucket entries of the CS, as (bucket, entry) pairs. -/
def cs_busy_slots (cs : cs_t) : List (Nat × Nat) :=
  (List.product (List.range cs.num_buckets) (List.range BUCKET_SIZE)).filter
    (fun s => decide ((cs.table s.1).busy s.2 ≠ 0))

/-- The positions of the window of a ring. -/
def ring_positions (cap bottom top : Nat) : List Nat :=
  (List.range cap).filter (fun i => decide (ring_window cap bottom top i))

/-! ## The parser (`packet.c`, `packet.h`) -/

/-- The constant `ICN_HDR_NAME_OFFSET`. -/
def ICN_HDR_NAME_OFFSET : Nat := 11

/-- The size of the packed `struct icn_hdr`: 2 + 2 + 1 + 2 + 2 bytes. -/
def ICN_HDR_SIZE : Nat := 9

/-- The constant `TLV_TYPE_NAME_COMPONENTS_OFFSET_BE`. -/
def TLV_TYPE_NAME_COMPONENTS_OFFSET_BE : Nat := 256

/-- The value `rte_be_to_cpu_16(*(uint16_t*)(buf + i))` on the little-endian host:
the first byte is the high one. A byte outside the list reads as 0. -/
def be16 (buf : List Nat) (i : Nat) : Nat :=
  256 * buf.getD i 0 + buf.getD (i + 1) 0

/-- The value `*(uint16_t*)(buf + i)` on the little-endian host: the first byte is
the low one. -/
def le16 (buf : List Nat) (i : Nat) : Nat :=
  buf.getD i 0 + 256 * buf.getD (i + 1) 0

/-- The function `parse_packet`: the value returned and the structure filled.
The pointers of the structure are the memory from the place pointed to on. The
reads that follow the component-offsets TLV only move the local pointer. -/
def parse_packet (pkt : List Nat) (icn_pkt : icn_packet) : Nat × icn_packet :=
  let p1 :=
    { icn_pkt with
      hdr := pkt
      name_len := be16 pkt ICN_HDR_SIZE
      name := pkt.drop ICN_HDR_NAME_OFFSET }
  if ICN_HDR_NAME_OFFSET + p1.name_len ≥ be16 p1.hdr 2 then (1, p1)
  else if le16 pkt (ICN_HDR_NAME_OFFSET + p1.name_len) = TLV_TYPE_NAME_COMPONENTS_OFFSET_BE then
    (0, { p1 with
          component_offsets := pkt.drop (ICN_HDR_NAME_OFFSET + p1.name_len + 4)
          component_offsets_size := be16 pkt (ICN_HDR_NAME_OFFSET + p1.name_len + 2)
          component_nr := be16 pkt (ICN_HDR_NAME_OFFSET + p1.name_len + 2) / 2 })
  else (1, p1)

/-- The two bytes of a 16-bit value in network order. -/
def be16_bytes (v : Nat) : List Nat := [v / 256 % 256, v % 256]

/-- The wire format of an ICN packet, as the specification gives it (this
repository has no serialiser): the header fields in network order (type, packet
length, hop limit, flags, header length), the name length, the name, the TLV
with tag `0x0001` and the offsets as its value, then whatever follows. -/
def serialize_packet (type pkt_len hop_limit flags hdr_len : Nat) (name offsets rest : List Nat) :
    List Nat :=
  (be16_bytes type ++ be16_bytes pkt_len ++ [hop_limit] ++ be16_bytes flags ++
    be16_bytes hdr_len ++ be16_bytes name.length) ++
  (name ++ ([0, 1] ++ be16_bytes (2 * offsets.length) ++ (offsets.flatMap be16_bytes ++ rest)))

/-! ## The forwarding engine (`data_plane.c`, `init.h`, `packet.h`)

A packet buffer (`struct rte_mbuf *`) is a number, 0 for `NULL`; the worker
carries the memory of the buffers. The calls into DPDK that release, share or
transmit buffers are recorded in the order in which they are made, and so are
the calls of `send_single_packet`. C arrays are total maps: an index outside
the declared bounds (`tx_mbufs[face]` for a face from `APP_MAX_ETH_PORTS` on,
`m_table[len]` for `len` from `MAX_PKT_BURST` on, `crc[component_nr]` from
`MAX_NAME_COMPONENTS` on) reads and writes the map at that index. -/

/-- The constant `MAX_PKT_BURST`. -/
def MAX_PKT_BURST : Nat := 32

/-- The constant `ETHER_TYPE_IPv4_BE`. -/
def ETHER_TYPE_IPv4_BE : Nat := 8

/-- The constant `TYPE_INTEREST_BE`. -/
def TYPE_INTEREST_BE : Nat := 0

/-- The constant `TYPE_DATA_BE`. -/
def TYPE_DATA_BE : Nat := 256

/-- The constant `IPPROTO_ICN`. -/
def IPPROTO_ICN : Nat := 253

/-- The type `struct stats`: twelve `uint32_t` counters. -/
structure stats where
  int_recv : Nat
  int_cs_hit : Nat
  int_pit_hit : Nat
  int_fib_hit : Nat
  int_fib_loop : Nat
  int_no_route : Nat
  data_recv : Nat
  data_sent : Nat
  data_pit_miss : Nat
  nic_pkt_drop : Nat
  sw_pkt_drop : Nat
  malformed : Nat
  deriving DecidableEq

/-- The type `struct mbuf_table`: the batch of one port (`keep` is never
used). -/
structure mbuf_table where
  len : Nat
  m_table : Nat → Nat

/-- The type `struct port_addr`. -/
structure port_addr where
  local_addr : List Nat
  remote_addr : List Nat

/-- What `icn_fwd` reads and writes in the data of a packet buffer, seen
through the DPDK types `struct ether_hdr` and `struct ipv4_hdr`: the two
addresses and the `ether_type` field of the Ethernet header (the value of the
`uint16_t` as the machine reads it), the `next_proto_id` field of the IPv4
header, and `icn`, the memory that starts right after the IPv4 header. -/
structure mbuf_data where
  d_addr : List Nat
  s_addr : List Nat
  ether_type : Nat
  next_proto_id : Nat
  icn : List Nat

/-- A call into DPDK: `rte_pktmbuf_free(m)`, `rte_pktmbuf_refcnt_update(m, v)`,
and `rte_eth_tx_burst(port, queue, tx_pkts, nb_pkts)` with the `nb_pkts`
buffers of `tx_pkts` listed. -/
inductive dpdk_call where
  | pktmbuf_free (m : Nat)
  | pktmbuf_refcnt_update (m : Nat) (v : Int)
  | eth_tx_burst (port queue : Nat) (tx_pkts : List Nat)
  deriving DecidableEq

/-- The state of one worker as `icn_fwd` sees it. From its
`struct app_lcore_config`: `tx_queue_id`, `fib`, `pit`, `cs`, `stats`,
`port_addr`. From `pkt_fwd_loop`: the array `tx_mbufs`. From the environment:
`mbufs`, the memory of the packet buffers; `rng`, the words that the next calls
of `rte_rand` return; `tx_ret`, the values that the next calls of
`rte_eth_tx_burst` return. History: `calls`, the DPDK calls made so far, and
`enqueued`, the calls of `send_single_packet` made so far, each as the buffer
and the index of the batch in `tx_mbufs`. -/
structure worker where
  tx_queue_id : Nat → Nat
  fib : fib_t
  pit : pit_t
  cs : cs_t
  stats : stats
  port_addr : Nat → port_addr
  tx_mbufs : Nat → mbuf_table
  mbufs : Nat → mbuf_data
  rng : Nat → Nat
  tx_ret : Nat → Nat
  calls : List dpdk_call
  enqueued : List (Nat × Nat)

/-- The function `send_burst` on the batch `tx_mbufs[tx_mbuf]`: `n` is a
`uint32_t`, `tx_port` and `tx_queue` are `uint8_t`, the value of
`rte_eth_tx_burst` is a `uint16_t`. When fewer than `n` buffers were taken,
`nic_pkt_drop` grows by the difference and the do-while loop frees
`m_table[ret]`, ..., `m_table[n - 1]`. -/
def send_burst (w : worker) (tx_mbuf n tx_port tx_queue : Nat) : worker :=
  let m_table := (w.tx_mbufs tx_mbuf).m_table
  let ret := w.tx_ret 0 % 65536
  let w1 : worker :=
    { w with
      tx_ret := fun i => w.tx_ret (i + 1)
      calls := w.calls ++
        [dpdk_call.eth_tx_burst (tx_port % 256) (tx_queue % 256)
          ((List.range (n % 65536)).map m_table)] }
  if ret < n then
    { w1 with
      stats := { w1.stats with nic_pkt_drop := (w1.stats.nic_pkt_drop + (n - ret)) % 2 ^ 32 }
      calls := w1.calls ++
        (List.range' ret (n - ret)).map (fun i => dpdk_call.pktmbuf_free (m_table i)) }
  else w1

/-- The function `send_single_packet` on the batch `tx_mbufs[tx_mbuf]`: `len`
is a `uint16_t`. -/
def send_single_packet (w : worker) (m tx_mbuf tx_port tx_queue : Nat) : worker :=
  let len := (w.tx_mbufs tx_mbuf).len
  let w1 : worker :=
    { w with
      tx_mbufs := upd w.tx_mbufs tx_mbuf
        { w.tx_mbufs tx_mbuf with m_table := upd (w.tx_mbufs tx_mbuf).m_table len m }
      enqueued := w.enqueued ++ [(m, tx_mbuf)] }
  if (len + 1) % 65536 = MAX_PKT_BURST then
    let w2 := send_burst w1 tx_mbuf MAX_PKT_BURST tx_port tx_queue
    { w2 with tx_mbufs := upd w2.tx_mbufs tx_mbuf { w2.tx_mbufs tx_mbuf with len := 0 } }
  else
    { w1 with
      tx_mbufs := upd w1.tx_mbufs tx_mbuf { w1.tx_mbufs tx_mbuf with len := (len + 1) % 65536 } }

/-- The two calls of `ether_addr_copy` that write the addresses of port `port`
into the Ethernet header of buffer `m`. -/
def set_ether_addrs (w : worker) (m port : Nat) : worker :=
  { w with
    mbufs := upd w.mbufs m
      { w.mbufs m with
        s_addr := (w.port_addr port).local_addr
        d_addr := (w.port_addr port).remote_addr } }

/-- The exits of `icn_fwd` for a frame that is not IPv4, not ICN, or neither an
Interest nor a Data: the buffer is freed and `malformed` counted. -/
def icn_fwd_malformed (w : worker) (m : Nat) : worker :=
  { w with
    calls := w.calls ++ [dpdk_call.pktmbuf_free m]
    stats := { w.stats with malformed := (w.stats.malformed + 1) % 2 ^ 32 } }

/-- The Interest branch of `icn_fwd`: `name_len` is the `uint8_t` argument that
the tables receive, `crc` the hash of the name, `ret` an `int8_t`. -/
def icn_fwd_interest (crc : List Nat → Nat) (w : worker) (m rx_port_id : Nat)
    (icn_pkt : icn_packet) (name_len c now : Nat) : worker :=
  let w1 : worker :=
    { w with stats := { w.stats with int_recv := (w.stats.int_recv + 1) % 2 ^ 32 } }
  let data := cs_lookup_with_hash w1.cs icn_pkt.name name_len c
  if data ≠ 0 then
    let w2 : worker :=
      { w1 with
        stats := { w1.stats with int_cs_hit := (w1.stats.int_cs_hit + 1) % 2 ^ 32 }
        calls := w1.calls ++ [dpdk_call.pktmbuf_refcnt_update data 1] }
    let w3 := set_ether_addrs w2 data rx_port_id
    let w4 := send_single_packet w3 data rx_port_id rx_port_id (w3.tx_queue_id rx_port_id)
    { w4 with
      stats := { w4.stats with data_sent := (w4.stats.data_sent + 1) % 2 ^ 32 }
      calls := w4.calls ++ [dpdk_call.pktmbuf_free m] }
  else
    let r := pit_lookup_and_update_with_hash w1.pit icn_pkt.name name_len rx_port_id none now c
    let w2 : worker := { w1 with pit := r.2 }
    if r.1 ≠ 1 then
      if r.1 = -ENOSPC then
        { w2 with
          stats := { w2.stats with sw_pkt_drop := (w2.stats.sw_pkt_drop + 1) % 2 ^ 32 }
          calls := w2.calls ++ [dpdk_call.pktmbuf_free m] }
      else
        { w2 with
          stats := { w2.stats with int_pit_hit := (w2.stats.int_pit_hit + 1) % 2 ^ 32 }
          calls := w2.calls ++ [dpdk_call.pktmbuf_free m] }
    else
      let f := fib_lookup crc w2.fib icn_pkt w2.rng
      let w3 : worker := { w2 with rng := f.2.2 }
      if f.1 < 0 then
        { w3 with
          stats := { w3.stats with int_no_route := (w3.stats.int_no_route + 1) % 2 ^ 32 }
          pit := (pit_lookup_and_remove_with_hash w3.pit icn_pkt.name name_len c).2
          calls := w3.calls ++ [dpdk_call.pktmbuf_free m] }
      else if f.1 = (rx_port_id : Int) then
        { w3 with
          stats := { w3.stats with int_fib_loop := (w3.stats.int_fib_loop + 1) % 2 ^ 32 }
          pit := (pit_lookup_and_remove_with_hash w3.pit icn_pkt.name name_len c).2
          calls := w3.calls ++ [dpdk_call.pktmbuf_free m] }
      else
        let w4 : worker :=
          { w3 with stats := { w3.stats with int_fib_hit := (w3.stats.int_fib_hit + 1) % 2 ^ 32 } }
        let w5 := set_ether_addrs w4 m f.1.toNat
        send_single_packet w5 m f.1.toNat f.1.toNat (w5.tx_queue_id f.1.toNat)

/-- The loop of the Data branch of `icn_fwd` over the ports still to visit,
with the current value of the `uint32_t` `portmask`. -/
def icn_fwd_data_loop (m : Nat) : List Nat → Nat → worker → worker
  | [], _, w => w
  | tx_port_id :: rest, portmask, w =>
    if portmask % 2 = 1 then
      let w1 : worker :=
        { w with calls := w.calls ++ [dpdk_call.pktmbuf_refcnt_update m 1] }
      let w2 := set_ether_addrs w1 m tx_port_id
      let w3 := send_single_packet w2 m tx_port_id tx_port_id (w2.tx_queue_id tx_port_id)
      let w4 : worker :=
        { w3 with stats := { w3.stats with data_sent := (w3.stats.data_sent + 1) % 2 ^ 32 } }
      icn_fwd_data_loop m rest (portmask / 2) w4
    else icn_fwd_data_loop m rest (portmask / 2) w

/-- The Data branch of `icn_fwd`: the value of `cs_insert_with_hash` is stored
in `ret` and never read; the `uint64_t` value of
`pit_lookup_and_remove_with_hash` is stored in the `uint32_t` `portmask`. -/
def icn_fwd_data (w : worker) (m : Nat) (icn_pkt : icn_packet) (name_len c : Nat) : worker :=
  let w1 : worker :=
    { w with stats := { w.stats with data_recv := (w.stats.data_recv + 1) % 2 ^ 32 } }
  let r := cs_insert_with_hash w1.cs icn_pkt.name name_len m c
  let w2 : worker :=
    { w1 with cs := r.2.1, calls := w1.calls ++ r.2.2.map dpdk_call.pktmbuf_free }
  let pr := pit_lookup_and_remove_with_hash w2.pit icn_pkt.name name_len c
  let portmask := pr.1 % 2 ^ 32
  let w3 : worker := { w2 with pit := pr.2 }
  if portmask = 0 then
    { w3 with stats := { w3.stats with data_pit_miss := (w3.stats.data_pit_miss + 1) % 2 ^ 32 } }
  else icn_fwd_data_loop m (List.range APP_MAX_ETH_PORTS) portmask w3

/-- The packet view that `icn_fwd` works with: the local variable `icn_pkt`,
whose contents before the call of `parse_packet` are `junk`, after
`parse_packet` (whose value is not read) and the write of the CRC of the name
into `crc[component_nr]`. -/
def icn_fwd_packet (crc : List Nat → Nat) (pkt : List Nat) (junk : icn_packet) : icn_packet :=
  let icn_pkt := (parse_packet pkt junk).2
  { icn_pkt with
    crc := upd icn_pkt.crc icn_pkt.component_nr (crc (icn_pkt.name.take icn_pkt.name_len)) }

/-- The function `icn_fwd` for the buffer `m` received on port `rx_port_id` (a
`uint8_t`). `junk` is what the memory of the local variable `icn_pkt` holds at
entry, `now` the value of `get_curr_time()`. The name length is a `uint16_t`
in the packet view and a `uint8_t` parameter of the CS and PIT functions; the
`type` field of the ICN header is compared as the little-endian host reads
it. -/
def icn_fwd (crc : List Nat → Nat) (w : worker) (m rx_port_id : Nat) (junk : icn_packet)
    (now : Nat) : worker :=
  if (w.mbufs m).ether_type ≠ ETHER_TYPE_IPv4_BE then icn_fwd_malformed w m
  else if (w.mbufs m).next_proto_id ≠ IPPROTO_ICN then icn_fwd_malformed w m
  else
    let icn_pkt := icn_fwd_packet crc (w.mbufs m).icn junk
    let c := crc (icn_pkt.name.take icn_pkt.name_len)
    if le16 icn_pkt.hdr 0 = TYPE_INTEREST_BE then
      icn_fwd_interest crc w m rx_port_id icn_pkt (icn_pkt.name_len % 256) c now
    else if le16 icn_pkt.hdr 0 = TYPE_DATA_BE then
      icn_fwd_data w m icn_pkt (icn_pkt.name_len % 256) c
    else icn_fwd_malformed w m

/-- A run of calls of `send_single_packet` on the batch `tx_mbufs[tx_mbuf]`, one
for each buffer of `ms`, in order. -/
def send_packets (w : worker) (ms : List Nat) (tx_mbuf tx_port tx_queue : Nat) : worker :=
  ms.foldl (fun w m => send_single_packet w m tx_mbuf tx_port tx_queue) w

/-- The constant `APP_MAX_LCORES`. -/
def APP_MAX_LCORES : Nat := 16

/-- The function `get_nb_lcores_available`: the number of lcore identifiers below
`APP_MAX_LCORES` for which DPDK's `rte_lcore_is_enabled` returns 1 (a
`uint8_t`, which a count of at most 16 fits). -/
def get_nb_lcores_available (rte_lcore_is_enabled : Nat → Int) : Nat :=
  ((List.range APP_MAX_LCORES).filter (fun lcore_id => rte_lcore_is_enabled lcore_id == 1)).length

/-- The twelve assignments of the body of the loop of `reset_stats`. -/
def reset_stats_entry (s : stats) : stats :=
  { s with
    int_recv := 0, int_cs_hit := 0, int_pit_hit := 0, int_fib_hit := 0, int_fib_loop := 0,
    int_no_route := 0, data_recv := 0, data_sent := 0, data_pit_miss := 0, nic_pkt_drop := 0,
    sw_pkt_drop := 0, malformed := 0 }

/-- The function `reset_stats` on the `stats` fields of the array `lcore_conf`:
the loop runs for `lcore_id = 0 .. nb_lcores - 1`. -/
def reset_stats (rte_lcore_is_enabled : Nat → Int) (lcore_stats : Nat → stats) : Nat → stats :=
  (List.range (get_nb_lcores_available rte_lcore_is_enabled)).foldl
    (fun st lcore_id => upd st lcore_id (reset_stats_entry (st lcore_id))) lcore_stats

/-- The function `pit_get_ttl_us` (`uint64_t` arithmetic), for the TSC frequency
`tsc_hz` that `rte_get_tsc_hz()` returns. -/
def pit_get_ttl_us (pit : pit_t) (tsc_hz : Nat) : Nat :=
  (pit.ttl / tsc_hz * US_PER_S) % 2 ^ 64

/-! ## The controller (`control_plane.c`)

The functions `strchr`, `strcmp` and `atoi` are those of the C library, on
memory given as a list of bytes in which a byte outside the list reads as 0;
`is_same_ether_addr` is the one of DPDK. -/

/-- The function `strchr(s, c)` of the C library for `c ≠ 0`: the offset of the
first byte equal to `c` before the end of the string, `none` for `NULL`. -/
def strchr : List Nat → Nat → Option Nat
  | [], _ => none
  | b :: rest, c =>
    if b = c then some 0
    else if b = 0 then none
    else (strchr rest c).map (fun i => i + 1)

/-- The test `strcmp(a, b) == 0` of the C library: the two strings are equal up
to and including their terminating zero byte. -/
def strcmp_eq : List Nat → List Nat → Bool
  | [], [] => true
  | [], b :: _ => b == 0
  | a :: _, [] => a == 0
  | a :: as, b :: bs => if a ≠ b then false else if a = 0 then true else strcmp_eq as bs

/-- The digits read by `atoi`, with the value read so far. -/
def atoi_digits : List Nat → Nat → Nat
  | [], acc => acc
  | b :: rest, acc => if 48 ≤ b ∧ b ≤ 57 then atoi_digits rest (10 * acc + (b - 48)) else acc

/-- The function `atoi` of the C library: white space, an optional sign, then
decimal digits up to the first other byte. -/
def atoi (s : List Nat) : Int :=
  match s.dropWhile (fun b => b == 32 || (9 ≤ b && b ≤ 13)) with
  | 45 :: rest => - (atoi_digits rest 0 : Int)
  | 43 :: rest => (atoi_digits rest 0 : Int)
  | rest => (atoi_digits rest 0 : Int)

/-- The function `is_same_ether_addr` of DPDK on two addresses of six bytes. -/
def is_same_ether_addr (a b : List Nat) : Bool := a == b

/-- The fields of `struct app_lcore_config` that `ctrl_loop` reads and writes:
the FIB pointer (`none` for `NULL`), the `uint8_t nb_ports` and the array
`port_addr`. -/
structure app_lcore_config where
  fib : Option fib_t
  nb_ports : Nat
  port_addr : Nat → port_addr

/-- What `ctrl_loop` extracts from a datagram before it looks at the command:
`none` when the iteration ends with `continue`, otherwise the array `command`,
the memory at the pointer `prefix`, and the values of the `uint16_t` variables
`prefix_len` and `face`. `packet` is the content of the variable `packet`
before `parse_packet`, whose value is not read. The array `sface` is a list:
a `face_len` of 5 or more, which in C writes past its 5 bytes, is kept whole. -/
def ctrl_parse (buffer : List Nat) (packet : icn_packet) :
    Option (List Nat × List Nat × Nat × Nat) :=
  let packet := (parse_packet buffer packet).2
  if packet.name_len < 3 then none
  else
    let command := [packet.name.getD 0 0, packet.name.getD 1 0, packet.name.getD 2 0]
    let pfx := packet.name.drop 4
    match strchr pfx 58 with
    | none => none
    | some delim =>
      let prefix_len := delim % 65536
      let face_len := (((packet.name_len : Int) - prefix_len - 3 - 2) % 65536).toNat
      let sface := (pfx.drop (delim + 1)).take face_len ++ [0]
      let face := (atoi sface % 65536).toNat
      some (command, pfx, prefix_len, face)

/-- The body of the loops over the lcores in `ctrl_loop`, for the command ADD
(`add = true`) or DEL: an lcore without FIB is skipped, and so is one for which
`face > nb_ports` or the local address of the port `face` is
00:00:00:00:00:00; otherwise `fib_add` or `fib_del` is called, whose `face`
parameter is a `uint8_t`. -/
def ctrl_update (crc : List Nat → Nat) (add : Bool) (conf : app_lcore_config)
    (pfx : List Nat) (prefix_len face : Nat) : app_lcore_config :=
  match conf.fib with
  | none => conf
  | some fib =>
    if face > conf.nb_ports ∨
        is_same_ether_addr [0, 0, 0, 0, 0, 0] (conf.port_addr face).local_addr = true then conf
    else if add then { conf with fib := some (fib_add crc fib pfx prefix_len (face % 256)).2 }
    else { conf with fib := some (fib_del crc fib pfx prefix_len (face % 256)).2 }

/-- One iteration of the `while` loop of `ctrl_loop` on the datagram `buffer`:
the array `lcore_conf` afterwards. The array `command` has three bytes and no
terminating zero, and `strcmp` reads on: `command_end` is the byte that
follows the array in memory. Each of the `APP_MAX_LCORES` iterations of the
loop over the lcores writes its own element of `lcore_conf`. -/
def ctrl_loop_body (crc : List Nat → Nat) (lcore_conf : Nat → app_lcore_config)
    (buffer : List Nat) (packet : icn_packet) (command_end : Nat) : Nat → app_lcore_config :=
  match ctrl_parse buffer packet with
  | none => lcore_conf
  | some (command, pfx, prefix_len, face) =>
    if strcmp_eq (command ++ [command_end]) [65, 68, 68, 0] = true then
      fun lcore_id =>
        if lcore_id < APP_MAX_LCORES then
          ctrl_update crc true (lcore_conf lcore_id) pfx prefix_len face
        else lcore_conf lcore_id
    else if strcmp_eq (command ++ [command_end]) [68, 69, 76, 0] = true then
      fun lcore_id =>
        if lcore_id < APP_MAX_LCORES then
          ctrl_update crc false (lcore_conf lcore_id) pfx prefix_len face
        else lcore_conf lcore_id
    else lcore_conf

/-- The value of a string of decimal digits. -/
def decimal (digits : List Nat) : Nat :=
  digits.foldl (fun acc b => 10 * acc + (b - 48)) 0

/-! ## Sample values for closed examples -/

/-- The name "/a". -/
def name_a : List Nat := [47, 97]

/-- The name "/a/b". -/
def name_a_b : List Nat := [47, 97, 47, 98]

/-- The parsed packet for "/a/b": two components, ending at bytes 1 and 3. -/
def pkt_a_b : icn_packet :=
  { name_len := 4, name := name_a_b, component_offsets := [0, 1, 0, 3],
    component_nr := 2, crc := fun _ => 0 }

/-- The parsed packet for "/a": one component, ending at byte 1. -/
def pkt_a : icn_packet :=
  { name_len := 2, name := name_a, component_offsets := [0, 1],
    component_nr := 1, crc := fun _ => 0 }

/-- A random sequence that is constantly zero. -/
def rng_zero : Nat → Nat := fun _ => 0

/-- The FIB with 10 buckets and room for 20 records after `fib_add("/a", 2, 2)`. -/
def fib_a : fib_t := (fib_add sample_crc (fib_create 10 20) name_a 2 2).2

/-- The FIB `fib_a` after a second `fib_add("/a", 2, 2)`. -/
def fib_a_a : fib_t := (fib_add sample_crc fib_a name_a 2 2).2

/-- The FIB with 10 buckets and room for one record after `fib_add("/a", 2, 2)`
and `fib_del("/a", 2, 2)`. -/
def fib_used_up : fib_t :=
  (fib_del sample_crc (fib_add sample_crc (fib_create 10 1) name_a 2 2).2 name_a 2 2).2

/-- The FIB `fib_a` after `fib_add("/a", 2, 3)`: two entries for "/a". -/
def fib_a_3 : fib_t := (fib_add sample_crc fib_a name_a 2 3).2

/-- The PIT with 1024 buckets and room for 8192 entries, just created, for a TSC
of 1 MHz and a TTL of 5 seconds. -/
def pit_empty : pit_t := pit_create 1024 8192 1000000 5000000

/-- The PIT `pit_empty` after an Interest for "/a" from face 1 at time 1000. -/
def pit_one : pit_t := (pit_lookup_and_update sample_crc pit_empty name_a 2 1 (some 1000) 0).2

/-- A name of 256 bytes, all 'a'. -/
def name_256_a : List Nat := List.replicate 256 97

/-- A name of 256 bytes, all 'b'. -/
def name_256_b : List Nat := List.replicate 256 98

/-- The FIB with 10 buckets and room for 20 records after `fib_add` of the 256
bytes of `name_256_a` with length 256 and face 2. -/
def fib_long : fib_t := (fib_add sample_crc (fib_create 10 20) name_256_a 256 2).2

/-- The Interest number `k` of the closed examples: the name "/" followed by the
letter number `k`, from face `k`, at time `1000 + k`. -/
def sample_interest (k : Nat) : pit_interest :=
  { name := [47, 97 + k], name_len := 2, face := k, curr_time := some (1000 + k), now := 0 }

/-- The PIT with one bucket and room for 20 entries, for a TTL of 5 cycles. -/
def pit_tiny : pit_t := pit_create 1 20 1000000 5

/-- The PIT `pit_tiny` after the Interests 0 to 6, which fill its bucket. -/
def pit_seven : pit_t :=
  (pit_update_all sample_crc pit_tiny ((List.range 7).map sample_interest)).2

/-- The PIT `pit_tiny` after the Interests 0 and 1, made at times 1000 and 1001. -/
def pit_two : pit_t :=
  (pit_update_all sample_crc pit_tiny [sample_interest 0, sample_interest 1]).2

/-- The CS with one bucket and room for 3 contents. -/
def cs_tiny : cs_t := cs_create 1 3

/-- The CS `cs_tiny` after "/a" has been inserted twice, with the buffers 11 and
22. -/
def cs_twice : cs_t :=
  (cs_insert sample_crc (cs_insert sample_crc cs_tiny name_a 2 11).2.1 name_a 2 22).2.1

/-- The CS `cs_tiny` after "/a", "/x" and "/n" have been inserted with the buffers
11, 22 and 33: it is full. -/
def cs_three : cs_t :=
  (cs_insert sample_crc
    (cs_insert sample_crc (cs_insert sample_crc cs_tiny name_a 2 11).2.1 [47, 120] 2 22).2.1
    [47, 110] 2 33).2.1

/-- The CS `cs_three` after "/d" has been inserted with the buffer 44, which
evicts "/a". -/
def cs_four : cs_t := (cs_insert sample_crc cs_three [47, 100] 2 44).2.1

/-- The PIT `pit_one` after an Interest for "/a/b" from face 2 at time 15000000. -/
def pit_late : pit_t :=
  (pit_lookup_and_update sample_crc pit_one name_a_b 4 2 (some 15000000) 0).2

/-- The CS created with `max_elements = 0`, after "/a" has been inserted with the
buffer 11. -/
def cs_zero_one : cs_t := (cs_insert sample_crc (cs_create 1 0) name_a 2 11).2.1

/-- The bytes of the ICN Interest for "/a/b": 19 bytes, hop limit 64, two
components that end at bytes 1 and 3. -/
def wire_a_b : List Nat := serialize_packet 0 23 64 0 9 name_a_b [1, 3] []

/-- An Ethernet frame that carries the ICN packet `icn` over IPv4. -/
def sample_frame (icn : List Nat) : mbuf_data :=
  { d_addr := [0, 0, 0, 0, 0, 0], s_addr := [0, 0, 0, 0, 0, 0],
    ether_type := ETHER_TYPE_IPv4_BE, next_proto_id := IPPROTO_ICN, icn := icn }

/-- The counters of `struct stats` all at zero. -/
def stats_zero : stats :=
  { int_recv := 0, int_cs_hit := 0, int_pit_hit := 0, int_fib_hit := 0, int_fib_loop := 0,
    int_no_route := 0, data_recv := 0, data_sent := 0, data_pit_miss := 0, nic_pkt_drop := 0,
    sw_pkt_drop := 0, malformed := 0 }

/-- The packet view before parsing used in the examples. -/
def junk_packet : icn_packet :=
  { name_len := 0, name := [], component_offsets := [], component_nr := 0, crc := fun _ => 0 }

/-- A worker with the FIB `fib_a` (only "/a" on face 2), the empty PIT
`pit_empty`, an empty CS, empty batches, and three buffers: 101 and 102 hold
an Interest for "/a/b", 103 a Data for "/a/b", each with the two component
offsets 1 and 3. -/
def worker_start : worker :=
  { tx_queue_id := fun _ => 0
    fib := fib_a
    pit := pit_empty
    cs := cs_create 1024 4096
    stats := stats_zero
    port_addr := fun i => { local_addr := [2, 0, 0, 0, 0, i], remote_addr := [4, 0, 0, 0, 0, i] }
    tx_mbufs := fun _ => { len := 0, m_table := fun _ => 0 }
    mbufs := fun m =>
      if m = 103 then sample_frame (serialize_packet 1 23 64 0 9 name_a_b [1, 3] [])
      else sample_frame (serialize_packet 0 23 64 0 9 name_a_b [1, 3] [])
    rng := rng_zero
    tx_ret := fun _ => 32
    calls := []
    enqueued := [] }

/-- The worker after the Interest in buffer 101 arrived on face 1. -/
def worker_1 : worker := icn_fwd sample_crc worker_start 101 1 junk_packet 0

/-- The worker after the Interest in buffer 102 then arrived on face 3. -/
def worker_2 : worker := icn_fwd sample_crc worker_1 102 3 junk_packet 0

/-- The worker after the Data in buffer 103 then arrived on face 2. -/
def worker_3 : worker := icn_fwd sample_crc worker_2 103 2 junk_packet 0

/-- The worker after the three packets of the example, with 31 buffers waiting in
each batch and a NIC that takes no buffer at the next call of
`rte_eth_tx_burst`. -/
def worker_burst : worker :=
  { worker_3 with
    tx_mbufs := fun _ => { len := 31, m_table := fun _ => 103 }
    tx_ret := fun _ => 0 }

/-- The lcores 0 and 2 are enabled, the others are not. -/
def lcores_0_2 (lcore_id : Nat) : Int :=
  if lcore_id = 0 ∨ lcore_id = 2 then 1 else 0

/-- Counters of the lcores before a reset: each lcore has received five
Interests. -/
def stats_five (_ : Nat) : stats := { stats_zero with int_recv := 5 }

/-- The datagram with the command "ADD:/b:1", in the wire format, without
TLV. -/
def ctrl_add_b_1 : List Nat :=
  serialize_packet 2 19 64 0 9 [65, 68, 68, 58, 47, 98, 58, 49] [] []

/-- The datagram with the command "ADD:/b:2", in the wire format, without
TLV. -/
def ctrl_add_b_2 : List Nat :=
  serialize_packet 2 19 64 0 9 [65, 68, 68, 58, 47, 98, 58, 50] [] []

/-- An array `lcore_conf` in which lcore 0 has the FIB `fib_a`, two ports, and a
local address for the ports 0, 1 and 2; the other lcores have no FIB. -/
def lcore_conf_two (lcore_id : Nat) : app_lcore_config :=
  { fib := if lcore_id = 0 then some fib_a else none
    nb_ports := 2
    port_addr := fun i =>
      if i ≤ 2 then { local_addr := [2, 0, 0, 0, 0, i], remote_addr := [4, 0, 0, 0, 0, i] }
      else { local_addr := [0, 0, 0, 0, 0, 0], remote_addr := [0, 0, 0, 0, 0, 0] } }

/-- A name of 34 bytes, one more than `MAX_NAME_LEN`: "/a/", thirty 'b', and a
last byte 0x02. The last byte is the low byte of `1 << 1`, the mask that the
PIT writes for face 1 right behind the 33 bytes of the array `name`: the 34
bytes that `memcmp` reads from the PIT entry are then those of this name. -/
def name_34 : List Nat := [47, 97, 47] ++ List.replicate 30 98 ++ [2]

/-- The worker `worker_start` with the buffers 104 and 105 holding an Interest
for `name_34`, with two components that end at the bytes 1 and 33. -/
def worker_long : worker :=
  { worker_start with
    mbufs := fun m =>
      if m = 104 ∨ m = 105 then sample_frame (serialize_packet 0 53 64 0 9 name_34 [1, 33] [])
      else worker_start.mbufs m }

/-- The worker `worker_long` after the Interest in buffer 104 arrived on face 1. -/
def worker_long_1 : worker := icn_fwd sample_crc worker_long 104 1 junk_packet 0

/-! ## Basic facts -/

@[simp] theorem upd_same {α : Type} (a : Nat → α) (i : Nat) (v : α) : upd a i v i = v := by
  simp [upd]

theorem upd_ne {α : Type} (a : Nat → α) {i j : Nat} (v : α) (h : j ≠ i) :
    upd a i v j = a j := by
  simp [upd, h]

theorem upd_apply {α : Type} (a : Nat → α) (i j : Nat) (v : α) :
    upd a i v j = if j = i then v else a j := rfl

theorem to_int16_of_lt {x : Int} (h0 : 0 ≤ x) (h : x < 32768) : to_int16 x = x := by
  unfold to_int16; omega

theorem to_int8_of_lt {x : Int} (h0 : 0 ≤ x) (h : x < 128) : to_int8 x = x := by
  unfold to_int8; omega

theorem to_int8_of_ge {x : Int} (h0 : 128 ≤ x) (h : x < 256) : to_int8 x = x - 256 := by
  unfold to_int8; omega

theorem memcpy_take {dst src : List Nat} {n : Nat} (h : n ≤ src.length) :
    (memcpy dst src n).take n = src.take n := by
  unfold memcpy
  rw [List.take_append_of_le_length (by simp [h])]
  simp

/-! ## The add loop -/

theorem fib_store_busy (t : fibh_t) (B e : Nat) (name : List Nat) (len face c b e1 : Nat) :
    ((fib_store t B e name len face c).htbl b).busy e1 =
      if b = B ∧ e1 = e then 1 else (t.htbl b).busy e1 := by
  simp only [fib_store, upd_apply]
  by_cases hb : b = B <;> by_cases he : e1 = e <;> simp [hb, he, upd]

theorem fib_store_entry (t : fibh_t) (B e : Nat) (name : List Nat) (len face c b e1 : Nat) :
    ((fib_store t B e name len face c).htbl b).entry e1 =
      if b = B ∧ e1 = e then { crc := c, index := t.next_free_element }
      else (t.htbl b).entry e1 := by
  simp only [fib_store, upd_apply]
  by_cases hb : b = B <;> by_cases he : e1 = e <;> simp [hb, he, upd]

theorem fib_store_fwd (t : fibh_t) (B e : Nat) (name : List Nat) (len face c i : Nat) :
    (fib_store t B e name len face c).fwd_table i =
      if i = t.next_free_element then
        { face := face, name_len := len,
          name := memcpy (t.fwd_table t.next_free_element).name name len }
      else t.fwd_table i := by
  simp only [fib_store, upd_apply]

theorem fib_clear_busy (t : fibh_t) (B e b e1 : Nat) :
    ((fib_clear t B e).htbl b).busy e1 =
      if b = B ∧ e1 = e then 0 else (t.htbl b).busy e1 := by
  simp only [fib_clear, upd_apply]
  by_cases hb : b = B <;> by_cases he : e1 = e <;> simp [hb, he, upd]

theorem fib_clear_entry (t : fibh_t) (B e b e1 : Nat) :
    ((fib_clear t B e).htbl b).entry e1 = (t.htbl b).entry e1 := by
  simp only [fib_clear, upd_apply]
  by_cases hb : b = B <;> simp [hb]

/-- What `__fib_hash_table_add_key_with_hash` does, case by case. -/
theorem add_key_with_hash_cases (t : fibh_t) (name : List Nat) (len face c : Nat) :
    ((t.next_free_element = t.max_elements ∨
        ∀ e, e < BUCKET_SIZE → (t.htbl (c % t.num_buckets)).busy e ≠ 0) ∧
      __fib_hash_table_add_key_with_hash t name len face c = (-ENOSPC, t)) ∨
    (∃ e, e < BUCKET_SIZE ∧ (t.htbl (c % t.num_buckets)).busy e = 0 ∧
      (∀ e1, e1 < e → (t.htbl (c % t.num_buckets)).busy e1 ≠ 0) ∧
      t.next_free_element ≠ t.max_elements ∧
      __fib_hash_table_add_key_with_hash t name len face c =
        (0, fib_store t (c % t.num_buckets) e name len face c)) := by
  unfold __fib_hash_table_add_key_with_hash is_fib_hash_table_full
  by_cases hfull : t.next_free_element = t.max_elements
  · left; simp [hfull]
  · simp only [beq_iff_eq, hfull, if_false]
    cases hfind : (List.range BUCKET_SIZE).find?
        (fun entry => (t.htbl (c % t.num_buckets)).busy entry == 0) with
    | none =>
      left
      refine ⟨Or.inr ?_, rfl⟩
      intro e he
      have := List.find?_eq_none.mp hfind e (List.mem_range.mpr he)
      simpa using this
    | some e =>
      right
      obtain ⟨h1, h2, h3⟩ := List.find?_range_eq_some.mp hfind
      refine ⟨e, List.mem_range.mp h2, by simpa using h1, ?_, hfull, rfl⟩
      intro e1 he1
      simpa using h3 e1 he1

/-- What `__fib_hash_table_del_key_with_hash` does, case by case. -/
theorem del_key_with_hash_cases (t : fibh_t) (name : List Nat) (len c face : Nat) :
    ((∀ e, e < BUCKET_SIZE →
        ¬ fib_entry_matches_face t name len c face (c % t.num_buckets) e) ∧
      __fib_hash_table_del_key_with_hash t name len c face = (-ENOENT, t)) ∨
    (∃ e, e < BUCKET_SIZE ∧ fib_entry_matches_face t name len c face (c % t.num_buckets) e ∧
      (∀ e1, e1 < e → ¬ fib_entry_matches_face t name len c face (c % t.num_buckets) e1) ∧
      __fib_hash_table_del_key_with_hash t name len c face =
        (0, fib_clear t (c % t.num_buckets) e)) := by
  unfold __fib_hash_table_del_key_with_hash
  dsimp only
  cases hfind : (List.range BUCKET_SIZE).find?
      (fun entry => decide (fib_entry_matches_face t name len c face (c % t.num_buckets) entry)) with
  | none =>
    left
    refine ⟨?_, rfl⟩
    intro e he
    have := List.find?_eq_none.mp hfind e (List.mem_range.mpr he)
    simpa using this
  | some e =>
    right
    obtain ⟨h1, h2, h3⟩ := List.find?_range_eq_some.mp hfind
    refine ⟨e, List.mem_range.mp h2, by simpa using h1, ?_, rfl⟩
    intro e1 he1
    simpa using h3 e1 he1

/-! ## The invariant holds in every reachable state -/

theorem FibInv_create (crc : List Nat → Nat) (num_buckets max_elements : Nat)
    (hb : 0 < num_buckets) : FibInv crc (fib_hash_table_create num_buckets max_elements) := by
  constructor <;> simp [fib_hash_table_create, hb]

theorem FibInv_store (crc : List Nat → Nat) (t : fibh_t) (e : Nat) (name : List Nat)
    (len face c : Nat) (hinv : FibInv crc t) (he : e < BUCKET_SIZE)
    (hroom : t.next_free_element ≠ t.max_elements) (hface : face < 256)
    (hlen : len ≤ name.length) (hc : c = crc (name.take len)) :
    FibInv crc (fib_store t (c % t.num_buckets) e name len face c) := by
  have hnfe := hinv.nfe_le
  constructor
  · exact hinv.buckets_pos
  · show t.next_free_element + 1 ≤ t.max_elements
    omega
  · intro i
    rw [fib_store_fwd]
    split
    · exact hface
    · exact hinv.face_lt i
  · intro b e1
    rw [fib_store_busy]
    split
    · exact le_refl 1
    · exact hinv.busy_le b e1
  · intro b e1
    unfold fib_record
    rw [fib_store_busy, fib_store_entry]
    by_cases hslot : b = c % t.num_buckets ∧ e1 = e
    · intro _
      simp only [hslot, and_self, if_true, fib_store_fwd]
      refine ⟨he, ?_, ?_, ?_⟩
      · show t.next_free_element < t.next_free_element + 1
        omega
      · rfl
      · rw [memcpy_take hlen]; exact hc
    · simp only [hslot, if_false]
      intro hbusy
      obtain ⟨h1, h2, h3, h4⟩ := hinv.slot b e1 hbusy
      have hne : ((t.htbl b).entry e1).index ≠ t.next_free_element := by omega
      rw [fib_store_fwd]
      simp only [hne, if_false]
      refine ⟨h1, ?_, h3, h4⟩
      show ((t.htbl b).entry e1).index < t.next_free_element + 1
      omega
  · intro b e1 b1 e2
    rw [fib_store_busy, fib_store_busy, fib_store_entry, fib_store_entry]
    by_cases hs1 : b = c % t.num_buckets ∧ e1 = e <;>
      by_cases hs2 : b1 = c % t.num_buckets ∧ e2 = e
    · intro _ _ _
      exact ⟨hs1.1.trans hs2.1.symm, hs1.2.trans hs2.2.symm⟩
    · simp only [hs1, hs2, and_self, if_true, if_false]
      intro _ hbusy hidx
      have := (hinv.slot b1 e2 hbusy).2.1
      omega
    · simp only [hs1, hs2, and_self, if_true, if_false]
      intro hbusy _ hidx
      have := (hinv.slot b e1 hbusy).2.1
      omega
    · simp only [hs1, hs2, if_false]
      exact hinv.inj b e1 b1 e2

theorem FibInv_clear (crc : List Nat → Nat) (t : fibh_t) (B e : Nat) (hinv : FibInv crc t) :
    FibInv crc (fib_clear t B e) := by
  constructor
  · exact hinv.buckets_pos
  · exact hinv.nfe_le
  · exact hinv.face_lt
  · intro b e1
    rw [fib_clear_busy]
    split
    · exact Nat.zero_le 1
    · exact hinv.busy_le b e1
  · intro b e1
    unfold fib_record
    rw [fib_clear_busy, fib_clear_entry]
    split
    · intro h; exact absurd rfl h
    · exact hinv.slot b e1
  · intro b e1 b1 e2
    rw [fib_clear_busy, fib_clear_busy, fib_clear_entry, fib_clear_entry]
    split
    · intro h; exact absurd rfl h
    · split
      · intro _ h; exact absurd rfl h
      · exact hinv.inj b e1 b1 e2

theorem FibInv_add_key (crc : List Nat → Nat) (t : fibh_t) (name : List Nat) (len face : Nat)
    (hinv : FibInv crc t) (hface : face < 256) (hlen : len ≤ name.length) :
    FibInv crc (fib_hash_table_add_key crc t name len face).2 := by
  unfold fib_hash_table_add_key
  rcases add_key_with_hash_cases t name len face (crc (name.take len)) with
    ⟨_, h⟩ | ⟨e, he, _, _, hroom, h⟩
  · rw [h]; exact hinv
  · rw [h]; exact FibInv_store crc t e name len face _ hinv he hroom hface hlen rfl

theorem FibInv_del_key (crc : List Nat → Nat) (t : fibh_t) (name : List Nat) (len face : Nat)
    (hinv : FibInv crc t) : FibInv crc (fib_hash_table_del_key crc t name len face).2 := by
  unfold fib_hash_table_del_key
  rcases del_key_with_hash_cases t name len (crc (name.take len)) face with
    ⟨_, h⟩ | ⟨e, _, _, _, h⟩
  · rw [h]; exact hinv
  · rw [h]; exact FibInv_clear crc t _ e hinv

theorem fib_add_table (crc : List Nat → Nat) (fib : fib_t) (name : List Nat)
    (len face : Nat) :
    (fib_add crc fib name len face).2.table =
      if len = 0 ∨ name.getD 0 0 = 0 then fib.table
      else (fib_hash_table_add_key crc fib.table name (len % 256) face).2 := by
  unfold fib_add
  split
  · rfl
  · dsimp only
    split <;> rfl

theorem fib_del_table (crc : List Nat → Nat) (fib : fib_t) (name : List Nat)
    (len face : Nat) :
    (fib_del crc fib name len face).2.table =
      if len = 0 ∨ name.getD 0 0 = 0 then fib.table
      else (fib_hash_table_del_key crc fib.table name (len % 256) face).2 := by
  unfold fib_del
  split
  · rfl
  · dsimp only
    split <;> rfl

theorem FibInv_of_reachable (crc : List Nat → Nat) (fib : fib_t)
    (h : FibReachable crc fib) : FibInv crc fib.table := by
  induction h with
  | create nb me hb => exact FibInv_create crc nb me hb
  | add fib name len face _ hface hlen ih =>
    rw [fib_add_table]
    split
    · exact ih
    · exact FibInv_add_key crc _ name _ face ih hface
        (le_trans (Nat.mod_le _ _) hlen)
  | del fib name len face _ ih =>
    rw [fib_del_table]
    split
    · exact ih
    · exact FibInv_del_key crc _ name _ face ih

/-- A FIB built from names that fit the record array is a reachable FIB. -/
theorem FibReachable_of_bounded {crc : List Nat → Nat} {fib : fib_t}
    (h : FibBounded crc fib) : FibReachable crc fib := by
  induction h with
  | create nb me hb => exact FibReachable.create nb me hb
  | add fib name len face _ hface hlen _ ih => exact FibReachable.add fib name len face ih hface hlen
  | del fib name len face _ ih => exact FibReachable.del fib name len face ih

/-! ## The lookup loops -/

theorem mem_fib_match_array (t : fibh_t) (name : List Nat) (len c x : Nat) :
    x ∈ fib_match_array t name len c ↔
      ∃ e, e < BUCKET_SIZE ∧ fib_entry_matches t name len c (c % t.num_buckets) e ∧
        (fib_record t (c % t.num_buckets) e).face = x := by
  unfold fib_match_array fib_record
  simp only [List.mem_map, List.mem_filter, List.mem_range, decide_eq_true_eq]
  constructor
  · rintro ⟨e, ⟨h1, h2⟩, h3⟩; exact ⟨e, h1, h2, h3⟩
  · rintro ⟨e, h1, h2, h3⟩; exact ⟨e, ⟨h1, h2⟩, h3⟩

theorem fib_match_array_length_le (t : fibh_t) (name : List Nat) (len c : Nat) :
    (fib_match_array t name len c).length ≤ BUCKET_SIZE := by
  unfold fib_match_array
  rw [List.length_map]
  exact le_trans (List.length_filter_le _ _) (by simp)

theorem fib_match_array_eq_nil (t : fibh_t) (name : List Nat) (len c : Nat) :
    fib_match_array t name len c = [] ↔
      ∀ e, e < BUCKET_SIZE → ¬ fib_entry_matches t name len c (c % t.num_buckets) e := by
  constructor
  · intro h e he hm
    have : (fib_record t (c % t.num_buckets) e).face ∈ fib_match_array t name len c :=
      (mem_fib_match_array t name len c _).mpr ⟨e, he, hm, rfl⟩
    rw [h] at this
    exact absurd this (List.not_mem_nil _)
  · intro h
    apply List.eq_nil_iff_forall_not_mem.mpr
    intro x hx
    obtain ⟨e, he, hm, _⟩ := (mem_fib_match_array t name len c x).mp hx
    exact h e he hm

theorem getD_mem_of_lt {l : List Nat} {i : Nat} (h : i < l.length) : l.getD i 0 ∈ l := by
  rw [List.getD_eq_getElem l 0 h]
  exact List.getElem_mem h

/-- The result of the hash-table lookup: a miss, or the face at some position of
the match array. -/
theorem lookup_with_hash_cases (t : fibh_t) (name : List Nat) (len c : Nat)
    (rng : Nat → Nat) :
    (fib_match_array t name len c = [] ∧
      __fib_hash_table_lookup_with_hash t name len c rng = (-ENOENT, rng)) ∨
    (∃ x, x ∈ fib_match_array t name len c ∧
      (__fib_hash_table_lookup_with_hash t name len c rng).1 = to_int16 (x : Int)) := by
  unfold __fib_hash_table_lookup_with_hash
  dsimp only
  by_cases h0 : (fib_match_array t name len c).length = 0
  · left
    exact ⟨List.length_eq_zero.mp h0, by simp [h0]⟩
  · right
    have hpos : 0 < (fib_match_array t name len c).length := Nat.pos_of_ne_zero h0
    simp only [h0, if_false]
    split
    · exact ⟨_, getD_mem_of_lt (Nat.mod_lt _ hpos), rfl⟩
    · exact ⟨_, getD_mem_of_lt hpos, rfl⟩

theorem matches_live_named {t : fibh_t} {name : List Nat} {len c b e : Nat}
    (h : fib_entry_matches t name len c b e) :
    (t.htbl b).busy e ≠ 0 ∧ fwd_entry_has_name (fib_record t b e) name len := by
  obtain ⟨h1, _, h3, h4⟩ := h
  exact ⟨h1, h3.symm, h4.symm⟩

theorem live_named_matches {crc : List Nat → Nat} {t : fibh_t} (hinv : FibInv crc t)
    {name : List Nat} {len b e : Nat} (hbusy : (t.htbl b).busy e ≠ 0)
    (hname : fwd_entry_has_name (fib_record t b e) name len) :
    e < BUCKET_SIZE ∧ b = crc (name.take len) % t.num_buckets ∧
      fib_entry_matches t name len (crc (name.take len)) b e := by
  obtain ⟨h1, _, h3, h4⟩ := hinv.slot b e hbusy
  obtain ⟨hn1, hn2⟩ := hname
  have hc : ((t.htbl b).entry e).crc = crc (name.take len) := by
    rw [h4, hn1, hn2]
  refine ⟨h1, ?_, hbusy, hc, hn1.symm, hn2.symm⟩
  rw [← hc]; exact h3

theorem fib_lookup_start {n : Nat} (h : n < 32768) :
    (to_int16 ((n : Int) - 1) + 1).toNat = n := by
  unfold to_int16; omega

/-! ## Adding to the created tables -/

theorem create_busy (nb me b e : Nat) : ((fib_hash_table_create nb me).htbl b).busy e = 0 := rfl

theorem fib_store_record_new (t : fibh_t) (B e : Nat) (name : List Nat) (len face c : Nat) :
    fib_record (fib_store t B e name len face c) B e =
      { face := face, name_len := len,
        name := memcpy (t.fwd_table t.next_free_element).name name len } := by
  unfold fib_record
  rw [fib_store_entry, fib_store_fwd]
  simp

theorem fib_store_matches_new (t : fibh_t) (B e : Nat) (name : List Nat) (len face c : Nat)
    (hlen : len ≤ name.length) :
    fib_entry_matches (fib_store t B e name len face c) name len c B e := by
  have hrec := fib_store_record_new t B e name len face c
  unfold fib_record at hrec
  refine ⟨?_, ?_, ?_, ?_⟩
  · rw [fib_store_busy]; simp
  · rw [fib_store_entry]; simp
  · rw [hrec]
  · rw [hrec]; unfold memcmp_eq; exact (memcpy_take hlen).symm

/-- `fib_add` on the created tables with room for at least one record. -/
theorem fib_add_create (crc : List Nat → Nat) (nb me : Nat) (n : List Nat) (f : Nat)
    (hme : 0 < me) (hlen1 : 1 ≤ n.length) (hlen : n.length ≤ MAX_NAME_LEN) (h0 : n.getD 0 0 ≠ 0) :
    fib_add crc (fib_create nb me) n n.length f =
      (0, { table := fib_store (fib_hash_table_create nb me) (crc n % nb) 0 n n.length f (crc n) }) := by
  have h33 : n.length ≤ 33 := hlen
  have hmod : n.length % 256 = n.length := Nat.mod_eq_of_lt (by omega)
  have hguard : ¬ (n.length = 0 ∨ n.getD 0 0 = 0) := by
    rintro (h | h)
    · omega
    · exact h0 h
  unfold fib_add
  simp only [hguard, if_false, hmod, fib_hash_table_add_key, List.take_length, fib_create]
  rcases add_key_with_hash_cases (fib_hash_table_create nb me) n n.length f (crc n) with
    ⟨hfull, _⟩ | ⟨e, he, _, hlow, _, h⟩
  · exfalso
    rcases hfull with h | h
    · simp [fib_hash_table_create] at h; omega
    · exact h 0 (by decide) rfl
  · have he0 : e = 0 := by
      by_contra hne
      exact hlow 0 (Nat.pos_of_ne_zero hne) rfl
    subst he0
    rw [h]
    simp [fib_hash_table_create]

/-! ## Adding and then deleting -/

theorem mem_fib_live_slots (t : fibh_t) (name : List Nat) (len face : Nat) (s : Nat × Nat) :
    s ∈ fib_live_slots t name len face ↔
      (s.1 < t.num_buckets ∧ s.2 < BUCKET_SIZE) ∧ (t.htbl s.1).busy s.2 ≠ 0 ∧
        fwd_entry_has_name (fib_record t s.1 s.2) name len ∧
        (fib_record t s.1 s.2).face = face := by
  unfold fib_live_slots
  rw [List.mem_filter]
  obtain ⟨b, e⟩ := s
  simp only [List.pair_mem_product, List.mem_range, decide_eq_true_eq]

theorem fib_live_slots_nodup (t : fibh_t) (name : List Nat) (len face : Nat) :
    (fib_live_slots t name len face).Nodup := by
  unfold fib_live_slots
  exact List.Nodup.filter _ (List.Nodup.product (List.nodup_range _) (List.nodup_range _))

theorem fib_live_slots_length_le {crc : List Nat → Nat} {t : fibh_t} (hinv : FibInv crc t)
    (name : List Nat) (len face : Nat) :
    (fib_live_slots t name len face).length ≤ BUCKET_SIZE := by
  have hsub : fib_live_slots t name len face ⊆
      (List.range BUCKET_SIZE).map (fun e => (crc (name.take len) % t.num_buckets, e)) := by
    intro s hs
    obtain ⟨⟨_, h2⟩, hbusy, hname, _⟩ := (mem_fib_live_slots t name len face s).mp hs
    obtain ⟨_, hb, _⟩ := live_named_matches hinv hbusy hname
    rw [List.mem_map]
    exact ⟨s.2, List.mem_range.mpr h2, by rw [← hb]⟩
  have := (List.subperm_of_subset (fib_live_slots_nodup t name len face) hsub).length_le
  simpa using this

/-- A live entry of the table before a store into a free entry is another entry
than the stored one and is live afterwards, with the same record. -/
theorem fib_store_old {crc : List Nat → Nat} {t : fibh_t} (hinv : FibInv crc t)
    (B e0 : Nat) (name : List Nat) (len face c : Nat) (hfree : (t.htbl B).busy e0 = 0)
    {b e : Nat} (hbusy : (t.htbl b).busy e ≠ 0) :
    ¬ (b = B ∧ e = e0) ∧
    ((fib_store t B e0 name len face c).htbl b).busy e ≠ 0 ∧
    ((fib_store t B e0 name len face c).htbl b).entry e = (t.htbl b).entry e ∧
    fib_record (fib_store t B e0 name len face c) b e = fib_record t b e := by
  have hs : ¬ (b = B ∧ e = e0) := by
    rintro ⟨h1, h2⟩
    subst h1 h2
    exact hbusy hfree
  have hidx := (hinv.slot b e hbusy).2.1
  have hent : ((fib_store t B e0 name len face c).htbl b).entry e = (t.htbl b).entry e := by
    rw [fib_store_entry]; simp only [hs, if_false]
  refine ⟨hs, ?_, hent, ?_⟩
  · rw [fib_store_busy]; simp only [hs, if_false]; exact hbusy
  · unfold fib_record
    rw [hent, fib_store_fwd]
    have hne : ((t.htbl b).entry e).index ≠ t.next_free_element := by omega
    simp only [hne, if_false]

/-- What `fib_add` does for a valid name of at most 255 bytes. -/
theorem fib_add_cases (crc : List Nat → Nat) (fib : fib_t) (name : List Nat) (len face : Nat)
    (hlen0 : len ≠ 0) (hlen : len < 256) (h0 : name.getD 0 0 ≠ 0) :
    ((fib.table.next_free_element = fib.table.max_elements ∨
        ∀ e, e < BUCKET_SIZE →
          (fib.table.htbl (crc (name.take len) % fib.table.num_buckets)).busy e ≠ 0) ∧
      fib_add crc fib name len face = (-ENOSPC, fib)) ∨
    (∃ e, e < BUCKET_SIZE ∧
      (fib.table.htbl (crc (name.take len) % fib.table.num_buckets)).busy e = 0 ∧
      (∀ e1, e1 < e →
        (fib.table.htbl (crc (name.take len) % fib.table.num_buckets)).busy e1 ≠ 0) ∧
      fib.table.next_free_element ≠ fib.table.max_elements ∧
      fib_add crc fib name len face =
        (0, { table := (fib_store fib.table (crc (name.take len) % fib.table.num_buckets) e
          name len face (crc (name.take len))) })) := by
  have hmod : len % 256 = len := Nat.mod_eq_of_lt hlen
  have hguard : ¬ (len = 0 ∨ name.getD 0 0 = 0) := by
    rintro (h | h)
    · exact hlen0 h
    · exact h0 h
  unfold fib_add
  simp only [hguard, if_false, hmod, fib_hash_table_add_key]
  rcases add_key_with_hash_cases fib.table name len face (crc (name.take len)) with
    ⟨hfull, h⟩ | ⟨e, he, hfree, hlow, hroom, h⟩
  · left
    refine ⟨hfull, ?_⟩
    rw [h]
    simp [ENOSPC]
  · right
    refine ⟨e, he, hfree, hlow, hroom, ?_⟩
    rw [h]
    simp

/-- What `fib_del` does for a valid name of at most 255 bytes. -/
theorem fib_del_cases (crc : List Nat → Nat) (fib : fib_t) (name : List Nat) (len face : Nat)
    (hlen0 : len ≠ 0) (hlen : len < 256) (h0 : name.getD 0 0 ≠ 0) :
    ((∀ e, e < BUCKET_SIZE →
        ¬ fib_entry_matches_face fib.table name len (crc (name.take len)) face
          (crc (name.take len) % fib.table.num_buckets) e) ∧
      fib_del crc fib name len face = (-ENOENT, fib)) ∨
    (∃ e, e < BUCKET_SIZE ∧
      fib_entry_matches_face fib.table name len (crc (name.take len)) face
        (crc (name.take len) % fib.table.num_buckets) e ∧
      (∀ e1, e1 < e →
        ¬ fib_entry_matches_face fib.table name len (crc (name.take len)) face
          (crc (name.take len) % fib.table.num_buckets) e1) ∧
      fib_del crc fib name len face =
        (0, { table := (fib_clear fib.table (crc (name.take len) % fib.table.num_buckets) e) }))
    := by
  have hmod : len % 256 = len := Nat.mod_eq_of_lt hlen
  have hguard : ¬ (len = 0 ∨ name.getD 0 0 = 0) := by
    rintro (h | h)
    · exact hlen0 h
    · exact h0 h
  unfold fib_del
  simp only [hguard, if_false, hmod, fib_hash_table_del_key]
  rcases del_key_with_hash_cases fib.table name len (crc (name.take len)) face with
    ⟨hno, h⟩ | ⟨e, he, hm, hlow, h⟩
  · left
    refine ⟨hno, ?_⟩
    rw [h]
    simp [ENOENT]
  · right
    refine ⟨e, he, hm, hlow, ?_⟩
    rw [h]
    simp

theorem fib_del_frame (crc : List Nat → Nat) (fib : fib_t) (name : List Nat) (len face : Nat) :
    (fib_del crc fib name len face).2.table.next_free_element = fib.table.next_free_element ∧
    (fib_del crc fib name len face).2.table.fwd_table = fib.table.fwd_table ∧
    (fib_del crc fib name len face).2.table.max_elements = fib.table.max_elements ∧
    (fib_del crc fib name len face).2.table.num_buckets = fib.table.num_buckets := by
  rw [fib_del_table]
  split
  · exact ⟨rfl, rfl, rfl, rfl⟩
  · unfold fib_hash_table_del_key
    rcases del_key_with_hash_cases fib.table name (len % 256) (crc (name.take (len % 256)))
        face with ⟨_, h⟩ | ⟨e, _, _, _, h⟩
    · rw [h]; exact ⟨rfl, rfl, rfl, rfl⟩
    · rw [h]; exact ⟨rfl, rfl, rfl, rfl⟩

theorem fib_add_nfe (crc : List Nat → Nat) (fib : fib_t) (name : List Nat) (len face : Nat) :
    (fib_add crc fib name len face).2.table.next_free_element =
      if (fib_add crc fib name len face).1 = 0 then fib.table.next_free_element + 1
      else fib.table.next_free_element := by
  unfold fib_add
  split
  · simp [EINVAL]
  · dsimp only
    unfold fib_hash_table_add_key
    rcases add_key_with_hash_cases fib.table name (len % 256) face
        (crc (name.take (len % 256))) with ⟨_, h⟩ | ⟨e, _, _, _, _, h⟩
    · rw [h]; simp [ENOSPC]
    · rw [h]; simp [fib_store]

theorem FibRun_nfe (crc : List Nat → Nat) (fib : fib_t) (k : Nat) (h : FibRun crc fib k) :
    fib.table.next_free_element = k := by
  induction h with
  | create nb me hb => rfl
  | add_ok fib k name len face _ _ _ hret ih =>
    rw [fib_add_nfe, if_pos hret, ih]
  | add_failed fib k name len face _ _ _ hret ih =>
    rw [fib_add_nfe, if_neg hret, ih]
  | del fib k name len face _ ih =>
    rw [(fib_del_frame crc fib name len face).1, ih]

theorem fib_add_full (crc : List Nat → Nat) (fib : fib_t) (name : List Nat) (len face : Nat)
    (hfull : fib.table.next_free_element = fib.table.max_elements)
    (hlen0 : len ≠ 0) (h0 : name.getD 0 0 ≠ 0) :
    (fib_add crc fib name len face).1 = -ENOSPC := by
  have hguard : ¬ (len = 0 ∨ name.getD 0 0 = 0) := by
    rintro (h | h)
    · exact hlen0 h
    · exact h0 h
  unfold fib_add
  simp only [hguard, if_false, fib_hash_table_add_key]
  rcases add_key_with_hash_cases fib.table name (len % 256) face
      (crc (name.take (len % 256))) with ⟨_, h⟩ | ⟨e, _, _, _, hroom, _⟩
  · rw [h]; simp [ENOSPC]
  · exact absurd hfull hroom

theorem fib_match_array_lt (t : fibh_t) (name : List Nat) (len c : Nat)
    (hface : ∀ i, (t.fwd_table i).face < 256) (i : Nat) :
    (fib_match_array t name len c).getD i 0 < 256 := by
  by_cases hi : i < (fib_match_array t name len c).length
  · obtain ⟨e, _, _, hfe⟩ := (mem_fib_match_array t name len c _).mp (getD_mem_of_lt hi)
    rw [← hfe]; exact hface _
  · rw [List.getD_eq_default _ _ (Nat.le_of_not_lt hi)]
    decide

/-! ## The probe loop of the PIT -/

theorem pit_update_loop_eq (pit : pit_t) (name : List Nat) (len c bucket : Nat) :
    ∀ (l : List Nat) (ft : Nat),
      pit_update_loop pit name len c bucket l ft =
        match l.find? (fun e => decide (pit_entry_matches pit name len c bucket e)) with
        | some e0 => Sum.inl e0
        | none => Sum.inr (pit_free_tab pit bucket l ft) := by
  intro l
  induction l with
  | nil => intro ft; rfl
  | cons e rest ih =>
    intro ft
    unfold pit_update_loop
    rw [List.find?_cons]
    by_cases hm : pit_entry_matches pit name len c bucket e
    · obtain ⟨hb, hc, hl, hn⟩ := hm
      rw [if_neg hb, if_neg (not_not.mpr hc), if_neg (not_not.mpr hl), if_neg (not_not.mpr hn),
        decide_eq_true (show pit_entry_matches pit name len c bucket e from ⟨hb, hc, hl, hn⟩)]
    · rw [decide_eq_false hm]
      have hstep : pit_free_tab pit bucket (e :: rest) ft =
          pit_free_tab pit bucket rest
            (if (pit.table bucket).busy e = 0 ∧ e < ft then e else ft) := rfl
      rw [hstep]
      by_cases hb : (pit.table bucket).busy e = 0
      · rw [if_pos hb, ih]
        simp only [hb, true_and]
      · have hft : (if (pit.table bucket).busy e = 0 ∧ e < ft then e else ft) = ft :=
          if_neg (fun h => hb h.1)
        rw [if_neg hb, hft]
        by_cases hc : ((pit.table bucket).entry e).crc = c
        · rw [if_neg (not_not.mpr hc)]
          by_cases hl : len = (pit.ring ((pit.table bucket).entry e).index).name_len
          · rw [if_neg (not_not.mpr hl)]
            have hn : ¬ memcmp_eq name (pit.ring ((pit.table bucket).entry e).index).name len :=
              fun h => hm ⟨hb, hc, hl, h⟩
            rw [if_pos hn, ih]
          · rw [if_pos hl, ih]
        · rw [if_pos hc, ih]

theorem pit_free_tab_of_le (pit : pit_t) (bucket : Nat) :
    ∀ (l : List Nat) (ft : Nat), (∀ e, e ∈ l → ft ≤ e) → pit_free_tab pit bucket l ft = ft := by
  intro l
  induction l with
  | nil => intro ft _; rfl
  | cons e rest ih =>
    intro ft h
    have he : ¬ e < ft := Nat.not_lt.mpr (h e (List.mem_cons_self _ _))
    unfold pit_free_tab
    simp only [List.foldl_cons, he, and_false, if_false]
    exact ih ft (fun x hx => h x (List.mem_cons_of_mem _ hx))

theorem pit_free_tab_sorted (pit : pit_t) (bucket : Nat) :
    ∀ (l : List Nat), l.Pairwise (· < ·) → (∀ e, e ∈ l → e < 255) →
      pit_free_tab pit bucket l 255 =
        (l.find? (fun e => decide ((pit.table bucket).busy e = 0))).getD 255 := by
  intro l
  induction l with
  | nil => intro _ _; rfl
  | cons e rest ih =>
    intro hs hlt
    have he := hlt e (List.mem_cons_self _ _)
    rw [List.pairwise_cons] at hs
    by_cases hb : (pit.table bucket).busy e = 0
    · unfold pit_free_tab
      simp only [List.foldl_cons, hb, he, and_self, if_true, List.find?_cons, decide_True,
        Option.getD_some]
      exact pit_free_tab_of_le pit bucket rest e (fun x hx => Nat.le_of_lt (hs.1 x hx))
    · have := ih hs.2 (fun x hx => hlt x (List.mem_cons_of_mem _ hx))
      unfold pit_free_tab at this ⊢
      simp only [List.foldl_cons, hb, false_and, if_false, List.find?_cons, decide_False]
      exact this

/-- What `__pit_lookup_and_update_with_hash` does, case by case. -/
theorem pit_update_cases (pit : pit_t) (name : List Nat) (len face : Nat)
    (ct : Option Nat) (now c : Nat) :
    (∃ e0, e0 < BUCKET_SIZE ∧ pit_entry_matches pit name len c (c % pit.num_buckets) e0 ∧
      (∀ e1, e1 < e0 → ¬ pit_entry_matches pit name len c (c % pit.num_buckets) e1) ∧
      __pit_lookup_and_update_with_hash pit name len face ct now c =
        (0, if (pit.ring ((pit.table (c % pit.num_buckets)).entry e0).index).face_bitmask &&&
              face_mask face = 0 then
            pit_set_mask pit ((pit.table (c % pit.num_buckets)).entry e0).index
              ((pit.ring ((pit.table (c % pit.num_buckets)).entry e0).index).face_bitmask |||
                face_mask face)
          else pit)) ∨
    ((∀ e, e < BUCKET_SIZE → ¬ pit_entry_matches pit name len c (c % pit.num_buckets) e) ∧
      ((∀ e, e < BUCKET_SIZE → (pit.table (c % pit.num_buckets)).busy e ≠ 0) ∨
        is_pit_full pit = true) ∧
      __pit_lookup_and_update_with_hash pit name len face ct now c = (-ENOSPC, pit)) ∨
    ((∀ e, e < BUCKET_SIZE → ¬ pit_entry_matches pit name len c (c % pit.num_buckets) e) ∧
      ∃ e0, e0 < BUCKET_SIZE ∧ (pit.table (c % pit.num_buckets)).busy e0 = 0 ∧
        (∀ e1, e1 < e0 → (pit.table (c % pit.num_buckets)).busy e1 ≠ 0) ∧
        is_pit_full pit = false ∧
        __pit_lookup_and_update_with_hash pit name len face ct now c =
          ((1 : Int), pit_store pit (c % pit.num_buckets) e0 name len face
            (match ct with
              | none => (now + pit.ttl) % 2 ^ 64
              | some t => (t + pit.ttl) % 2 ^ 64) c)) := by
  unfold __pit_lookup_and_update_with_hash
  dsimp only
  rw [pit_update_loop_eq]
  cases hfind : (List.range BUCKET_SIZE).find?
      (fun e => decide (pit_entry_matches pit name len c (c % pit.num_buckets) e)) with
  | some e0 =>
    left
    obtain ⟨h1, h2, h3⟩ := List.find?_range_eq_some.mp hfind
    refine ⟨e0, List.mem_range.mp h2, by simpa using h1, ?_, ?_⟩
    · intro e1 he1; simpa using h3 e1 he1
    · dsimp only
      split <;> rfl
  | none =>
    right
    have hnone : ∀ e, e < BUCKET_SIZE →
        ¬ pit_entry_matches pit name len c (c % pit.num_buckets) e := by
      intro e he
      have := List.find?_eq_none.mp hfind e (List.mem_range.mpr he)
      simpa using this
    dsimp only
    have hlt : ∀ e, e ∈ List.range BUCKET_SIZE → e < 255 := by
      intro e he
      have h7 : e < 7 := List.mem_range.mp he
      omega
    rw [pit_free_tab_sorted pit (c % pit.num_buckets) (List.range BUCKET_SIZE)
      (List.pairwise_lt_range _) hlt]
    cases hfree : (List.range BUCKET_SIZE).find?
        (fun e => decide ((pit.table (c % pit.num_buckets)).busy e = 0)) with
    | none =>
      left
      refine ⟨hnone, Or.inl ?_, by simp⟩
      intro e he
      have := List.find?_eq_none.mp hfree e (List.mem_range.mpr he)
      simpa using this
    | some e0 =>
      obtain ⟨h1, h2, h3⟩ := List.find?_range_eq_some.mp hfree
      have he0 : e0 < 7 := List.mem_range.mp h2
      have hne : e0 ≠ 255 := by omega
      by_cases hfull : is_pit_full pit = true
      · left
        refine ⟨hnone, Or.inr hfull, ?_⟩
        simp [hfull]
      · right
        refine ⟨hnone, e0, he0, by simpa using h1, ?_, by simpa using hfull, ?_⟩
        · intro e1 he1; simpa using h3 e1 he1
        · have hcond : ¬ ((some e0).getD 255 = 255 ∨ is_pit_full pit = true) := by
            rintro (h | h)
            · exact hne h
            · exact hfull h
          rw [if_neg hcond]
          rfl

theorem face_mask_of_lt {face : Nat} (h : face < 31) : face_mask face = 2 ^ face := by
  unfold face_mask
  have hmod : face % 32 = face := Nat.mod_eq_of_lt (by omega)
  rw [hmod]
  have : 2 ^ face < 2 ^ 31 := Nat.pow_lt_pow_right (by decide) h
  rw [if_pos this]

theorem face_mask_pos (face : Nat) : face_mask face ≠ 0 := by
  unfold face_mask
  have : 0 < 2 ^ (face % 32) := Nat.pos_pow_of_pos _ (by decide)
  split <;> omega

theorem pit_store_ring (pit : pit_t) (B e0 : Nat) (name : List Nat) (len face x c i : Nat) :
    (pit_store pit B e0 name len face x c).ring i =
      if i = pit.top then
        { active := 1, bucket := B, tab := e0, expiry := x, name_len := len,
          name := memcpy (pit.ring pit.top).name name len, face_bitmask := face_mask face }
      else pit.ring i := by
  simp only [pit_store, upd_apply]

theorem pit_store_busy (pit : pit_t) (B e0 : Nat) (name : List Nat) (len face x c b e : Nat) :
    ((pit_store pit B e0 name len face x c).table b).busy e =
      if b = B ∧ e = e0 then 1 else (pit.table b).busy e := by
  simp only [pit_store, upd_apply]
  by_cases hb : b = B <;> by_cases he : e = e0 <;> simp [hb, he, upd]

theorem pit_store_entry (pit : pit_t) (B e0 : Nat) (name : List Nat) (len face x c b e : Nat) :
    ((pit_store pit B e0 name len face x c).table b).entry e =
      if b = B ∧ e = e0 then { crc := c, index := pit.top } else (pit.table b).entry e := by
  simp only [pit_store, upd_apply]
  by_cases hb : b = B <;> by_cases he : e = e0 <;> simp [hb, he, upd]

theorem or_and_self_right (a m : Nat) : (a ||| m) &&& m = m := by
  apply Nat.eq_of_testBit_eq
  intro i
  rw [Nat.testBit_and, Nat.testBit_or]
  cases a.testBit i <;> cases m.testBit i <;> rfl

theorem or_two_pow_of_and_ne_zero {a f : Nat} (h : a &&& 2 ^ f ≠ 0) : a ||| 2 ^ f = a := by
  obtain ⟨i, hi⟩ := Nat.ne_zero_implies_bit_true h
  rw [Nat.testBit_and, Nat.testBit_two_pow] at hi
  have hif : f = i := by
    by_contra hne
    simp [hne] at hi
  subst hif
  have haf : a.testBit f = true := by
    simpa using hi
  apply Nat.eq_of_testBit_eq
  intro j
  rw [Nat.testBit_or, Nat.testBit_two_pow]
  by_cases hj : f = j
  · subst hj; simp [haf]
  · simp [hj]

theorem pit_set_mask_self (pit : pit_t) (i : Nat) :
    pit_set_mask pit i (pit.ring i).face_bitmask = pit := by
  unfold pit_set_mask
  have : upd pit.ring i { pit.ring i with face_bitmask := (pit.ring i).face_bitmask } = pit.ring := by
    funext j
    simp only [upd_apply]
    split
    · rename_i h; rw [h]
    · rfl
  rw [this]

theorem pit_set_mask_matches (pit : pit_t) (i m : Nat) (name : List Nat) (len c b e : Nat) :
    pit_entry_matches (pit_set_mask pit i m) name len c b e ↔
      pit_entry_matches pit name len c b e := by
  unfold pit_entry_matches pit_set_mask
  simp only [upd_apply]
  by_cases h : ((pit.table b).entry e).index = i
  · simp only [h, if_true]
  · simp only [h, if_false]

/-- The update when entry `e0` is the first matching entry of the bucket. -/
theorem pit_update_of_match (pit : pit_t) (name : List Nat) (len face : Nat)
    (ct : Option Nat) (now c e0 : Nat) (he0 : e0 < BUCKET_SIZE)
    (hm : pit_entry_matches pit name len c (c % pit.num_buckets) e0)
    (hfirst : ∀ e1, e1 < e0 → ¬ pit_entry_matches pit name len c (c % pit.num_buckets) e1) :
    __pit_lookup_and_update_with_hash pit name len face ct now c =
      (0, if (pit.ring ((pit.table (c % pit.num_buckets)).entry e0).index).face_bitmask &&&
            face_mask face = 0 then
          pit_set_mask pit ((pit.table (c % pit.num_buckets)).entry e0).index
            ((pit.ring ((pit.table (c % pit.num_buckets)).entry e0).index).face_bitmask |||
              face_mask face)
        else pit) := by
  rcases pit_update_cases pit name len face ct now c with
    ⟨e, _, hme, hlow, hres⟩ | ⟨hno, _, _⟩ | ⟨hno, _⟩
  · have hee : e = e0 := by
      rcases Nat.lt_trichotomy e e0 with h | h | h
      · exact absurd hme (hfirst e h)
      · exact h
      · exact absurd hm (hlow e0 h)
    subst hee
    exact hres
  · exact absurd hm (hno e0 he0)
  · exact absurd hm (hno e0 he0)

/-! ## Ring positions -/

theorem ring_next_eq_mod {cap x : Nat} (hx : x < cap) (hcap : cap ≤ 2 ^ 31) :
    ((x + 1) % 2 ^ 32) % cap = ring_next cap x := by
  unfold ring_next
  have h1 : (x + 1) % 2 ^ 32 = x + 1 := Nat.mod_eq_of_lt (by omega)
  rw [h1]
  split
  · next h => rw [h, Nat.mod_self]
  · next h => exact Nat.mod_eq_of_lt (by omega)

theorem ring_next_eq_wrap {cap x : Nat} (hx : x < cap) (hcap : cap ≤ 2 ^ 31) :
    (if x = (cap + 2 ^ 32 - 1) % 2 ^ 32 then 0 else (x + 1) % 2 ^ 32) = ring_next cap x := by
  unfold ring_next
  have h1 : (x + 1) % 2 ^ 32 = x + 1 := Nat.mod_eq_of_lt (by omega)
  have h2 : (cap + 2 ^ 32 - 1) % 2 ^ 32 = cap - 1 := by omega
  rw [h1, h2]
  by_cases h : x + 1 = cap
  · rw [if_pos (by omega), if_pos h]
  · rw [if_neg (by omega), if_neg h]

theorem ring_next_lt {cap x : Nat} (hx : x < cap) : ring_next cap x < cap := by
  unfold ring_next
  split <;> omega

theorem ring_occupancy_eq {cap bottom top : Nat} (ht : top < cap) (hb : bottom < cap)
    (hcap : cap ≤ 2 ^ 31) :
    ((top + cap + (2 ^ 32 - bottom % 2 ^ 32)) % 2 ^ 32) % cap = ring_dist cap bottom top := by
  unfold ring_dist
  have h1 : (top + cap + (2 ^ 32 - bottom % 2 ^ 32)) % 2 ^ 32 = top + cap - bottom := by omega
  rw [h1]
  split
  · next h =>
    have : top + cap - bottom = (top - bottom) + cap := by omega
    rw [this, Nat.add_mod_right]
    exact Nat.mod_eq_of_lt (by omega)
  · next h => exact Nat.mod_eq_of_lt (by omega)

theorem ring_window_lt {cap bottom top i : Nat} (ht : top < cap)
    (h : ring_window cap bottom top i) : i < cap := by
  unfold ring_window at h
  split at h <;> omega

theorem ring_window_top {cap bottom top : Nat} : ¬ ring_window cap bottom top top := by
  unfold ring_window
  split <;> omega

theorem ring_window_bottom {cap bottom top : Nat} (hb : bottom < cap) (hne : bottom ≠ top) :
    ring_window cap bottom top bottom := by
  unfold ring_window
  split <;> omega

theorem ring_window_push {cap bottom top i : Nat} (hb : bottom < cap)
    (hfull : ring_next cap top ≠ bottom) :
    ring_window cap bottom (ring_next cap top) i ↔ ring_window cap bottom top i ∨ i = top := by
  unfold ring_window ring_next at *
  split_ifs at * <;> omega

theorem ring_window_pop {cap bottom top i : Nat} (ht : top < cap) (hb : bottom < cap)
    (hne : bottom ≠ top) :
    ring_window cap (ring_next cap bottom) top i ↔ ring_window cap bottom top i ∧ i ≠ bottom := by
  unfold ring_window ring_next at *
  split_ifs at * <;> omega

theorem ring_window_empty {cap bottom i : Nat} : ¬ ring_window cap bottom bottom i := by
  unfold ring_window
  split <;> omega

theorem ring_dist_lt {cap bottom top i : Nat} (hb : bottom < cap)
    (h : ring_window cap bottom top i) : ring_dist cap bottom i < ring_dist cap bottom top := by
  unfold ring_window ring_dist at *
  split_ifs at * <;> omega

theorem ring_dist_pop {cap bottom top i : Nat} (ht : top < cap) (hb : bottom < cap)
    (h : ring_window cap bottom top i) (hne : i ≠ bottom) :
    ring_dist cap (ring_next cap bottom) i + 1 = ring_dist cap bottom i := by
  unfold ring_window ring_dist ring_next at *
  split_ifs at * <;> omega

theorem ring_dist_top_pop {cap bottom top : Nat} (ht : top < cap) (hb : bottom < cap)
    (hne : bottom ≠ top) :
    ring_dist cap (ring_next cap bottom) top + 1 = ring_dist cap bottom top := by
  unfold ring_dist ring_next at *
  split_ifs at * <;> omega

theorem ring_dist_top_push {cap bottom top : Nat} (hb : bottom < cap)
    (hfull : ring_next cap top ≠ bottom) :
    ring_dist cap bottom (ring_next cap top) = ring_dist cap bottom top + 1 := by
  unfold ring_dist ring_next at *
  split_ifs at * <;> omega

theorem ring_dist_zero {cap bottom top : Nat} (hb : bottom < cap) :
    ring_dist cap bottom top = 0 ↔ top = bottom := by
  unfold ring_dist
  split_ifs <;> omega

/-! ## The PIT invariant -/

theorem pit_create_fields (nb me hz us : Nat) :
    (pit_create nb me hz us).max_elements = me + 1 ∧
    (pit_create nb me hz us).num_buckets = nb ∧
    (pit_create nb me hz us).top = 0 ∧ (pit_create nb me hz us).bottom = 0 ∧
    (∀ b e, ((pit_create nb me hz us).table b).busy e = 0) ∧
    (∀ i, ((pit_create nb me hz us).ring i).active = 0) :=
  ⟨rfl, rfl, rfl, rfl, fun _ _ => rfl, fun _ => rfl⟩

theorem PitInv_create (crc : List Nat → Nat) (nb me hz us : Nat) (hb : 0 < nb)
    (hme : me < 2 ^ 31) : PitInv crc (pit_create nb me hz us) := by
  obtain ⟨h1, h2, h3, h4, h5, h6⟩ := pit_create_fields nb me hz us
  refine ⟨by omega, by omega, by omega, by omega, by omega, ?_, ?_, ?_, ?_, ?_, ?_⟩
  · intro b e; rw [h5]; omega
  · intro i; rw [h6]; omega
  · intro b e h; exact absurd (h5 b e) h
  · intro i h; exact absurd (h6 i) h
  · intro i h; exact absurd (h6 i) h
  · intro i j h; exact absurd (h6 i) h

/-- An active entry that holds a name is found by the probe of that name. -/
theorem pit_active_matches {crc : List Nat → Nat} {pit : pit_t} (h : PitInv crc pit)
    {i : Nat} (hact : (pit.ring i).active ≠ 0) {name : List Nat} {len : Nat}
    (hname : pit_entry_has_name (pit.ring i) name len) :
    (pit.ring i).tab < BUCKET_SIZE ∧
    (pit.ring i).bucket = crc (name.take len) % pit.num_buckets ∧
    ((pit.table (pit.ring i).bucket).entry (pit.ring i).tab).index = i ∧
    pit_entry_matches pit name len (crc (name.take len))
      (crc (name.take len) % pit.num_buckets) (pit.ring i).tab := by
  obtain ⟨_, hlive, hidx⟩ := h.active i hact
  obtain ⟨he, hb, _, _, _, _, hcrc⟩ := h.slot _ _ hlive
  have hrec : pit_record pit (pit.ring i).bucket (pit.ring i).tab = pit.ring i := by
    unfold pit_record; rw [hidx]
  rw [hrec] at hcrc
  obtain ⟨hl, ht⟩ := hname
  rw [hl, ht] at hcrc
  rw [hcrc] at hb
  refine ⟨he, hb, hidx, ?_⟩
  rw [← hb]
  refine ⟨hlive, hcrc, ?_, ?_⟩
  · rw [hidx]; exact hl.symm
  · rw [hidx]; exact ht.symm

theorem pit_match_active {crc : List Nat → Nat} {pit : pit_t} (h : PitInv crc pit)
    {name : List Nat} {len c b e : Nat} (hm : pit_entry_matches pit name len c b e) :
    pit_live pit b e ∧ (pit_record pit b e).active = 1 ∧
    pit_entry_has_name (pit_record pit b e) name len := by
  obtain ⟨hbusy, _, hl, ht⟩ := hm
  obtain ⟨_, _, _, hact, _⟩ := h.slot b e hbusy
  exact ⟨hbusy, hact, hl.symm, ht.symm⟩

theorem PitInv_set_mask {crc : List Nat → Nat} {pit : pit_t} (h : PitInv crc pit)
    (i m : Nat) (hm : m ≠ 0) : PitInv crc (pit_set_mask pit i m) := by
  have hring : ∀ j, ((pit_set_mask pit i m).ring j).active = (pit.ring j).active ∧
      ((pit_set_mask pit i m).ring j).bucket = (pit.ring j).bucket ∧
      ((pit_set_mask pit i m).ring j).tab = (pit.ring j).tab ∧
      ((pit_set_mask pit i m).ring j).name_len = (pit.ring j).name_len ∧
      ((pit_set_mask pit i m).ring j).name = (pit.ring j).name ∧
      ((pit_set_mask pit i m).ring j).face_bitmask =
        if j = i then m else (pit.ring j).face_bitmask := by
    intro j
    simp only [pit_set_mask, upd_apply]
    by_cases hj : j = i
    · subst hj; simp
    · simp [hj]
  refine ⟨h.cap_pos, h.cap_le, h.buckets_pos, h.top_lt, h.bottom_lt, h.busy_le, ?_, ?_, ?_,
    ?_, ?_⟩
  · intro j; rw [(hring j).1]; exact h.active_le j
  · intro b e hl
    obtain ⟨h1, h2, h3, h4, h5, h6, h7⟩ := h.slot b e hl
    have hr := hring ((pit.table b).entry e).index
    refine ⟨h1, h2, h3, ?_, ?_, ?_, ?_⟩
    · exact hr.1.trans h4
    · exact hr.2.1.trans h5
    · exact hr.2.2.1.trans h6
    · have htab : (pit_set_mask pit i m).table = pit.table := rfl
      unfold pit_record
      rw [htab, hr.2.2.2.1, hr.2.2.2.2.1]; exact h7
  · intro j hj
    rw [(hring j).1] at hj
    rw [(hring j).2.1, (hring j).2.2.1]
    exact h.active j hj
  · intro j hj
    rw [(hring j).1] at hj
    rw [(hring j).2.2.2.2.2]
    split
    · exact hm
    · exact h.mask j hj
  · intro j k hj hk h1 h2
    rw [(hring j).1] at hj
    rw [(hring k).1] at hk
    rw [(hring j).2.2.2.1, (hring k).2.2.2.1] at h1 h2
    rw [(hring j).2.2.2.2.1, (hring k).2.2.2.2.1] at h2
    exact h.unique j k hj hk h1 h2


theorem pit_store_fields (pit : pit_t) (B e0 : Nat) (name : List Nat) (len face x c : Nat) :
    (pit_store pit B e0 name len face x c).max_elements = pit.max_elements ∧
    (pit_store pit B e0 name len face x c).num_buckets = pit.num_buckets ∧
    (pit_store pit B e0 name len face x c).bottom = pit.bottom ∧
    (pit_store pit B e0 name len face x c).ttl = pit.ttl ∧
    (pit_store pit B e0 name len face x c).top =
      ((pit.top + 1) % 2 ^ 32) % pit.max_elements :=
  ⟨rfl, rfl, rfl, rfl, rfl⟩

theorem is_pit_full_false {crc : List Nat → Nat} {pit : pit_t} (h : PitInv crc pit)
    (hf : is_pit_full pit = false) : ring_next pit.max_elements pit.top ≠ pit.bottom := by
  unfold is_pit_full at hf
  rw [ring_next_eq_mod h.top_lt h.cap_le] at hf
  simpa using hf

theorem is_pit_full_true {crc : List Nat → Nat} {pit : pit_t} (h : PitInv crc pit)
    (hf : is_pit_full pit = true) : ring_next pit.max_elements pit.top = pit.bottom := by
  unfold is_pit_full at hf
  rw [ring_next_eq_mod h.top_lt h.cap_le] at hf
  simpa using hf

theorem PitInv_store {crc : List Nat → Nat} {pit : pit_t} (h : PitInv crc pit)
    (name : List Nat) (len face x e0 : Nat) (hlen : len ≤ name.length)
    (he0 : e0 < BUCKET_SIZE)
    (hfree : (pit.table (crc (name.take len) % pit.num_buckets)).busy e0 = 0)
    (hfull : is_pit_full pit = false)
    (hnone : ∀ e, e < BUCKET_SIZE → ¬ pit_entry_matches pit name len (crc (name.take len))
      (crc (name.take len) % pit.num_buckets) e) :
    PitInv crc (pit_store pit (crc (name.take len) % pit.num_buckets) e0 name len face x
      (crc (name.take len))) := by
  obtain ⟨f1, f2, f3, _, f5⟩ := pit_store_fields pit
    (crc (name.take len) % pit.num_buckets) e0 name len face x (crc (name.take len))
  rw [ring_next_eq_mod h.top_lt h.cap_le] at f5
  have hnf := is_pit_full_false h hfull
  have hwin : ∀ i, pit_in_window (pit_store pit (crc (name.take len) % pit.num_buckets) e0
      name len face x (crc (name.take len))) i ↔ pit_in_window pit i ∨ i = pit.top := by
    intro i
    unfold pit_in_window
    rw [f1, f3, f5]
    exact ring_window_push h.bottom_lt hnf
  have hnoname : ∀ j, (pit.ring j).active ≠ 0 → ¬ pit_entry_has_name (pit.ring j) name len := by
    intro j hj hn
    obtain ⟨a1, _, _, a4⟩ := pit_active_matches h hj hn
    exact hnone _ a1 a4
  refine ⟨by rw [f1]; exact h.cap_pos, by rw [f1]; exact h.cap_le,
    by rw [f2]; exact h.buckets_pos, by rw [f1, f5]; exact ring_next_lt h.top_lt,
    by rw [f1, f3]; exact h.bottom_lt, ?_, ?_, ?_, ?_, ?_, ?_⟩
  · intro b e
    rw [pit_store_busy]
    split
    · exact le_refl 1
    · exact h.busy_le b e
  · intro i
    rw [pit_store_ring]
    split
    · exact le_refl 1
    · exact h.active_le i
  · intro b e hl
    unfold pit_live at hl
    unfold pit_record
    rw [pit_store_busy] at hl
    rw [pit_store_entry, f2, hwin]
    by_cases hbe : b = crc (name.take len) % pit.num_buckets ∧ e = e0
    · rw [if_pos hbe]
      dsimp only
      rw [pit_store_ring, if_pos rfl]
      dsimp only
      rw [memcpy_take hlen]
      exact ⟨hbe.2 ▸ he0, hbe.1, Or.inr rfl, rfl, hbe.1.symm, hbe.2.symm, rfl⟩
    · rw [if_neg hbe] at hl ⊢
      obtain ⟨h1, h2, h3, h4, h5, h6, h7⟩ := h.slot b e hl
      have hne : ((pit.table b).entry e).index ≠ pit.top := by
        intro heq
        rw [heq] at h3
        exact ring_window_top h3
      rw [pit_store_ring, if_neg hne]
      exact ⟨h1, h2, Or.inl h3, h4, h5, h6, h7⟩
  · intro i hi
    rw [pit_store_ring] at hi ⊢
    rw [hwin]
    by_cases hit : i = pit.top
    · rw [if_pos hit]
      dsimp only
      refine ⟨Or.inr hit, ?_, ?_⟩
      · unfold pit_live; rw [pit_store_busy, if_pos ⟨rfl, rfl⟩]; omega
      · rw [pit_store_entry, if_pos ⟨rfl, rfl⟩]; exact hit.symm
    · rw [if_neg hit] at hi ⊢
      obtain ⟨a1, a2, a3⟩ := h.active i hi
      have hbe : ¬ ((pit.ring i).bucket = crc (name.take len) % pit.num_buckets ∧
          (pit.ring i).tab = e0) := by
        rintro ⟨hb, he⟩
        rw [hb, he] at a2
        exact a2 hfree
      refine ⟨Or.inl a1, ?_, ?_⟩
      · unfold pit_live; rw [pit_store_busy, if_neg hbe]; exact a2
      · rw [pit_store_entry, if_neg hbe]; exact a3
  · intro i hi
    rw [pit_store_ring] at hi ⊢
    by_cases hit : i = pit.top
    · rw [if_pos hit]; exact face_mask_pos face
    · rw [if_neg hit] at hi ⊢; exact h.mask i hi
  · intro i j hi hj h1 h2
    have hnew : ∀ k, k = pit.top →
        (pit_store pit (crc (name.take len) % pit.num_buckets) e0 name len face x
          (crc (name.take len))).ring k =
        { active := 1, bucket := crc (name.take len) % pit.num_buckets, tab := e0, expiry := x,
          name_len := len, name := memcpy (pit.ring pit.top).name name len,
          face_bitmask := face_mask face } := by
      intro k hk; rw [pit_store_ring, if_pos hk]
    have hold : ∀ k, k ≠ pit.top →
        (pit_store pit (crc (name.take len) % pit.num_buckets) e0 name len face x
          (crc (name.take len))).ring k = pit.ring k := by
      intro k hk; rw [pit_store_ring, if_neg hk]
    by_cases hit : i = pit.top <;> by_cases hjt : j = pit.top
    · rw [hit, hjt]
    · exfalso
      rw [hnew i hit, hold j hjt] at h1 h2
      rw [hold j hjt] at hj
      dsimp only at h1 h2
      rw [memcpy_take hlen, ← h1] at h2
      exact hnoname j hj ⟨h1.symm, h2.symm⟩
    · exfalso
      rw [hold i hit, hnew j hjt] at h1 h2
      rw [hold i hit] at hi
      dsimp only at h1 h2
      rw [memcpy_take hlen, h1] at h2
      exact hnoname i hi ⟨h1, h2⟩
    · rw [hold i hit, hold j hjt] at h1 h2
      rw [hold i hit] at hi
      rw [hold j hjt] at hj
      exact h.unique i j hi hj h1 h2


/-- Releasing an active ring entry together with the bucket entry it points back
to keeps the invariant. -/
theorem PitInv_kill {crc : List Nat → Nat} {pit pit' : pit_t} (h : PitInv crc pit) (i0 : Nat)
    (hact : (pit.ring i0).active ≠ 0)
    (hcap : pit'.max_elements = pit.max_elements) (hnb : pit'.num_buckets = pit.num_buckets)
    (htop : pit'.top = pit.top) (hbot : pit'.bottom = pit.bottom)
    (hring : ∀ i, pit'.ring i =
      if i = i0 then { pit.ring i0 with active := 0 } else pit.ring i)
    (hbusy : ∀ b e, (pit'.table b).busy e =
      if b = (pit.ring i0).bucket ∧ e = (pit.ring i0).tab then 0 else (pit.table b).busy e)
    (hentry : ∀ b e, (pit'.table b).entry e = (pit.table b).entry e) :
    PitInv crc pit' := by
  obtain ⟨_, k2, k3⟩ := h.active i0 hact
  have hwin : ∀ i, pit_in_window pit' i ↔ pit_in_window pit i := by
    intro i; unfold pit_in_window; rw [hcap, htop, hbot]
  have hfld : ∀ i, (pit'.ring i).bucket = (pit.ring i).bucket ∧
      (pit'.ring i).tab = (pit.ring i).tab ∧ (pit'.ring i).name_len = (pit.ring i).name_len ∧
      (pit'.ring i).name = (pit.ring i).name ∧
      (pit'.ring i).face_bitmask = (pit.ring i).face_bitmask ∧
      (pit'.ring i).active = if i = i0 then 0 else (pit.ring i).active := by
    intro i
    rw [hring]
    by_cases hi : i = i0
    · subst hi; simp
    · simp [hi]
  refine ⟨by rw [hcap]; exact h.cap_pos, by rw [hcap]; exact h.cap_le,
    by rw [hnb]; exact h.buckets_pos, by rw [hcap, htop]; exact h.top_lt,
    by rw [hcap, hbot]; exact h.bottom_lt, ?_, ?_, ?_, ?_, ?_, ?_⟩
  · intro b e
    rw [hbusy]
    split
    · omega
    · exact h.busy_le b e
  · intro i
    rw [(hfld i).2.2.2.2.2]
    split
    · omega
    · exact h.active_le i
  · intro b e hl
    unfold pit_live at hl
    rw [hbusy] at hl
    by_cases hbe : b = (pit.ring i0).bucket ∧ e = (pit.ring i0).tab
    · rw [if_pos hbe] at hl; exact absurd rfl hl
    · rw [if_neg hbe] at hl
      obtain ⟨h1, h2, h3, h4, h5, h6, h7⟩ := h.slot b e hl
      unfold pit_record at h4 h5 h6 h7 ⊢
      have hne : ((pit.table b).entry e).index ≠ i0 := by
        intro heq
        rw [heq] at h5 h6
        exact hbe ⟨h5.symm, h6.symm⟩
      have hf := hfld ((pit.table b).entry e).index
      rw [if_neg hne] at hf
      rw [hentry, hnb, hwin, hf.1, hf.2.1, hf.2.2.1, hf.2.2.2.1, hf.2.2.2.2.2]
      exact ⟨h1, h2, h3, h4, h5, h6, h7⟩
  · intro i hi
    have hf := hfld i
    rw [hf.2.2.2.2.2] at hi
    by_cases hii : i = i0
    · rw [if_pos hii] at hi; exact absurd rfl hi
    · rw [if_neg hii] at hi
      obtain ⟨a1, a2, a3⟩ := h.active i hi
      have hbe : ¬ ((pit.ring i).bucket = (pit.ring i0).bucket ∧
          (pit.ring i).tab = (pit.ring i0).tab) := by
        rintro ⟨hb, he⟩
        rw [hb, he, k3] at a3
        exact hii a3.symm
      rw [hwin, hf.1, hf.2.1]
      refine ⟨a1, ?_, ?_⟩
      · unfold pit_live; rw [hbusy, if_neg hbe]; exact a2
      · rw [hentry]; exact a3
  · intro i hi
    have hf := hfld i
    rw [hf.2.2.2.2.2] at hi
    by_cases hii : i = i0
    · rw [if_pos hii] at hi; exact absurd rfl hi
    · rw [if_neg hii] at hi
      rw [hf.2.2.2.2.1]; exact h.mask i hi
  · intro i j hi hj h1 h2
    have hfi := hfld i
    have hfj := hfld j
    rw [hfi.2.2.2.2.2] at hi
    rw [hfj.2.2.2.2.2] at hj
    by_cases hii : i = i0
    · rw [if_pos hii] at hi; exact absurd rfl hi
    · by_cases hjj : j = i0
      · rw [if_pos hjj] at hj; exact absurd rfl hj
      · rw [if_neg hii] at hi
        rw [if_neg hjj] at hj
        rw [hfi.2.2.1, hfj.2.2.1] at h1 h2
        rw [hfi.2.2.2.1, hfj.2.2.2.1] at h2
        exact h.unique i j hi hj h1 h2

/-- Stepping `bottom` over an inactive ring entry keeps the invariant. -/
theorem PitInv_advance {crc : List Nat → Nat} {pit pit' : pit_t} (h : PitInv crc pit)
    (hne : pit.bottom ≠ pit.top) (hin : (pit.ring pit.bottom).active = 0)
    (hcap : pit'.max_elements = pit.max_elements) (hnb : pit'.num_buckets = pit.num_buckets)
    (htop : pit'.top = pit.top) (hbot : pit'.bottom = ring_next pit.max_elements pit.bottom)
    (hring : pit'.ring = pit.ring) (htable : pit'.table = pit.table) :
    PitInv crc pit' := by
  have hwin : ∀ i, pit_in_window pit' i ↔ pit_in_window pit i ∧ i ≠ pit.bottom := by
    intro i; unfold pit_in_window; rw [hcap, htop, hbot]
    exact ring_window_pop h.top_lt h.bottom_lt hne
  have hnb0 : ∀ i, (pit.ring i).active ≠ 0 → i ≠ pit.bottom := by
    intro i hi heq
    rw [heq] at hi
    exact hi hin
  refine ⟨by rw [hcap]; exact h.cap_pos, by rw [hcap]; exact h.cap_le,
    by rw [hnb]; exact h.buckets_pos, by rw [hcap, htop]; exact h.top_lt,
    by rw [hcap, hbot]; exact ring_next_lt h.bottom_lt, ?_, ?_, ?_, ?_, ?_, ?_⟩
  · intro b e; rw [htable]; exact h.busy_le b e
  · intro i; rw [hring]; exact h.active_le i
  · intro b e hl
    unfold pit_live at hl
    unfold pit_record
    rw [htable] at hl ⊢
    rw [hring, hnb, hwin]
    obtain ⟨h1, h2, h3, h4, h5, h6, h7⟩ := h.slot b e hl
    refine ⟨h1, h2, ⟨h3, hnb0 _ ?_⟩, h4, h5, h6, h7⟩
    unfold pit_record at h4
    rw [h4]; omega
  · intro i hi
    rw [hring] at hi ⊢
    unfold pit_live
    rw [htable, hwin]
    obtain ⟨a1, a2, a3⟩ := h.active i hi
    exact ⟨⟨a1, hnb0 i hi⟩, a2, a3⟩
  · intro i hi
    rw [hring] at hi ⊢
    exact h.mask i hi
  · intro i j hi hj h1 h2
    rw [hring] at hi hj h1 h2
    exact h.unique i j hi hj h1 h2

theorem or_ne_zero_right (a : Nat) {b : Nat} (hb : b ≠ 0) : a ||| b ≠ 0 := by
  intro h
  apply hb
  apply Nat.eq_of_testBit_eq
  intro i
  have := congrArg (fun x => x.testBit i) h
  simp only [Nat.testBit_or, Nat.zero_testBit, Bool.or_eq_false_iff] at this
  rw [this.2, Nat.zero_testBit]

theorem PitInv_update {crc : List Nat → Nat} {pit : pit_t} (h : PitInv crc pit)
    (name : List Nat) (len face : Nat) (ct : Option Nat) (now : Nat)
    (hlen : len ≤ name.length) :
    PitInv crc (pit_lookup_and_update crc pit name len face ct now).2 := by
  unfold pit_lookup_and_update
  rcases pit_update_cases pit name len face ct now (crc (name.take len)) with
    ⟨e0, _, _, _, heq⟩ | ⟨_, _, heq⟩ | ⟨hnone, e0, he0, hfree, _, hfull, heq⟩
  · rw [heq]
    dsimp only
    split
    · exact PitInv_set_mask h _ _ (or_ne_zero_right _ (face_mask_pos face))
    · exact h
  · rw [heq]; exact h
  · rw [heq]
    exact PitInv_store h name len face _ e0 hlen he0 hfree hfull hnone

theorem pit_remove_cases (pit : pit_t) (name : List Nat) (len c : Nat) :
    (∃ e0, e0 < BUCKET_SIZE ∧ pit_entry_matches pit name len c (c % pit.num_buckets) e0 ∧
      (∀ e1, e1 < e0 → ¬ pit_entry_matches pit name len c (c % pit.num_buckets) e1) ∧
      __pit_lookup_and_remove_with_hash pit name len c =
        ((pit_record pit (c % pit.num_buckets) e0).face_bitmask,
          pit_unlink pit (c % pit.num_buckets) e0)) ∨
    ((∀ e, e < BUCKET_SIZE → ¬ pit_entry_matches pit name len c (c % pit.num_buckets) e) ∧
      __pit_lookup_and_remove_with_hash pit name len c = (0, pit)) := by
  unfold __pit_lookup_and_remove_with_hash
  cases hfind : (List.range BUCKET_SIZE).find?
      (fun e => decide (pit_entry_matches pit name len c (c % pit.num_buckets) e)) with
  | some e0 =>
    left
    obtain ⟨h1, h2, h3⟩ := List.find?_range_eq_some.mp hfind
    refine ⟨e0, List.mem_range.mp h2, by simpa using h1, ?_, rfl⟩
    intro e1 he1; simpa using h3 e1 he1
  | none =>
    right
    refine ⟨?_, rfl⟩
    intro e he
    have := List.find?_eq_none.mp hfind e (List.mem_range.mpr he)
    simpa using this

theorem pit_lookup_cases (pit : pit_t) (name : List Nat) (len c : Nat) :
    (∃ e0, e0 < BUCKET_SIZE ∧ pit_entry_matches pit name len c (c % pit.num_buckets) e0 ∧
      (∀ e1, e1 < e0 → ¬ pit_entry_matches pit name len c (c % pit.num_buckets) e1) ∧
      pit_lookup pit name len c = some ((pit.table (c % pit.num_buckets)).entry e0).index) ∨
    ((∀ e, e < BUCKET_SIZE → ¬ pit_entry_matches pit name len c (c % pit.num_buckets) e) ∧
      pit_lookup pit name len c = none) := by
  unfold pit_lookup
  cases hfind : (List.range BUCKET_SIZE).find?
      (fun e => decide (pit_entry_matches pit name len c (c % pit.num_buckets) e)) with
  | some e0 =>
    left
    obtain ⟨h1, h2, h3⟩ := List.find?_range_eq_some.mp hfind
    refine ⟨e0, List.mem_range.mp h2, by simpa using h1, ?_, rfl⟩
    intro e1 he1; simpa using h3 e1 he1
  | none =>
    right
    refine ⟨?_, rfl⟩
    intro e he
    have := List.find?_eq_none.mp hfind e (List.mem_range.mpr he)
    simpa using this

theorem pit_unlink_fields (pit : pit_t) (B e : Nat) :
    (pit_unlink pit B e).max_elements = pit.max_elements ∧
    (pit_unlink pit B e).num_buckets = pit.num_buckets ∧
    (pit_unlink pit B e).top = pit.top ∧ (pit_unlink pit B e).ttl = pit.ttl ∧
    (pit_unlink pit B e).bottom =
      (if pit.bottom = ((pit.table B).entry e).index then
        ((pit.bottom + 1) % 2 ^ 32) % pit.max_elements else pit.bottom) ∧
    (∀ i, (pit_unlink pit B e).ring i =
      if i = ((pit.table B).entry e).index then
        { pit.ring ((pit.table B).entry e).index with active := 0 } else pit.ring i) ∧
    (∀ b e1, ((pit_unlink pit B e).table b).busy e1 =
      if b = B ∧ e1 = e then 0 else (pit.table b).busy e1) ∧
    (∀ b e1, ((pit_unlink pit B e).table b).entry e1 = (pit.table b).entry e1) := by
  refine ⟨rfl, rfl, rfl, rfl, rfl, fun i => rfl, ?_, ?_⟩
  · intro b e1
    simp only [pit_unlink, upd_apply]
    by_cases hb : b = B
    · subst hb
      by_cases he : e1 = e
      · simp [he]
      · simp [he, upd]
    · simp [hb]
  · intro b e1
    simp only [pit_unlink, upd_apply]
    by_cases hb : b = B
    · subst hb; simp
    · simp [hb]

theorem PitInv_unlink {crc : List Nat → Nat} {pit : pit_t} (h : PitInv crc pit) (B e : Nat)
    (hl : pit_live pit B e) : PitInv crc (pit_unlink pit B e) := by
  obtain ⟨f1, f2, f3, _, f5, f6, f7, f8⟩ := pit_unlink_fields pit B e
  obtain ⟨_, _, s3, s4, s5, s6, _⟩ := h.slot B e hl
  unfold pit_record at s4 s5 s6
  have hact : (pit.ring ((pit.table B).entry e).index).active ≠ 0 := by rw [s4]; omega
  have hbusy : ∀ b e1, ((pit_unlink pit B e).table b).busy e1 =
      if b = (pit.ring ((pit.table B).entry e).index).bucket ∧
        e1 = (pit.ring ((pit.table B).entry e).index).tab then 0 else (pit.table b).busy e1 := by
    intro b e1; rw [s5, s6]; exact f7 b e1
  by_cases hbot : pit.bottom = ((pit.table B).entry e).index
  · have h1 : PitInv crc { pit_unlink pit B e with bottom := pit.bottom } :=
      PitInv_kill h _ hact f1 f2 f3 rfl f6 hbusy f8
    refine PitInv_advance h1 ?_ ?_ rfl rfl rfl ?_ rfl rfl
    · show pit.bottom ≠ pit.top
      intro heq
      rw [← hbot] at s3
      unfold pit_in_window at s3
      rw [heq] at s3
      exact ring_window_empty s3
    · show ((pit_unlink pit B e).ring pit.bottom).active = 0
      rw [f6, if_pos hbot]
    · show (pit_unlink pit B e).bottom = ring_next pit.max_elements pit.bottom
      rw [f5, if_pos hbot]
      exact ring_next_eq_mod h.bottom_lt h.cap_le
  · rw [if_neg hbot] at f5
    exact PitInv_kill h _ hact f1 f2 f3 f5 f6 hbusy f8

theorem PitInv_remove {crc : List Nat → Nat} {pit : pit_t} (h : PitInv crc pit)
    (name : List Nat) (len : Nat) :
    PitInv crc (pit_lookup_and_remove crc pit name len).2 := by
  unfold pit_lookup_and_remove
  rcases pit_remove_cases pit name len (crc (name.take len)) with
    ⟨e0, _, hm, _, heq⟩ | ⟨_, heq⟩
  · rw [heq]
    exact PitInv_unlink h _ e0 hm.1
  · rw [heq]; exact h

theorem is_pit_empty_iff (pit : pit_t) : is_pit_empty pit = true ↔ pit.top = pit.bottom := by
  unfold is_pit_empty
  simp

theorem pit_advance_bottom_eq {crc : List Nat → Nat} {pit : pit_t} (h : PitInv crc pit) :
    (pit_advance_bottom pit).bottom = ring_next pit.max_elements pit.bottom :=
  ring_next_eq_wrap h.bottom_lt h.cap_le

theorem PitInv_skip {crc : List Nat → Nat} {pit : pit_t} (h : PitInv crc pit)
    (hne : pit.top ≠ pit.bottom) (hin : (pit.ring pit.bottom).active ≠ 1) :
    PitInv crc (pit_advance_bottom pit) := by
  have h0 : (pit.ring pit.bottom).active = 0 := by
    have := h.active_le pit.bottom
    omega
  exact PitInv_advance h (Ne.symm hne) h0 rfl rfl rfl (pit_advance_bottom_eq h) rfl rfl

theorem pit_expire_bottom_fields (pit : pit_t) :
    (pit_expire_bottom pit).max_elements = pit.max_elements ∧
    (pit_expire_bottom pit).num_buckets = pit.num_buckets ∧
    (pit_expire_bottom pit).top = pit.top ∧ (pit_expire_bottom pit).ttl = pit.ttl ∧
    (pit_expire_bottom pit).bottom = pit.bottom ∧
    (∀ i, (pit_expire_bottom pit).ring i =
      if i = pit.bottom then { pit.ring pit.bottom with active := 0 } else pit.ring i) ∧
    (∀ b e1, ((pit_expire_bottom pit).table b).busy e1 =
      if b = (pit.ring pit.bottom).bucket ∧ e1 = (pit.ring pit.bottom).tab then 0
      else (pit.table b).busy e1) ∧
    (∀ b e1, ((pit_expire_bottom pit).table b).entry e1 = (pit.table b).entry e1) := by
  refine ⟨rfl, rfl, rfl, rfl, rfl, fun i => rfl, ?_, ?_⟩
  · intro b e1
    simp only [pit_expire_bottom, upd_apply]
    by_cases hb : b = (pit.ring pit.bottom).bucket
    · rw [if_pos hb]
      by_cases he : e1 = (pit.ring pit.bottom).tab
      · simp [hb, he]
      · simp [hb, he, upd]
    · simp [hb]
  · intro b e1
    simp only [pit_expire_bottom, upd_apply]
    by_cases hb : b = (pit.ring pit.bottom).bucket
    · rw [if_pos hb, hb]
    · simp [hb]

theorem PitInv_expire {crc : List Nat → Nat} {pit : pit_t} (h : PitInv crc pit)
    (hne : pit.top ≠ pit.bottom) (hact : (pit.ring pit.bottom).active = 1) :
    PitInv crc (pit_advance_bottom (pit_expire_bottom pit)) := by
  obtain ⟨f1, f2, f3, _, f5, f6, f7, f8⟩ := pit_expire_bottom_fields pit
  have h1 : PitInv crc (pit_expire_bottom pit) :=
    PitInv_kill h pit.bottom (by rw [hact]; omega) f1 f2 f3 f5 f6 f7 f8
  refine PitInv_advance h1 ?_ ?_ rfl rfl rfl ?_ rfl rfl
  · rw [f5, f3]; exact Ne.symm hne
  · rw [f5, f6, if_pos rfl]
  · exact pit_advance_bottom_eq h1

theorem PitInv_purge_loop {crc : List Nat → Nat} (t : Nat) :
    ∀ (fuel : Nat) (pit : pit_t) (purged r : Nat) (pit' : pit_t), PitInv crc pit →
      pit_purge_loop t fuel pit purged = some (r, pit') → PitInv crc pit' := by
  intro fuel
  induction fuel with
  | zero =>
    intro pit purged r pit' h hrun
    unfold pit_purge_loop at hrun
    split at hrun
    · simp only [Option.some.injEq, Prod.mk.injEq] at hrun
      rw [← hrun.2]; exact h
    · exact absurd hrun (by simp)
  | succ fuel ih =>
    intro pit purged r pit' h hrun
    unfold pit_purge_loop at hrun
    split at hrun
    · simp only [Option.some.injEq, Prod.mk.injEq] at hrun
      rw [← hrun.2]; exact h
    · next hemp =>
      have hne : pit.top ≠ pit.bottom := fun heq => hemp ((is_pit_empty_iff pit).mpr heq)
      split at hrun
      · next hact =>
        split at hrun
        · simp only [Option.some.injEq, Prod.mk.injEq] at hrun
          rw [← hrun.2]; exact h
        · exact ih _ _ _ _ (PitInv_expire h hne hact) hrun
      · next hact => exact ih _ _ _ _ (PitInv_skip h hne hact) hrun

theorem PitInv_of_reachable {crc : List Nat → Nat} {pit : pit_t} (h : PitReachable crc pit) :
    PitInv crc pit := by
  induction h with
  | create nb me hz us hb hme => exact PitInv_create crc nb me hz us hb hme
  | update pit name len face ct now _ hlen _ ih => exact PitInv_update ih name len face ct now hlen
  | remove pit name len _ ih => exact PitInv_remove ih name len
  | purge pit fuel t purged pit' _ hrun ih => exact PitInv_purge_loop t fuel pit 0 purged pit' ih hrun

/-- In a consistent PIT a probe can only stop at a live entry whose ring entry is
active, so a name held by no active entry is matched nowhere. -/
theorem pit_no_match {crc : List Nat → Nat} {pit : pit_t} (h : PitInv crc pit)
    {name : List Nat} {len : Nat}
    (hnone : ∀ i, (pit.ring i).active ≠ 0 → ¬ pit_entry_has_name (pit.ring i) name len)
    (c b e : Nat) : ¬ pit_entry_matches pit name len c b e := by
  intro hm
  obtain ⟨_, hact, hn⟩ := pit_match_active h hm
  exact hnone _ (by unfold pit_record at hact; rw [hact]; omega) hn

theorem pit_lookup_none {crc : List Nat → Nat} {pit : pit_t} (h : PitInv crc pit)
    {name : List Nat} {len : Nat}
    (hnone : ∀ i, (pit.ring i).active ≠ 0 → ¬ pit_entry_has_name (pit.ring i) name len)
    (c : Nat) : pit_lookup pit name len c = none := by
  rcases pit_lookup_cases pit name len c with ⟨e0, _, hm, _, _⟩ | ⟨_, heq⟩
  · exact absurd hm (pit_no_match h hnone _ _ _)
  · exact heq

theorem pit_remove_none {crc : List Nat → Nat} {pit : pit_t} (h : PitInv crc pit)
    {name : List Nat} {len : Nat}
    (hnone : ∀ i, (pit.ring i).active ≠ 0 → ¬ pit_entry_has_name (pit.ring i) name len) :
    pit_lookup_and_remove crc pit name len = (0, pit) := by
  unfold pit_lookup_and_remove
  rcases pit_remove_cases pit name len (crc (name.take len)) with ⟨e0, _, hm, _, _⟩ | ⟨_, heq⟩
  · exact absurd hm (pit_no_match h hnone _ _ _)
  · exact heq

/-- The removal of a name that a live entry holds: it stops at that entry. -/
theorem pit_remove_live (crc : List Nat → Nat) {pit : pit_t} (h : PitInv crc pit)
    {name : List Nat} {len b e : Nat} (hl : pit_live pit b e)
    (hn : pit_entry_has_name (pit_record pit b e) name len) :
    pit_lookup_and_remove crc pit name len =
      ((pit_record pit b e).face_bitmask, pit_unlink pit b e) := by
  obtain ⟨hlt, _, _, s4, s5, s6, _⟩ := h.slot b e hl
  unfold pit_record at s4 s5 s6 hn ⊢
  have hact : (pit.ring ((pit.table b).entry e).index).active ≠ 0 := by rw [s4]; omega
  obtain ⟨_, a2, _, a4⟩ := pit_active_matches h hact hn
  rw [s5] at a2
  rw [s6, ← a2] at a4
  unfold pit_lookup_and_remove
  rcases pit_remove_cases pit name len (crc (name.take len)) with
    ⟨e0, _, hm, _, heq⟩ | ⟨hno, _⟩
  · rw [← a2] at hm heq
    obtain ⟨m1, m2, m3⟩ := pit_match_active h hm
    obtain ⟨_, _, _, _, _, t6, _⟩ := h.slot _ e0 m1
    unfold pit_record at m2 m3 t6 heq
    have hidx : ((pit.table b).entry e0).index = ((pit.table b).entry e).index :=
      h.unique _ _ (by rw [m2]; omega) hact (m3.1.trans hn.1.symm)
        (by rw [m3.1, hn.1, m3.2, hn.2])
    rw [hidx] at t6
    have he : e0 = e := t6.symm.trans s6
    rw [heq, he]
  · rw [← a2] at hno
    exact absurd a4 (hno e hlt)

/-- After the removal of the entry at `(b, e)`, an active ring entry was active
before and is not the one removed. -/
theorem pit_unlink_active {pit : pit_t} (b e i : Nat)
    (hi : ((pit_unlink pit b e).ring i).active ≠ 0) :
    i ≠ ((pit.table b).entry e).index ∧ (pit_unlink pit b e).ring i = pit.ring i ∧
    (pit.ring i).active ≠ 0 := by
  obtain ⟨_, _, _, _, _, f6, _, _⟩ := pit_unlink_fields pit b e
  rw [f6] at hi ⊢
  by_cases hii : i = ((pit.table b).entry e).index
  · rw [if_pos hii] at hi; exact absurd rfl hi
  · rw [if_neg hii] at hi ⊢; exact ⟨hii, rfl, hi⟩

theorem pit_unlink_no_name {crc : List Nat → Nat} {pit : pit_t} (h : PitInv crc pit)
    {name : List Nat} {len b e : Nat} (hl : pit_live pit b e)
    (hn : pit_entry_has_name (pit_record pit b e) name len) :
    ∀ i, ((pit_unlink pit b e).ring i).active ≠ 0 →
      ¬ pit_entry_has_name ((pit_unlink pit b e).ring i) name len := by
  intro i hi hni
  obtain ⟨hne, heq, hact⟩ := pit_unlink_active b e i hi
  rw [heq] at hni
  obtain ⟨_, _, _, s4, _⟩ := h.slot b e hl
  apply hne
  unfold pit_record at s4 hn
  exact h.unique _ _ hact (by rw [s4]; omega) (hni.1.trans hn.1.symm)
    (by rw [hni.1, hn.1, hni.2, hn.2])

theorem pit_update_static (crc : List Nat → Nat) (pit : pit_t) (name : List Nat)
    (len face : Nat) (ct : Option Nat) (now : Nat) :
    (pit_lookup_and_update crc pit name len face ct now).2.max_elements = pit.max_elements ∧
    (pit_lookup_and_update crc pit name len face ct now).2.num_buckets = pit.num_buckets ∧
    (pit_lookup_and_update crc pit name len face ct now).2.ttl = pit.ttl := by
  unfold pit_lookup_and_update
  rcases pit_update_cases pit name len face ct now (crc (name.take len)) with
    ⟨e0, _, _, _, heq⟩ | ⟨_, _, heq⟩ | ⟨_, e0, _, _, _, _, heq⟩
  · rw [heq]
    dsimp only
    split
    · exact ⟨rfl, rfl, rfl⟩
    · exact ⟨rfl, rfl, rfl⟩
  · rw [heq]; exact ⟨rfl, rfl, rfl⟩
  · rw [heq]; exact ⟨rfl, rfl, rfl⟩

theorem pit_remove_static (crc : List Nat → Nat) (pit : pit_t) (name : List Nat) (len : Nat) :
    (pit_lookup_and_remove crc pit name len).2.max_elements = pit.max_elements ∧
    (pit_lookup_and_remove crc pit name len).2.num_buckets = pit.num_buckets ∧
    (pit_lookup_and_remove crc pit name len).2.ttl = pit.ttl := by
  unfold pit_lookup_and_remove
  rcases pit_remove_cases pit name len (crc (name.take len)) with
    ⟨e0, _, _, _, heq⟩ | ⟨_, heq⟩
  · rw [heq]; exact ⟨rfl, rfl, rfl⟩
  · rw [heq]; exact ⟨rfl, rfl, rfl⟩

theorem pit_purge_loop_static (t : Nat) :
    ∀ (fuel : Nat) (pit : pit_t) (purged r : Nat) (pit' : pit_t),
      pit_purge_loop t fuel pit purged = some (r, pit') →
      pit'.max_elements = pit.max_elements ∧ pit'.num_buckets = pit.num_buckets ∧
      pit'.ttl = pit.ttl ∧ pit'.top = pit.top := by
  intro fuel
  induction fuel with
  | zero =>
    intro pit purged r pit' hrun
    unfold pit_purge_loop at hrun
    split at hrun
    · simp only [Option.some.injEq, Prod.mk.injEq] at hrun
      rw [← hrun.2]; exact ⟨rfl, rfl, rfl, rfl⟩
    · exact absurd hrun (by simp)
  | succ fuel ih =>
    intro pit purged r pit' hrun
    unfold pit_purge_loop at hrun
    split at hrun
    · simp only [Option.some.injEq, Prod.mk.injEq] at hrun
      rw [← hrun.2]; exact ⟨rfl, rfl, rfl, rfl⟩
    · split at hrun
      · split at hrun
        · simp only [Option.some.injEq, Prod.mk.injEq] at hrun
          rw [← hrun.2]; exact ⟨rfl, rfl, rfl, rfl⟩
        · obtain ⟨a, b, c, d⟩ := ih _ _ _ _ hrun
          exact ⟨a, b, c, d⟩
      · obtain ⟨a, b, c, d⟩ := ih _ _ _ _ hrun
        exact ⟨a, b, c, d⟩

theorem pit_no_live_name {crc : List Nat → Nat} {pit : pit_t} (h : PitInv crc pit)
    {name : List Nat} {len : Nat} :
    (∀ b e, pit_live pit b e → ¬ pit_entry_has_name (pit_record pit b e) name len) ↔
    (∀ i, (pit.ring i).active ≠ 0 → ¬ pit_entry_has_name (pit.ring i) name len) := by
  constructor
  · intro hno i hi hn
    obtain ⟨_, a2, a3⟩ := h.active i hi
    apply hno _ _ a2
    unfold pit_record
    rw [a3]; exact hn
  · intro hno b e hl hn
    obtain ⟨_, _, _, s4, _⟩ := h.slot b e hl
    exact hno _ (by unfold pit_record at s4; rw [s4]; omega) hn

theorem ring_dist_top_lt {cap bottom top : Nat} (ht : top < cap) (hb : bottom < cap) :
    ring_dist cap bottom top < cap := by
  unfold ring_dist
  split <;> omega

theorem pit_occupancy_eq {crc : List Nat → Nat} {pit : pit_t} (h : PitInv crc pit) :
    pit_occupancy pit = ring_dist pit.max_elements pit.bottom pit.top :=
  ring_occupancy_eq h.top_lt h.bottom_lt h.cap_le

/-- More iterations than the purge loop needs do not change its result. -/
theorem pit_purge_loop_mono (t : Nat) :
    ∀ (fuel : Nat) (pit : pit_t) (purged : Nat) (x : Nat × pit_t),
      pit_purge_loop t fuel pit purged = some x →
      ∀ fuel', fuel ≤ fuel' → pit_purge_loop t fuel' pit purged = some x := by
  intro fuel
  induction fuel with
  | zero =>
    intro pit purged x hrun fuel' _
    unfold pit_purge_loop at hrun
    split at hrun
    · next hemp =>
      cases fuel' with
      | zero => unfold pit_purge_loop; rw [if_pos hemp]; exact hrun
      | succ f => unfold pit_purge_loop; rw [if_pos hemp]; exact hrun
    · exact absurd hrun (by simp)
  | succ fuel ih =>
    intro pit purged x hrun fuel' hle
    obtain ⟨f, rfl⟩ : ∃ f, fuel' = f + 1 := ⟨fuel' - 1, by omega⟩
    unfold pit_purge_loop at hrun ⊢
    split at hrun
    · next hemp => rw [if_pos hemp]; exact hrun
    · next hemp =>
      rw [if_neg hemp]
      split at hrun
      · next hact =>
        rw [if_pos hact]
        split at hrun
        · next hexp => rw [if_pos hexp]; exact hrun
        · next hexp => rw [if_neg hexp]; exact ih _ _ _ hrun f (by omega)
      · next hact =>
        rw [if_neg hact]; exact ih _ _ _ hrun f (by omega)

/-- When every active entry has expired, the purge loop walks the whole window:
it needs as many iterations as the window has positions, counts each of them and
stops with `top = bottom`. -/
theorem pit_purge_loop_all (crc : List Nat → Nat) (t : Nat) :
    ∀ (n fuel : Nat) (pit : pit_t) (purged : Nat), PitInv crc pit →
      ring_dist pit.max_elements pit.bottom pit.top = n → n ≤ fuel →
      (∀ i, (pit.ring i).active = 1 → (pit.ring i).expiry ≤ t) → purged + n < 2 ^ 32 →
      ∃ pit', pit_purge_loop t fuel pit purged = some (purged + n, pit') ∧
        PitInv crc pit' ∧ pit'.top = pit'.bottom := by
  intro n
  induction n with
  | zero =>
    intro fuel pit purged h hd _ _ _
    have htb : pit.top = pit.bottom := (ring_dist_zero h.bottom_lt).mp hd
    have hemp : is_pit_empty pit = true := (is_pit_empty_iff pit).mpr htb
    refine ⟨pit, ?_, h, htb⟩
    cases fuel with
    | zero => unfold pit_purge_loop; rw [if_pos hemp]; rfl
    | succ f => unfold pit_purge_loop; rw [if_pos hemp]; rfl
  | succ n ih =>
    intro fuel pit purged h hd hfuel hexp hp
    obtain ⟨f, rfl⟩ : ∃ f, fuel = f + 1 := ⟨fuel - 1, by omega⟩
    have hne : pit.top ≠ pit.bottom := by
      intro heq
      have := (@ring_dist_zero pit.max_elements _ _ h.bottom_lt).mpr heq
      omega
    have hemp : ¬ is_pit_empty pit = true := fun he => hne ((is_pit_empty_iff pit).mp he)
    have hpur : (purged + 1) % 2 ^ 32 = purged + 1 := Nat.mod_eq_of_lt (by omega)
    have hpop := @ring_dist_top_pop pit.max_elements _ _ h.top_lt h.bottom_lt (Ne.symm hne)
    unfold pit_purge_loop
    rw [if_neg hemp, hpur]
    by_cases hact : (pit.ring pit.bottom).active = 1
    · have hle := hexp _ hact
      rw [if_pos hact, if_neg (by omega)]
      have h1 := PitInv_expire h hne hact
      have hb1 : (pit_advance_bottom (pit_expire_bottom pit)).bottom =
          ring_next pit.max_elements pit.bottom :=
        pit_advance_bottom_eq (PitInv_kill h pit.bottom (by rw [hact]; omega) rfl rfl rfl rfl
          (pit_expire_bottom_fields pit).2.2.2.2.2.1 (pit_expire_bottom_fields pit).2.2.2.2.2.2.1
          (pit_expire_bottom_fields pit).2.2.2.2.2.2.2)
      obtain ⟨pit', hrun, hinv, htb⟩ := ih f _ (purged + 1) h1
        (by
          show ring_dist pit.max_elements (pit_advance_bottom (pit_expire_bottom pit)).bottom
            pit.top = n
          rw [hb1]; omega)
        (by omega)
        (by
          intro i hi
          have hr : (pit_advance_bottom (pit_expire_bottom pit)).ring i =
              if i = pit.bottom then { pit.ring pit.bottom with active := 0 } else pit.ring i :=
            rfl
          rw [hr] at hi ⊢
          by_cases hib : i = pit.bottom
          · rw [if_pos hib] at hi; exact absurd hi (by simp)
          · rw [if_neg hib] at hi ⊢; exact hexp i hi)
        (by omega)
      exact ⟨pit', by rw [hrun]; congr 2; omega, hinv, htb⟩
    · rw [if_neg hact]
      have h1 := PitInv_skip h hne hact
      obtain ⟨pit', hrun, hinv, htb⟩ := ih f _ (purged + 1) h1
        (by
          show ring_dist pit.max_elements (pit_advance_bottom pit).bottom pit.top = n
          rw [pit_advance_bottom_eq h]; omega)
        (by omega) hexp (by omega)
      exact ⟨pit', by rw [hrun]; congr 2; omega, hinv, htb⟩

/-- A consistent PIT whose window is empty has no busy bucket entry. -/
theorem pit_empty_no_busy {crc : List Nat → Nat} {pit : pit_t} (h : PitInv crc pit)
    (htb : pit.top = pit.bottom) (b e : Nat) : (pit.table b).busy e = 0 := by
  by_contra hbe
  obtain ⟨_, _, s3, _⟩ := h.slot b e hbe
  unfold pit_in_window at s3
  rw [htb] at s3
  exact ring_window_empty s3

/-! ## Timed executions of the PIT -/

theorem PitReachable_of_timed {crc : List Nat → Nat} {pit : pit_t} {now last : Nat}
    (h : PitTimed crc pit now last) : PitReachable crc pit := by
  induction h with
  | create nb me hz us hb hme => exact PitReachable.create nb me hz us hb hme
  | wait pit now last t _ _ ih => exact ih
  | update pit now last name len face t clock _ hlen hmax _ _ ih =>
    exact PitReachable.update pit name len face (some t) clock ih hlen hmax
  | update_now pit now last name len face t _ hlen hmax _ _ ih =>
    exact PitReachable.update pit name len face none t ih hlen hmax
  | remove pit now last name len _ ih => exact PitReachable.remove pit name len ih
  | purge pit now last fuel t purged pit' _ _ hrun ih =>
    exact PitReachable.purge pit fuel t purged pit' ih hrun

theorem PitTimedInv_wait {pit : pit_t} {now last t : Nat} (h : PitTimedInv pit now last)
    (ht : now ≤ t) : PitTimedInv pit t last := by
  refine ⟨le_trans h.last_le ht, h.order, ?_, h.lower⟩
  intro i hi
  have := h.upper i hi
  omega

/-- The order of the expiry times is kept by a change that writes no expiry time,
activates no entry and at most steps `bottom` forward inside the window. -/
theorem PitTimedInv_shrink {pit pit' : pit_t} {now last : Nat} (h : PitTimedInv pit now last)
    (htl : pit.top < pit.max_elements) (hbl : pit.bottom < pit.max_elements)
    (hcap : pit'.max_elements = pit.max_elements) (httl : pit'.ttl = pit.ttl)
    (htop : pit'.top = pit.top)
    (hexp : ∀ i, (pit'.ring i).expiry = (pit.ring i).expiry)
    (hact : ∀ i, (pit'.ring i).active ≠ 0 → (pit.ring i).active ≠ 0)
    (hb : pit'.bottom = pit.bottom ∨
      (pit.bottom ≠ pit.top ∧ pit'.bottom = ring_next pit.max_elements pit.bottom)) :
    PitTimedInv pit' now last := by
  have hwin : ∀ i, pit_in_window pit' i → pit_in_window pit i ∧
      (pit'.bottom = pit.bottom ∨ pit_ring_dist pit' i + 1 = pit_ring_dist pit i) := by
    intro i hi
    unfold pit_in_window pit_ring_dist at *
    rw [hcap, htop] at hi
    rw [hcap]
    rcases hb with hb | ⟨hne, hb⟩
    · rw [hb] at hi ⊢
      exact ⟨hi, Or.inl rfl⟩
    · rw [hb] at hi ⊢
      have hp := (ring_window_pop htl hbl hne).mp hi
      exact ⟨hp.1, Or.inr (ring_dist_pop htl hbl hp.1 hp.2)⟩
  refine ⟨h.last_le, ?_, ?_, ?_⟩
  · intro i j hi hj hd
    rw [hexp, hexp]
    obtain ⟨wi, di⟩ := hwin i hi
    obtain ⟨wj, dj⟩ := hwin j hj
    apply h.order i j wi wj
    rcases hb with hb | ⟨_, hb⟩
    · unfold pit_ring_dist at hd ⊢
      rw [hcap, hb] at hd
      exact hd
    · rcases di with di | di
      · unfold pit_ring_dist at hd ⊢
        rw [hcap, di] at hd
        exact hd
      · rcases dj with dj | dj
        · unfold pit_ring_dist at hd ⊢
          rw [hcap, dj] at hd
          exact hd
        · omega
  · intro i hi
    rw [hexp, httl]
    exact h.upper i (hwin i hi).1
  · intro i hi
    rw [hexp, httl]
    exact h.lower i (hact i hi)

theorem PitTimedInv_store {crc : List Nat → Nat} {pit : pit_t} {now last : Nat}
    (h : PitInv crc pit) (ht : PitTimedInv pit now last) (B e0 : Nat) (name : List Nat)
    (len face t c : Nat) (hnow : now ≤ t) (hwrap : t + pit.ttl < 2 ^ 64)
    (hfull : is_pit_full pit = false) :
    PitTimedInv (pit_store pit B e0 name len face ((t + pit.ttl) % 2 ^ 64) c) t last := by
  obtain ⟨f1, _, f3, f4, f5⟩ := pit_store_fields pit B e0 name len face
    ((t + pit.ttl) % 2 ^ 64) c
  rw [ring_next_eq_mod h.top_lt h.cap_le] at f5
  have hnf := is_pit_full_false h hfull
  have hmod : (t + pit.ttl) % 2 ^ 64 = t + pit.ttl := Nat.mod_eq_of_lt hwrap
  have hwin : ∀ i, pit_in_window (pit_store pit B e0 name len face
      ((t + pit.ttl) % 2 ^ 64) c) i ↔ pit_in_window pit i ∨ i = pit.top := by
    intro i
    unfold pit_in_window
    rw [f1, f3, f5]
    exact ring_window_push h.bottom_lt hnf
  have hdist : ∀ i, pit_ring_dist (pit_store pit B e0 name len face
      ((t + pit.ttl) % 2 ^ 64) c) i = pit_ring_dist pit i := by
    intro i; unfold pit_ring_dist; rw [f1, f3]
  have hexp : ∀ i, ((pit_store pit B e0 name len face ((t + pit.ttl) % 2 ^ 64) c).ring i).expiry =
      if i = pit.top then t + pit.ttl else (pit.ring i).expiry := by
    intro i
    rw [pit_store_ring, hmod]
    split <;> rfl
  refine ⟨le_trans ht.last_le hnow, ?_, ?_, ?_⟩
  · intro i j hi hj hd
    rw [hdist, hdist] at hd
    rw [hexp, hexp]
    rw [hwin] at hi hj
    by_cases hit : i = pit.top
    · rw [if_pos hit]
      by_cases hjt : j = pit.top
      · rw [if_pos hjt]
      · exfalso
        have hj' : pit_in_window pit j := hj.resolve_right hjt
        have := ring_dist_lt h.bottom_lt hj'
        unfold pit_ring_dist at hd
        rw [hit] at hd
        omega
    · rw [if_neg hit]
      have hi' : pit_in_window pit i := hi.resolve_right hit
      by_cases hjt : j = pit.top
      · rw [if_pos hjt]
        have := ht.upper i hi'
        omega
      · rw [if_neg hjt]
        exact ht.order i j hi' (hj.resolve_right hjt) hd
  · intro i hi
    rw [hexp, f4]
    rw [hwin] at hi
    by_cases hit : i = pit.top
    · rw [if_pos hit]
    · rw [if_neg hit]
      have := ht.upper i (hi.resolve_right hit)
      omega
  · intro i hi
    rw [hexp, f4]
    rw [pit_store_ring] at hi
    by_cases hit : i = pit.top
    · rw [if_pos hit]
      have := ht.last_le
      exact ⟨by omega, fun hpos => by omega⟩
    · rw [if_neg hit] at hi ⊢
      exact ht.lower i hi

theorem PitTimedInv_update {crc : List Nat → Nat} {pit : pit_t} {now last : Nat}
    (h : PitInv crc pit) (ht : PitTimedInv pit now last) (name : List Nat)
    (len face : Nat) (ct : Option Nat) (clock t : Nat)
    (hct : (match ct with
      | none => (clock + pit.ttl) % 2 ^ 64
      | some x => (x + pit.ttl) % 2 ^ 64) = (t + pit.ttl) % 2 ^ 64)
    (hnow : now ≤ t) (hwrap : t + pit.ttl < 2 ^ 64) :
    PitTimedInv (pit_lookup_and_update crc pit name len face ct clock).2 t last := by
  unfold pit_lookup_and_update
  rcases pit_update_cases pit name len face ct clock (crc (name.take len)) with
    ⟨e0, _, _, _, heq⟩ | ⟨_, _, heq⟩ | ⟨_, e0, _, _, _, hfull, heq⟩
  · rw [heq]
    dsimp only
    split
    · refine PitTimedInv_wait (PitTimedInv_shrink ht h.top_lt h.bottom_lt rfl rfl rfl ?_ ?_
        (Or.inl rfl)) hnow
      · intro i
        simp only [pit_set_mask, upd_apply]
        split
        · next hi => rw [hi]
        · rfl
      · intro i
        simp only [pit_set_mask, upd_apply]
        split
        · next hi => rw [hi]; exact id
        · exact id
    · exact PitTimedInv_wait ht hnow
  · rw [heq]; exact PitTimedInv_wait ht hnow
  · rw [heq]
    have key := PitTimedInv_store h ht (crc (name.take len) % pit.num_buckets) e0 name len face
      t (crc (name.take len)) hnow hwrap hfull
    cases ct with
    | none =>
      dsimp only at hct ⊢
      rw [hct]; exact key
    | some x =>
      dsimp only at hct ⊢
      rw [hct]; exact key

theorem PitTimedInv_unlink {crc : List Nat → Nat} {pit : pit_t} {now last : Nat}
    (h : PitInv crc pit) (ht : PitTimedInv pit now last) (B e : Nat)
    (hl : pit_live pit B e) : PitTimedInv (pit_unlink pit B e) now last := by
  obtain ⟨f1, _, f3, f4, f5, f6, _, _⟩ := pit_unlink_fields pit B e
  obtain ⟨_, _, s3, _⟩ := h.slot B e hl
  refine PitTimedInv_shrink ht h.top_lt h.bottom_lt f1 f4 f3 ?_ ?_ ?_
  · intro i
    rw [f6]
    split
    · next hi => rw [hi]
    · rfl
  · intro i hi
    exact (pit_unlink_active B e i hi).2.2
  · rw [f5]
    by_cases hbot : pit.bottom = ((pit.table B).entry e).index
    · right
      rw [if_pos hbot]
      refine ⟨?_, ring_next_eq_mod h.bottom_lt h.cap_le⟩
      intro heq
      rw [← hbot] at s3
      unfold pit_in_window at s3
      rw [heq] at s3
      exact ring_window_empty s3
    · left; rw [if_neg hbot]

theorem PitTimedInv_remove {crc : List Nat → Nat} {pit : pit_t} {now last : Nat}
    (h : PitInv crc pit) (ht : PitTimedInv pit now last) (name : List Nat) (len : Nat) :
    PitTimedInv (pit_lookup_and_remove crc pit name len).2 now last := by
  unfold pit_lookup_and_remove
  rcases pit_remove_cases pit name len (crc (name.take len)) with
    ⟨e0, _, hm, _, heq⟩ | ⟨_, heq⟩
  · rw [heq]
    exact PitTimedInv_unlink h ht _ e0 hm.1
  · rw [heq]; exact ht

theorem PitTimedInv_skip {crc : List Nat → Nat} {pit : pit_t} {now last : Nat}
    (h : PitInv crc pit) (ht : PitTimedInv pit now last) (hne : pit.top ≠ pit.bottom) :
    PitTimedInv (pit_advance_bottom pit) now last :=
  PitTimedInv_shrink ht h.top_lt h.bottom_lt rfl rfl rfl (fun _ => rfl) (fun _ => id)
    (Or.inr ⟨Ne.symm hne, pit_advance_bottom_eq h⟩)

theorem PitTimedInv_expire {crc : List Nat → Nat} {pit : pit_t} {now last : Nat}
    (h : PitInv crc pit) (ht : PitTimedInv pit now last) (hne : pit.top ≠ pit.bottom) :
    PitTimedInv (pit_advance_bottom (pit_expire_bottom pit)) now last := by
  refine PitTimedInv_shrink ht h.top_lt h.bottom_lt rfl rfl rfl ?_ ?_
    (Or.inr ⟨Ne.symm hne, ring_next_eq_wrap h.bottom_lt h.cap_le⟩)
  · intro i
    show ((pit_expire_bottom pit).ring i).expiry = _
    rw [(pit_expire_bottom_fields pit).2.2.2.2.2.1]
    split
    · next hi => rw [hi]
    · rfl
  · intro i hi
    have hr : (pit_advance_bottom (pit_expire_bottom pit)).ring i =
        (pit_expire_bottom pit).ring i := rfl
    rw [hr, (pit_expire_bottom_fields pit).2.2.2.2.2.1] at hi
    by_cases hib : i = pit.bottom
    · rw [if_pos hib] at hi; exact absurd rfl hi
    · rw [if_neg hib] at hi; exact hi

/-- The purge loop keeps the order of the expiry times, and when it stops every
active entry expires after the time it was given. -/
theorem pit_purge_loop_timed {crc : List Nat → Nat} (t : Nat) :
    ∀ (fuel : Nat) (pit : pit_t) (purged r : Nat) (pit' : pit_t) (now last : Nat),
      PitInv crc pit → PitTimedInv pit now last →
      pit_purge_loop t fuel pit purged = some (r, pit') →
      PitTimedInv pit' now last ∧ ∀ i, (pit'.ring i).active ≠ 0 → t < (pit'.ring i).expiry := by
  intro fuel
  induction fuel with
  | zero =>
    intro pit purged r pit' now last h ht hrun
    unfold pit_purge_loop at hrun
    split at hrun
    · next hemp =>
      simp only [Option.some.injEq, Prod.mk.injEq] at hrun
      rw [← hrun.2]
      refine ⟨ht, ?_⟩
      intro i hi
      have hw := (h.active i hi).1
      unfold pit_in_window at hw
      rw [(is_pit_empty_iff pit).mp hemp] at hw
      exact absurd hw ring_window_empty
    · exact absurd hrun (by simp)
  | succ fuel ih =>
    intro pit purged r pit' now last h ht hrun
    unfold pit_purge_loop at hrun
    split at hrun
    · next hemp =>
      simp only [Option.some.injEq, Prod.mk.injEq] at hrun
      rw [← hrun.2]
      refine ⟨ht, ?_⟩
      intro i hi
      have hw := (h.active i hi).1
      unfold pit_in_window at hw
      rw [(is_pit_empty_iff pit).mp hemp] at hw
      exact absurd hw ring_window_empty
    · next hemp =>
      have hne : pit.top ≠ pit.bottom := fun heq => hemp ((is_pit_empty_iff pit).mpr heq)
      split at hrun
      · next hact =>
        split at hrun
        · next hexp =>
          simp only [Option.some.injEq, Prod.mk.injEq] at hrun
          rw [← hrun.2]
          refine ⟨ht, ?_⟩
          intro i hi
          have hw := (h.active i hi).1
          have hb : pit_in_window pit pit.bottom := ring_window_bottom h.bottom_lt (Ne.symm hne)
          have hord := ht.order pit.bottom i hb hw (by
            unfold pit_ring_dist ring_dist
            rw [if_pos (le_refl _)]
            omega)
          omega
        · exact ih _ _ _ _ now last (PitInv_expire h hne hact) (PitTimedInv_expire h ht hne) hrun
      · next hact =>
        exact ih _ _ _ _ now last (PitInv_skip h hne hact) (PitTimedInv_skip h ht hne) hrun

theorem PitTimedInv_create (nb me hz us : Nat) :
    PitTimedInv (pit_create nb me hz us) 0 0 := by
  obtain ⟨_, _, h3, h4, _, h6⟩ := pit_create_fields nb me hz us
  refine ⟨le_refl 0, ?_, ?_, ?_⟩
  · intro i j hi
    unfold pit_in_window at hi
    rw [h3, h4] at hi
    exact absurd hi ring_window_empty
  · intro i hi
    unfold pit_in_window at hi
    rw [h3, h4] at hi
    exact absurd hi ring_window_empty
  · intro i hi
    exact absurd (h6 i) hi

theorem PitTimedInv_of_timed {crc : List Nat → Nat} {pit : pit_t} {now last : Nat}
    (h : PitTimed crc pit now last) : PitTimedInv pit now last := by
  induction h with
  | create nb me hz us hb hme => exact PitTimedInv_create nb me hz us
  | wait pit now last t _ ht ih => exact PitTimedInv_wait ih ht
  | update pit now last name len face t clock hrun hlen _ ht hwrap ih =>
    exact PitTimedInv_update (PitInv_of_reachable (PitReachable_of_timed hrun)) ih name len face
      (some t) clock t rfl ht hwrap
  | update_now pit now last name len face t hrun hlen _ ht hwrap ih =>
    exact PitTimedInv_update (PitInv_of_reachable (PitReachable_of_timed hrun)) ih name len face
      none t t rfl ht hwrap
  | remove pit now last name len hrun ih =>
    exact PitTimedInv_remove (PitInv_of_reachable (PitReachable_of_timed hrun)) ih name len
  | purge pit now last fuel t purged pit' hrun ht hpurge ih =>
    obtain ⟨h1, h2⟩ := pit_purge_loop_timed t fuel pit 0 purged pit' now last
      (PitInv_of_reachable (PitReachable_of_timed hrun)) ih hpurge
    have h3 := PitTimedInv_wait h1 ht
    refine ⟨le_refl t, h3.order, h3.upper, ?_⟩
    intro i hi
    have := h2 i hi
    exact ⟨by omega, fun _ => this⟩

/-- The purge loop ends within as many iterations as the window has positions. -/
theorem pit_purge_loop_ends (crc : List Nat → Nat) (t : Nat) :
    ∀ (n fuel : Nat) (pit : pit_t) (purged : Nat), PitInv crc pit →
      ring_dist pit.max_elements pit.bottom pit.top = n → n ≤ fuel →
      ∃ x, pit_purge_loop t fuel pit purged = some x := by
  intro n
  induction n with
  | zero =>
    intro fuel pit purged h hd _
    have htb : pit.top = pit.bottom := (ring_dist_zero h.bottom_lt).mp hd
    have hemp : is_pit_empty pit = true := (is_pit_empty_iff pit).mpr htb
    cases fuel with
    | zero => exact ⟨_, by unfold pit_purge_loop; rw [if_pos hemp]⟩
    | succ f => exact ⟨_, by unfold pit_purge_loop; rw [if_pos hemp]⟩
  | succ n ih =>
    intro fuel pit purged h hd hfuel
    obtain ⟨f, rfl⟩ : ∃ f, fuel = f + 1 := ⟨fuel - 1, by omega⟩
    have hne : pit.top ≠ pit.bottom := by
      intro heq
      have := (@ring_dist_zero pit.max_elements _ _ h.bottom_lt).mpr heq
      omega
    have hemp : ¬ is_pit_empty pit = true := fun he => hne ((is_pit_empty_iff pit).mp he)
    have hpop := @ring_dist_top_pop pit.max_elements _ _ h.top_lt h.bottom_lt (Ne.symm hne)
    unfold pit_purge_loop
    rw [if_neg hemp]
    by_cases hact : (pit.ring pit.bottom).active = 1
    · rw [if_pos hact]
      by_cases hexp : (pit.ring pit.bottom).expiry > t
      · rw [if_pos hexp]; exact ⟨_, rfl⟩
      · rw [if_neg hexp]
        exact ih f _ _ (PitInv_expire h hne hact) (by
          show ring_dist pit.max_elements (pit_advance_bottom (pit_expire_bottom pit)).bottom
            pit.top = n
          have hb1 : (pit_advance_bottom (pit_expire_bottom pit)).bottom =
              ring_next pit.max_elements pit.bottom := ring_next_eq_wrap h.bottom_lt h.cap_le
          rw [hb1]; omega) (by omega)
    · rw [if_neg hact]
      exact ih f _ _ (PitInv_skip h hne hact) (by
        show ring_dist pit.max_elements (pit_advance_bottom pit).bottom pit.top = n
        rw [pit_advance_bottom_eq h]; omega) (by omega)

/-- A run of insertions of new names into a PIT whose window starts at position
0: each call returns 1, `top` moves up by one, and the active entries are those
of before and those of the calls. -/
theorem pit_update_all_fill (crc : List Nat → Nat) :
    ∀ (reqs seen : List pit_interest) (pit : pit_t), PitInv crc pit → pit.bottom = 0 →
      pit.top + reqs.length < pit.max_elements →
      (∀ r, r ∈ reqs → r.name_len ≤ r.name.length) →
      (seen ++ reqs).Pairwise pit_interest_differs →
      (∀ i, (pit.ring i).active ≠ 0 →
        ∃ s, s ∈ seen ∧ pit_entry_has_name (pit.ring i) s.name s.name_len) →
      pit_free_along crc pit reqs →
      (pit_update_all crc pit reqs).1 = List.replicate reqs.length 1 ∧
      PitInv crc (pit_update_all crc pit reqs).2 ∧
      (pit_update_all crc pit reqs).2.bottom = 0 ∧
      (pit_update_all crc pit reqs).2.top = pit.top + reqs.length ∧
      (pit_update_all crc pit reqs).2.max_elements = pit.max_elements ∧
      (∀ i, ((pit_update_all crc pit reqs).2.ring i).active ≠ 0 →
        ∃ s, s ∈ seen ++ reqs ∧
          pit_entry_has_name ((pit_update_all crc pit reqs).2.ring i) s.name s.name_len) := by
  intro reqs
  induction reqs with
  | nil =>
    intro seen pit h hb _ _ _ hact _
    refine ⟨rfl, h, hb, rfl, rfl, ?_⟩
    intro i hi
    obtain ⟨s, hs, hn⟩ := hact i hi
    exact ⟨s, by simpa using hs, hn⟩
  | cons r rs ih =>
    intro seen pit h hb htop hbuf hdist hact hfree
    simp only [List.length_cons] at htop
    have hr := hbuf r (List.mem_cons_self _ _)
    have hnoact : ∀ i, (pit.ring i).active ≠ 0 →
        ¬ pit_entry_has_name (pit.ring i) r.name r.name_len := by
      intro i hi hn
      obtain ⟨s, hs, hsn⟩ := hact i hi
      have hd : pit_interest_differs s r := by
        rw [List.pairwise_append] at hdist
        exact hdist.2.2 s hs r (List.mem_cons_self _ _)
      apply hd
      refine ⟨hsn.1.symm.trans hn.1, ?_⟩
      rw [← hsn.2, ← hn.2, ← hsn.1, hn.1]
    obtain ⟨⟨e, he, hfe⟩, hfree'⟩ := hfree
    have hnf : is_pit_full pit = false := by
      cases hf : is_pit_full pit with
      | false => rfl
      | true =>
        have := is_pit_full_true h hf
        unfold ring_next at this
        rw [if_neg (by omega)] at this
        omega
    have hstep : ∃ e0, e0 < BUCKET_SIZE ∧
        (pit.table (crc (r.name.take r.name_len) % pit.num_buckets)).busy e0 = 0 ∧
        pit_lookup_and_update crc pit r.name r.name_len r.face r.curr_time r.now =
          ((1 : Int), pit_store pit (crc (r.name.take r.name_len) % pit.num_buckets) e0 r.name
            r.name_len r.face
            (match r.curr_time with
              | none => (r.now + pit.ttl) % 2 ^ 64
              | some t => (t + pit.ttl) % 2 ^ 64) (crc (r.name.take r.name_len))) := by
      unfold pit_lookup_and_update
      rcases pit_update_cases pit r.name r.name_len r.face r.curr_time r.now
          (crc (r.name.take r.name_len)) with
        ⟨e0, _, hm, _, _⟩ | ⟨_, hfull, _⟩ | ⟨_, e0, he0, hfree0, _, _, heq⟩
      · exact absurd hm (pit_no_match h hnoact _ _ _)
      · rcases hfull with hfull | hfull
        · exact absurd hfe (hfull e he)
        · rw [hnf] at hfull; exact absurd hfull (by decide)
      · exact ⟨e0, he0, hfree0, heq⟩
    obtain ⟨e0, he0, hfree0, hres⟩ := hstep
    have hinv' := PitInv_update h r.name r.name_len r.face r.curr_time r.now hr
    unfold pit_update_all
    rw [hres] at hfree' hinv' ⊢
    dsimp only at hfree' hinv' ⊢
    obtain ⟨f1, _, f3, _, f5⟩ := pit_store_fields pit
      (crc (r.name.take r.name_len) % pit.num_buckets) e0 r.name r.name_len r.face
      (match r.curr_time with
        | none => (r.now + pit.ttl) % 2 ^ 64
        | some t => (t + pit.ttl) % 2 ^ 64) (crc (r.name.take r.name_len))
    rw [ring_next_eq_mod h.top_lt h.cap_le] at f5
    have f5' : ring_next pit.max_elements pit.top = pit.top + 1 := by
      unfold ring_next; rw [if_neg (by omega)]
    rw [f5'] at f5
    obtain ⟨i1, i2, i3, i4, i5, i6⟩ := ih (seen ++ [r]) _ hinv' (f3.trans hb)
      (by rw [f5, f1]; omega)
      (fun s hs => hbuf s (List.mem_cons_of_mem _ hs))
      (by simpa using hdist)
      (by
        intro i hi
        rw [pit_store_ring] at hi ⊢
        by_cases hit : i = pit.top
        · rw [if_pos hit]
          exact ⟨r, by simp, rfl, memcpy_take hr⟩
        · rw [if_neg hit] at hi ⊢
          obtain ⟨s, hs, hn⟩ := hact i hi
          exact ⟨s, by simp [hs], hn⟩)
      hfree'
    refine ⟨?_, i2, i3, ?_, ?_, ?_⟩
    · rw [i1]; rfl
    · rw [i4, f5]; simp only [List.length_cons]; omega
    · rw [i5, f1]
    · intro i hi
      obtain ⟨s, hs, hn⟩ := i6 i hi
      exact ⟨s, by simpa using hs, hn⟩

/-! ## The Content Store -/

theorem cs_store_fields (cs : cs_t) (B e0 : Nat) (name : List Nat) (len p c : Nat) :
    (cs_store cs B e0 name len p c).max_elements = cs.max_elements ∧
    (cs_store cs B e0 name len p c).num_buckets = cs.num_buckets ∧
    (cs_store cs B e0 name len p c).bottom = cs.bottom ∧
    (cs_store cs B e0 name len p c).top = ((cs.top + 1) % 2 ^ 32) % cs.max_elements ∧
    (∀ i, (cs_store cs B e0 name len p c).ring i =
      if i = cs.top then
        { active := 1, bucket := B, tab := e0, name_len := len,
          name := memcpy (cs.ring cs.top).name name len, mbuf := p }
      else cs.ring i) ∧
    (∀ b e, ((cs_store cs B e0 name len p c).table b).busy e =
      if b = B ∧ e = e0 then 1 else (cs.table b).busy e) ∧
    (∀ b e, ((cs_store cs B e0 name len p c).table b).entry e =
      if b = B ∧ e = e0 then { crc := c, index := cs.top } else (cs.table b).entry e) := by
  refine ⟨rfl, rfl, rfl, rfl, fun i => rfl, ?_, ?_⟩
  · intro b e
    simp only [cs_store, upd_apply]
    by_cases hb : b = B
    · subst hb
      by_cases he : e = e0
      · simp [he]
      · simp [he, upd]
    · simp [hb]
  · intro b e
    simp only [cs_store, upd_apply]
    by_cases hb : b = B
    · subst hb
      by_cases he : e = e0
      · simp [he]
      · simp [he, upd]
    · simp [hb]

theorem cs_evict_fields (cs : cs_t) :
    (cs_evict cs).max_elements = cs.max_elements ∧
    (cs_evict cs).num_buckets = cs.num_buckets ∧
    (cs_evict cs).top = cs.top ∧
    (cs_evict cs).bottom =
      (if cs.bottom = (cs.max_elements + 2 ^ 32 - 1) % 2 ^ 32 then 0
        else (cs.bottom + 1) % 2 ^ 32) ∧
    (∀ i, (cs_evict cs).ring i =
      if i = cs.bottom then { cs.ring cs.bottom with active := 0 } else cs.ring i) ∧
    (∀ b e, ((cs_evict cs).table b).busy e =
      if b = (cs.ring cs.bottom).bucket ∧ e = (cs.ring cs.bottom).tab then 0
      else (cs.table b).busy e) ∧
    (∀ b e, ((cs_evict cs).table b).entry e = (cs.table b).entry e) := by
  refine ⟨rfl, rfl, rfl, rfl, fun i => rfl, ?_, ?_⟩
  · intro b e
    simp only [cs_evict, upd_apply]
    by_cases hb : b = (cs.ring cs.bottom).bucket
    · rw [if_pos hb]
      by_cases he : e = (cs.ring cs.bottom).tab
      · simp [hb, he]
      · simp [hb, he, upd]
    · simp [hb]
  · intro b e
    simp only [cs_evict, upd_apply]
    by_cases hb : b = (cs.ring cs.bottom).bucket
    · rw [if_pos hb, hb]
    · simp [hb]

/-- The two outcomes of `__cs_insert_with_hash`: no free entry in the bucket, or
the new content stored at the lowest free entry, after an eviction when the ring
is full. -/
theorem cs_insert_cases (cs : cs_t) (name : List Nat) (len p c : Nat) :
    ((∀ e, e < BUCKET_SIZE → (cs.table (c % cs.num_buckets)).busy e ≠ 0) ∧
      __cs_insert_with_hash cs name len p c = (-ENOSPC, cs, [])) ∨
    (∃ e0, e0 < BUCKET_SIZE ∧ (cs.table (c % cs.num_buckets)).busy e0 = 0 ∧
      (∀ e1, e1 < e0 → (cs.table (c % cs.num_buckets)).busy e1 ≠ 0) ∧
      ((is_cs_full cs = true ∧
        __cs_insert_with_hash cs name len p c =
          (0, cs_store (cs_evict cs) (c % cs.num_buckets) e0 name len p c,
            [(cs.ring cs.bottom).mbuf])) ∨
       (is_cs_full cs = false ∧
        __cs_insert_with_hash cs name len p c =
          (0, cs_store cs (c % cs.num_buckets) e0 name len p c, [])))) := by
  unfold __cs_insert_with_hash
  cases hfind : (List.range BUCKET_SIZE).find?
      (fun e => decide ((cs.table (c % cs.num_buckets)).busy e = 0)) with
  | none =>
    left
    refine ⟨?_, rfl⟩
    intro e he
    have := List.find?_eq_none.mp hfind e (List.mem_range.mpr he)
    simpa using this
  | some e0 =>
    right
    obtain ⟨h1, h2, h3⟩ := List.find?_range_eq_some.mp hfind
    refine ⟨e0, List.mem_range.mp h2, by simpa using h1, ?_, ?_⟩
    · intro e1 he1; simpa using h3 e1 he1
    · dsimp only
      cases hf : is_cs_full cs with
      | true => left; exact ⟨rfl, by simp⟩
      | false => right; exact ⟨rfl, by simp⟩

theorem cs_lookup_cases (cs : cs_t) (name : List Nat) (len c : Nat) :
    (∃ e0, e0 < BUCKET_SIZE ∧ cs_entry_matches cs name len c (c % cs.num_buckets) e0 ∧
      (∀ e1, e1 < e0 → ¬ cs_entry_matches cs name len c (c % cs.num_buckets) e1) ∧
      __cs_lookup_with_hash cs name len c = (cs_record cs (c % cs.num_buckets) e0).mbuf) ∨
    ((∀ e, e < BUCKET_SIZE → ¬ cs_entry_matches cs name len c (c % cs.num_buckets) e) ∧
      __cs_lookup_with_hash cs name len c = 0) := by
  unfold __cs_lookup_with_hash
  cases hfind : (List.range BUCKET_SIZE).find?
      (fun e => decide (cs_entry_matches cs name len c (c % cs.num_buckets) e)) with
  | some e0 =>
    left
    obtain ⟨h1, h2, h3⟩ := List.find?_range_eq_some.mp hfind
    refine ⟨e0, List.mem_range.mp h2, by simpa using h1, ?_, rfl⟩
    intro e1 he1; simpa using h3 e1 he1
  | none =>
    right
    refine ⟨?_, rfl⟩
    intro e he
    have := List.find?_eq_none.mp hfind e (List.mem_range.mpr he)
    simpa using this

/-- The lookup returns the buffer of the lowest matching entry of the bucket. -/
theorem cs_lookup_of_match (cs : cs_t) (name : List Nat) (len c e0 : Nat)
    (he0 : e0 < BUCKET_SIZE) (hm : cs_entry_matches cs name len c (c % cs.num_buckets) e0)
    (hfirst : ∀ e1, e1 < e0 → ¬ cs_entry_matches cs name len c (c % cs.num_buckets) e1) :
    __cs_lookup_with_hash cs name len c = (cs_record cs (c % cs.num_buckets) e0).mbuf := by
  rcases cs_lookup_cases cs name len c with ⟨e, he, hme, hfe, heq⟩ | ⟨hno, _⟩
  · have : e = e0 := by
      rcases Nat.lt_trichotomy e e0 with hlt | heq' | hgt
      · exact absurd hme (hfirst e hlt)
      · exact heq'
      · exact absurd hm (hfe e0 hgt)
    rw [heq, this]
  · exact absurd hm (hno e0 he0)

/-- The state in which `__cs_insert_with_hash` stores the new content: the CS
itself, or the CS after the eviction. Either way the ring entries keep their
names and buffers, the bucket entries keep their contents and no busy flag is
set. -/
theorem cs_insert_ok (cs : cs_t) (name : List Nat) (len p c : Nat)
    (hok : (__cs_insert_with_hash cs name len p c).1 = 0) :
    ∃ cs0 e0, e0 < BUCKET_SIZE ∧ (cs.table (c % cs.num_buckets)).busy e0 = 0 ∧
      (∀ e1, e1 < e0 → (cs.table (c % cs.num_buckets)).busy e1 ≠ 0) ∧
      (__cs_insert_with_hash cs name len p c).2.1 =
        cs_store cs0 (c % cs.num_buckets) e0 name len p c ∧
      (cs0 = cs ∨ cs0 = cs_evict cs) ∧
      cs0.top = cs.top ∧ cs0.num_buckets = cs.num_buckets ∧
      cs0.max_elements = cs.max_elements ∧
      (∀ b e, (cs0.table b).entry e = (cs.table b).entry e) ∧
      (∀ b e, (cs0.table b).busy e ≠ 0 → (cs.table b).busy e ≠ 0) ∧
      (∀ i, (cs0.ring i).name = (cs.ring i).name ∧ (cs0.ring i).name_len = (cs.ring i).name_len ∧
        (cs0.ring i).mbuf = (cs.ring i).mbuf) := by
  rcases cs_insert_cases cs name len p c with ⟨_, heq⟩ | ⟨e0, he0, hfree, hlow, hcase⟩
  · rw [heq] at hok
    exact absurd hok (by show ¬ (-ENOSPC : Int) = 0; decide)
  · rcases hcase with ⟨_, heq⟩ | ⟨_, heq⟩
    · obtain ⟨f1, f2, f3, _, f5, f6, f7⟩ := cs_evict_fields cs
      refine ⟨cs_evict cs, e0, he0, hfree, hlow, by rw [heq], Or.inr rfl, f3, f2, f1, f7, ?_, ?_⟩
      · intro b e hbe
        rw [f6] at hbe
        split at hbe
        · exact absurd rfl hbe
        · exact hbe
      · intro i
        rw [f5]
        split
        · next hi => rw [hi]; exact ⟨rfl, rfl, rfl⟩
        · exact ⟨rfl, rfl, rfl⟩
    · exact ⟨cs, e0, he0, hfree, hlow, by rw [heq], Or.inl rfl, rfl, rfl, rfl, fun _ _ => rfl,
        fun _ _ h => h, fun _ => ⟨rfl, rfl, rfl⟩⟩

theorem ring_next_ne_self {cap x : Nat} (hcap : 2 ≤ cap) : ring_next cap x ≠ x := by
  unfold ring_next
  split <;> omega

theorem cs_create_fields (nb me : Nat) :
    (cs_create nb me).max_elements = me + 1 ∧ (cs_create nb me).num_buckets = nb ∧
    (cs_create nb me).top = 0 ∧ (cs_create nb me).bottom = 0 ∧
    (∀ b e, ((cs_create nb me).table b).busy e = 0) ∧
    (∀ i, ((cs_create nb me).ring i).active = 0) :=
  ⟨rfl, rfl, rfl, rfl, fun _ _ => rfl, fun _ => rfl⟩

theorem CsInv_create (crc : List Nat → Nat) (nb me : Nat) (hb : 0 < nb) (hme : me < 2 ^ 31)
    (hpos : 0 < me) : CsInv crc (cs_create nb me) := by
  obtain ⟨h1, h2, h3, h4, h5, h6⟩ := cs_create_fields nb me
  refine ⟨by omega, by omega, by omega, by omega, by omega, ?_, ?_, ?_, ?_, ?_⟩
  · intro b e; rw [h5]; omega
  · intro i; rw [h6]; omega
  · intro b e h; exact absurd (h5 b e) h
  · intro i h; exact absurd (h6 i) h
  · intro i hi
    unfold cs_in_window at hi
    rw [h3, h4] at hi
    exact absurd hi ring_window_empty

theorem is_cs_full_false {crc : List Nat → Nat} {cs : cs_t} (h : CsInv crc cs)
    (hf : is_cs_full cs = false) : ring_next cs.max_elements cs.top ≠ cs.bottom := by
  unfold is_cs_full at hf
  rw [ring_next_eq_mod h.top_lt h.cap_le] at hf
  simpa using hf

theorem is_cs_full_true {crc : List Nat → Nat} {cs : cs_t} (h : CsInv crc cs)
    (hf : is_cs_full cs = true) : ring_next cs.max_elements cs.top = cs.bottom := by
  unfold is_cs_full at hf
  rw [ring_next_eq_mod h.top_lt h.cap_le] at hf
  simpa using hf

theorem cs_full_nonempty {crc : List Nat → Nat} {cs : cs_t} (h : CsInv crc cs)
    (hf : is_cs_full cs = true) : cs.bottom ≠ cs.top := by
  intro heq
  have := is_cs_full_true h hf
  rw [heq] at this
  exact ring_next_ne_self h.cap_ge this

theorem cs_evict_bottom {crc : List Nat → Nat} {cs : cs_t} (h : CsInv crc cs) :
    (cs_evict cs).bottom = ring_next cs.max_elements cs.bottom :=
  ring_next_eq_wrap h.bottom_lt h.cap_le

/-- The eviction of the entry at `bottom` of a CS that is not empty keeps the
invariant. -/
theorem CsInv_evict {crc : List Nat → Nat} {cs : cs_t} (h : CsInv crc cs)
    (hne : cs.bottom ≠ cs.top) : CsInv crc (cs_evict cs) := by
  obtain ⟨f1, f2, f3, _, f5, f6, f7⟩ := cs_evict_fields cs
  have f4 := cs_evict_bottom h
  have hbw : cs_in_window cs cs.bottom := ring_window_bottom h.bottom_lt hne
  have hbact : (cs.ring cs.bottom).active ≠ 0 := by rw [h.window _ hbw]; omega
  obtain ⟨_, k2, k3⟩ := h.active cs.bottom hbact
  have hwin : ∀ i, cs_in_window (cs_evict cs) i ↔ cs_in_window cs i ∧ i ≠ cs.bottom := by
    intro i; unfold cs_in_window; rw [f1, f3, f4]
    exact ring_window_pop h.top_lt h.bottom_lt hne
  refine ⟨by rw [f1]; exact h.cap_ge, by rw [f1]; exact h.cap_le,
    by rw [f2]; exact h.buckets_pos, by rw [f1, f3]; exact h.top_lt,
    by rw [f1, f4]; exact ring_next_lt h.bottom_lt, ?_, ?_, ?_, ?_, ?_⟩
  · intro b e
    rw [f6]
    split
    · omega
    · exact h.busy_le b e
  · intro i
    rw [f5]
    split
    · exact Nat.zero_le 1
    · exact h.active_le i
  · intro b e hl
    unfold cs_live at hl
    rw [f6] at hl
    by_cases hbe : b = (cs.ring cs.bottom).bucket ∧ e = (cs.ring cs.bottom).tab
    · rw [if_pos hbe] at hl; exact absurd rfl hl
    · rw [if_neg hbe] at hl
      obtain ⟨h1, h2, h3, h4, h5, h6, h7⟩ := h.slot b e hl
      unfold cs_record at h4 h5 h6 h7 ⊢
      have hidx : ((cs.table b).entry e).index ≠ cs.bottom := by
        intro heq
        rw [heq] at h5 h6
        exact hbe ⟨h5.symm, h6.symm⟩
      rw [f7, f2, hwin, f5, if_neg hidx]
      exact ⟨h1, h2, ⟨h3, hidx⟩, h4, h5, h6, h7⟩
  · intro i hi
    rw [f5] at hi ⊢
    by_cases hib : i = cs.bottom
    · rw [if_pos hib] at hi; exact absurd rfl hi
    · rw [if_neg hib] at hi ⊢
      obtain ⟨a1, a2, a3⟩ := h.active i hi
      have hbe : ¬ ((cs.ring i).bucket = (cs.ring cs.bottom).bucket ∧
          (cs.ring i).tab = (cs.ring cs.bottom).tab) := by
        rintro ⟨hb, he⟩
        rw [hb, he, k3] at a3
        exact hib a3.symm
      refine ⟨(hwin i).mpr ⟨a1, hib⟩, ?_, ?_⟩
      · unfold cs_live; rw [f6, if_neg hbe]; exact a2
      · rw [f7]; exact a3
  · intro i hi
    obtain ⟨w1, w2⟩ := (hwin i).mp hi
    rw [f5, if_neg w2]
    exact h.window i w1

/-- Storing a new content at a free bucket entry of a CS that is not full keeps
the invariant. -/
theorem CsInv_store {crc : List Nat → Nat} {cs : cs_t} (h : CsInv crc cs)
    (name : List Nat) (len p e0 : Nat) (hlen : len ≤ name.length) (he0 : e0 < BUCKET_SIZE)
    (hfree : (cs.table (crc (name.take len) % cs.num_buckets)).busy e0 = 0)
    (hfull : is_cs_full cs = false) :
    CsInv crc (cs_store cs (crc (name.take len) % cs.num_buckets) e0 name len p
      (crc (name.take len))) := by
  obtain ⟨f1, f2, f3, f4, f5, f6, f7⟩ := cs_store_fields cs
    (crc (name.take len) % cs.num_buckets) e0 name len p (crc (name.take len))
  rw [ring_next_eq_mod h.top_lt h.cap_le] at f4
  have hnf := is_cs_full_false h hfull
  have hwin : ∀ i, cs_in_window (cs_store cs (crc (name.take len) % cs.num_buckets) e0
      name len p (crc (name.take len))) i ↔ cs_in_window cs i ∨ i = cs.top := by
    intro i
    unfold cs_in_window
    rw [f1, f3, f4]
    exact ring_window_push h.bottom_lt hnf
  refine ⟨by rw [f1]; exact h.cap_ge, by rw [f1]; exact h.cap_le,
    by rw [f2]; exact h.buckets_pos, by rw [f1, f4]; exact ring_next_lt h.top_lt,
    by rw [f1, f3]; exact h.bottom_lt, ?_, ?_, ?_, ?_, ?_⟩
  · intro b e
    rw [f6]
    split
    · exact le_refl 1
    · exact h.busy_le b e
  · intro i
    rw [f5]
    split
    · exact le_refl 1
    · exact h.active_le i
  · intro b e hl
    unfold cs_live at hl
    unfold cs_record
    rw [f6] at hl
    rw [f7, f2, hwin]
    by_cases hbe : b = crc (name.take len) % cs.num_buckets ∧ e = e0
    · rw [if_pos hbe]
      dsimp only
      rw [f5, if_pos rfl]
      dsimp only
      rw [memcpy_take hlen]
      exact ⟨hbe.2 ▸ he0, hbe.1, Or.inr rfl, rfl, hbe.1.symm, hbe.2.symm, rfl⟩
    · rw [if_neg hbe] at hl ⊢
      obtain ⟨h1, h2, h3, h4, h5, h6, h7⟩ := h.slot b e hl
      have hne : ((cs.table b).entry e).index ≠ cs.top := by
        intro heq
        rw [heq] at h3
        exact ring_window_top h3
      rw [f5, if_neg hne]
      exact ⟨h1, h2, Or.inl h3, h4, h5, h6, h7⟩
  · intro i hi
    rw [f5] at hi ⊢
    rw [hwin]
    by_cases hit : i = cs.top
    · rw [if_pos hit]
      dsimp only
      refine ⟨Or.inr hit, ?_, ?_⟩
      · unfold cs_live; rw [f6, if_pos ⟨rfl, rfl⟩]; omega
      · rw [f7, if_pos ⟨rfl, rfl⟩]; exact hit.symm
    · rw [if_neg hit] at hi ⊢
      obtain ⟨a1, a2, a3⟩ := h.active i hi
      have hbe : ¬ ((cs.ring i).bucket = crc (name.take len) % cs.num_buckets ∧
          (cs.ring i).tab = e0) := by
        rintro ⟨hb, he⟩
        rw [hb, he] at a2
        exact a2 hfree
      refine ⟨Or.inl a1, ?_, ?_⟩
      · unfold cs_live; rw [f6, if_neg hbe]; exact a2
      · rw [f7, if_neg hbe]; exact a3
  · intro i hi
    rw [f5]
    rcases (hwin i).mp hi with hw | hw
    · have hne : i ≠ cs.top := by
        intro heq
        rw [heq] at hw
        exact ring_window_top hw
      rw [if_neg hne]
      exact h.window i hw
    · rw [if_pos hw]

/-- After the eviction made on a full CS the ring is not full, and the bucket
entry that was free before is still free. -/
theorem cs_evict_room {crc : List Nat → Nat} {cs : cs_t} (h : CsInv crc cs)
    (hf : is_cs_full cs = true) : is_cs_full (cs_evict cs) = false := by
  have hfull := is_cs_full_true h hf
  have hne := cs_full_nonempty h hf
  unfold is_cs_full
  have h1 : (cs_evict cs).top = cs.top := rfl
  have h2 : (cs_evict cs).max_elements = cs.max_elements := rfl
  rw [h1, h2, ring_next_eq_mod h.top_lt h.cap_le, cs_evict_bottom h, hfull]
  have : cs.bottom ≠ ring_next cs.max_elements cs.bottom :=
    fun heq => ring_next_ne_self h.cap_ge heq.symm
  simpa using this

theorem CsInv_insert {crc : List Nat → Nat} {cs : cs_t} (h : CsInv crc cs)
    (name : List Nat) (len p : Nat) (hlen : len ≤ name.length) :
    CsInv crc (cs_insert crc cs name len p).2.1 := by
  unfold cs_insert
  rcases cs_insert_cases cs name len p (crc (name.take len)) with
    ⟨_, heq⟩ | ⟨e0, he0, hfree, _, ⟨hf, heq⟩ | ⟨hf, heq⟩⟩
  · rw [heq]; exact h
  · rw [heq]
    have h1 := CsInv_evict h (cs_full_nonempty h hf)
    have hfree1 : ((cs_evict cs).table (crc (name.take len) % (cs_evict cs).num_buckets)).busy e0
        = 0 := by
      rw [(cs_evict_fields cs).2.2.2.2.2.1]
      split
      · rfl
      · exact hfree
    exact CsInv_store h1 name len p e0 hlen he0 hfree1 (cs_evict_room h hf)
  · rw [heq]
    exact CsInv_store h name len p e0 hlen he0 hfree hf

theorem cs_insert_static (crc : List Nat → Nat) (cs : cs_t) (name : List Nat) (len p : Nat) :
    (cs_insert crc cs name len p).2.1.max_elements = cs.max_elements ∧
    (cs_insert crc cs name len p).2.1.num_buckets = cs.num_buckets := by
  unfold cs_insert
  rcases cs_insert_cases cs name len p (crc (name.take len)) with
    ⟨_, heq⟩ | ⟨e0, _, _, _, ⟨_, heq⟩ | ⟨_, heq⟩⟩
  · rw [heq]; exact ⟨rfl, rfl⟩
  · rw [heq]; exact ⟨rfl, rfl⟩
  · rw [heq]; exact ⟨rfl, rfl⟩

theorem CsInv_of_reachable {crc : List Nat → Nat} {cs : cs_t} (h : CsReachable crc cs) :
    2 ≤ cs.max_elements → CsInv crc cs := by
  induction h with
  | create nb me hb hme =>
    intro hcap
    exact CsInv_create crc nb me hb hme (by
      have : (cs_create nb me).max_elements = me + 1 := rfl
      omega)
  | insert cs name len p _ hlen _ ih =>
    intro hcap
    rw [(cs_insert_static crc cs name len p).1] at hcap
    exact CsInv_insert (ih hcap) name len p hlen

theorem ring_next_eq {cap x : Nat} (hx : x < cap) : ring_next cap x = (x + 1) % cap := by
  unfold ring_next
  split
  · next h => rw [h, Nat.mod_self]
  · next h => exact (Nat.mod_eq_of_lt (by omega)).symm

/-- The state after a call of `cs_insert` that returned 0, field by field. -/
theorem cs_insert_state {crc : List Nat → Nat} {cs : cs_t} (h : CsInv crc cs)
    (name : List Nat) (len p : Nat) (hok : (cs_insert crc cs name len p).1 = 0) :
    ∃ e0, e0 < BUCKET_SIZE ∧ (cs.table (crc (name.take len) % cs.num_buckets)).busy e0 = 0 ∧
      (∀ e1, e1 < e0 → (cs.table (crc (name.take len) % cs.num_buckets)).busy e1 ≠ 0) ∧
      (cs_insert crc cs name len p).2.1.max_elements = cs.max_elements ∧
      (cs_insert crc cs name len p).2.1.num_buckets = cs.num_buckets ∧
      (cs_insert crc cs name len p).2.1.top = ring_next cs.max_elements cs.top ∧
      (cs_insert crc cs name len p).2.1.bottom =
        (if is_cs_full cs = true then ring_next cs.max_elements cs.bottom else cs.bottom) ∧
      (∀ i, (cs_insert crc cs name len p).2.1.ring i =
        if i = cs.top then
          { active := 1, bucket := crc (name.take len) % cs.num_buckets, tab := e0,
            name_len := len, name := memcpy (cs.ring cs.top).name name len, mbuf := p }
        else if is_cs_full cs = true ∧ i = cs.bottom then { cs.ring cs.bottom with active := 0 }
        else cs.ring i) ∧
      (∀ b e, ((cs_insert crc cs name len p).2.1.table b).busy e =
        if b = crc (name.take len) % cs.num_buckets ∧ e = e0 then 1
        else if is_cs_full cs = true ∧ b = (cs.ring cs.bottom).bucket ∧
          e = (cs.ring cs.bottom).tab then 0
        else (cs.table b).busy e) ∧
      (∀ b e, ((cs_insert crc cs name len p).2.1.table b).entry e =
        if b = crc (name.take len) % cs.num_buckets ∧ e = e0 then
          { crc := crc (name.take len), index := cs.top }
        else (cs.table b).entry e) ∧
      (cs_insert crc cs name len p).2.2 =
        (if is_cs_full cs = true then [(cs.ring cs.bottom).mbuf] else []) := by
  unfold cs_insert at hok ⊢
  rcases cs_insert_cases cs name len p (crc (name.take len)) with
    ⟨_, heq⟩ | ⟨e0, he0, hfree, hlow, ⟨hf, heq⟩ | ⟨hf, heq⟩⟩
  · rw [heq] at hok
    exact absurd hok (by show ¬ (-ENOSPC : Int) = 0; decide)
  · obtain ⟨f1, f2, f3, _, f5, f6, f7⟩ := cs_evict_fields cs
    have f4 := cs_evict_bottom h
    obtain ⟨g1, g2, g3, g4, g5, g6, g7⟩ := cs_store_fields (cs_evict cs)
      (crc (name.take len) % cs.num_buckets) e0 name len p (crc (name.take len))
    have hne := cs_full_nonempty h hf
    rw [heq]
    dsimp only
    refine ⟨e0, he0, hfree, hlow, g1.trans f1, g2.trans f2, ?_, ?_, ?_, ?_, ?_, ?_⟩
    · rw [g4, f3, f1]; exact ring_next_eq_mod h.top_lt h.cap_le
    · rw [g3, f4, if_pos hf]
    · intro i
      rw [g5, f3]
      by_cases hit : i = cs.top
      · rw [if_pos hit, if_pos hit, f5, if_neg (Ne.symm hne)]
      · rw [if_neg hit, if_neg hit, f5]
        by_cases hib : i = cs.bottom
        · rw [if_pos hib, if_pos ⟨hf, hib⟩]
        · rw [if_neg hib, if_neg (fun hh => hib hh.2)]
    · intro b e
      rw [g6, f6]
      by_cases hbe : b = crc (name.take len) % cs.num_buckets ∧ e = e0
      · rw [if_pos hbe, if_pos hbe]
      · rw [if_neg hbe, if_neg hbe]
        by_cases hev : b = (cs.ring cs.bottom).bucket ∧ e = (cs.ring cs.bottom).tab
        · rw [if_pos hev, if_pos ⟨hf, hev⟩]
        · rw [if_neg hev, if_neg (fun hh => hev hh.2)]
    · intro b e
      rw [g7, f7, f3]
    · rw [if_pos hf]
  · obtain ⟨g1, g2, g3, g4, g5, g6, g7⟩ := cs_store_fields cs
      (crc (name.take len) % cs.num_buckets) e0 name len p (crc (name.take len))
    have hff : ¬ is_cs_full cs = true := by rw [hf]; decide
    rw [heq]
    dsimp only
    refine ⟨e0, he0, hfree, hlow, g1, g2, ?_, ?_, ?_, ?_, ?_, ?_⟩
    · rw [g4]; exact ring_next_eq_mod h.top_lt h.cap_le
    · rw [g3, if_neg hff]
    · intro i
      rw [g5]
      by_cases hit : i = cs.top
      · rw [if_pos hit, if_pos hit]
      · rw [if_neg hit, if_neg hit, if_neg (fun hh => hff hh.1)]
    · intro b e
      rw [g6]
      by_cases hbe : b = crc (name.take len) % cs.num_buckets ∧ e = e0
      · rw [if_pos hbe, if_pos hbe]
      · rw [if_neg hbe, if_neg hbe, if_neg (fun hh => hff hh.1)]
    · intro b e
      rw [g7]
    · rw [if_neg hff]

theorem ring_dist_pos {cap bottom top i : Nat} (hb : bottom < cap)
    (h : ring_window cap bottom top i) (hne : i ≠ bottom) : 0 < ring_dist cap bottom i := by
  unfold ring_window ring_dist at *
  split_ifs at * <;> omega

theorem ring_dist_self (cap bottom : Nat) : ring_dist cap bottom bottom = 0 := by
  unfold ring_dist
  rw [if_pos (le_refl _)]
  omega

theorem ring_dist_full {cap bottom top : Nat} (hb : bottom < cap)
    (h : ring_next cap top = bottom) : ring_dist cap bottom top = cap - 1 := by
  unfold ring_dist ring_next at *
  split_ifs at * <;> omega

theorem cs_insert_failed (crc : List Nat → Nat) (cs : cs_t) (name : List Nat) (len p : Nat)
    (hret : (cs_insert crc cs name len p).1 ≠ 0) : (cs_insert crc cs name len p).2.1 = cs := by
  unfold cs_insert at hret ⊢
  rcases cs_insert_cases cs name len p (crc (name.take len)) with
    ⟨_, heq⟩ | ⟨e0, _, _, _, ⟨_, heq⟩ | ⟨_, heq⟩⟩
  · rw [heq]
  · rw [heq] at hret; exact absurd rfl hret
  · rw [heq] at hret; exact absurd rfl hret

theorem cs_occupancy_eq {crc : List Nat → Nat} {cs : cs_t} (h : CsInv crc cs) :
    cs_occupancy cs = ring_dist cs.max_elements cs.bottom cs.top :=
  ring_occupancy_eq h.top_lt h.bottom_lt h.cap_le

theorem CsOrder_evict {crc : List Nat → Nat} {cs : cs_t} {born : Nat → Nat} {k : Nat}
    (h : CsInv crc cs) (ho : CsOrder cs born k) (hne : cs.bottom ≠ cs.top) :
    CsOrder (cs_evict cs) born k := by
  have f4 := cs_evict_bottom h
  have f1 : (cs_evict cs).max_elements = cs.max_elements := rfl
  have f3 : (cs_evict cs).top = cs.top := rfl
  have hwin : ∀ i, cs_in_window (cs_evict cs) i → cs_in_window cs i ∧ i ≠ cs.bottom := by
    intro i; unfold cs_in_window; rw [f1, f3, f4]
    exact (ring_window_pop h.top_lt h.bottom_lt hne).mp
  refine ⟨?_, fun i hi => ho.upper i (hwin i hi).1⟩
  intro i j hi hj hd
  obtain ⟨wi, ni⟩ := hwin i hi
  obtain ⟨wj, nj⟩ := hwin j hj
  rw [f1, f4] at hd
  have di := ring_dist_pop h.top_lt h.bottom_lt wi ni
  have dj := ring_dist_pop h.top_lt h.bottom_lt wj nj
  exact ho.order i j wi wj (by omega)

theorem CsOrder_store {crc : List Nat → Nat} {cs : cs_t} {born : Nat → Nat} {k : Nat}
    (h : CsInv crc cs) (ho : CsOrder cs born k) (B e0 : Nat) (name : List Nat) (len p c : Nat)
    (hfull : is_cs_full cs = false) :
    CsOrder (cs_store cs B e0 name len p c) (upd born cs.top k) (k + 1) := by
  obtain ⟨f1, _, f3, f4, _, _, _⟩ := cs_store_fields cs B e0 name len p c
  rw [ring_next_eq_mod h.top_lt h.cap_le] at f4
  have hnf := is_cs_full_false h hfull
  have hwin : ∀ i, cs_in_window (cs_store cs B e0 name len p c) i ↔
      cs_in_window cs i ∨ i = cs.top := by
    intro i
    unfold cs_in_window
    rw [f1, f3, f4]
    exact ring_window_push h.bottom_lt hnf
  constructor
  · intro i j hi hj hd
    rw [f1, f3] at hd
    rw [hwin] at hi hj
    rw [upd_apply, upd_apply]
    by_cases hjt : j = cs.top
    · rw [if_pos hjt]
      by_cases hit : i = cs.top
      · rw [hit, hjt] at hd; omega
      · rw [if_neg hit]
        exact ho.upper i (hi.resolve_right hit)
    · rw [if_neg hjt]
      have hj' : cs_in_window cs j := hj.resolve_right hjt
      by_cases hit : i = cs.top
      · exfalso
        have := ring_dist_lt h.bottom_lt hj'
        rw [hit] at hd
        omega
      · rw [if_neg hit]
        exact ho.order i j (hi.resolve_right hit) hj' hd
  · intro i hi
    rw [hwin] at hi
    rw [upd_apply]
    by_cases hit : i = cs.top
    · rw [if_pos hit]; omega
    · rw [if_neg hit]
      have := ho.upper i (hi.resolve_right hit)
      omega

theorem CsOrder_create (nb me : Nat) : CsOrder (cs_create nb me) (fun _ => 0) 0 := by
  obtain ⟨_, _, h3, h4, _, _⟩ := cs_create_fields nb me
  constructor
  · intro i j hi
    unfold cs_in_window at hi
    rw [h3, h4] at hi
    exact absurd hi ring_window_empty
  · intro i hi
    unfold cs_in_window at hi
    rw [h3, h4] at hi
    exact absurd hi ring_window_empty

/-- What a history gives: the state is reachable, its ring has at least two
positions, and the ring is in the order of the insertions. -/
theorem CsTrace_inv {crc : List Nat → Nat} {cs : cs_t} {born : Nat → Nat} {k : Nat}
    (h : CsTrace crc cs born k) :
    CsReachable crc cs ∧ CsInv crc cs ∧ CsOrder cs born k := by
  induction h with
  | create nb me hb hme hpos =>
    exact ⟨CsReachable.create nb me hb hme, CsInv_create crc nb me hb hme hpos,
      CsOrder_create nb me⟩
  | insert cs born k name len p _ hlen hmax ih =>
    obtain ⟨hr, hi, ho⟩ := ih
    refine ⟨CsReachable.insert cs name len p hr hlen hmax, CsInv_insert hi name len p hlen, ?_⟩
    by_cases hret : (cs_insert crc cs name len p).1 = 0
    · rw [if_pos hret, if_pos hret]
      unfold cs_insert at hret ⊢
      rcases cs_insert_cases cs name len p (crc (name.take len)) with
        ⟨_, heq⟩ | ⟨e0, _, _, _, ⟨hf, heq⟩ | ⟨hf, heq⟩⟩
      · rw [heq] at hret
        exact absurd hret (by show ¬ (-ENOSPC : Int) = 0; decide)
      · rw [heq]
        have hne := cs_full_nonempty hi hf
        exact CsOrder_store (CsInv_evict hi hne) (CsOrder_evict hi ho hne) _ e0 name len p _
          (cs_evict_room hi hf)
      · rw [heq]
        exact CsOrder_store hi ho _ e0 name len p _ hf
    · rw [if_neg hret, if_neg hret, cs_insert_failed crc cs name len p hret]
      exact ho

/-- In a CS that is not empty the entry at `bottom` is older than every other
cached entry. -/
theorem cs_bottom_oldest {crc : List Nat → Nat} {cs : cs_t} {born : Nat → Nat} {k : Nat}
    (h : CsInv crc cs) (ho : CsOrder cs born k) (hne : cs.bottom ≠ cs.top) (i : Nat)
    (hi : (cs.ring i).active ≠ 0) (hib : i ≠ cs.bottom) : born cs.bottom < born i := by
  have wi := (h.active i hi).1
  have wb : cs_in_window cs cs.bottom := ring_window_bottom h.bottom_lt hne
  apply ho.order _ _ wb wi
  rw [ring_dist_self]
  exact ring_dist_pos h.bottom_lt wi hib

/-- A successful insertion leaves the probe of another name where it was: an
entry that is not evicted, whose name is not the one inserted and at which the
probe of its name stopped, is still the entry at which that probe stops. -/
theorem cs_insert_keeps_probe {crc : List Nat → Nat} {cs : cs_t} (h : CsInv crc cs)
    (n : List Nat) (len p : Nat) (hbuf : len ≤ n.length)
    (hok : (cs_insert crc cs n len p).1 = 0) (m : List Nat) (ml c e : Nat)
    (hdiff : ¬ (ml = len ∧ m.take ml = n.take len))
    (hnev : ¬ (is_cs_full cs = true ∧ c % cs.num_buckets = (cs.ring cs.bottom).bucket ∧
      e = (cs.ring cs.bottom).tab))
    (hstop : cs_lookup_stops cs m ml c e) :
    cs_lookup_stops (cs_insert crc cs n len p).2.1 m ml c e ∧
    cs_record (cs_insert crc cs n len p).2.1 (c % cs.num_buckets) e =
      cs_record cs (c % cs.num_buckets) e := by
  obtain ⟨e0, he0, hfree, _, _, s2, _, _, s5, s6, s7, _⟩ := cs_insert_state h n len p hok
  obtain ⟨he, hm, hfirst⟩ := hstop
  have hold : ∀ e1, cs_live cs (c % cs.num_buckets) e1 →
      ¬ (c % cs.num_buckets = crc (n.take len) % cs.num_buckets ∧ e1 = e0) ∧
      ((cs_insert crc cs n len p).2.1.table (c % cs.num_buckets)).entry e1 =
        (cs.table (c % cs.num_buckets)).entry e1 ∧
      ((cs.table (c % cs.num_buckets)).entry e1).index ≠ cs.top := by
    intro e1 hl
    have hnn : ¬ (c % cs.num_buckets = crc (n.take len) % cs.num_buckets ∧ e1 = e0) := by
      rintro ⟨hb, hee⟩
      rw [hb, hee] at hl
      exact hl hfree
    refine ⟨hnn, by rw [s7, if_neg hnn], ?_⟩
    intro heq
    have hw := (h.slot _ _ hl).2.2.1
    rw [heq] at hw
    exact ring_window_top hw
  have hname : ∀ i, i ≠ cs.top →
      ((cs_insert crc cs n len p).2.1.ring i).name_len = (cs.ring i).name_len ∧
      ((cs_insert crc cs n len p).2.1.ring i).name = (cs.ring i).name := by
    intro i hi
    rw [s5, if_neg hi]
    split
    · next hh => rw [hh.2]; exact ⟨rfl, rfl⟩
    · exact ⟨rfl, rfl⟩
  have hback : ∀ e1, cs_entry_matches (cs_insert crc cs n len p).2.1 m ml c
      (c % cs.num_buckets) e1 → cs_entry_matches cs m ml c (c % cs.num_buckets) e1 := by
    intro e1 hm1
    obtain ⟨m1, m2, m3, m4⟩ := hm1
    rw [s6] at m1
    by_cases hnew : c % cs.num_buckets = crc (n.take len) % cs.num_buckets ∧ e1 = e0
    · exfalso
      rw [s7, if_pos hnew] at m3 m4
      dsimp only at m3 m4
      rw [s5, if_pos rfl] at m3 m4
      dsimp only at m3 m4
      unfold memcmp_eq at m4
      rw [m3, memcpy_take hbuf] at m4
      exact hdiff ⟨m3, by rw [m3]; exact m4⟩
    · rw [if_neg hnew] at m1
      have hl : cs_live cs (c % cs.num_buckets) e1 := by
        split at m1
        · exact absurd rfl m1
        · exact m1
      obtain ⟨_, k2, k3⟩ := hold e1 hl
      rw [k2] at m2 m3 m4
      rw [(hname _ k3).1] at m3
      rw [(hname _ k3).2] at m4
      exact ⟨hl, m2, m3, m4⟩
  obtain ⟨k1, k2, k3⟩ := hold e hm.1
  have hrec : (cs_insert crc cs n len p).2.1.ring ((cs.table (c % cs.num_buckets)).entry e).index
      = cs.ring ((cs.table (c % cs.num_buckets)).entry e).index := by
    rw [s5, if_neg k3]
    split
    · next hh =>
      exfalso
      obtain ⟨_, _, _, _, r5, r6, _⟩ := h.slot _ _ hm.1
      unfold cs_record at r5 r6
      rw [hh.2] at r5 r6
      exact hnev ⟨hh.1, r5.symm, r6.symm⟩
    · rfl
  refine ⟨⟨he, ?_, ?_⟩, ?_⟩
  · rw [s2]
    obtain ⟨m1, m2, m3, m4⟩ := hm
    refine ⟨?_, ?_, ?_, ?_⟩
    · rw [s6, if_neg k1]
      split
      · next hh => exact absurd hh hnev
      · exact m1
    · rw [k2]; exact m2
    · rw [k2, hrec]; exact m3
    · rw [k2, hrec]; exact m4
  · intro e1 he1 hm1
    rw [s2] at hm1
    exact hfirst e1 he1 (hback e1 hm1)
  · unfold cs_record
    rw [k2, hrec]

theorem mem_ring_positions {cap bottom top i : Nat} (ht : top < cap) :
    i ∈ ring_positions cap bottom top ↔ ring_window cap bottom top i := by
  unfold ring_positions
  rw [List.mem_filter, List.mem_range, decide_eq_true_eq]
  constructor
  · exact fun h => h.2
  · exact fun h => ⟨ring_window_lt ht h, h⟩

theorem ring_positions_nodup (cap bottom top : Nat) : (ring_positions cap bottom top).Nodup :=
  List.Nodup.filter _ (List.nodup_range _)

theorem ring_positions_length {cap bottom top : Nat} (ht : top < cap) (hb : bottom < cap) :
    (ring_positions cap bottom top).length = ring_dist cap bottom top := by
  rw [← List.toFinset_card_of_nodup (ring_positions_nodup cap bottom top)]
  by_cases hbt : bottom ≤ top
  · have : (ring_positions cap bottom top).toFinset = Finset.Ico bottom top := by
      ext i
      rw [List.mem_toFinset, mem_ring_positions ht, Finset.mem_Ico]
      unfold ring_window
      rw [if_pos hbt]
    rw [this, Nat.card_Ico]
    unfold ring_dist
    rw [if_pos hbt]
  · have : (ring_positions cap bottom top).toFinset =
        Finset.Ico bottom cap ∪ Finset.Ico 0 top := by
      ext i
      rw [List.mem_toFinset, mem_ring_positions ht, Finset.mem_union, Finset.mem_Ico,
        Finset.mem_Ico]
      unfold ring_window
      rw [if_neg hbt]
      constructor
      · rintro (h | h)
        · exact Or.inl h
        · exact Or.inr ⟨Nat.zero_le _, h⟩
      · rintro (h | h)
        · exact Or.inl h
        · exact Or.inr h.2
    rw [this, Finset.card_union_of_disjoint, Nat.card_Ico, Nat.card_Ico]
    · unfold ring_dist
      rw [if_neg hbt]
      omega
    · rw [Finset.disjoint_left]
      intro i h1 h2
      rw [Finset.mem_Ico] at h1 h2
      omega

theorem mem_cs_busy_slots (cs : cs_t) (s : Nat × Nat) :
    s ∈ cs_busy_slots cs ↔
      (s.1 < cs.num_buckets ∧ s.2 < BUCKET_SIZE) ∧ (cs.table s.1).busy s.2 ≠ 0 := by
  unfold cs_busy_slots
  rw [List.mem_filter]
  obtain ⟨b, e⟩ := s
  simp only [List.pair_mem_product, List.mem_range, decide_eq_true_eq]

theorem cs_busy_slots_nodup (cs : cs_t) : (cs_busy_slots cs).Nodup := by
  unfold cs_busy_slots
  exact List.Nodup.filter _ (List.Nodup.product (List.nodup_range _) (List.nodup_range _))

/-- In a consistent CS there are as many busy bucket entries as ring positions
in the window. -/
theorem cs_busy_slots_length {crc : List Nat → Nat} {cs : cs_t} (h : CsInv crc cs) :
    (cs_busy_slots cs).length = cs_occupancy cs := by
  rw [cs_occupancy_eq h, ← ring_positions_length h.top_lt h.bottom_lt]
  apply Nat.le_antisymm
  · have hnd : ((cs_busy_slots cs).map (fun s => ((cs.table s.1).entry s.2).index)).Nodup := by
      apply List.Nodup.map_on _ (cs_busy_slots_nodup cs)
      intro s hs t ht hst
      obtain ⟨_, hsb⟩ := (mem_cs_busy_slots cs s).mp hs
      obtain ⟨_, htb⟩ := (mem_cs_busy_slots cs t).mp ht
      obtain ⟨_, _, _, _, s5, s6, _⟩ := h.slot _ _ hsb
      obtain ⟨_, _, _, _, t5, t6, _⟩ := h.slot _ _ htb
      unfold cs_record at s5 s6 t5 t6
      rw [hst] at s5 s6
      exact Prod.ext (s5.symm.trans t5) (s6.symm.trans t6)
    have hsub : (cs_busy_slots cs).map (fun s => ((cs.table s.1).entry s.2).index) ⊆
        ring_positions cs.max_elements cs.bottom cs.top := by
      intro i hi
      rw [List.mem_map] at hi
      obtain ⟨s, hs, rfl⟩ := hi
      obtain ⟨_, hsb⟩ := (mem_cs_busy_slots cs s).mp hs
      exact (mem_ring_positions h.top_lt).mpr (h.slot _ _ hsb).2.2.1
    have := (List.subperm_of_subset hnd hsub).length_le
    simpa using this
  · have hnd : ((ring_positions cs.max_elements cs.bottom cs.top).map
        (fun i => ((cs.ring i).bucket, (cs.ring i).tab))).Nodup := by
      apply List.Nodup.map_on _ (ring_positions_nodup _ _ _)
      intro i hi j hj hij
      have wi := (mem_ring_positions h.top_lt).mp hi
      have wj := (mem_ring_positions h.top_lt).mp hj
      have ai := h.active i (by rw [h.window i wi]; omega)
      have aj := h.active j (by rw [h.window j wj]; omega)
      have h1 : (cs.ring i).bucket = (cs.ring j).bucket := congrArg Prod.fst hij
      have h2 : (cs.ring i).tab = (cs.ring j).tab := congrArg Prod.snd hij
      rw [← ai.2.2, ← aj.2.2, h1, h2]
    have hsub : (ring_positions cs.max_elements cs.bottom cs.top).map
        (fun i => ((cs.ring i).bucket, (cs.ring i).tab)) ⊆ cs_busy_slots cs := by
      intro s hs
      rw [List.mem_map] at hs
      obtain ⟨i, hi, rfl⟩ := hs
      have wi := (mem_ring_positions h.top_lt).mp hi
      obtain ⟨_, a2, _⟩ := h.active i (by rw [h.window i wi]; omega)
      obtain ⟨s1, s2, _⟩ := h.slot _ _ a2
      rw [mem_cs_busy_slots]
      refine ⟨⟨?_, s1⟩, a2⟩
      dsimp only
      rw [s2]
      exact Nat.mod_lt _ h.buckets_pos
    have := (List.subperm_of_subset hnd hsub).length_le
    simpa using this

theorem cs_occupancy_le {crc : List Nat → Nat} {cs : cs_t} (h : CsInv crc cs) :
    cs_occupancy cs ≤ cs.max_elements - 1 := by
  rw [cs_occupancy_eq h]
  have := ring_dist_top_lt h.top_lt h.bottom_lt
  omega

/-! ## The parser -/

theorem getD_append_add (a b : List Nat) (j : Nat) :
    (a ++ b).getD (a.length + j) 0 = b.getD j 0 := by
  rw [List.getD_eq_getElem?_getD, List.getD_eq_getElem?_getD,
    List.getElem?_append_right (Nat.le_add_right _ _), Nat.add_sub_cancel_left]

theorem be16_append_add (a b : List Nat) (j : Nat) :
    be16 (a ++ b) (a.length + j) = be16 b j := by
  unfold be16
  rw [getD_append_add, Nat.add_assoc, getD_append_add]

theorem le16_append_add (a b : List Nat) (j : Nat) :
    le16 (a ++ b) (a.length + j) = le16 b j := by
  unfold le16
  rw [getD_append_add, Nat.add_assoc, getD_append_add]

theorem be16_be16_bytes (v : Nat) (l : List Nat) (hv : v < 65536) :
    be16 (be16_bytes v ++ l) 0 = v := by
  unfold be16 be16_bytes
  simp only [List.cons_append, List.nil_append, List.getD_cons_zero, List.getD_cons_succ]
  omega

theorem component_offset_flatMap (rest : List Nat) :
    ∀ (offsets : List Nat) (k : Nat), k < offsets.length →
      (∀ v, v ∈ offsets → v < 65536) →
      component_offset (offsets.flatMap be16_bytes ++ rest) k = offsets.getD k 0 := by
  intro offsets
  induction offsets with
  | nil => intro k hk; exact absurd hk (by simp)
  | cons v vs ih =>
    intro k hk hv
    have hv0 := hv v (List.mem_cons_self _ _)
    cases k with
    | zero =>
      unfold component_offset
      simp only [List.flatMap_cons, be16_bytes, List.cons_append, List.nil_append,
        List.getD_cons_zero, List.getD_cons_succ, Nat.mul_zero, Nat.zero_add]
      omega
    | succ k =>
      have hrec := ih k (by simpa using hk) (fun w hw => hv w (List.mem_cons_of_mem _ hw))
      unfold component_offset at hrec ⊢
      have h1 : 2 * (k + 1) = (2 * k) + 2 := by omega
      have h2 : 2 * k + 2 + 1 = (2 * k + 1) + 2 := by omega
      rw [h1, h2]
      simp only [List.flatMap_cons, be16_bytes, List.cons_append, List.nil_append,
        List.getD_cons_succ]
      simpa using hrec

theorem getD_lt_of_bytes {buf : List Nat} (h : ∀ b, b ∈ buf → b < 256) (i : Nat) :
    buf.getD i 0 < 256 := by
  rw [List.getD_eq_getElem?_getD]
  cases hi : buf[i]? with
  | none => simp
  | some v =>
    have : v ∈ buf := List.getElem?_mem hi
    simpa using h v this

/-- The outcome of `parse_packet`, case by case. -/
theorem parse_packet_cases (pkt : List Nat) (p : icn_packet) :
    (parse_packet pkt p).2.hdr = pkt ∧
    (parse_packet pkt p).2.name_len = be16 pkt 9 ∧
    (parse_packet pkt p).2.name = pkt.drop 11 ∧
    (parse_packet pkt p).2.crc = p.crc ∧
    ((11 + be16 pkt 9 < be16 pkt 2 ∧ le16 pkt (11 + be16 pkt 9) = 256 ∧
      (parse_packet pkt p).1 = 0 ∧
      (parse_packet pkt p).2.component_offsets = pkt.drop (11 + be16 pkt 9 + 4) ∧
      (parse_packet pkt p).2.component_offsets_size = be16 pkt (11 + be16 pkt 9 + 2) ∧
      (parse_packet pkt p).2.component_nr = be16 pkt (11 + be16 pkt 9 + 2) / 2) ∨
     (¬ (11 + be16 pkt 9 < be16 pkt 2 ∧ le16 pkt (11 + be16 pkt 9) = 256) ∧
      (parse_packet pkt p).1 = 1 ∧
      (parse_packet pkt p).2.component_offsets = p.component_offsets ∧
      (parse_packet pkt p).2.component_offsets_size = p.component_offsets_size ∧
      (parse_packet pkt p).2.component_nr = p.component_nr)) := by
  unfold parse_packet
  simp only [ICN_HDR_NAME_OFFSET, ICN_HDR_SIZE, TLV_TYPE_NAME_COMPONENTS_OFFSET_BE]
  by_cases h1 : 11 + be16 pkt 9 ≥ be16 pkt 2
  · rw [if_pos h1]
    refine ⟨rfl, rfl, rfl, rfl, Or.inr ⟨fun h => by omega, rfl, rfl, rfl, rfl⟩⟩
  · rw [if_neg h1]
    by_cases h2 : le16 pkt (11 + be16 pkt 9) = 256
    · rw [if_pos h2]
      exact ⟨rfl, rfl, rfl, rfl, Or.inl ⟨by omega, h2, rfl, rfl, rfl, rfl⟩⟩
    · rw [if_neg h2]
      exact ⟨rfl, rfl, rfl, rfl, Or.inr ⟨fun h => h2 h.2, rfl, rfl, rfl, rfl⟩⟩

/-! ## The forwarding engine -/

/-- Two live bucket entries whose ring entries hold the same name are the same
bucket entry. -/
theorem pit_live_unique {crc : List Nat → Nat} {pit : pit_t} (h : PitInv crc pit)
    {b1 e1 b2 e2 : Nat} (h1 : pit_live pit b1 e1) (h2 : pit_live pit b2 e2)
    (hlen : (pit_record pit b1 e1).name_len = (pit_record pit b2 e2).name_len)
    (hname : (pit_record pit b1 e1).name.take (pit_record pit b1 e1).name_len =
      (pit_record pit b2 e2).name.take (pit_record pit b2 e2).name_len) :
    b1 = b2 ∧ e1 = e2 := by
  obtain ⟨_, _, _, a1, b1', c1, _⟩ := h.slot b1 e1 h1
  obtain ⟨_, _, _, a2, b2', c2, _⟩ := h.slot b2 e2 h2
  unfold pit_record at hlen hname a1 a2 b1' b2' c1 c2
  have hidx := h.unique _ _ (by rw [a1]; decide) (by rw [a2]; decide) hlen hname
  rw [hidx] at b1' c1
  exact ⟨b1'.symm.trans b2', c1.symm.trans c2⟩

/-- A call of `pit_lookup_and_update` leaves every live bucket entry live, with
the same name, name length and expiry time in its ring entry. -/
theorem pit_update_keeps_live {crc : List Nat → Nat} {pit : pit_t} (h : PitInv crc pit)
    (name : List Nat) (len face : Nat) (ct : Option Nat) (now c : Nat) {b e : Nat}
    (hl : pit_live pit b e) :
    pit_live (__pit_lookup_and_update_with_hash pit name len face ct now c).2 b e ∧
    (pit_record (__pit_lookup_and_update_with_hash pit name len face ct now c).2 b e).name =
      (pit_record pit b e).name ∧
    (pit_record (__pit_lookup_and_update_with_hash pit name len face ct now c).2 b e).name_len =
      (pit_record pit b e).name_len ∧
    (pit_record (__pit_lookup_and_update_with_hash pit name len face ct now c).2 b e).expiry =
      (pit_record pit b e).expiry := by
  rcases pit_update_cases pit name len face ct now c with
    ⟨e0, _, _, _, heq⟩ | ⟨_, _, heq⟩ | ⟨_, e0, _, hfree, _, _, heq⟩
  · rw [heq]
    dsimp only
    split
    · refine ⟨hl, ?_, ?_, ?_⟩ <;>
      · unfold pit_record pit_set_mask upd
        dsimp only
        split
        · next hi => rw [hi]
        · rfl
    · exact ⟨hl, rfl, rfl, rfl⟩
  · rw [heq]
    exact ⟨hl, rfl, rfl, rfl⟩
  · obtain ⟨x, heq⟩ : ∃ x, __pit_lookup_and_update_with_hash pit name len face ct now c =
        ((1 : Int), pit_store pit (c % pit.num_buckets) e0 name len face x c) := ⟨_, heq⟩
    rw [heq]
    dsimp only
    obtain ⟨_, _, s3, _⟩ := h.slot b e hl
    have hne : ¬ (b = c % pit.num_buckets ∧ e = e0) := by
      rintro ⟨hb, he⟩
      rw [hb, he] at hl
      exact hl hfree
    have hnt : ((pit.table b).entry e).index ≠ pit.top := by
      intro heq2
      unfold pit_in_window at s3
      rw [heq2] at s3
      exact ring_window_top s3
    have hrec : pit_record (pit_store pit (c % pit.num_buckets) e0 name len face x c) b e =
        pit_record pit b e := by
      unfold pit_record
      rw [pit_store_entry, if_neg hne, pit_store_ring, if_neg hnt]
    refine ⟨?_, by rw [hrec], by rw [hrec], by rw [hrec]⟩
    unfold pit_live
    rw [pit_store_busy, if_neg hne]
    exact hl

/-- What one run of the purge loop does: the count grows by the number of steps
of `bottom`, which stays between the old `bottom` and `top`; in the ring only
`active` flags change; the bucket entries keep their contents; an active entry
that expires after `t` stays active with its bucket entry busy. -/
theorem pit_purge_loop_frame {crc : List Nat → Nat} (t : Nat) :
    ∀ (fuel : Nat) (pit : pit_t) (purged r : Nat) (pit' : pit_t), PitInv crc pit →
      pit_purge_loop t fuel pit purged = some (r, pit') →
      purged + ring_dist pit.max_elements pit.bottom pit.top < 2 ^ 32 →
      r = purged + ring_dist pit.max_elements pit.bottom pit'.bottom ∧
      (pit'.bottom = pit.top ∨ ring_window pit.max_elements pit.bottom pit.top pit'.bottom) ∧
      (∀ i, ((pit'.ring i).bucket, (pit'.ring i).tab, (pit'.ring i).expiry,
          (pit'.ring i).name_len, (pit'.ring i).name, (pit'.ring i).face_bitmask) =
        ((pit.ring i).bucket, (pit.ring i).tab, (pit.ring i).expiry,
          (pit.ring i).name_len, (pit.ring i).name, (pit.ring i).face_bitmask)) ∧
      (∀ b e, (pit'.table b).entry e = (pit.table b).entry e) ∧
      (∀ i, (pit.ring i).active = 1 → t < (pit.ring i).expiry →
        (pit'.ring i).active = 1 ∧ (pit'.table (pit.ring i).bucket).busy (pit.ring i).tab ≠ 0) := by
  intro fuel
  induction fuel with
  | zero =>
    intro pit purged r pit' h hrun _
    unfold pit_purge_loop at hrun
    split at hrun
    · next hem =>
      injection hrun with hrun
      injection hrun with h1 h2
      subst h1 h2
      refine ⟨by rw [ring_dist_self, Nat.add_zero], Or.inl ((is_pit_empty_iff pit).mp hem).symm,
        fun i => rfl, fun b e => rfl, fun i ha _ => ⟨ha, ?_⟩⟩
      exact (h.active i (by rw [ha]; decide)).2.1
    · exact absurd hrun (by simp)
  | succ fuel ih =>
    intro pit purged r pit' h hrun hlt
    have keep : ∀ i, (pit.ring i).active = 1 →
        (pit.table (pit.ring i).bucket).busy (pit.ring i).tab ≠ 0 :=
      fun i ha => (h.active i (by rw [ha]; decide)).2.1
    unfold pit_purge_loop at hrun
    split at hrun
    · next hem =>
      injection hrun with hrun
      injection hrun with h1 h2
      subst h1 h2
      exact ⟨by rw [ring_dist_self, Nat.add_zero],
        Or.inl ((is_pit_empty_iff pit).mp hem).symm,
        fun i => rfl, fun b e => rfl, fun i ha _ => ⟨ha, keep i ha⟩⟩
    · next hem =>
      have hne : pit.top ≠ pit.bottom := fun hh => hem ((is_pit_empty_iff pit).mpr hh)
      have hdist := ring_dist_top_pop h.top_lt h.bottom_lt (Ne.symm hne)
      have combine : ∀ pit1 : pit_t, PitInv crc pit1 →
          pit1.bottom = ring_next pit.max_elements pit.bottom → pit1.top = pit.top →
          pit1.max_elements = pit.max_elements →
          (∀ i, ((pit1.ring i).bucket, (pit1.ring i).tab, (pit1.ring i).expiry,
              (pit1.ring i).name_len, (pit1.ring i).name, (pit1.ring i).face_bitmask) =
            ((pit.ring i).bucket, (pit.ring i).tab, (pit.ring i).expiry,
              (pit.ring i).name_len, (pit.ring i).name, (pit.ring i).face_bitmask)) →
          (∀ b e, (pit1.table b).entry e = (pit.table b).entry e) →
          (∀ i, (pit.ring i).active = 1 → t < (pit.ring i).expiry →
            pit1.ring i = pit.ring i) →
          pit_purge_loop t fuel pit1 ((purged + 1) % 2 ^ 32) = some (r, pit') →
          r = purged + ring_dist pit.max_elements pit.bottom pit'.bottom ∧
          (pit'.bottom = pit.top ∨
            ring_window pit.max_elements pit.bottom pit.top pit'.bottom) ∧
          (∀ i, ((pit'.ring i).bucket, (pit'.ring i).tab, (pit'.ring i).expiry,
              (pit'.ring i).name_len, (pit'.ring i).name, (pit'.ring i).face_bitmask) =
            ((pit.ring i).bucket, (pit.ring i).tab, (pit.ring i).expiry,
              (pit.ring i).name_len, (pit.ring i).name, (pit.ring i).face_bitmask)) ∧
          (∀ b e, (pit'.table b).entry e = (pit.table b).entry e) ∧
          (∀ i, (pit.ring i).active = 1 → t < (pit.ring i).expiry →
            (pit'.ring i).active = 1 ∧
            (pit'.table (pit.ring i).bucket).busy (pit.ring i).tab ≠ 0) := by
        intro pit1 p1 p2 p3 p4 p5 p6 p7 hrun1
        have hmod : (purged + 1) % 2 ^ 32 = purged + 1 := Nat.mod_eq_of_lt (by omega)
        rw [hmod] at hrun1
        obtain ⟨q1, q2, q3, q4, q5⟩ := ih pit1 (purged + 1) r pit' p1 hrun1
          (by rw [p2, p3, p4]; omega)
        rw [p2, p4] at q1
        rw [p2, p3, p4] at q2
        refine ⟨?_, ?_, fun i => (q3 i).trans (p5 i), fun b e => (q4 b e).trans (p6 b e),
          fun i ha hx => ?_⟩
        · rcases q2 with q2 | q2
          · rw [q1, q2]; omega
          · have hw := (ring_window_pop h.top_lt h.bottom_lt (Ne.symm hne)).mp q2
            have := ring_dist_pop h.top_lt h.bottom_lt hw.1 hw.2
            rw [q1]; omega
        · rcases q2 with q2 | q2
          · exact Or.inl q2
          · exact Or.inr ((ring_window_pop h.top_lt h.bottom_lt (Ne.symm hne)).mp q2).1
        · have he := p7 i ha hx
          have := q5 i (by rw [he]; exact ha) (by rw [he]; exact hx)
          rw [he] at this
          exact this
      split at hrun
      · next hact =>
        split at hrun
        · injection hrun with hrun
          injection hrun with h1 h2
          subst h1 h2
          exact ⟨by rw [ring_dist_self, Nat.add_zero],
            Or.inr (ring_window_bottom h.bottom_lt (Ne.symm hne)),
            fun i => rfl, fun b e => rfl, fun i ha _ => ⟨ha, keep i ha⟩⟩
        · next hexp =>
          obtain ⟨f1, f2, f3, _, f5, f6, f7, f8⟩ := pit_expire_bottom_fields pit
          have hk : PitInv crc (pit_expire_bottom pit) :=
            PitInv_kill h pit.bottom (by rw [hact]; omega) f1 f2 f3 f5 f6 f7 f8
          refine combine (pit_advance_bottom (pit_expire_bottom pit)) (PitInv_expire h hne hact)
            ?_ f3 f1 (fun i => ?_) f8 (fun i ha hx => ?_) hrun
          · rw [pit_advance_bottom_eq hk, f1, f5]
          · have hr : (pit_advance_bottom (pit_expire_bottom pit)).ring i =
                (pit_expire_bottom pit).ring i := rfl
            rw [hr, f6]
            split
            · next hi => rw [hi]
            · rfl
          · show (pit_expire_bottom pit).ring i = pit.ring i
            rw [f6, if_neg]
            intro hi
            rw [hi] at hx
            exact hexp hx
      · next hact =>
        exact combine (pit_advance_bottom pit) (PitInv_skip h hne hact)
          (pit_advance_bottom_eq h) rfl rfl (fun i => rfl) (fun b e => rfl)
          (fun i _ _ => rfl) hrun

/-- Enqueuing buffers on a batch that does not fill up: they are stored after
those already there, in order, and no DPDK call is made. -/
theorem send_packets_partial (t p q : Nat) :
    ∀ (ms : List Nat) (w : worker), (w.tx_mbufs t).len + ms.length < MAX_PKT_BURST →
      ((send_packets w ms t p q).tx_mbufs t).len = (w.tx_mbufs t).len + ms.length ∧
      (List.range ((w.tx_mbufs t).len + ms.length)).map
          ((send_packets w ms t p q).tx_mbufs t).m_table =
        (List.range (w.tx_mbufs t).len).map (w.tx_mbufs t).m_table ++ ms ∧
      (send_packets w ms t p q).calls = w.calls ∧
      (send_packets w ms t p q).tx_ret = w.tx_ret := by
  intro ms
  induction ms with
  | nil =>
    intro w _
    exact ⟨rfl, by simp [send_packets], rfl, rfl⟩
  | cons m ms ih =>
    intro w hlt
    rw [List.length_cons] at hlt
    have hne : ¬ ((w.tx_mbufs t).len + 1) % 65536 = MAX_PKT_BURST := by
      have : (w.tx_mbufs t).len + 1 < MAX_PKT_BURST := by omega
      unfold MAX_PKT_BURST at this ⊢
      omega
    have hmod : ((w.tx_mbufs t).len + 1) % 65536 = (w.tx_mbufs t).len + 1 := by
      unfold MAX_PKT_BURST at hlt
      omega
    have hstep : send_single_packet w m t p q =
        { w with
          tx_mbufs := upd
            (upd w.tx_mbufs t
              { w.tx_mbufs t with m_table := upd (w.tx_mbufs t).m_table (w.tx_mbufs t).len m })
            t { len := (w.tx_mbufs t).len + 1,
                m_table := upd (w.tx_mbufs t).m_table (w.tx_mbufs t).len m }
          enqueued := w.enqueued ++ [(m, t)] } := by
      unfold send_single_packet
      dsimp only
      rw [if_neg hne, hmod, upd_same]
    have hfold : send_packets w (m :: ms) t p q =
        send_packets (send_single_packet w m t p q) ms t p q := rfl
    rw [hfold]
    have hl1 : ((send_single_packet w m t p q).tx_mbufs t).len = (w.tx_mbufs t).len + 1 := by
      rw [hstep]; dsimp only; rw [upd_same]
    have ht1 : ((send_single_packet w m t p q).tx_mbufs t).m_table =
        upd (w.tx_mbufs t).m_table (w.tx_mbufs t).len m := by
      rw [hstep]; dsimp only; rw [upd_same]
    obtain ⟨a1, a2, a3, a4⟩ := ih (send_single_packet w m t p q) (by rw [hl1]; omega)
    rw [hl1] at a1 a2
    rw [ht1] at a2
    have hassoc : (w.tx_mbufs t).len + (ms.length + 1) = (w.tx_mbufs t).len + 1 + ms.length := by
      omega
    refine ⟨by rw [a1, List.length_cons]; omega, ?_, ?_, ?_⟩
    · rw [List.length_cons, hassoc, a2, List.range_succ, List.map_append, List.map_singleton,
        upd_same, List.append_assoc, List.singleton_append]
      congr 1
      apply List.map_congr_left
      intro i hi
      rw [upd_ne]
      exact ne_of_lt (List.mem_range.mp hi)
    · rw [a3, hstep]
    · rw [a4, hstep]

/-- The call of `send_single_packet` that fills the batch: the batch is handed to
`rte_eth_tx_burst` and its length is set to 0. -/
theorem send_single_packet_flush (w : worker) (m t p q : Nat)
    (hlen : (w.tx_mbufs t).len + 1 = MAX_PKT_BURST) :
    ((send_single_packet w m t p q).tx_mbufs t).len = 0 ∧
    ((send_single_packet w m t p q).tx_mbufs t).m_table =
      upd (w.tx_mbufs t).m_table (w.tx_mbufs t).len m ∧
    (send_single_packet w m t p q).calls =
      w.calls ++
        dpdk_call.eth_tx_burst (p % 256) (q % 256)
          ((List.range MAX_PKT_BURST).map (upd (w.tx_mbufs t).m_table (w.tx_mbufs t).len m)) ::
        (if w.tx_ret 0 % 65536 < MAX_PKT_BURST then
          (List.range' (w.tx_ret 0 % 65536) (MAX_PKT_BURST - w.tx_ret 0 % 65536)).map
            (fun i => dpdk_call.pktmbuf_free
              (upd (w.tx_mbufs t).m_table (w.tx_mbufs t).len m i))
        else []) := by
  have hmod : ((w.tx_mbufs t).len + 1) % 65536 = MAX_PKT_BURST := by
    rw [hlen]; decide
  unfold send_single_packet send_burst
  dsimp only
  rw [if_pos hmod]
  split
  · refine ⟨by dsimp only; rw [upd_same], ?_, ?_⟩
    · dsimp only
      rw [upd_same, upd_same]
    · dsimp only
      rw [upd_same]
      simp [MAX_PKT_BURST]
  · refine ⟨by dsimp only; rw [upd_same], ?_, ?_⟩
    · dsimp only
      rw [upd_same, upd_same]
    · dsimp only
      rw [upd_same]
      simp [MAX_PKT_BURST]

/-- The call of `send_single_packet` that does not fill the batch. -/
theorem send_single_packet_keep (w : worker) (m t p q : Nat)
    (hlen : (w.tx_mbufs t).len + 1 < MAX_PKT_BURST) :
    ((send_single_packet w m t p q).tx_mbufs t).len = (w.tx_mbufs t).len + 1 ∧
    ((send_single_packet w m t p q).tx_mbufs t).m_table =
      upd (w.tx_mbufs t).m_table (w.tx_mbufs t).len m ∧
    (send_single_packet w m t p q).calls = w.calls := by
  have hne : ¬ ((w.tx_mbufs t).len + 1) % 65536 = MAX_PKT_BURST := by
    unfold MAX_PKT_BURST at hlen ⊢
    omega
  have hmod : ((w.tx_mbufs t).len + 1) % 65536 = (w.tx_mbufs t).len + 1 := by
    unfold MAX_PKT_BURST at hlen
    omega
  unfold send_single_packet
  dsimp only
  rw [if_neg hne, hmod]
  dsimp only
  rw [upd_same, upd_same]
  exact ⟨rfl, rfl, rfl⟩

/-- The batches other than the one written by `send_single_packet` are the same. -/
theorem send_single_packet_other (w : worker) (m t p q t' : Nat) (ht : t' ≠ t) :
    (send_single_packet w m t p q).tx_mbufs t' = w.tx_mbufs t' := by
  unfold send_single_packet send_burst
  dsimp only
  split
  · split <;>
    · dsimp only
      rw [upd_ne _ _ ht, upd_ne _ _ ht]
  · dsimp only
    rw [upd_ne _ _ ht, upd_ne _ _ ht]

/-- The loop of `reset_stats` over the first `n` lcores. -/
theorem reset_stats_loop (n : Nat) (st : Nat → stats) (id : Nat) :
    (List.range n).foldl (fun st lcore_id => upd st lcore_id (reset_stats_entry (st lcore_id)))
        st id =
      if id < n then reset_stats_entry (st id) else st id := by
  induction n with
  | zero => simp
  | succ n ih =>
    rw [List.range_succ, List.foldl_append, List.foldl_cons, List.foldl_nil, upd_apply]
    by_cases h : id = n
    · subst h
      rw [if_pos rfl, if_pos (Nat.lt_succ_self _), ih, if_neg (Nat.lt_irrefl _)]
    · rw [if_neg h, ih]
      by_cases h2 : id < n
      · rw [if_pos h2, if_pos (by omega)]
      · rw [if_neg h2, if_neg (by omega)]

/-- The count of enabled lcores is at most `APP_MAX_LCORES`. -/
theorem get_nb_lcores_available_le (en : Nat → Int) :
    get_nb_lcores_available en ≤ APP_MAX_LCORES := by
  unfold get_nb_lcores_available
  exact (List.length_filter_le _ _).trans (by rw [List.length_range])

/-- When the enabled lcores are exactly those below `k`, their count is `k`. -/
theorem get_nb_lcores_available_initial (en : Nat → Int) (k : Nat) (hk : k ≤ APP_MAX_LCORES)
    (hen : ∀ j, j < APP_MAX_LCORES → (en j = 1 ↔ j < k)) :
    get_nb_lcores_available en = k := by
  unfold get_nb_lcores_available
  have hfil : (List.range APP_MAX_LCORES).filter (fun lcore_id => en lcore_id == 1) =
      (List.range APP_MAX_LCORES).filter (fun lcore_id => decide (lcore_id < k)) := by
    apply List.filter_congr
    intro j hj
    have := hen j (List.mem_range.mp hj)
    by_cases hjk : j < k
    · simp [hjk, this.mpr hjk]
    · have hne : ¬ en j = 1 := fun h => hjk (this.mp h)
      simp [hjk, hne]
  rw [hfil]
  unfold APP_MAX_LCORES at hk ⊢
  interval_cases k <;> rfl

/-! ## The controller -/

/-- The first `c` after a string without `c` and without zero byte. -/
theorem strchr_append (c : Nat) (rest : List Nat) :
    ∀ pfx : List Nat, (∀ b, b ∈ pfx → b ≠ c ∧ b ≠ 0) →
      strchr (pfx ++ c :: rest) c = some pfx.length := by
  intro pfx
  induction pfx with
  | nil => intro _; simp [strchr]
  | cons b pfx ih =>
    intro h
    have hb := h b (List.mem_cons_self _ _)
    rw [List.cons_append, strchr, if_neg hb.1, if_neg hb.2,
      ih (fun x hx => h x (List.mem_cons_of_mem _ hx))]
    rfl

/-- The result of `strchr` is the position of a byte equal to `c`. -/
theorem strchr_some (c : Nat) :
    ∀ (s : List Nat) (i : Nat), strchr s c = some i → s.getD i 0 = c ∧ i < s.length := by
  intro s
  induction s with
  | nil => intro i h; simp [strchr] at h
  | cons b s ih =>
    intro i h
    rw [strchr] at h
    split at h
    · next hb =>
      injection h with h
      subst h
      exact ⟨hb, by simp⟩
    · split at h
      · exact absurd h (by simp)
      · cases hs : strchr s c with
        | none => rw [hs] at h; simp at h
        | some j =>
          rw [hs] at h
          simp only [Option.map_some', Option.some.injEq] at h
          subst h
          obtain ⟨k1, k2⟩ := ih j hs
          exact ⟨by simpa using k1, by simp; omega⟩

/-- Reading decimal digits that end with a zero byte. -/
theorem atoi_digits_append :
    ∀ (digits : List Nat) (acc : Nat), (∀ b, b ∈ digits → 48 ≤ b ∧ b ≤ 57) →
      atoi_digits (digits ++ [0]) acc = digits.foldl (fun acc b => 10 * acc + (b - 48)) acc := by
  intro digits
  induction digits with
  | nil => intro acc _; simp [atoi_digits]
  | cons d ds ih =>
    intro acc h
    rw [List.cons_append, atoi_digits, if_pos (h d (List.mem_cons_self _ _)),
      ih _ (fun x hx => h x (List.mem_cons_of_mem _ hx))]
    rfl

/-- The value of `atoi` on a string of decimal digits. -/
theorem atoi_decimal (digits : List Nat) (h : ∀ b, b ∈ digits → 48 ≤ b ∧ b ≤ 57) :
    atoi (digits ++ [0]) = (decimal digits : Int) := by
  unfold atoi decimal
  cases digits with
  | nil => simp [atoi_digits]
  | cons d ds =>
    have hd := h d (List.mem_cons_self _ _)
    have hdrop : List.dropWhile (fun b => b == 32 || (decide (9 ≤ b) && decide (b ≤ 13)))
        (d :: ds ++ [0]) = d :: ds ++ [0] := by
      rw [List.cons_append, List.dropWhile_cons]
      have : (d == 32 || (decide (9 ≤ d) && decide (d ≤ 13))) = false := by
        simp
        omega
      rw [this]
      rfl
    rw [hdrop]
    split
    · next heq =>
      rw [List.cons_append] at heq
      injection heq with h1 _
      omega
    · next heq =>
      rw [List.cons_append] at heq
      injection heq with h1 _
      omega
    · rw [atoi_digits_append (d :: ds) 0 h]

/-- A string of `n` decimal digits has a value below `10 ^ n`. -/
theorem decimal_lt (digits : List Nat) (h : ∀ b, b ∈ digits → 48 ≤ b ∧ b ≤ 57) :
    decimal digits < 10 ^ digits.length := by
  unfold decimal
  have key : ∀ (ds : List Nat) (acc : Nat), (∀ b, b ∈ ds → 48 ≤ b ∧ b ≤ 57) →
      ds.foldl (fun acc b => 10 * acc + (b - 48)) acc < (acc + 1) * 10 ^ ds.length := by
    intro ds
    induction ds with
    | nil => intro acc _; simp
    | cons d ds ih =>
      intro acc hd
      have h1 := hd d (List.mem_cons_self _ _)
      have h2 := ih (10 * acc + (d - 48)) (fun x hx => hd x (List.mem_cons_of_mem _ hx))
      rw [List.foldl_cons, List.length_cons, pow_succ]
      calc _ < (10 * acc + (d - 48) + 1) * 10 ^ ds.length := h2
        _ ≤ ((acc + 1) * 10) * 10 ^ ds.length := Nat.mul_le_mul_right _ (by omega)
        _ = (acc + 1) * (10 ^ ds.length * 10) := by ring
  have := key digits 0 h
  simpa using this

/-- The test of the command against "ADD": the three bytes and the byte after
them. -/
theorem strcmp_eq_add (a b c e : Nat) :
    strcmp_eq ([a, b, c] ++ [e]) [65, 68, 68, 0] = true ↔ a = 65 ∧ b = 68 ∧ c = 68 ∧ e = 0 := by
  constructor
  · intro h
    simp only [List.cons_append, List.nil_append, strcmp_eq] at h
    by_cases ha : a = 65
    · by_cases hb : b = 68
      · by_cases hc : c = 68
        · by_cases he : e = 0
          · exact ⟨ha, hb, hc, he⟩
          · simp [ha, hb, hc, he] at h
        · simp [ha, hb, hc] at h
      · simp [ha, hb] at h
    · simp [ha] at h
  · rintro ⟨rfl, rfl, rfl, rfl⟩
    rfl

/-- The test of the command against "DEL": the three bytes and the byte after
them. -/
theorem strcmp_eq_del (a b c e : Nat) :
    strcmp_eq ([a, b, c] ++ [e]) [68, 69, 76, 0] = true ↔ a = 68 ∧ b = 69 ∧ c = 76 ∧ e = 0 := by
  constructor
  · intro h
    simp only [List.cons_append, List.nil_append, strcmp_eq] at h
    by_cases ha : a = 68
    · by_cases hb : b = 69
      · by_cases hc : c = 76
        · by_cases he : e = 0
          · exact ⟨ha, hb, hc, he⟩
          · simp [ha, hb, hc, he] at h
        · simp [ha, hb, hc] at h
      · simp [ha, hb] at h
    · simp [ha] at h
  · rintro ⟨rfl, rfl, rfl, rfl⟩
    rfl

/-- The name pointer and the name length that `parse_packet` stores, whatever it
returns. -/
theorem parse_packet_name (pkt : List Nat) (p : icn_packet) :
    (parse_packet pkt p).2.name = pkt.drop ICN_HDR_NAME_OFFSET ∧
    (parse_packet pkt p).2.name_len = be16 pkt ICN_HDR_SIZE := by
  unfold parse_packet
  dsimp only
  split
  · exact ⟨rfl, rfl⟩
  · split
    · exact ⟨rfl, rfl⟩
    · exact ⟨rfl, rfl⟩

/-- What `ctrl_loop` extracts from a name of the form VERB ':' prefix ':' digits,
in which the prefix has neither ':' nor a zero byte. -/
theorem ctrl_parse_command (buffer : List Nat) (packet : icn_packet)
    (a b c : Nat) (pfx digits rest : List Nat)
    (hname : buffer.drop ICN_HDR_NAME_OFFSET = [a, b, c] ++ 58 :: (pfx ++ 58 :: (digits ++ rest)))
    (hlen : be16 buffer ICN_HDR_SIZE = 5 + pfx.length + digits.length)
    (hsmall : pfx.length < 65536)
    (hpfx : ∀ x, x ∈ pfx → x ≠ 58 ∧ x ≠ 0)
    (hdigits : ∀ x, x ∈ digits → 48 ≤ x ∧ x ≤ 57) (hd4 : digits.length ≤ 4) :
    ctrl_parse buffer packet =
      some ([a, b, c], pfx ++ 58 :: (digits ++ rest), pfx.length, decimal digits) := by
  obtain ⟨hn, hl⟩ := parse_packet_name buffer packet
  unfold ctrl_parse
  dsimp only
  rw [hn, hl, hname, hlen, if_neg (by omega)]
  have hdrop : ([a, b, c] ++ 58 :: (pfx ++ 58 :: (digits ++ rest))).drop 4 =
      pfx ++ 58 :: (digits ++ rest) := rfl
  rw [hdrop, strchr_append 58 (digits ++ rest) pfx hpfx]
  dsimp only
  have h1 : pfx.length % 65536 = pfx.length := Nat.mod_eq_of_lt hsmall
  have h2 : ((((5 + pfx.length + digits.length : Nat) : Int) - ((pfx.length % 65536 : Nat) : Int)
      - 3 - 2) % 65536).toNat = digits.length := by
    rw [h1]
    omega
  have h3 : ((pfx ++ 58 :: (digits ++ rest)).drop (pfx.length + 1)).take digits.length =
      digits := by
    have : pfx ++ 58 :: (digits ++ rest) = (pfx ++ [58]) ++ (digits ++ rest) := by simp
    rw [this, List.drop_left' (by simp), List.take_left' rfl]
  have h4 : ((decimal digits : Int) % 65536).toNat = decimal digits := by
    have hlt := decimal_lt digits hdigits
    have hp : 10 ^ digits.length ≤ 10 ^ 4 := Nat.pow_le_pow_right (by decide) hd4
    have : decimal digits < 65536 := by omega
    omega
  have hget : [([a, b, c] ++ 58 :: (pfx ++ 58 :: (digits ++ rest))).getD 0 0,
      ([a, b, c] ++ 58 :: (pfx ++ 58 :: (digits ++ rest))).getD 1 0,
      ([a, b, c] ++ 58 :: (pfx ++ 58 :: (digits ++ rest))).getD 2 0] = [a, b, c] := rfl
  rw [hget, h1]
  rw [h1] at h2
  simp only [Nat.cast_add, Nat.cast_ofNat] at h2 ⊢
  rw [h2, h3, atoi_decimal digits hdigits, h4]

/-- An lcore that `ctrl_loop` does not skip gets the FIB that `fib_add` or
`fib_del` leaves. -/
theorem ctrl_update_call (crc : List Nat → Nat) (conf : app_lcore_config) (fib : fib_t)
    (pfx : List Nat) (prefix_len face : Nat)
    (hf : conf.fib = some fib) (hface : face ≤ conf.nb_ports)
    (hmac : (conf.port_addr face).local_addr ≠ [0, 0, 0, 0, 0, 0]) :
    ctrl_update crc true conf pfx prefix_len face =
      { conf with fib := some (fib_add crc fib pfx prefix_len (face % 256)).2 } ∧
    ctrl_update crc false conf pfx prefix_len face =
      { conf with fib := some (fib_del crc fib pfx prefix_len (face % 256)).2 } := by
  have hno : ¬ (face > conf.nb_ports ∨
      is_same_ether_addr [0, 0, 0, 0, 0, 0] (conf.port_addr face).local_addr = true) := by
    rintro (h | h)
    · omega
    · unfold is_same_ether_addr at h
      have h2 : [0, 0, 0, 0, 0, 0] = (conf.port_addr face).local_addr := by simpa using h
      exact hmac h2.symm
  constructor
  · unfold ctrl_update
    rw [hf]
    dsimp only
    rw [if_neg hno]
    rfl
  · unfold ctrl_update
    rw [hf]
    dsimp only
    rw [if_neg hno]
    rfl

/-! ## Sample states -/

theorem reach_fib_a : FibReachable sample_crc fib_a :=
  FibReachable.add _ _ _ _ (FibReachable.create 10 20 (by decide)) (by decide) (by decide)

theorem reach_fib_a_a : FibReachable sample_crc fib_a_a :=
  FibReachable.add _ _ _ _ reach_fib_a (by decide) (by decide)

theorem run_fib_used_up : FibRun sample_crc fib_used_up 1 :=
  FibRun.del _ _ _ _ _
    (FibRun.add_ok _ _ _ _ _ (FibRun.create 10 1 (by decide)) (by decide) (by decide) (by decide))

theorem reach_fib_a_3 : FibReachable sample_crc fib_a_3 :=
  FibReachable.add _ _ _ _ reach_fib_a (by decide) (by decide)

theorem bounded_fib_a : FibBounded sample_crc fib_a :=
  FibBounded.add _ _ _ _ (FibBounded.create 10 20 (by decide)) (by decide) (by decide) (by decide)

theorem bounded_fib_a_a : FibBounded sample_crc fib_a_a :=
  FibBounded.add _ _ _ _ bounded_fib_a (by decide) (by decide) (by decide)

theorem reach_pit_one : PitReachable sample_crc pit_one :=
  PitReachable.update _ _ _ _ _ _ (PitReachable.create 1024 8192 1000000 5000000 (by decide)
    (by decide)) (by decide) (by decide)

theorem timed_pit_one : PitTimed sample_crc pit_one 1000 0 :=
  PitTimed.update _ 0 0 name_a 2 1 1000 0
    (PitTimed.create 1024 8192 1000000 5000000 (by decide) (by decide))
    (by decide) (by decide) (by decide) (by decide)

theorem timed_pit_two : PitTimed sample_crc pit_two 1001 0 :=
  PitTimed.update _ 1000 0 [47, 98] 2 1 1001 0
    (PitTimed.update _ 0 0 [47, 97] 2 0 1000 0
      (PitTimed.create 1 20 1000000 5 (by decide) (by decide))
      (by decide) (by decide) (by decide) (by decide))
    (by decide) (by decide) (by decide) (by decide)

theorem trace_cs_three :
    ∃ born k, CsTrace sample_crc cs_three born k :=
  ⟨_, _, CsTrace.insert _ _ _ [47, 110] 2 33
    (CsTrace.insert _ _ _ [47, 120] 2 22
      (CsTrace.insert _ _ _ name_a 2 11
        (CsTrace.create 1 3 (by decide) (by decide) (by decide)) (by decide) (by decide))
      (by decide) (by decide))
    (by decide) (by decide)⟩

theorem reach_cs_four : CsReachable sample_crc cs_four :=
  CsReachable.insert _ _ _ _
    (CsReachable.insert _ _ _ _
      (CsReachable.insert _ _ _ _
        (CsReachable.insert _ _ _ _ (CsReachable.create 1 3 (by decide) (by decide))
          (by decide) (by decide))
        (by decide) (by decide))
      (by decide) (by decide))
    (by decide) (by decide)

theorem reach_cs_twice : CsReachable sample_crc cs_twice :=
  CsReachable.insert _ _ _ _
    (CsReachable.insert _ _ _ _ (CsReachable.create 1 3 (by decide) (by decide)) (by decide)
      (by decide))
    (by decide) (by decide)

/-- With the component offsets 0 and 2, the positions of the two separators of
"/a/b", `fib_lookup` tries the byte strings "/a/" and "/" and finds nothing in
the FIB that holds "/a". -/
theorem fib_lookup_separator_offsets :
    probe_len { pkt_a_b with component_offsets := [0, 0, 0, 2] } 1 = 3 ∧
    probe_len { pkt_a_b with component_offsets := [0, 0, 0, 2] } 0 = 1 ∧
    (fib_lookup sample_crc fib_a { pkt_a_b with component_offsets := [0, 0, 0, 2] }
      rng_zero).1 = to_int8 (-ENOENT) :=
  ⟨by decide, by decide, by decide⟩

/-- The test `face > nb_ports` of `ctrl_loop` alone does not refuse the face
`nb_ports`: in the configuration `lcore_conf_two`, which has `nb_ports = 2` and
a local address at index 2 of `port_addr`, the command "ADD:/b:2" gives the
FIB of lcore 0 a second record. The initialisation records no address at that
index. -/
theorem ctrl_face_at_nb_ports :
    ctrl_parse ctrl_add_b_2 junk_packet =
      some ([65, 68, 68], [47, 98, 58, 50, 0, 1, 0, 0], 2, 2) ∧
    (lcore_conf_two 0).nb_ports = 2 ∧
    (lcore_conf_two 0).port_addr 2 =
      { local_addr := [2, 0, 0, 0, 0, 2], remote_addr := [4, 0, 0, 0, 0, 2] } ∧
    (lcore_conf_two 0).fib.map (fun f => f.table.next_free_element) = some 1 ∧
    (ctrl_loop_body sample_crc lcore_conf_two ctrl_add_b_2 junk_packet 0 0).fib.map
      (fun f => f.table.next_free_element) = some 2 := by
  refine ⟨by decide, by decide, rfl, by decide, by decide⟩

/-! ## The claims -/

/-- C2: from the created FIB with room for one record, `fib_add` of a name of 1 to
`MAX_NAME_LEN` bytes with non-zero first byte and a face `f < 256` returns 0, and
`fib_lookup` of a packet with that name whose last component ends at the last
byte returns `f` converted to `int8_t`: this is `f` exactly when `f < 128`. -/
theorem fib_add_then_lookup (crc : List Nat → Nat) (nb : Nat) (n : List Nat) (f : Nat)
    (pkt : icn_packet) (rng : Nat → Nat)
    (hlen1 : 1 ≤ n.length) (hlen : n.length ≤ MAX_NAME_LEN) (h0 : n.getD 0 0 ≠ 0)
    (hf : f < 256) (hname : pkt.name = n) (hnr1 : 1 ≤ pkt.component_nr)
    (hnr : pkt.component_nr ≤ MAX_NAME_COMPONENTS)
    (hlast : component_offset pkt.component_offsets (pkt.component_nr - 1) = n.length - 1) :
    (fib_add crc (fib_create nb 1) n n.length f).1 = 0 ∧
    (fib_lookup crc (fib_add crc (fib_create nb 1) n n.length f).2 pkt rng).1 = to_int8 (f : Int) ∧
    ((fib_lookup crc (fib_add crc (fib_create nb 1) n n.length f).2 pkt rng).1 = (f : Int) ↔
      f < 128) := by
  have h33 : n.length ≤ 33 := hlen
  have h16 : pkt.component_nr ≤ 16 := hnr
  rw [fib_add_create crc nb 1 n f (by decide) hlen1 hlen h0]
  have key : (fib_lookup crc
      { table := (fib_store (fib_hash_table_create nb 1) (crc n % nb) 0 n n.length f (crc n)) }
      pkt rng).1 = to_int8 (f : Int) := by
    unfold fib_lookup
    rw [fib_lookup_start (by omega)]
    obtain ⟨m, hm⟩ : ∃ m, pkt.component_nr = m + 1 := ⟨pkt.component_nr - 1, by omega⟩
    rw [hm]
    rw [hm] at hlast
    simp only [Nat.add_sub_cancel] at hlast
    have h1 : (component_offset pkt.component_offsets m + 1) % 65536 = n.length := by
      rw [hlast]; omega
    have h2 : n.length % 256 = n.length := Nat.mod_eq_of_lt (by omega)
    unfold fib_lookup_loop
    simp only [h1, h2, hname, List.take_length, fib_hash_table_lookup_with_hash]
    rcases lookup_with_hash_cases (fib_store (fib_hash_table_create nb 1) (crc n % nb) 0 n
        n.length f (crc n)) n n.length (crc n) rng with ⟨hnil, _⟩ | ⟨x, hx, hres⟩
    · exfalso
      exact (fib_match_array_eq_nil _ _ _ _).mp hnil 0 (by decide)
        (fib_store_matches_new _ _ 0 n n.length f (crc n) (le_refl _))
    · obtain ⟨e, he, hmatch, hfe⟩ := (mem_fib_match_array _ _ _ _ x).mp hx
      have hbusy := hmatch.1
      change ((fib_store (fib_hash_table_create nb 1) (crc n % nb) 0 n n.length f (crc n)).htbl
        (crc n % nb)).busy e ≠ 0 at hbusy
      rw [fib_store_busy] at hbusy
      have he0 : e = 0 := by
        by_contra hne
        simp [hne, create_busy] at hbusy
      subst he0
      change (fib_record (fib_store (fib_hash_table_create nb 1) (crc n % nb) 0 n n.length f
        (crc n)) (crc n % nb) 0).face = x at hfe
      rw [fib_store_record_new] at hfe
      simp only at hfe
      subst hfe
      have h16 : to_int16 (f : Int) = f := to_int16_of_lt (by omega) (by omega)
      rw [hres, h16]
      simp
  refine ⟨rfl, key, ?_⟩
  rw [key]
  unfold to_int8
  omega

/-- Witness of C2 at the face 200: the lookup returns -56. -/
theorem fib_add_then_lookup_witness :
    (fib_add sample_crc (fib_create 10 1) name_a name_a.length 200).1 = 0 ∧
    (fib_lookup sample_crc (fib_add sample_crc (fib_create 10 1) name_a name_a.length 200).2
      pkt_a rng_zero).1 = -56 :=
  have h := fib_add_then_lookup sample_crc 10 name_a 200 pkt_a rng_zero (by decide) (by decide)
    (by decide) (by decide) rfl (by decide) (by decide) (by decide)
  ⟨h.1, h.2.1.trans (by decide)⟩

/-- Counterexample to C4: after `fib_add("/a", 2)` twice (both return 0), two live
entries of the same bucket refer to two different records that both hold
("/a", face 2). -/
theorem fib_duplicate_add_counterexample :
    FibBounded sample_crc fib_a_a ∧ (fib_add sample_crc fib_a name_a 2 2).1 = 0 ∧
    ¬ fib_unique_live fib_a_a.table := by
  refine ⟨bounded_fib_a_a, by decide, ?_⟩
  intro h
  have := h (sample_crc name_a % 10) 0 (sample_crc name_a % 10) 1 (by decide) (by decide) (by decide) (by decide)
  revert this
  decide

/-- C4 (amended): in every FIB state reached by `fib_add` of names of at most
`MAX_NAME_LEN` bytes and by `fib_del`, the live entries that hold one
(name, face) pair number at most `BUCKET_SIZE`; different live entries refer to
different records; and `fib_add` looks for no existing entry: when the pair is
already live and `fib_add` of it (a valid name of at most `MAX_NAME_LEN` bytes)
returns 0, the old entry stays live and a second live entry with a record of its
own holds the same name and face. -/
theorem fib_live_records_bound (crc : List Nat → Nat) (fib : fib_t) (name : List Nat)
    (len face : Nat) (hreach : FibBounded crc fib) :
    (fib_live_slots fib.table name len face).length ≤ BUCKET_SIZE ∧
    (∀ b e b1 e1, (fib.table.htbl b).busy e ≠ 0 → (fib.table.htbl b1).busy e1 ≠ 0 →
      ((fib.table.htbl b).entry e).index = ((fib.table.htbl b1).entry e1).index →
      b = b1 ∧ e = e1) ∧
    (∀ b e, (fib.table.htbl b).busy e ≠ 0 →
      fwd_entry_has_name (fib_record fib.table b e) name len →
      (fib_record fib.table b e).face = face →
      len ≠ 0 → len ≤ MAX_NAME_LEN → len ≤ name.length → name.getD 0 0 ≠ 0 →
      (fib_add crc fib name len face).1 = 0 →
      ∃ b1 e1, ¬ (b1 = b ∧ e1 = e) ∧
        ((fib_add crc fib name len face).2.table.htbl b).busy e ≠ 0 ∧
        ((fib_add crc fib name len face).2.table.htbl b1).busy e1 ≠ 0 ∧
        (((fib_add crc fib name len face).2.table.htbl b).entry e).index ≠
          (((fib_add crc fib name len face).2.table.htbl b1).entry e1).index ∧
        fwd_entry_has_name (fib_record (fib_add crc fib name len face).2.table b e) name len ∧
        (fib_record (fib_add crc fib name len face).2.table b e).face = face ∧
        fwd_entry_has_name (fib_record (fib_add crc fib name len face).2.table b1 e1) name len ∧
        (fib_record (fib_add crc fib name len face).2.table b1 e1).face = face) := by
  have hinv := FibInv_of_reachable crc fib (FibReachable_of_bounded hreach)
  refine ⟨fib_live_slots_length_le hinv name len face, hinv.inj, ?_⟩
  intro b e hbusy hname hface hlen0 hlen hbuf h0 hret
  have h33 : len ≤ 33 := hlen
  rcases fib_add_cases crc fib name len face hlen0 (by omega) h0 with
    ⟨_, hadd⟩ | ⟨e0, _, hfree, _, _, hadd⟩
  · rw [hadd] at hret
    simp [ENOSPC] at hret
  · rw [hadd]
    dsimp only
    obtain ⟨hs, hb1, hent, hrec⟩ := fib_store_old hinv
      (crc (name.take len) % fib.table.num_buckets) e0 name len face (crc (name.take len))
      hfree hbusy
    have hnew := fib_store_matches_new fib.table (crc (name.take len) % fib.table.num_buckets)
      e0 name len face (crc (name.take len)) hbuf
    have hrecn := fib_store_record_new fib.table (crc (name.take len) % fib.table.num_buckets)
      e0 name len face (crc (name.take len))
    have hidx := (hinv.slot b e hbusy).2.1
    refine ⟨crc (name.take len) % fib.table.num_buckets, e0, ?_, hb1, hnew.1, ?_, ?_, ?_, ?_, ?_⟩
    · rintro ⟨h1, h2⟩
      exact hs ⟨h1.symm, h2.symm⟩
    · rw [hent, fib_store_entry]
      simp only [and_self, if_true]
      omega
    · rw [hrec]; exact hname
    · rw [hrec]; exact hface
    · exact (matches_live_named hnew).2
    · rw [hrecn]

/-- Witness of C4 (amended): the FIB holding ("/a", face 2) once. -/
theorem fib_live_records_bound_witness :
    (fib_live_slots fib_a.table name_a 2 2).length ≤ BUCKET_SIZE :=
  (fib_live_records_bound sample_crc fib_a name_a 2 2 bounded_fib_a).1

/-- Counterexample to C6: `fib_del` of the one-byte name whose byte is zero returns
`-EINVAL`, not `-ENOENT`; after the only record of a FIB has been used, `fib_add`
with length 0 returns `-EINVAL`, not `-ENOSPC`; and `fib_del` with length 256
works with the length 0, so that it returns 0 and clears the entry that
`fib_add` of another 256-byte name had made. -/
theorem fib_del_invalid_name_counterexample :
    (fib_del sample_crc (fib_create 10 20) [0] 1 2).1 = -EINVAL ∧
    (fib_add sample_crc fib_used_up name_a 0 2).1 = -EINVAL ∧
    (fib_long.table.htbl (sample_crc [] % 10)).busy 0 = 1 ∧
    (fib_del sample_crc fib_long name_256_b 256 2).1 = 0 ∧
    ((fib_del sample_crc fib_long name_256_b 256 2).2.table.htbl (sample_crc [] % 10)).busy 0
      = 0 := by
  decide

/-- C6 (amended): for a name that passes the validity test of `fib_del` (`len ≠ 0`
and `name[0] ≠ 0`) and whose length fits the `uint8_t` of the hash table
(`len ≤ 255`): when some busy entry of bucket `crc mod num_buckets` matches in
CRC, name length, name bytes and face, `fib_del` returns 0 and clears the busy
flag of the lowest such entry and of no other entry; otherwise it returns
`-ENOENT` and leaves the FIB unchanged. In both cases `next_free_element` and the
forwarding records are unchanged. A name that fails the validity test gets
`-EINVAL` and leaves the FIB unchanged. Once `max_elements` calls of `fib_add`
have returned 0, every later `fib_add` of a valid name returns `-ENOSPC`,
whatever was deleted. -/
theorem fib_del_outcome (crc : List Nat → Nat) (fib : fib_t) (name : List Nat)
    (len face : Nat) (hlen0 : len ≠ 0) (h0 : name.getD 0 0 ≠ 0) (hlen : len ≤ 255) :
    ((∃ e, e < BUCKET_SIZE ∧
        fib_entry_matches_face fib.table name len (crc (name.take len)) face
          (crc (name.take len) % fib.table.num_buckets) e) →
      (fib_del crc fib name len face).1 = 0 ∧
      ∃ e, e < BUCKET_SIZE ∧
        fib_entry_matches_face fib.table name len (crc (name.take len)) face
          (crc (name.take len) % fib.table.num_buckets) e ∧
        (∀ e1, e1 < e →
          ¬ fib_entry_matches_face fib.table name len (crc (name.take len)) face
            (crc (name.take len) % fib.table.num_buckets) e1) ∧
        (∀ b e1, ((fib_del crc fib name len face).2.table.htbl b).busy e1 =
          if b = crc (name.take len) % fib.table.num_buckets ∧ e1 = e then 0
          else (fib.table.htbl b).busy e1) ∧
        (∀ b e1, ((fib_del crc fib name len face).2.table.htbl b).entry e1 =
          (fib.table.htbl b).entry e1)) ∧
    ((¬ ∃ e, e < BUCKET_SIZE ∧
        fib_entry_matches_face fib.table name len (crc (name.take len)) face
          (crc (name.take len) % fib.table.num_buckets) e) →
      (fib_del crc fib name len face).1 = -ENOENT ∧ (fib_del crc fib name len face).2 = fib) ∧
    ((fib_del crc fib name len face).2.table.next_free_element = fib.table.next_free_element ∧
      (fib_del crc fib name len face).2.table.fwd_table = fib.table.fwd_table) ∧
    (∀ (name1 : List Nat) (len1 face1 : Nat), len1 = 0 ∨ name1.getD 0 0 = 0 →
      fib_del crc fib name1 len1 face1 = (-EINVAL, fib)) ∧
    (∀ fib1 k, FibRun crc fib1 k → k = fib1.table.max_elements →
      ∀ (name1 : List Nat) (len1 face1 : Nat), len1 ≠ 0 → name1.getD 0 0 ≠ 0 →
        (fib_add crc fib1 name1 len1 face1).1 = -ENOSPC) := by
  have hframe := fib_del_frame crc fib name len face
  refine ⟨?_, ?_, ⟨hframe.1, hframe.2.1⟩, ?_, ?_⟩
  · rintro ⟨e, he, hm⟩
    rcases fib_del_cases crc fib name len face hlen0 (by omega) h0 with
      ⟨hno, _⟩ | ⟨e1, he1, hm1, hlow, hdel⟩
    · exact absurd hm (hno e he)
    · rw [hdel]
      dsimp only
      refine ⟨rfl, e1, he1, hm1, hlow, ?_, ?_⟩
      · intro b e2; exact fib_clear_busy _ _ _ _ _
      · intro b e2; exact fib_clear_entry _ _ _ _ _
  · intro hnone
    rcases fib_del_cases crc fib name len face hlen0 (by omega) h0 with
      ⟨_, hdel⟩ | ⟨e1, he1, hm1, _, _⟩
    · rw [hdel]; exact ⟨rfl, rfl⟩
    · exact absurd ⟨e1, he1, hm1⟩ hnone
  · intro name1 len1 face1 hinvalid
    unfold fib_del
    rw [if_pos hinvalid]
  · intro fib1 k hrun hk name1 len1 face1 hl1 hn1
    have hnfe := FibRun_nfe crc fib1 k hrun
    exact fib_add_full crc fib1 name1 len1 face1 (hnfe.trans hk) hl1 hn1

/-- Witness of C6 (amended): a deletion that hits, one that misses, and a `fib_add` after the
only record has been used and deleted. -/
theorem fib_del_outcome_witness :
    (fib_del sample_crc fib_a name_a 2 2).1 = 0 ∧
    (fib_del sample_crc fib_used_up name_a 2 2).1 = -ENOENT ∧
    (fib_add sample_crc fib_used_up name_a_b 4 3).1 = -ENOSPC :=
  have h := fib_del_outcome sample_crc fib_a name_a 2 2 (by decide) (by decide) (by decide)
  have h1 := fib_del_outcome sample_crc fib_used_up name_a 2 2 (by decide) (by decide) (by decide)
  ⟨(h.1 ⟨0, by decide, by decide⟩).1,
   (h1.2.1 (by decide)).1,
   h.2.2.2.2 fib_used_up 1 run_fib_used_up (by decide) name_a_b 4 3 (by decide) (by decide)⟩

/-- C7: in every FIB state reached from the created tables by `fib_add` of names
of at most `MAX_NAME_LEN` bytes and by `fib_del`,
`next_free_element ≤ max_elements`, and every busy bucket entry is one of the
`BUCKET_SIZE` entries of a bucket below `num_buckets`, has an index below
`next_free_element`, lies in the bucket given by its stored CRC modulo
`num_buckets`, and stores the CRC of its record's `name[0 .. name_len)`. -/
theorem fib_reachable_invariant (crc : List Nat → Nat) (fib : fib_t)
    (hreach : FibBounded crc fib) :
    fib.table.next_free_element ≤ fib.table.max_elements ∧
    ∀ b e, (fib.table.htbl b).busy e ≠ 0 →
      b < fib.table.num_buckets ∧ e < BUCKET_SIZE ∧
      ((fib.table.htbl b).entry e).index < fib.table.next_free_element ∧
      b = ((fib.table.htbl b).entry e).crc % fib.table.num_buckets ∧
      ((fib.table.htbl b).entry e).crc =
        crc ((fib_record fib.table b e).name.take (fib_record fib.table b e).name_len) := by
  have hinv := FibInv_of_reachable crc fib (FibReachable_of_bounded hreach)
  refine ⟨hinv.nfe_le, ?_⟩
  intro b e hbusy
  obtain ⟨h1, h2, h3, h4⟩ := hinv.slot b e hbusy
  refine ⟨?_, h1, h2, h3, h4⟩
  rw [h3]
  exact Nat.mod_lt _ hinv.buckets_pos

/-- Witness of C7: the FIB holding only ("/a", face 2). -/
theorem fib_reachable_invariant_witness :
    fib_a.table.next_free_element ≤ fib_a.table.max_elements ∧
    ∀ b e, (fib_a.table.htbl b).busy e ≠ 0 →
      b < fib_a.table.num_buckets ∧ e < BUCKET_SIZE ∧
      ((fib_a.table.htbl b).entry e).index < fib_a.table.next_free_element ∧
      b = ((fib_a.table.htbl b).entry e).crc % fib_a.table.num_buckets ∧
      ((fib_a.table.htbl b).entry e).crc =
        sample_crc ((fib_record fib_a.table b e).name.take (fib_record fib_a.table b e).name_len) :=
  fib_reachable_invariant sample_crc fib_a bounded_fib_a

/-- C8: when the probe of a bucket finds `m ≥ 1` matching entries, whose faces in
entry order form the match array, the hash-table lookup returns the first face
and leaves the random sequence untouched if `m = 1`, and returns the face at
position `r mod m` for the drawn word `r` if `m > 1`. The result is the face of a
matching entry, every position of the match array is returned for some random
sequence, and `m ≤ BUCKET_SIZE < APP_MAX_ETH_PORTS`. Faces are `uint8_t` values. -/
theorem fib_lookup_random_choice (t : fibh_t) (name : List Nat) (len c : Nat)
    (rng : Nat → Nat) (hface : ∀ i, (t.fwd_table i).face < 256)
    (hm : 1 ≤ (fib_match_array t name len c).length) :
    fib_match_array t name len c =
      ((List.range BUCKET_SIZE).filter (fun entry =>
        decide (fib_entry_matches t name len c (c % t.num_buckets) entry))).map
        (fun entry => (fib_record t (c % t.num_buckets) entry).face) ∧
    ((fib_match_array t name len c).length = 1 →
      __fib_hash_table_lookup_with_hash t name len c rng =
        ((((fib_match_array t name len c).getD 0 0 : Nat) : Int), rng)) ∧
    (1 < (fib_match_array t name len c).length →
      __fib_hash_table_lookup_with_hash t name len c rng =
        ((((fib_match_array t name len c).getD
          (rng 0 % (fib_match_array t name len c).length) 0 : Nat) : Int), fun i => rng (i + 1))) ∧
    (∃ e, e < BUCKET_SIZE ∧ fib_entry_matches t name len c (c % t.num_buckets) e ∧
      (__fib_hash_table_lookup_with_hash t name len c rng).1 =
        (((fib_record t (c % t.num_buckets) e).face : Nat) : Int)) ∧
    (∀ i, i < (fib_match_array t name len c).length →
      ∃ rng1 : Nat → Nat, (__fib_hash_table_lookup_with_hash t name len c rng1).1 =
        (((fib_match_array t name len c).getD i 0 : Nat) : Int)) ∧
    (fib_match_array t name len c).length ≤ BUCKET_SIZE ∧
    (fib_match_array t name len c).length < APP_MAX_ETH_PORTS := by
  have h16 : ∀ i, to_int16 (((fib_match_array t name len c).getD i 0 : Nat) : Int) =
      (((fib_match_array t name len c).getD i 0 : Nat) : Int) := by
    intro i
    have := fib_match_array_lt t name len c hface i
    exact to_int16_of_lt (by omega) (by omega)
  have h0 : (fib_match_array t name len c).length ≠ 0 := by omega
  have hle := fib_match_array_length_le t name len c
  have hone : (fib_match_array t name len c).length = 1 →
      __fib_hash_table_lookup_with_hash t name len c rng =
        ((((fib_match_array t name len c).getD 0 0 : Nat) : Int), rng) := by
    intro h1
    unfold __fib_hash_table_lookup_with_hash
    simp only [h1, if_false, gt_iff_lt, lt_self_iff_false, one_ne_zero, h16]
  have hmany : ∀ rng1 : Nat → Nat, 1 < (fib_match_array t name len c).length →
      __fib_hash_table_lookup_with_hash t name len c rng1 =
        ((((fib_match_array t name len c).getD
          (rng1 0 % (fib_match_array t name len c).length) 0 : Nat) : Int), fun i => rng1 (i + 1)) := by
    intro rng1 h1
    unfold __fib_hash_table_lookup_with_hash
    simp only [h0, if_false, gt_iff_lt, h1, if_true, h16]
  refine ⟨rfl, hone, hmany rng, ?_, ?_, hle, ?_⟩
  · rcases lookup_with_hash_cases t name len c rng with ⟨hnil, _⟩ | ⟨x, hx, hres⟩
    · rw [hnil] at hm; simp at hm
    · obtain ⟨e, he, hmt, hfe⟩ := (mem_fib_match_array t name len c x).mp hx
      refine ⟨e, he, hmt, ?_⟩
      rw [hres, hfe]
      have := hface ((t.htbl (c % t.num_buckets)).entry e).index
      rw [← hfe]
      exact to_int16_of_lt (by omega) (by unfold fib_record; omega)
  · intro i hi
    by_cases h1 : 1 < (fib_match_array t name len c).length
    · refine ⟨fun _ => i, ?_⟩
      rw [hmany _ h1]
      simp only [Nat.mod_eq_of_lt hi]
    · refine ⟨rng, ?_⟩
      have hl : (fib_match_array t name len c).length = 1 := by omega
      have hi0 : i = 0 := by omega
      rw [hone hl, hi0]
  · have : BUCKET_SIZE = 7 := rfl
    have : APP_MAX_ETH_PORTS = 10 := rfl
    omega

/-- Witness of C8: two entries for "/a", faces 2 and 3, and the random word 5. -/
theorem fib_lookup_random_choice_witness :
    (fib_match_array fib_a_3.table name_a 2 (sample_crc name_a)).length = 2 ∧
    (__fib_hash_table_lookup_with_hash fib_a_3.table name_a 2 (sample_crc name_a)
      (fun _ => 5)).1 = 3 :=
  ⟨by decide,
   (congrArg Prod.fst
    ((fib_lookup_random_choice fib_a_3.table name_a 2 (sample_crc name_a) (fun _ => 5)
      (FibInv_of_reachable sample_crc fib_a_3 reach_fib_a_3).face_lt (by decide)).2.2.1
      (by decide))).trans (by decide)⟩

/-- C9: for every PIT state, name `n` of at most `MAX_NAME_LEN` bytes (in a buffer
of at least `len` bytes), time `t` and face `f` such that no live entry has
name `n`, the bucket has a free
entry and the ring is not full: `pit_lookup_and_update(n, f, t)` returns 1,
writes at `ring[old top]` the entry with `active = 1`, the bucket, the lowest
free entry as `tab`, expiry `t + ttl` (modulo `2^64`), the name and the face
mask of `1 << f`, marks that bucket entry busy with index `old top`, advances
`top` modulo the ring size and changes nothing else. The face mask is `2^f` for
`f < 31`. -/
theorem pit_insert_new (crc : List Nat → Nat) (pit : pit_t) (n : List Nat)
    (len f t now : Nat) (hbuf : len ≤ n.length) (hmax : len ≤ MAX_NAME_LEN)
    (hnone : ∀ b e, (pit.table b).busy e ≠ 0 →
      ¬ pit_entry_has_name (pit.ring ((pit.table b).entry e).index) n len)
    (hfree : ∃ e, e < BUCKET_SIZE ∧
      (pit.table (crc (n.take len) % pit.num_buckets)).busy e = 0)
    (hroom : is_pit_full pit = false) :
    ∃ e0, e0 < BUCKET_SIZE ∧
      (pit.table (crc (n.take len) % pit.num_buckets)).busy e0 = 0 ∧
      (∀ e1, e1 < e0 → (pit.table (crc (n.take len) % pit.num_buckets)).busy e1 ≠ 0) ∧
      pit_lookup_and_update crc pit n len f (some t) now =
        (1, pit_store pit (crc (n.take len) % pit.num_buckets) e0 n len f
          ((t + pit.ttl) % 2 ^ 64) (crc (n.take len))) ∧
      (pit_lookup_and_update crc pit n len f (some t) now).2.ring pit.top =
        { active := 1, bucket := crc (n.take len) % pit.num_buckets, tab := e0,
          expiry := (t + pit.ttl) % 2 ^ 64, name_len := len,
          name := memcpy (pit.ring pit.top).name n len, face_bitmask := face_mask f } ∧
      pit_entry_has_name ((pit_lookup_and_update crc pit n len f (some t) now).2.ring pit.top)
        n len ∧
      (t + pit.ttl < 2 ^ 64 →
        ((pit_lookup_and_update crc pit n len f (some t) now).2.ring pit.top).expiry =
          t + pit.ttl) ∧
      (f < 31 →
        ((pit_lookup_and_update crc pit n len f (some t) now).2.ring pit.top).face_bitmask =
          2 ^ f) ∧
      ((pit_lookup_and_update crc pit n len f (some t) now).2.table
        (crc (n.take len) % pit.num_buckets)).busy e0 = 1 ∧
      ((pit_lookup_and_update crc pit n len f (some t) now).2.table
        (crc (n.take len) % pit.num_buckets)).entry e0 =
          { crc := crc (n.take len), index := pit.top } ∧
      (pit_lookup_and_update crc pit n len f (some t) now).2.top =
        ((pit.top + 1) % 2 ^ 32) % pit.max_elements ∧
      (pit.top + 1 < 2 ^ 32 →
        (pit_lookup_and_update crc pit n len f (some t) now).2.top =
          (pit.top + 1) % pit.max_elements) ∧
      (pit_lookup_and_update crc pit n len f (some t) now).2.bottom = pit.bottom ∧
      (∀ i, i ≠ pit.top →
        (pit_lookup_and_update crc pit n len f (some t) now).2.ring i = pit.ring i) ∧
      (∀ b e, ¬ (b = crc (n.take len) % pit.num_buckets ∧ e = e0) →
        ((pit_lookup_and_update crc pit n len f (some t) now).2.table b).busy e =
          (pit.table b).busy e ∧
        ((pit_lookup_and_update crc pit n len f (some t) now).2.table b).entry e =
          (pit.table b).entry e) := by
  unfold pit_lookup_and_update
  rcases pit_update_cases pit n len f (some t) now (crc (n.take len)) with
    ⟨e0, _, hm, _, _⟩ | ⟨_, hfull, _⟩ | ⟨_, e0, he0, hfree0, hlow, _, hres⟩
  · exact absurd ⟨hm.2.2.1.symm, hm.2.2.2.symm⟩ (hnone _ e0 hm.1)
  · rcases hfull with h | h
    · obtain ⟨e, he, hfe⟩ := hfree
      exact absurd hfe (h e he)
    · rw [hroom] at h
      exact absurd h (by decide)
  · refine ⟨e0, he0, hfree0, hlow, ?_⟩
    rw [hres]
    dsimp only
    refine ⟨rfl, ?_, ?_, ?_, ?_, ?_, ?_, rfl, ?_, rfl, ?_, ?_⟩
    · rw [pit_store_ring]; simp
    · rw [pit_store_ring]; simp only [if_true]
      exact ⟨rfl, memcpy_take hbuf⟩
    · intro hlt
      rw [pit_store_ring]; simp only [if_true]
      exact Nat.mod_eq_of_lt hlt
    · intro hf
      rw [pit_store_ring]; simp only [if_true]
      exact face_mask_of_lt hf
    · rw [pit_store_busy]; simp
    · rw [pit_store_entry]; simp
    · intro htop
      show ((pit.top + 1) % 2 ^ 32) % pit.max_elements = (pit.top + 1) % pit.max_elements
      rw [Nat.mod_eq_of_lt htop]
    · intro i hi
      rw [pit_store_ring]; simp only [hi, if_false]
    · intro b e hbe
      rw [pit_store_busy, pit_store_entry]
      simp only [hbe, if_false, and_self]

/-- Witness of C9 at face 31: the mask written is `0xFFFFFFFF80000000`, not `2^31`. -/
theorem pit_insert_new_witness :
    (pit_lookup_and_update sample_crc pit_empty name_a 2 31 (some 1000) 0).1 = 1 ∧
    ((pit_lookup_and_update sample_crc pit_empty name_a 2 31 (some 1000) 0).2.ring 0).face_bitmask
      = 18446744071562067968 := by
  obtain ⟨e0, _, _, _, h, hring, _⟩ := pit_insert_new sample_crc pit_empty name_a 2 31 1000 0
    (by decide) (by decide) (fun b e hb => absurd rfl hb) ⟨0, by decide, rfl⟩ (by decide)
  refine ⟨by rw [h], ?_⟩
  have : pit_empty.top = 0 := rfl
  rw [this] at hring
  rw [hring]
  show face_mask 31 = 18446744071562067968
  decide

/-- C10: for every PIT state in which entry `e0` of the bucket of `n`, a name of
at most `MAX_NAME_LEN` bytes, is live, holds the CRC and the name of `n`, and
is the lowest such entry (whether or not the ring is full or the bucket has a
free entry), and every face `f`:
`pit_lookup_and_update(n, f, t)` returns 0 and changes at most the face bitmask
of the ring entry of `e0`, which gains the mask of `1 << f` when it shares no
bit with it; for `f < 31` that is `face_bitmask OR 2^f`. `top`, `bottom`, the
buckets, every expiry and every other ring entry are unchanged, and a second
call with the same face changes nothing. -/
theorem pit_aggregate (crc : List Nat → Nat) (pit : pit_t) (n : List Nat) (len f : Nat)
    (ct : Option Nat) (now e0 : Nat) (he0 : e0 < BUCKET_SIZE) (hmax : len ≤ MAX_NAME_LEN)
    (hm : pit_entry_matches pit n len (crc (n.take len))
      (crc (n.take len) % pit.num_buckets) e0)
    (hfirst : ∀ e1, e1 < e0 →
      ¬ pit_entry_matches pit n len (crc (n.take len))
        (crc (n.take len) % pit.num_buckets) e1) :
    (pit_lookup_and_update crc pit n len f ct now).1 = 0 ∧
    (pit_lookup_and_update crc pit n len f ct now).2 =
      (if (pit.ring ((pit.table (crc (n.take len) % pit.num_buckets)).entry e0).index).face_bitmask
            &&& face_mask f = 0 then
          pit_set_mask pit ((pit.table (crc (n.take len) % pit.num_buckets)).entry e0).index
            ((pit.ring
              ((pit.table (crc (n.take len) % pit.num_buckets)).entry e0).index).face_bitmask |||
              face_mask f)
        else pit) ∧
    (f < 31 →
      (pit_lookup_and_update crc pit n len f ct now).2 =
        pit_set_mask pit ((pit.table (crc (n.take len) % pit.num_buckets)).entry e0).index
          ((pit.ring
            ((pit.table (crc (n.take len) % pit.num_buckets)).entry e0).index).face_bitmask |||
            2 ^ f)) ∧
    (pit_lookup_and_update crc pit n len f ct now).2.top = pit.top ∧
    (pit_lookup_and_update crc pit n len f ct now).2.bottom = pit.bottom ∧
    (pit_lookup_and_update crc pit n len f ct now).2.table = pit.table ∧
    (∀ i, i ≠ ((pit.table (crc (n.take len) % pit.num_buckets)).entry e0).index →
      (pit_lookup_and_update crc pit n len f ct now).2.ring i = pit.ring i) ∧
    (∀ i, ((pit_lookup_and_update crc pit n len f ct now).2.ring i).expiry =
      (pit.ring i).expiry) ∧
    pit_lookup_and_update crc (pit_lookup_and_update crc pit n len f ct now).2 n len f ct now =
      (0, (pit_lookup_and_update crc pit n len f ct now).2) := by
  have hres := pit_update_of_match pit n len f ct now (crc (n.take len)) e0 he0 hm hfirst
  unfold pit_lookup_and_update
  rw [hres]
  dsimp only
  refine ⟨rfl, rfl, ?_, ?_, ?_, ?_, ?_, ?_, ?_⟩
  · intro hf
    rw [face_mask_of_lt hf]
    split
    · rfl
    · rename_i hbit
      rw [or_two_pow_of_and_ne_zero hbit, pit_set_mask_self]
  · split <;> rfl
  · split <;> rfl
  · split <;> rfl
  · intro i hi
    split
    · simp only [pit_set_mask, upd_apply, hi, if_false]
    · rfl
  · intro i
    split
    · simp only [pit_set_mask, upd_apply]
      split
      · rename_i h; rw [h]
      · rfl
    · rfl
  · split
    · rename_i hbit
      have hm2 := (pit_set_mask_matches pit
        ((pit.table (crc (n.take len) % pit.num_buckets)).entry e0).index
        ((pit.ring ((pit.table (crc (n.take len) % pit.num_buckets)).entry e0).index).face_bitmask
          ||| face_mask f) n len (crc (n.take len)) (crc (n.take len) % pit.num_buckets) e0).mpr hm
      have hfirst2 : ∀ e1, e1 < e0 → ¬ pit_entry_matches (pit_set_mask pit
          ((pit.table (crc (n.take len) % pit.num_buckets)).entry e0).index
          ((pit.ring
            ((pit.table (crc (n.take len) % pit.num_buckets)).entry e0).index).face_bitmask
            ||| face_mask f)) n len (crc (n.take len)) (crc (n.take len) % pit.num_buckets) e1 :=
        fun e1 h1 h => hfirst e1 h1 ((pit_set_mask_matches _ _ _ _ _ _ _ _).mp h)
      have hres2 := pit_update_of_match _ n len f ct now (crc (n.take len)) e0 he0 hm2 hfirst2
      rw [hres2]
      have hbit2 : ¬ (((pit_set_mask pit
          ((pit.table (crc (n.take len) % pit.num_buckets)).entry e0).index
          ((pit.ring
            ((pit.table (crc (n.take len) % pit.num_buckets)).entry e0).index).face_bitmask
            ||| face_mask f)).ring
          (((pit_set_mask pit
            ((pit.table (crc (n.take len) % pit.num_buckets)).entry e0).index
            ((pit.ring
              ((pit.table (crc (n.take len) % pit.num_buckets)).entry e0).index).face_bitmask
              ||| face_mask f)).table
            (crc (n.take len) % (pit_set_mask pit
              ((pit.table (crc (n.take len) % pit.num_buckets)).entry e0).index
              ((pit.ring
                ((pit.table (crc (n.take len) % pit.num_buckets)).entry e0).index).face_bitmask
                ||| face_mask f)).num_buckets)).entry e0).index).face_bitmask &&& face_mask f = 0) := by
        simp only [pit_set_mask, upd_same]
        rw [or_and_self_right]
        exact face_mask_pos f
      rw [if_neg hbit2]
    · rename_i hbit
      rw [hres, if_neg hbit]

/-- Witness of C10 at face 31: aggregating face 31 into the entry of face 1 gives
the mask `0xFFFFFFFF80000002`, not `2^31 + 2`. -/
theorem pit_aggregate_witness :
    (pit_lookup_and_update sample_crc pit_one name_a 2 31 (some 2000) 0).1 = 0 ∧
    ((pit_lookup_and_update sample_crc pit_one name_a 2 31 (some 2000) 0).2.ring 0).face_bitmask
      = 18446744071562067970 := by
  have h := pit_aggregate sample_crc pit_one name_a 2 31 (some 2000) 0 0 (by decide)
    (by decide) (by decide) (by intro e1 h1; omega)
  refine ⟨h.1, ?_⟩
  rw [h.2.1]
  decide

/-- C11: start from the empty PIT built by `pit_create` with `max_elements = N`
(an `int`, so `N < 2^31`). `N` calls of `pit_lookup_and_update` in a row, on
names of at most `MAX_NAME_LEN` bytes that differ from one another, each of
which finds a free entry in its
bucket, all return 1 and leave `pit_occupancy = N`. The next call on one more
name that differs from them returns `-ENOSPC` and leaves the PIT as it was. -/
theorem pit_fill_then_enospc (crc : List Nat → Nat) (nb N hz us : Nat)
    (reqs : List pit_interest) (hnb : 0 < nb) (hN : N < 2 ^ 31) (hlen : reqs.length = N)
    (hbuf : ∀ r, r ∈ reqs → r.name_len ≤ r.name.length)
    (hmax : ∀ r, r ∈ reqs → r.name_len ≤ MAX_NAME_LEN)
    (hdist : reqs.Pairwise pit_interest_differs)
    (hfree : pit_free_along crc (pit_create nb N hz us) reqs) :
    (pit_update_all crc (pit_create nb N hz us) reqs).1 = List.replicate N 1 ∧
    pit_occupancy (pit_update_all crc (pit_create nb N hz us) reqs).2 = N ∧
    ∀ r : pit_interest, (∀ s, s ∈ reqs → pit_interest_differs s r) →
      pit_lookup_and_update crc (pit_update_all crc (pit_create nb N hz us) reqs).2
        r.name r.name_len r.face r.curr_time r.now =
        (-ENOSPC, (pit_update_all crc (pit_create nb N hz us) reqs).2) := by
  obtain ⟨c1, _, c3, c4, _, c6⟩ := pit_create_fields nb N hz us
  obtain ⟨h1, h2, h3, h4, h5, h6⟩ := pit_update_all_fill crc reqs []
    (pit_create nb N hz us) (PitInv_create crc nb N hz us hnb hN) c4
    (by rw [c3, c1]; omega) hbuf (by simpa using hdist)
    (fun i hi => absurd (c6 i) hi) hfree
  rw [c3, Nat.zero_add, hlen] at h4
  rw [c1] at h5
  rw [hlen] at h1
  refine ⟨h1, ?_, ?_⟩
  · rw [pit_occupancy_eq h2, h3, h4, h5]
    unfold ring_dist
    rw [if_pos (Nat.zero_le _)]
    omega
  · intro r hr
    have hnoact : ∀ i, ((pit_update_all crc (pit_create nb N hz us) reqs).2.ring i).active ≠ 0 →
        ¬ pit_entry_has_name ((pit_update_all crc (pit_create nb N hz us) reqs).2.ring i)
          r.name r.name_len := by
      intro i hi hn
      obtain ⟨s, hs, hsn⟩ := h6 i hi
      apply hr s (by simpa using hs)
      refine ⟨hsn.1.symm.trans hn.1, ?_⟩
      rw [← hsn.2, ← hn.2, ← hsn.1, hn.1]
    have hfull : is_pit_full (pit_update_all crc (pit_create nb N hz us) reqs).2 = true := by
      cases hf : is_pit_full (pit_update_all crc (pit_create nb N hz us) reqs).2 with
      | true => rfl
      | false =>
        have := is_pit_full_false h2 hf
        rw [h3, h4, h5] at this
        unfold ring_next at this
        rw [if_pos rfl] at this
        exact absurd rfl this
    unfold pit_lookup_and_update
    rcases pit_update_cases (pit_update_all crc (pit_create nb N hz us) reqs).2 r.name
        r.name_len r.face r.curr_time r.now (crc (r.name.take r.name_len)) with
      ⟨e0, _, hm, _, _⟩ | ⟨_, _, heq⟩ | ⟨_, e0, _, _, _, hnf, _⟩
    · exact absurd hm (pit_no_match h2 hnoact _ _ _)
    · exact heq
    · rw [hfull] at hnf; exact absurd hnf (by decide)

/-- Witness of C11: a PIT for 3 entries takes three Interests and refuses the
fourth. -/
theorem pit_fill_then_enospc_witness :
    (pit_update_all sample_crc (pit_create 1 3 1000000 5)
      [sample_interest 0, sample_interest 1, sample_interest 2]).1 = [1, 1, 1] ∧
    pit_occupancy (pit_update_all sample_crc (pit_create 1 3 1000000 5)
      [sample_interest 0, sample_interest 1, sample_interest 2]).2 = 3 ∧
    pit_lookup_and_update sample_crc (pit_update_all sample_crc (pit_create 1 3 1000000 5)
      [sample_interest 0, sample_interest 1, sample_interest 2]).2
      [47, 100] 2 3 (some 1003) 0 =
      (-ENOSPC, (pit_update_all sample_crc (pit_create 1 3 1000000 5)
        [sample_interest 0, sample_interest 1, sample_interest 2]).2) := by
  obtain ⟨h1, h2, h3⟩ := pit_fill_then_enospc sample_crc 1 3 1000000 5
    [sample_interest 0, sample_interest 1, sample_interest 2] (by decide) (by decide) rfl
    (by decide) (by decide) (by decide)
    ⟨⟨0, by decide, by decide⟩, ⟨1, by decide, by decide⟩, ⟨2, by decide, by decide⟩, trivial⟩
  exact ⟨h1, h2, h3 (sample_interest 3) (by decide)⟩

/-- C12: in every PIT state in which the seven entries of the bucket of `n` are
all busy and none of them holds the name `n`, `pit_lookup_and_update(n, f, t)`
returns `-ENOSPC` and leaves the PIT as it was; no condition is put on the ring,
which may have room. -/
theorem pit_bucket_full_enospc (crc : List Nat → Nat) (pit : pit_t) (n : List Nat)
    (len f : Nat) (ct : Option Nat) (now : Nat)
    (hbusy : ∀ e, e < BUCKET_SIZE → pit_live pit (crc (n.take len) % pit.num_buckets) e)
    (hnone : ∀ e, e < BUCKET_SIZE →
      ¬ pit_entry_has_name (pit_record pit (crc (n.take len) % pit.num_buckets) e) n len) :
    pit_lookup_and_update crc pit n len f ct now = (-ENOSPC, pit) := by
  unfold pit_lookup_and_update
  rcases pit_update_cases pit n len f ct now (crc (n.take len)) with
    ⟨e0, he0, hm, _, _⟩ | ⟨_, _, heq⟩ | ⟨_, e0, he0, hfree, _, _, _⟩
  · exact absurd ⟨hm.2.2.1.symm, hm.2.2.2.symm⟩ (hnone e0 he0)
  · exact heq
  · exact absurd hfree (hbusy e0 he0)

/-- Witness of C12: the bucket of `pit_seven` is full while its ring has room for
13 more entries, and an eighth name is refused. -/
theorem pit_bucket_full_enospc_witness :
    is_pit_full pit_seven = false ∧ pit_occupancy pit_seven = 7 ∧
    pit_lookup_and_update sample_crc pit_seven [47, 110] 2 1 (some 2000) 0 =
      (-ENOSPC, pit_seven) :=
  ⟨by decide, by decide,
    pit_bucket_full_enospc sample_crc pit_seven [47, 110] 2 1 (some 2000) 0
      (by decide) (by decide)⟩

/-- C13: in every PIT state reached by Interests for names of at most
`MAX_NAME_LEN` bytes, removals and purges, when `pit_lookup_and_remove(n)`
returns a mask other than 0, the name `n` was held by a live entry, and afterwards the
ring entry of that entry has `active = 0`, its bucket entry is not busy, no live
entry holds `n`, `pit_lookup(n)` returns `NULL` (whatever CRC it is given), and
a second `pit_lookup_and_remove(n)` returns 0 and changes nothing. -/
theorem pit_remove_then_absent (crc : List Nat → Nat) (pit : pit_t) (n : List Nat)
    (len : Nat) (hreach : PitReachable crc pit)
    (hhit : (pit_lookup_and_remove crc pit n len).1 ≠ 0) :
    ∃ b e, pit_live pit b e ∧ pit_entry_has_name (pit_record pit b e) n len ∧
      ((pit_lookup_and_remove crc pit n len).2.ring ((pit.table b).entry e).index).active = 0 ∧
      ((pit_lookup_and_remove crc pit n len).2.table b).busy e = 0 ∧
      (∀ b1 e1, pit_live (pit_lookup_and_remove crc pit n len).2 b1 e1 →
        ¬ pit_entry_has_name (pit_record (pit_lookup_and_remove crc pit n len).2 b1 e1) n len) ∧
      (∀ c, pit_lookup (pit_lookup_and_remove crc pit n len).2 n len c = none) ∧
      pit_lookup_and_remove crc (pit_lookup_and_remove crc pit n len).2 n len =
        (0, (pit_lookup_and_remove crc pit n len).2) := by
  have h := PitInv_of_reachable hreach
  have h' := PitInv_remove h n len
  by_cases hex : ∃ b e, pit_live pit b e ∧ pit_entry_has_name (pit_record pit b e) n len
  · obtain ⟨b, e, hl, hn⟩ := hex
    have hres := pit_remove_live crc h hl hn
    rw [hres] at h' ⊢
    dsimp only at h' ⊢
    obtain ⟨_, _, _, _, _, f6, f7, _⟩ := pit_unlink_fields pit b e
    have hnone := pit_unlink_no_name h hl hn
    refine ⟨b, e, hl, hn, ?_, ?_, (pit_no_live_name h').mpr hnone, pit_lookup_none h' hnone,
      pit_remove_none h' hnone⟩
    · rw [f6, if_pos rfl]
    · rw [f7, if_pos ⟨rfl, rfl⟩]
  · exfalso
    apply hhit
    have hno : ∀ b e, pit_live pit b e → ¬ pit_entry_has_name (pit_record pit b e) n len :=
      fun b e hl hn => hex ⟨b, e, hl, hn⟩
    rw [pit_remove_none h ((pit_no_live_name h).mp hno)]

/-- Witness of C13: removing "/a" from the PIT that holds it. -/
theorem pit_remove_then_absent_witness :
    (pit_lookup_and_remove sample_crc pit_one name_a 2).1 ≠ 0 ∧
    pit_lookup_and_remove sample_crc (pit_lookup_and_remove sample_crc pit_one name_a 2).2
      name_a 2 = (0, (pit_lookup_and_remove sample_crc pit_one name_a 2).2) := by
  obtain ⟨_, _, _, _, _, _, _, _, h⟩ :=
    pit_remove_then_absent sample_crc pit_one name_a 2 reach_pit_one (by decide)
  exact ⟨by decide, h⟩

/-- Counterexample to C14: the Interest for "/a" is made at time 1000 with a TTL of
5000000 cycles, the next operation is the Interest for "/a/b" at time 15000000.
At that time the entry for "/a" is still live and still found by `pit_lookup`,
and its expiry time 5001000 is not after `15000000 - ttl`. -/
theorem pit_live_expired_counterexample :
    PitTimed sample_crc pit_late 15000000 0 ∧
    pit_live pit_late (sample_crc name_a % 1024) 0 ∧
    pit_lookup pit_late name_a 2 (sample_crc name_a) = some 0 ∧
    (pit_record pit_late (sample_crc name_a % 1024) 0).face_bitmask ≠ 0 ∧
    ¬ (15000000 - pit_late.ttl < (pit_record pit_late (sample_crc name_a % 1024) 0).expiry) :=
  ⟨PitTimed.update _ 1000 0 name_a_b 4 2 15000000 0 timed_pit_one (by decide) (by decide) (by decide)
      (by decide),
    by decide, by decide, by decide, by decide⟩

/-- C14 (amended): at every time `t` of a timed execution (timestamps that never
decrease, one `ttl`, no expiry time wrapped around, Interests for names of at
most `MAX_NAME_LEN` bytes), every live PIT entry has a
face bitmask other than 0, an expiry time of at most `t + ttl`, and, when
`ttl > 0`, an expiry time after the time `p` of the latest purge (`p = 0` before
the first purge); so its expiry time is after `t - ttl` when the latest purge
was made no more than `ttl` before `t`. -/
theorem pit_live_entry_bounds (crc : List Nat → Nat) (pit : pit_t) (t p : Nat)
    (hrun : PitTimed crc pit t p) :
    ∀ b e, pit_live pit b e →
      (pit_record pit b e).face_bitmask ≠ 0 ∧
      (pit_record pit b e).expiry ≤ t + pit.ttl ∧
      p ≤ (pit_record pit b e).expiry ∧
      (0 < pit.ttl → p < (pit_record pit b e).expiry) ∧
      (0 < pit.ttl → t ≤ p + pit.ttl → t - pit.ttl < (pit_record pit b e).expiry) := by
  intro b e hl
  have h := PitInv_of_reachable (PitReachable_of_timed hrun)
  have ht := PitTimedInv_of_timed hrun
  obtain ⟨_, _, s3, s4, _⟩ := h.slot b e hl
  unfold pit_record at s4 ⊢
  have hact : (pit.ring ((pit.table b).entry e).index).active ≠ 0 := by rw [s4]; omega
  have hlow := ht.lower _ hact
  refine ⟨h.mask _ hact, ht.upper _ s3, hlow.1, hlow.2, ?_⟩
  intro hpos hp
  have := hlow.2 hpos
  omega

/-- Witness of C14 (amended): the entry for "/a" at the time of its Interest. -/
theorem pit_live_entry_bounds_witness :
    (pit_record pit_one (sample_crc name_a % 1024) 0).face_bitmask ≠ 0 ∧
    (pit_record pit_one (sample_crc name_a % 1024) 0).expiry ≤ 1000 + pit_one.ttl :=
  ⟨(pit_live_entry_bounds sample_crc pit_one 1000 0 timed_pit_one
      (sample_crc name_a % 1024) 0 (by decide)).1,
    (pit_live_entry_bounds sample_crc pit_one 1000 0 timed_pit_one
      (sample_crc name_a % 1024) 0 (by decide)).2.1⟩

/-- C15: in every PIT state reached by Interests for names of at most
`MAX_NAME_LEN` bytes, removals and purges, `pit_lookup_and_remove(n)` returns
the face bitmask of the live entry that holds `n`, which is not 0, when there is one (and
there is at most one); it returns 0 and leaves the PIT unchanged when there is
none; so the value is 0 exactly when no live entry holds `n`. -/
theorem pit_remove_result (crc : List Nat → Nat) (pit : pit_t) (n : List Nat) (len : Nat)
    (hreach : PitReachable crc pit) :
    (∀ b e, pit_live pit b e → pit_entry_has_name (pit_record pit b e) n len →
      (pit_lookup_and_remove crc pit n len).1 = (pit_record pit b e).face_bitmask ∧
      (pit_lookup_and_remove crc pit n len).1 ≠ 0 ∧
      ∀ b1 e1, pit_live pit b1 e1 → pit_entry_has_name (pit_record pit b1 e1) n len →
        b1 = b ∧ e1 = e) ∧
    ((∀ b e, pit_live pit b e → ¬ pit_entry_has_name (pit_record pit b e) n len) →
      pit_lookup_and_remove crc pit n len = (0, pit)) ∧
    ((pit_lookup_and_remove crc pit n len).1 = 0 ↔
      ∀ b e, pit_live pit b e → ¬ pit_entry_has_name (pit_record pit b e) n len) := by
  have h := PitInv_of_reachable hreach
  have hlive : ∀ b e, pit_live pit b e → pit_entry_has_name (pit_record pit b e) n len →
      (pit_lookup_and_remove crc pit n len).1 = (pit_record pit b e).face_bitmask ∧
      (pit_lookup_and_remove crc pit n len).1 ≠ 0 := by
    intro b e hl hn
    rw [pit_remove_live crc h hl hn]
    obtain ⟨_, _, _, s4, _⟩ := h.slot b e hl
    refine ⟨rfl, ?_⟩
    unfold pit_record at s4 ⊢
    exact h.mask _ (by rw [s4]; omega)
  have hmiss : (∀ b e, pit_live pit b e → ¬ pit_entry_has_name (pit_record pit b e) n len) →
      pit_lookup_and_remove crc pit n len = (0, pit) :=
    fun hno => pit_remove_none h ((pit_no_live_name h).mp hno)
  refine ⟨?_, hmiss, ?_, ?_⟩
  · intro b e hl hn
    refine ⟨(hlive b e hl hn).1, (hlive b e hl hn).2, ?_⟩
    intro b1 e1 hl1 hn1
    obtain ⟨_, _, _, s4, s5, s6, _⟩ := h.slot b e hl
    obtain ⟨_, _, _, t4, t5, t6, _⟩ := h.slot b1 e1 hl1
    unfold pit_record at s4 s5 s6 t4 t5 t6 hn hn1
    have hidx : ((pit.table b1).entry e1).index = ((pit.table b).entry e).index :=
      h.unique _ _ (by rw [t4]; omega) (by rw [s4]; omega) (hn1.1.trans hn.1.symm)
        (by rw [hn1.1, hn.1, hn1.2, hn.2])
    rw [hidx] at t5 t6
    exact ⟨t5.symm.trans s5, t6.symm.trans s6⟩
  · intro hz b e hl hn
    exact (hlive b e hl hn).2 hz
  · intro hno
    rw [hmiss hno]

/-- Witness of C15: the removal of "/a" returns the mask of the live entry for
"/a", which is the mask of face 1. -/
theorem pit_remove_result_witness :
    pit_live pit_one (sample_crc name_a % 1024) 0 ∧
    (pit_record pit_one (sample_crc name_a % 1024) 0).face_bitmask = 2 ∧
    (pit_lookup_and_remove sample_crc pit_one name_a 2).1 =
      (pit_record pit_one (sample_crc name_a % 1024) 0).face_bitmask :=
  ⟨by decide, by decide,
    ((pit_remove_result sample_crc pit_one name_a 2 reach_pit_one).1
      (sample_crc name_a % 1024) 0 (by decide) (by decide)).1⟩

/-- C16: in every PIT state of a timed execution (inserts, of names of at most
`MAX_NAME_LEN` bytes, with timestamps that never decrease and one `ttl`, no
expiry time wrapped around, removals and purges in between), `pit_purge_expired_with_time(t)` ends within `pit_occupancy`
iterations of its loop, and when it has returned every live PIT entry has an
expiry time after `t`. -/
theorem pit_purge_leaves_unexpired (crc : List Nat → Nat) (pit : pit_t) (now last t : Nat)
    (hrun : PitTimed crc pit now last) :
    (∃ r pit', pit_purge_expired_with_time (pit_occupancy pit) pit t = some (r, pit')) ∧
    ∀ fuel r pit', pit_purge_expired_with_time fuel pit t = some (r, pit') →
      ∀ b e, pit_live pit' b e → t < (pit_record pit' b e).expiry := by
  have h := PitInv_of_reachable (PitReachable_of_timed hrun)
  have ht := PitTimedInv_of_timed hrun
  constructor
  · obtain ⟨x, hx⟩ := pit_purge_loop_ends crc t (pit_occupancy pit) (pit_occupancy pit)
      pit 0 h (pit_occupancy_eq h).symm (le_refl _)
    exact ⟨x.1, x.2, hx⟩
  · intro fuel r pit' hpurge b e hl
    have h' : PitInv crc pit' := PitInv_purge_loop t fuel pit 0 r pit' h hpurge
    obtain ⟨_, hexp⟩ := pit_purge_loop_timed t fuel pit 0 r pit' now last h ht hpurge
    obtain ⟨_, _, _, s4, _⟩ := h'.slot b e hl
    unfold pit_record at s4 ⊢
    exact hexp _ (by rw [s4]; omega)

/-- Witness of C16: the purge at time 1005 of the PIT with the entries that expire
at 1005 and 1006 returns 1 and leaves the second entry, which expires later. -/
theorem pit_purge_leaves_unexpired_witness :
    (pit_purge_expired_with_time 2 pit_two 1005).map Prod.fst = some 1 ∧
    ∀ r pit', pit_purge_expired_with_time 2 pit_two 1005 = some (r, pit') →
      ∀ b e, pit_live pit' b e → 1005 < (pit_record pit' b e).expiry :=
  ⟨by decide, (pit_purge_leaves_unexpired sample_crc pit_two 1001 0 1005 timed_pit_two).2 2⟩

/-- C17: in every PIT state reached by Interests for names of at most
`MAX_NAME_LEN` bytes, removals and purges, a ring entry with `active = 1` lies
in the
ring window from `bottom` to `top`, the bucket entry it names has its busy flag
at 1 and points back to the ring position; a busy bucket entry points to an
active ring entry inside the window; `top` and `bottom` are below the ring
capacity `pit.max_elements`, which `pit_create` sets to its argument plus one
and none of the three operations changes. -/
theorem pit_reachable_invariant (crc : List Nat → Nat) (pit : pit_t)
    (hreach : PitReachable crc pit) :
    (∀ i, (pit.ring i).active = 1 →
      pit_in_window pit i ∧
      (pit.table (pit.ring i).bucket).busy (pit.ring i).tab = 1 ∧
      ((pit.table (pit.ring i).bucket).entry (pit.ring i).tab).index = i) ∧
    (∀ b e, (pit.table b).busy e ≠ 0 →
      pit_in_window pit ((pit.table b).entry e).index ∧
      (pit.ring ((pit.table b).entry e).index).active = 1 ∧
      (pit.ring ((pit.table b).entry e).index).bucket = b ∧
      (pit.ring ((pit.table b).entry e).index).tab = e) ∧
    pit.top < pit.max_elements ∧ pit.bottom < pit.max_elements ∧
    (∀ nb me hz us, (pit_create nb me hz us).max_elements = me + 1) ∧
    (∀ n len f ct now,
      (pit_lookup_and_update crc pit n len f ct now).2.max_elements = pit.max_elements) ∧
    (∀ n len, (pit_lookup_and_remove crc pit n len).2.max_elements = pit.max_elements) ∧
    (∀ fuel t purged pit', pit_purge_expired_with_time fuel pit t = some (purged, pit') →
      pit'.max_elements = pit.max_elements) := by
  have h := PitInv_of_reachable hreach
  refine ⟨?_, ?_, h.top_lt, h.bottom_lt, fun _ _ _ _ => rfl, ?_, ?_, ?_⟩
  · intro i hi
    obtain ⟨a1, a2, a3⟩ := h.active i (by rw [hi]; omega)
    refine ⟨a1, ?_, a3⟩
    have := h.busy_le (pit.ring i).bucket (pit.ring i).tab
    unfold pit_live at a2
    omega
  · intro b e hbe
    obtain ⟨_, _, s3, s4, s5, s6, _⟩ := h.slot b e hbe
    exact ⟨s3, s4, s5, s6⟩
  · intro n len f ct now
    exact (pit_update_static crc pit n len f ct now).1
  · intro n len
    exact (pit_remove_static crc pit n len).1
  · intro fuel t purged pit' hrun
    exact (pit_purge_loop_static t fuel pit 0 purged pit' hrun).1

/-- Witness of C17: the state after one Interest is reachable. -/
theorem pit_reachable_invariant_witness :
    pit_in_window pit_one 0 ∧ pit_one.top < pit_one.max_elements :=
  ⟨((pit_reachable_invariant sample_crc pit_one reach_pit_one).1 0 (by decide)).1,
    (pit_reachable_invariant sample_crc pit_one reach_pit_one).2.2.1⟩

/-- C18: in every PIT state reached by Interests for names of at most
`MAX_NAME_LEN` bytes, removals and purges, for a time `t` at which every
active ring
entry has expired, `pit_purge_expired_with_time(t)` ends (after as many loop
iterations as `pit_occupancy` counts), returns the previous `pit_occupancy` and
leaves the PIT empty: `top = bottom`, `pit_occupancy = 0`, no bucket entry
busy. -/
theorem pit_purge_all_expired (crc : List Nat → Nat) (pit : pit_t) (t : Nat)
    (hreach : PitReachable crc pit)
    (hexp : ∀ i, (pit.ring i).active = 1 → (pit.ring i).expiry ≤ t) :
    ∃ pit', (∀ fuel, pit_occupancy pit ≤ fuel →
        pit_purge_expired_with_time fuel pit t = some (pit_occupancy pit, pit')) ∧
      pit'.top = pit'.bottom ∧ is_pit_empty pit' = true ∧ pit_occupancy pit' = 0 ∧
      ∀ b e, (pit'.table b).busy e = 0 := by
  have h := PitInv_of_reachable hreach
  have hocc := pit_occupancy_eq h
  have hlt := ring_dist_top_lt h.top_lt h.bottom_lt
  have hcap := h.cap_le
  obtain ⟨pit', hrun, hinv, htb⟩ := pit_purge_loop_all crc t (pit_occupancy pit)
    (pit_occupancy pit) pit 0 h hocc.symm (le_refl _) hexp (by omega)
  rw [Nat.zero_add] at hrun
  refine ⟨pit', fun fuel hf => pit_purge_loop_mono t _ pit 0 _ hrun fuel hf, htb,
    (is_pit_empty_iff pit').mpr htb, ?_, pit_empty_no_busy hinv htb⟩
  rw [pit_occupancy_eq hinv]
  exact (ring_dist_zero hinv.bottom_lt).mpr htb

/-- Witness of C18: the PIT that holds "/a", purged after its expiry time. -/
theorem pit_purge_all_expired_witness :
    pit_occupancy pit_one = 1 ∧
    ∃ pit', pit_purge_expired_with_time 1 pit_one 10000000 = some (1, pit') ∧
      pit_occupancy pit' = 0 := by
  obtain ⟨pit', h1, _, _, h4, _⟩ := pit_purge_all_expired sample_crc pit_one 10000000
    reach_pit_one (by
      intro i hi
      have hw := ((PitInv_of_reachable reach_pit_one).active i (by rw [hi]; omega)).1
      have hi0 : i = 0 := by
        have hb : pit_one.bottom = 0 := rfl
        have ht : pit_one.top = 1 := by decide
        unfold pit_in_window ring_window at hw
        rw [hb, ht] at hw
        simp at hw
        exact hw
      subst hi0
      decide)
  exact ⟨by decide, pit', h1 1 (by decide), h4⟩

/-- Counterexample to C19: in the CS that holds "/a" with buffer 11, the call
`cs_insert("/a", 22)` returns 0, and the lookup of "/a" made right after it
returns 11. -/
theorem cs_duplicate_insert_counterexample :
    CsReachable sample_crc (cs_insert sample_crc cs_tiny name_a 2 11).2.1 ∧
    (cs_insert sample_crc (cs_insert sample_crc cs_tiny name_a 2 11).2.1 name_a 2 22).1 = 0 ∧
    cs_lookup sample_crc
      (cs_insert sample_crc (cs_insert sample_crc cs_tiny name_a 2 11).2.1 name_a 2 22).2.1
      name_a 2 = 11 :=
  ⟨CsReachable.insert _ _ _ _ (CsReachable.create 1 3 (by decide) (by decide)) (by decide)
    (by decide),
    by decide, by decide⟩

/-- C19 (amended): for every CS state, name `n` of at most `MAX_NAME_LEN` bytes
(in a buffer of at least `len` bytes) and buffer `p` such that no busy entry of
the bucket of `n` holds the name `n` already: if `cs_insert(n, p)` returns 0,
then a `cs_lookup(n)` made right after it returns `p`. -/
theorem cs_insert_then_lookup (crc : List Nat → Nat) (cs : cs_t) (n : List Nat) (len p : Nat)
    (hbuf : len ≤ n.length) (hmax : len ≤ MAX_NAME_LEN)
    (hnew : ∀ e, e < BUCKET_SIZE → cs_live cs (crc (n.take len) % cs.num_buckets) e →
      ¬ cs_entry_has_name (cs_record cs (crc (n.take len) % cs.num_buckets) e) n len)
    (hok : (cs_insert crc cs n len p).1 = 0) :
    cs_lookup crc (cs_insert crc cs n len p).2.1 n len = p := by
  unfold cs_insert at hok ⊢
  unfold cs_lookup
  obtain ⟨cs0, e0, he0, _, _, heq, _, htop, hnb, _, hentry, hbusy, hring⟩ :=
    cs_insert_ok cs n len p (crc (n.take len)) hok
  rw [heq]
  obtain ⟨_, g2, _, _, g5, g6, g7⟩ := cs_store_fields cs0 (crc (n.take len) % cs.num_buckets) e0
    n len p (crc (n.take len))
  have hnb' : (cs_store cs0 (crc (n.take len) % cs.num_buckets) e0 n len p
      (crc (n.take len))).num_buckets = cs.num_buckets := g2.trans hnb
  have hval : ∀ e, e < BUCKET_SIZE →
      cs_entry_matches (cs_store cs0 (crc (n.take len) % cs.num_buckets) e0 n len p
        (crc (n.take len))) n len (crc (n.take len)) (crc (n.take len) % cs.num_buckets) e →
      (cs_record (cs_store cs0 (crc (n.take len) % cs.num_buckets) e0 n len p
        (crc (n.take len))) (crc (n.take len) % cs.num_buckets) e).mbuf = p := by
    intro e he hm
    obtain ⟨m1, _, m3, m4⟩ := hm
    unfold cs_record
    rw [g6] at m1
    rw [g7] at m3 m4 ⊢
    by_cases hee : e = e0
    · rw [if_pos ⟨rfl, hee⟩, g5, if_pos rfl]
    · have hneg : ¬ (crc (n.take len) % cs.num_buckets = crc (n.take len) % cs.num_buckets ∧
          e = e0) := fun h => hee h.2
      rw [if_neg hneg] at m1 m3 m4 ⊢
      rw [g5] at m3 m4 ⊢
      by_cases hidx : ((cs0.table (crc (n.take len) % cs.num_buckets)).entry e).index = cs0.top
      · rw [if_pos hidx]
      · exfalso
        rw [if_neg hidx] at m3 m4
        rw [hentry] at m3 m4
        rw [(hring _).2.1] at m3
        unfold memcmp_eq at m4
        rw [(hring _).1] at m4
        exact hnew e he (hbusy _ _ m1) ⟨m3.symm, m4.symm⟩
  have hm0 : cs_entry_matches (cs_store cs0 (crc (n.take len) % cs.num_buckets) e0 n len p
      (crc (n.take len))) n len (crc (n.take len)) (crc (n.take len) % cs.num_buckets) e0 := by
    refine ⟨?_, ?_, ?_, ?_⟩
    · rw [g6, if_pos ⟨rfl, rfl⟩]; omega
    · rw [g7, if_pos ⟨rfl, rfl⟩]
    · rw [g7, if_pos ⟨rfl, rfl⟩]
      dsimp only
      rw [g5, if_pos rfl]
    · rw [g7, if_pos ⟨rfl, rfl⟩]
      dsimp only
      rw [g5, if_pos rfl]
      unfold memcmp_eq
      dsimp only
      rw [memcpy_take hbuf]
  rcases cs_lookup_cases (cs_store cs0 (crc (n.take len) % cs.num_buckets) e0 n len p
      (crc (n.take len))) n len (crc (n.take len)) with ⟨e, he, hme, _, hres⟩ | ⟨hno, _⟩
  · rw [hnb'] at hme hres
    rw [hres]
    exact hval e he hme
  · rw [hnb'] at hno
    exact absurd hm0 (hno e0 he0)

/-- Witness of C19 (amended): "/a" inserted into the empty CS with buffer 11. -/
theorem cs_insert_then_lookup_witness :
    cs_lookup sample_crc (cs_insert sample_crc cs_tiny name_a 2 11).2.1 name_a 2 = 11 :=
  cs_insert_then_lookup sample_crc cs_tiny name_a 2 11 (by decide) (by decide) (by decide)
    (by decide)

/-- Counterexample to C20: the CS `cs_four` is full and holds "/x", "/n" and "/d",
the content "/n" (buffer 33) at entry 2 of the bucket, entry 0 being free again.
`cs_insert("/n", 55)` returns 0 and evicts "/x"; the old content "/n" is not the
one evicted and stays cached, but `cs_lookup("/n")`, which returned its buffer
33 before, now stops at entry 0 and returns 55. -/
theorem cs_insert_shadows_counterexample :
    CsReachable sample_crc cs_four ∧ is_cs_full cs_four = true ∧
    (cs_insert sample_crc cs_four [47, 110] 2 55).1 = 0 ∧
    cs_live cs_four 0 2 ∧ (cs_record cs_four 0 2).mbuf = 33 ∧
    ¬ ((cs_four.ring cs_four.bottom).bucket = 0 ∧ (cs_four.ring cs_four.bottom).tab = 2) ∧
    cs_lookup_stops cs_four [47, 110] 2 (sample_crc [47, 110]) 2 ∧
    cs_lookup sample_crc cs_four [47, 110] 2 = 33 ∧
    cs_live (cs_insert sample_crc cs_four [47, 110] 2 55).2.1 0 2 ∧
    (cs_record (cs_insert sample_crc cs_four [47, 110] 2 55).2.1 0 2).mbuf = 33 ∧
    ¬ cs_lookup_stops (cs_insert sample_crc cs_four [47, 110] 2 55).2.1 [47, 110] 2
      (sample_crc [47, 110]) 2 ∧
    cs_lookup sample_crc (cs_insert sample_crc cs_four [47, 110] 2 55).2.1 [47, 110] 2 = 55 :=
  ⟨reach_cs_four, by decide, by decide, by decide, by decide, by decide, by decide, by decide,
    by decide, by decide, by decide, by decide⟩

/-- C20 (amended): let a CS with room for at least one content be reached by calls
of `cs_insert` of names of at most `MAX_NAME_LEN` bytes, and let
`cs_insert(n, p)`, for such a name, return 0. The new entry is written at
the old `top`, at the lowest free entry of its bucket, and `top` advances by
one modulo the ring capacity. When the CS was full (`cs_occupancy` one below the
ring capacity, which is the `max_elements` given to `cs_create`), the entry at
`bottom` was cached and older than every other cached entry; its bucket entry
is cleared, its ring entry set inactive, its buffer handed to
`rte_pktmbuf_free`, `bottom` advances by one modulo the ring capacity and
`cs_occupancy` keeps its value. Every other cached entry stays cached and
unchanged, and if its name is not `n` and `cs_lookup` of its name stopped at
it, `cs_lookup` still stops at it and returns its buffer. When the CS was not
full nothing is evicted and `cs_occupancy` grows by one. -/
theorem cs_insert_fifo (crc : List Nat → Nat) (cs : cs_t) (born : Nat → Nat) (k : Nat)
    (n : List Nat) (len p : Nat) (hrun : CsTrace crc cs born k) (hbuf : len ≤ n.length)
    (hmax : len ≤ MAX_NAME_LEN) (hok : (cs_insert crc cs n len p).1 = 0) :
    (∃ e0, e0 < BUCKET_SIZE ∧
      (cs.table (crc (n.take len) % cs.num_buckets)).busy e0 = 0 ∧
      (∀ e1, e1 < e0 → (cs.table (crc (n.take len) % cs.num_buckets)).busy e1 ≠ 0) ∧
      (cs_insert crc cs n len p).2.1.ring cs.top =
        { active := 1, bucket := crc (n.take len) % cs.num_buckets, tab := e0,
          name_len := len, name := memcpy (cs.ring cs.top).name n len, mbuf := p } ∧
      ((cs_insert crc cs n len p).2.1.table (crc (n.take len) % cs.num_buckets)).busy e0 = 1 ∧
      ((cs_insert crc cs n len p).2.1.table (crc (n.take len) % cs.num_buckets)).entry e0 =
        { crc := crc (n.take len), index := cs.top }) ∧
    (cs_insert crc cs n len p).2.1.top = (cs.top + 1) % cs.max_elements ∧
    (cs_insert crc cs n len p).2.1.max_elements = cs.max_elements ∧
    (is_cs_full cs = true →
      cs_occupancy cs = cs.max_elements - 1 ∧
      (cs.ring cs.bottom).active = 1 ∧
      cs_live cs (cs.ring cs.bottom).bucket (cs.ring cs.bottom).tab ∧
      ((cs.table (cs.ring cs.bottom).bucket).entry (cs.ring cs.bottom).tab).index = cs.bottom ∧
      (∀ i, (cs.ring i).active ≠ 0 → i ≠ cs.bottom → born cs.bottom < born i) ∧
      ((cs_insert crc cs n len p).2.1.table (cs.ring cs.bottom).bucket).busy
        (cs.ring cs.bottom).tab = 0 ∧
      ((cs_insert crc cs n len p).2.1.ring cs.bottom).active = 0 ∧
      (cs_insert crc cs n len p).2.2 = [(cs.ring cs.bottom).mbuf] ∧
      (cs_insert crc cs n len p).2.1.bottom = (cs.bottom + 1) % cs.max_elements ∧
      cs_occupancy (cs_insert crc cs n len p).2.1 = cs.max_elements - 1) ∧
    (∀ b e, cs_live cs b e →
      ¬ (is_cs_full cs = true ∧ b = (cs.ring cs.bottom).bucket ∧ e = (cs.ring cs.bottom).tab) →
      cs_live (cs_insert crc cs n len p).2.1 b e ∧
      cs_record (cs_insert crc cs n len p).2.1 b e = cs_record cs b e ∧
      (¬ cs_entry_has_name (cs_record cs b e) n len →
        cs_lookup_stops cs (cs_record cs b e).name (cs_record cs b e).name_len
          (crc ((cs_record cs b e).name.take (cs_record cs b e).name_len)) e →
        cs_lookup_stops (cs_insert crc cs n len p).2.1 (cs_record cs b e).name
          (cs_record cs b e).name_len
          (crc ((cs_record cs b e).name.take (cs_record cs b e).name_len)) e ∧
        cs_lookup crc (cs_insert crc cs n len p).2.1 (cs_record cs b e).name
          (cs_record cs b e).name_len = (cs_record cs b e).mbuf)) ∧
    (is_cs_full cs = false →
      (cs_insert crc cs n len p).2.1.bottom = cs.bottom ∧
      (∀ i, i ≠ cs.top → (cs_insert crc cs n len p).2.1.ring i = cs.ring i) ∧
      (cs_insert crc cs n len p).2.2 = [] ∧
      cs_occupancy (cs_insert crc cs n len p).2.1 = cs_occupancy cs + 1) := by
  obtain ⟨_, h, ho⟩ := CsTrace_inv hrun
  have h' : CsInv crc (cs_insert crc cs n len p).2.1 := CsInv_insert h n len p hbuf
  obtain ⟨e0, he0, hfree, hlow, s1, s2, s3, s4, s5, s6, s7, s8⟩ := cs_insert_state h n len p hok
  refine ⟨⟨e0, he0, hfree, hlow, ?_, ?_, ?_⟩, ?_, s1, ?_, ?_, ?_⟩
  · rw [s5, if_pos rfl]
  · rw [s6, if_pos ⟨rfl, rfl⟩]
  · rw [s7, if_pos ⟨rfl, rfl⟩]
  · rw [s3]; exact ring_next_eq h.top_lt
  · intro hf
    have hne := cs_full_nonempty h hf
    have hfull := is_cs_full_true h hf
    have hbw : cs_in_window cs cs.bottom := ring_window_bottom h.bottom_lt hne
    have hact : (cs.ring cs.bottom).active = 1 := h.window _ hbw
    obtain ⟨_, a2, a3⟩ := h.active cs.bottom (by rw [hact]; omega)
    have hslot : ¬ ((cs.ring cs.bottom).bucket = crc (n.take len) % cs.num_buckets ∧
        (cs.ring cs.bottom).tab = e0) := by
      rintro ⟨hb, he⟩
      rw [hb, he] at a2
      exact a2 hfree
    refine ⟨?_, hact, a2, a3, fun i hi hib => cs_bottom_oldest h ho hne i hi hib, ?_, ?_, ?_, ?_,
      ?_⟩
    · rw [cs_occupancy_eq h]
      exact ring_dist_full h.bottom_lt hfull
    · rw [s6, if_neg hslot, if_pos ⟨hf, rfl, rfl⟩]
    · rw [s5, if_neg hne, if_pos ⟨hf, rfl⟩]
    · rw [s8, if_pos hf]
    · rw [s4, if_pos hf]; exact ring_next_eq h.bottom_lt
    · rw [cs_occupancy_eq h', s1, s3, s4, if_pos hf]
      apply ring_dist_full (ring_next_lt h.bottom_lt)
      rw [hfull]
  · intro b e hl hnev
    obtain ⟨r1, r2, r3, r4, r5, r6, r7⟩ := h.slot b e hl
    have hnn : ¬ (b = crc (n.take len) % cs.num_buckets ∧ e = e0) := by
      rintro ⟨hb, hee⟩
      rw [hb, hee] at hl
      exact hl hfree
    have hidx : ((cs.table b).entry e).index ≠ cs.top := by
      intro heq
      rw [heq] at r3
      exact ring_window_top r3
    have hrec : cs_record (cs_insert crc cs n len p).2.1 b e = cs_record cs b e := by
      unfold cs_record at r5 r6 ⊢
      rw [s7, if_neg hnn, s5, if_neg hidx]
      split
      · next hh =>
        exfalso
        rw [hh.2] at r5 r6
        exact hnev ⟨hh.1, r5.symm, r6.symm⟩
      · rfl
    refine ⟨?_, hrec, ?_⟩
    · unfold cs_live
      rw [s6, if_neg hnn, if_neg hnev]
      exact hl
    · intro hname hstop
      rw [r2, r7] at hnev
      have hb : crc ((cs_record cs b e).name.take (cs_record cs b e).name_len) %
          cs.num_buckets = b := by rw [← r7]; exact r2.symm
      obtain ⟨k1, k2⟩ := cs_insert_keeps_probe h n len p hbuf hok (cs_record cs b e).name
        (cs_record cs b e).name_len
        (crc ((cs_record cs b e).name.take (cs_record cs b e).name_len)) e
        (fun hd => hname ⟨hd.1, by have h2 := hd.2; rw [hd.1] at h2; exact h2⟩) hnev hstop
      refine ⟨k1, ?_⟩
      unfold cs_lookup
      have := cs_lookup_of_match (cs_insert crc cs n len p).2.1 (cs_record cs b e).name
        (cs_record cs b e).name_len
        (crc ((cs_record cs b e).name.take (cs_record cs b e).name_len)) e k1.1 k1.2.1 k1.2.2
      rw [this, s2, k2, hb]
  · intro hf
    have hff : ¬ is_cs_full cs = true := by rw [hf]; decide
    have hnf := is_cs_full_false h hf
    refine ⟨by rw [s4, if_neg hff], ?_, by rw [s8, if_neg hff], ?_⟩
    · intro i hi
      rw [s5, if_neg hi, if_neg (fun hh => hff hh.1)]
    · rw [cs_occupancy_eq h', cs_occupancy_eq h, s1, s3, s4, if_neg hff]
      exact ring_dist_top_push h.bottom_lt hnf

/-- Witness of C20 (amended): the full CS `cs_three` takes "/d" and evicts the
content at `bottom`. -/
theorem cs_insert_fifo_witness :
    is_cs_full cs_three = true ∧
    (cs_insert sample_crc cs_three [47, 100] 2 44).2.2 = [11] ∧
    (cs_insert sample_crc cs_three [47, 100] 2 44).2.1.bottom =
      (cs_three.bottom + 1) % cs_three.max_elements ∧
    cs_occupancy (cs_insert sample_crc cs_three [47, 100] 2 44).2.1 =
      cs_three.max_elements - 1 := by
  obtain ⟨born, k, ht⟩ := trace_cs_three
  obtain ⟨_, _, _, hfull, _, _⟩ :=
    cs_insert_fifo sample_crc cs_three born k [47, 100] 2 44 ht (by decide) (by decide)
      (by decide)
  obtain ⟨_, _, _, _, _, _, _, _, h9, h10⟩ := hfull (by decide)
  exact ⟨by decide, by decide, h9, h10⟩

/-- Counterexample to C21: the CS created with `max_elements = 0` has a ring of one
position. After one `cs_insert`, which returns 0, the ring entry at position 0 is
active and a bucket entry is busy, while `top = bottom = 0`: the window is empty
and `cs_occupancy` is 0. -/
theorem cs_zero_capacity_counterexample :
    CsReachable sample_crc cs_zero_one ∧
    (cs_insert sample_crc (cs_create 1 0) name_a 2 11).1 = 0 ∧
    (cs_zero_one.ring 0).active = 1 ∧ ¬ cs_in_window cs_zero_one 0 ∧
    (cs_busy_slots cs_zero_one).length = 1 ∧ cs_occupancy cs_zero_one = 0 :=
  ⟨CsReachable.insert _ _ _ _ (CsReachable.create 1 0 (by decide) (by decide)) (by decide)
    (by decide),
    by decide, by decide, by decide, by decide, by decide⟩

/-- C21 (amended): in every CS state reached by `cs_insert` of names of at most
`MAX_NAME_LEN` bytes from the empty state of `cs_create` with
`max_elements ≥ 1` (a ring of at least two positions): an
active ring entry lies in the ring window from `bottom` to `top`, the bucket
entry it names has its busy flag at 1 and points back to the ring position; a
busy bucket entry points to an active ring entry of the window that points back
to it; the number of busy bucket entries is `cs_occupancy`, which is at most the
ring capacity minus one, the `max_elements` given to `cs_create`. -/
theorem cs_reachable_invariant (crc : List Nat → Nat) (cs : cs_t)
    (hreach : CsReachable crc cs) (hcap : 2 ≤ cs.max_elements) :
    (∀ i, (cs.ring i).active = 1 →
      cs_in_window cs i ∧
      (cs.table (cs.ring i).bucket).busy (cs.ring i).tab = 1 ∧
      ((cs.table (cs.ring i).bucket).entry (cs.ring i).tab).index = i) ∧
    (∀ b e, (cs.table b).busy e ≠ 0 →
      cs_in_window cs ((cs.table b).entry e).index ∧
      (cs.ring ((cs.table b).entry e).index).active = 1 ∧
      (cs.ring ((cs.table b).entry e).index).bucket = b ∧
      (cs.ring ((cs.table b).entry e).index).tab = e) ∧
    (cs_busy_slots cs).length = cs_occupancy cs ∧
    cs_occupancy cs ≤ cs.max_elements - 1 ∧
    cs.top < cs.max_elements ∧ cs.bottom < cs.max_elements ∧
    (∀ nb me, (cs_create nb me).max_elements = me + 1) ∧
    (∀ n len p, (cs_insert crc cs n len p).2.1.max_elements = cs.max_elements) := by
  have h := CsInv_of_reachable hreach hcap
  refine ⟨?_, ?_, cs_busy_slots_length h, cs_occupancy_le h, h.top_lt, h.bottom_lt,
    fun _ _ => rfl, fun n len p => (cs_insert_static crc cs n len p).1⟩
  · intro i hi
    obtain ⟨a1, a2, a3⟩ := h.active i (by rw [hi]; omega)
    refine ⟨a1, ?_, a3⟩
    have := h.busy_le (cs.ring i).bucket (cs.ring i).tab
    unfold cs_live at a2
    omega
  · intro b e hbe
    obtain ⟨_, _, s3, s4, s5, s6, _⟩ := h.slot b e hbe
    exact ⟨s3, s4, s5, s6⟩

/-- Witness of C21 (amended): the CS with room for 3 contents that holds two. -/
theorem cs_reachable_invariant_witness :
    (cs_busy_slots cs_twice).length = cs_occupancy cs_twice ∧ cs_occupancy cs_twice = 2 :=
  ⟨(cs_reachable_invariant sample_crc cs_twice reach_cs_twice (by decide)).2.2.1, by decide⟩

/-- C22: for every CS state, `cs_insert(n, p)` returns `-ENOSPC` exactly when the
seven entries of the bucket of `n` are all busy, and then the CS is the same
afterwards and nothing is handed to `rte_pktmbuf_free`, whether the ring is full
or not. In every other case it returns 0 and takes the lowest free entry of the
bucket; for a name of at most `MAX_NAME_LEN` bytes, which fits the array `name`,
that entry of the bucket is then busy for the ring entry at the old `top`, which
holds the name and the buffer. -/
theorem cs_insert_outcome (crc : List Nat → Nat) (cs : cs_t) (n : List Nat) (len p : Nat) :
    ((cs_insert crc cs n len p).1 = -ENOSPC ↔
      ∀ e, e < BUCKET_SIZE → (cs.table (crc (n.take len) % cs.num_buckets)).busy e ≠ 0) ∧
    ((∀ e, e < BUCKET_SIZE → (cs.table (crc (n.take len) % cs.num_buckets)).busy e ≠ 0) →
      cs_insert crc cs n len p = (-ENOSPC, cs, [])) ∧
    (¬ (∀ e, e < BUCKET_SIZE → (cs.table (crc (n.take len) % cs.num_buckets)).busy e ≠ 0) →
      (cs_insert crc cs n len p).1 = 0 ∧
      ∃ e0, e0 < BUCKET_SIZE ∧
        (cs.table (crc (n.take len) % cs.num_buckets)).busy e0 = 0 ∧
        (∀ e1, e1 < e0 → (cs.table (crc (n.take len) % cs.num_buckets)).busy e1 ≠ 0) ∧
        (len ≤ MAX_NAME_LEN →
          (cs_insert crc cs n len p).2.1.ring cs.top =
            { active := 1, bucket := crc (n.take len) % cs.num_buckets, tab := e0,
              name_len := len, name := memcpy (cs.ring cs.top).name n len, mbuf := p } ∧
          ((cs_insert crc cs n len p).2.1.table (crc (n.take len) % cs.num_buckets)).busy e0 = 1 ∧
          ((cs_insert crc cs n len p).2.1.table (crc (n.take len) % cs.num_buckets)).entry e0 =
            { crc := crc (n.take len), index := cs.top })) := by
  unfold cs_insert
  have hstore : ∀ (cs0 : cs_t) (e0 : Nat), cs0.top = cs.top →
      (cs0.ring cs.top).name = (cs.ring cs.top).name →
      (cs_store cs0 (crc (n.take len) % cs.num_buckets) e0 n len p (crc (n.take len))).ring
          cs.top =
        { active := 1, bucket := crc (n.take len) % cs.num_buckets, tab := e0,
          name_len := len, name := memcpy (cs.ring cs.top).name n len, mbuf := p } ∧
      ((cs_store cs0 (crc (n.take len) % cs.num_buckets) e0 n len p (crc (n.take len))).table
        (crc (n.take len) % cs.num_buckets)).busy e0 = 1 ∧
      ((cs_store cs0 (crc (n.take len) % cs.num_buckets) e0 n len p (crc (n.take len))).table
        (crc (n.take len) % cs.num_buckets)).entry e0 =
          { crc := crc (n.take len), index := cs.top } := by
    intro cs0 e0 ht hn
    obtain ⟨_, _, _, _, g5, g6, g7⟩ := cs_store_fields cs0
      (crc (n.take len) % cs.num_buckets) e0 n len p (crc (n.take len))
    refine ⟨?_, ?_, ?_⟩
    · rw [g5, ht, if_pos rfl, hn]
    · rw [g6, if_pos ⟨rfl, rfl⟩]
    · rw [g7, if_pos ⟨rfl, rfl⟩, ht]
  rcases cs_insert_cases cs n len p (crc (n.take len)) with
    ⟨hall, heq⟩ | ⟨e0, he0, hfree, hlow, hcase⟩
  · refine ⟨⟨fun _ => hall, fun _ => by rw [heq]⟩, fun _ => heq, fun hn => absurd hall hn⟩
  · have hnot : ¬ (∀ e, e < BUCKET_SIZE →
        (cs.table (crc (n.take len) % cs.num_buckets)).busy e ≠ 0) :=
      fun hall => hall e0 he0 hfree
    have hres : (__cs_insert_with_hash cs n len p (crc (n.take len))).1 = 0 ∧
        ∃ cs0, cs0.top = cs.top ∧ (cs0.ring cs.top).name = (cs.ring cs.top).name ∧
          (__cs_insert_with_hash cs n len p (crc (n.take len))).2.1 =
            cs_store cs0 (crc (n.take len) % cs.num_buckets) e0 n len p (crc (n.take len)) := by
      rcases hcase with ⟨_, heq⟩ | ⟨_, heq⟩
      · rw [heq]
        refine ⟨rfl, cs_evict cs, rfl, ?_, rfl⟩
        rw [(cs_evict_fields cs).2.2.2.2.1]
        split
        · next hh => rw [hh]
        · rfl
      · rw [heq]
        exact ⟨rfl, cs, rfl, rfl, rfl⟩
    obtain ⟨hz, cs0, ht, hn, heq⟩ := hres
    refine ⟨⟨fun h => ?_, fun h => absurd h hnot⟩, fun h => absurd h hnot, fun _ => ?_⟩
    · rw [hz] at h
      exact absurd h (by decide)
    · rw [heq]
      exact ⟨hz, e0, he0, hfree, hlow, fun _ => hstore cs0 e0 ht hn⟩

/-- C23: for every buffer of bytes, `parse_packet` sets `name_len` to the big-endian
16-bit value at byte 9 and the name pointer to byte 11, whatever it returns. It
returns 0 exactly when the big-endian `pkt_len` of the header is greater than
`11 + name_len` and the two bytes after the name are `0x00 0x01`; then
`component_offsets` points to byte `11 + name_len + 4`,
`component_offsets_size` is the big-endian length of the TLV and `component_nr`
is half of it. In every other case it returns 1 and leaves those three fields
as they were. -/
theorem parse_packet_outcome (buf : List Nat) (p : icn_packet)
    (hbytes : ∀ b, b ∈ buf → b < 256) :
    (parse_packet buf p).2.name_len = be16 buf 9 ∧
    (parse_packet buf p).2.name = buf.drop 11 ∧
    (parse_packet buf p).2.hdr = buf ∧
    ((parse_packet buf p).1 = 0 ↔
      11 + be16 buf 9 < be16 buf 2 ∧
      buf.getD (11 + be16 buf 9) 0 = 0 ∧ buf.getD (11 + be16 buf 9 + 1) 0 = 1) ∧
    ((parse_packet buf p).1 = 0 →
      (parse_packet buf p).2.component_offsets = buf.drop (11 + be16 buf 9 + 4) ∧
      (parse_packet buf p).2.component_offsets_size = be16 buf (11 + be16 buf 9 + 2) ∧
      (parse_packet buf p).2.component_nr = (parse_packet buf p).2.component_offsets_size / 2) ∧
    ((parse_packet buf p).1 ≠ 0 →
      (parse_packet buf p).1 = 1 ∧
      (parse_packet buf p).2.component_offsets = p.component_offsets ∧
      (parse_packet buf p).2.component_offsets_size = p.component_offsets_size ∧
      (parse_packet buf p).2.component_nr = p.component_nr) := by
  obtain ⟨c1, c2, c3, _, hcase⟩ := parse_packet_cases buf p
  have htag : le16 buf (11 + be16 buf 9) = 256 ↔
      buf.getD (11 + be16 buf 9) 0 = 0 ∧ buf.getD (11 + be16 buf 9 + 1) 0 = 1 := by
    unfold le16
    have h0 := getD_lt_of_bytes hbytes (11 + be16 buf 9)
    have h1 := getD_lt_of_bytes hbytes (11 + be16 buf 9 + 1)
    constructor
    · intro h; omega
    · rintro ⟨a, b⟩; rw [a, b]
  refine ⟨c2, c3, c1, ?_, ?_, ?_⟩
  · rcases hcase with ⟨h1, h2, h3, _⟩ | ⟨hn, h3, _⟩
    · exact ⟨fun _ => ⟨h1, htag.mp h2⟩, fun _ => h3⟩
    · constructor
      · intro h; rw [h3] at h; exact absurd h (by decide)
      · intro h; exact absurd ⟨h.1, htag.mpr h.2⟩ hn
  · intro hz
    rcases hcase with ⟨_, _, _, h4, h5, h6⟩ | ⟨_, h3, _⟩
    · exact ⟨h4, h5, by rw [h6, h5]⟩
    · rw [h3] at hz; exact absurd hz (by decide)
  · intro hz
    rcases hcase with ⟨_, _, h3, _⟩ | ⟨_, h3, h4, h5, h6⟩
    · exact absurd h3 hz
    · exact ⟨h3, h4, h5, h6⟩

/-- Witness of C23: the bytes of the Interest for "/a/b". -/
theorem parse_packet_outcome_witness :
    (parse_packet wire_a_b pkt_a).2.name_len = be16 wire_a_b 9 ∧
    (parse_packet wire_a_b pkt_a).2.name = wire_a_b.drop 11 :=
  ⟨(parse_packet_outcome wire_a_b pkt_a (by decide)).1,
    (parse_packet_outcome wire_a_b pkt_a (by decide)).2.1⟩

/-- C24: take header fields of 16 bits (type, packet length, flags, header length)
and a hop limit, a name of at most 33 bytes and at most 16 component
offsets of 16 bits, write them in the wire format, with a packet length that
covers the TLV. Then `parse_packet` returns 0 and the structure gives back the
header fields, the name length, the name bytes, the number of components and,
read in network order as `fib_lookup` reads them, each component offset. -/
theorem parse_serialize (type pkt_len hop_limit flags hdr_len : Nat)
    (name offsets rest : List Nat) (p : icn_packet)
    (ht : type < 65536) (hp : pkt_len < 65536) (hf : flags < 65536)
    (hl : hdr_len < 65536) (hname : name.length ≤ MAX_NAME_LEN)
    (hnr : offsets.length ≤ MAX_NAME_COMPONENTS) (hov : ∀ v, v ∈ offsets → v < 65536)
    (hcover : 11 + name.length + 4 + 2 * offsets.length ≤ pkt_len) :
    (parse_packet (serialize_packet type pkt_len hop_limit flags hdr_len name offsets rest) p).1
      = 0 ∧
    be16 (parse_packet (serialize_packet type pkt_len hop_limit flags hdr_len name offsets rest)
      p).2.hdr 0 = type ∧
    be16 (parse_packet (serialize_packet type pkt_len hop_limit flags hdr_len name offsets rest)
      p).2.hdr 2 = pkt_len ∧
    (parse_packet (serialize_packet type pkt_len hop_limit flags hdr_len name offsets rest)
      p).2.hdr.getD 4 0 = hop_limit ∧
    be16 (parse_packet (serialize_packet type pkt_len hop_limit flags hdr_len name offsets rest)
      p).2.hdr 5 = flags ∧
    be16 (parse_packet (serialize_packet type pkt_len hop_limit flags hdr_len name offsets rest)
      p).2.hdr 7 = hdr_len ∧
    (parse_packet (serialize_packet type pkt_len hop_limit flags hdr_len name offsets rest)
      p).2.name_len = name.length ∧
    (parse_packet (serialize_packet type pkt_len hop_limit flags hdr_len name offsets rest)
      p).2.name.take name.length = name ∧
    (parse_packet (serialize_packet type pkt_len hop_limit flags hdr_len name offsets rest)
      p).2.component_nr = offsets.length ∧
    (parse_packet (serialize_packet type pkt_len hop_limit flags hdr_len name offsets rest)
      p).2.component_offsets_size = 2 * offsets.length ∧
    ∀ k, k < offsets.length →
      component_offset (parse_packet (serialize_packet type pkt_len hop_limit flags hdr_len
        name offsets rest) p).2.component_offsets k = offsets.getD k 0 := by
  have hnl : name.length < 65536 := by unfold MAX_NAME_LEN at hname; omega
  have hol : 2 * offsets.length < 65536 := by unfold MAX_NAME_COMPONENTS at hnr; omega
  obtain ⟨c1, c2, c3, _, hcase⟩ := parse_packet_cases
    (serialize_packet type pkt_len hop_limit flags hdr_len name offsets rest) p
  -- the fixed part of the buffer
  have e0 : be16 (serialize_packet type pkt_len hop_limit flags hdr_len name offsets rest) 0
      = type := by
    unfold be16 serialize_packet be16_bytes
    simp only [List.cons_append, List.nil_append, List.getD_cons_zero, List.getD_cons_succ]
    omega
  have e2 : be16 (serialize_packet type pkt_len hop_limit flags hdr_len name offsets rest) 2
      = pkt_len := by
    unfold be16 serialize_packet be16_bytes
    simp only [List.cons_append, List.nil_append, List.getD_cons_zero, List.getD_cons_succ]
    omega
  have e4 : (serialize_packet type pkt_len hop_limit flags hdr_len name offsets rest).getD 4 0
      = hop_limit := by
    unfold serialize_packet be16_bytes
    simp only [List.cons_append, List.nil_append, List.getD_cons_zero, List.getD_cons_succ]
  have e5 : be16 (serialize_packet type pkt_len hop_limit flags hdr_len name offsets rest) 5
      = flags := by
    unfold be16 serialize_packet be16_bytes
    simp only [List.cons_append, List.nil_append, List.getD_cons_zero, List.getD_cons_succ]
    omega
  have e7 : be16 (serialize_packet type pkt_len hop_limit flags hdr_len name offsets rest) 7
      = hdr_len := by
    unfold be16 serialize_packet be16_bytes
    simp only [List.cons_append, List.nil_append, List.getD_cons_zero, List.getD_cons_succ]
    omega
  have e9 : be16 (serialize_packet type pkt_len hop_limit flags hdr_len name offsets rest) 9
      = name.length := by
    unfold be16 serialize_packet be16_bytes
    simp only [List.cons_append, List.nil_append, List.getD_cons_zero, List.getD_cons_succ]
    omega
  -- the part after the header
  have hsplit : ∀ j, 11 + j = (be16_bytes type ++ be16_bytes pkt_len ++ [hop_limit] ++
      be16_bytes flags ++ be16_bytes hdr_len ++ be16_bytes name.length).length + j := by
    intro j; rfl
  have edrop : (serialize_packet type pkt_len hop_limit flags hdr_len name offsets rest).drop 11
      = name ++ ([0, 1] ++ be16_bytes (2 * offsets.length) ++
        (offsets.flatMap be16_bytes ++ rest)) := by
    unfold serialize_packet
    exact List.drop_left' rfl
  have etag : le16 (serialize_packet type pkt_len hop_limit flags hdr_len name offsets rest)
      (11 + name.length) = 256 := by
    unfold serialize_packet
    rw [hsplit, le16_append_add]
    have := le16_append_add name ([0, 1] ++ be16_bytes (2 * offsets.length) ++
      (offsets.flatMap be16_bytes ++ rest)) 0
    rw [Nat.add_zero] at this
    rw [this]
    rfl
  have elen : be16 (serialize_packet type pkt_len hop_limit flags hdr_len name offsets rest)
      (11 + name.length + 2) = 2 * offsets.length := by
    unfold serialize_packet
    rw [Nat.add_assoc, hsplit, be16_append_add, be16_append_add]
    have := be16_be16_bytes (2 * offsets.length) (offsets.flatMap be16_bytes ++ rest) hol
    unfold be16 at this ⊢
    simpa using this
  have eoffs : (serialize_packet type pkt_len hop_limit flags hdr_len name offsets rest).drop
      (11 + name.length + 4) = offsets.flatMap be16_bytes ++ rest := by
    rw [Nat.add_assoc, ← List.drop_drop, edrop, ← List.drop_drop, List.drop_left' rfl]
    rfl
  rw [e9] at hcase c2
  rw [e2, etag, elen, eoffs] at hcase
  rcases hcase with ⟨_, _, h3, h4, h5, h6⟩ | ⟨hn, _⟩
  · rw [c1, c3, edrop, h4, h5, h6]
    refine ⟨h3, e0, e2, e4, e5, e7, c2, List.take_left' rfl, by omega, rfl, ?_⟩
    intro k hk
    exact component_offset_flatMap rest offsets k hk hov
  · exact absurd ⟨by omega, rfl⟩ hn

/-- Witness of C24: the Interest for "/a/b" with the offsets 1 and 3. -/
theorem parse_serialize_witness :
    (parse_packet wire_a_b pkt_a).1 = 0 ∧ (parse_packet wire_a_b pkt_a).2.component_nr = 2 := by
  obtain ⟨h1, _, _, _, _, _, _, _, h9, _⟩ := parse_serialize 0 23 64 0 9 name_a_b [1, 3] [] pkt_a
    (by decide) (by decide) (by decide) (by decide) (by decide) (by decide) (by decide)
    (by decide)
  exact ⟨h1, h9⟩

/-- C30: the worker starts with the FIB that holds only "/a" on face 2, an empty
PIT and an empty CS. The Interest for "/a/b" (components ending at bytes 1 and
3) received on face 1 is parsed with two components; the FIB table has no entry
for "/a/b" (the byte string tried for component 1) and gives face 2 for "/a"
(the one tried for component 0); the Interest is enqueued on
`tx_mbufs[2]` and the PIT holds "/a/b" with the mask `0b10`. The Interest for
"/a/b" received on face 3 enqueues nothing, `int_pit_hit` goes from 0 to 1 and
the mask becomes `0b1010`. The Data for "/a/b" received on face 2 is then found
by the CS lookup, `pit_lookup_and_remove_with_hash` returns `0b1010`, the Data
is enqueued on `tx_mbufs[1]` and `tx_mbufs[3]` and on no other batch, and
`data_sent` goes from 0 to 2. -/
theorem icn_fwd_example_trace :
    (icn_fwd_packet sample_crc (worker_start.mbufs 101).icn junk_packet).component_nr = 2 ∧
    (icn_fwd_packet sample_crc (worker_start.mbufs 101).icn junk_packet).name.take 4 =
      name_a_b ∧
    probe_len (icn_fwd_packet sample_crc (worker_start.mbufs 101).icn junk_packet) 1 = 4 ∧
    probe_len (icn_fwd_packet sample_crc (worker_start.mbufs 101).icn junk_packet) 0 = 2 ∧
    (fib_hash_table_lookup_with_hash worker_start.fib.table name_a_b 4 (sample_crc name_a_b)
      rng_zero).1 = -ENOENT ∧
    (fib_hash_table_lookup_with_hash worker_start.fib.table name_a_b 2 (sample_crc name_a)
      rng_zero).1 = 2 ∧
    (fib_lookup sample_crc worker_start.fib
      (icn_fwd_packet sample_crc (worker_start.mbufs 101).icn junk_packet) rng_zero).1 = 2 ∧
    worker_1.enqueued = [(101, 2)] ∧
    pit_lookup worker_1.pit name_a_b 4 (sample_crc name_a_b) = some 0 ∧
    (worker_1.pit.ring 0).face_bitmask = 2 ∧ pit_occupancy worker_1.pit = 1 ∧
    worker_2.enqueued = worker_1.enqueued ∧
    worker_1.stats.int_pit_hit = 0 ∧ worker_2.stats.int_pit_hit = 1 ∧
    pit_lookup worker_2.pit name_a_b 4 (sample_crc name_a_b) = some 0 ∧
    (worker_2.pit.ring 0).face_bitmask = 10 ∧ pit_occupancy worker_2.pit = 1 ∧
    cs_lookup_with_hash worker_2.cs name_a_b 4 (sample_crc name_a_b) = 0 ∧
    cs_lookup_with_hash worker_3.cs name_a_b 4 (sample_crc name_a_b) = 103 ∧
    (pit_lookup_and_remove_with_hash worker_2.pit name_a_b 4 (sample_crc name_a_b)).1 = 10 ∧
    pit_lookup worker_3.pit name_a_b 4 (sample_crc name_a_b) = none ∧
    worker_3.enqueued = worker_2.enqueued ++ [(103, 1), (103, 3)] ∧
    worker_2.stats.data_sent = 0 ∧ worker_3.stats.data_sent = 2 := by
  repeat' apply And.intro
  all_goals decide

/-- C37: in every PIT state reached by Interests for names of at most
`MAX_NAME_LEN` bytes, removals and purges, that holds a live entry for the
name `n`,
whatever the time given and whatever the expiry time of the entry:
`pit_lookup_and_update(n, f, t)` returns 0, the entry stays live with the same
name and the same expiry time, and its mask gets the bits of `1 << f` when it
had none of them; `pit_lookup_and_remove(n)` returns the mask of the entry; and
a `pit_lookup_and_update` for any name of at most `MAX_NAME_LEN` bytes leaves
the entry live with its name and its expiry time, so that only
`pit_lookup_and_remove` and the purge make it stop matching. -/
theorem pit_lookup_ignores_expiry (crc : List Nat → Nat) (pit : pit_t) (n : List Nat)
    (len f : Nat) (ct : Option Nat) (now b e : Nat)
    (hreach : PitReachable crc pit) (hl : pit_live pit b e)
    (hn : pit_entry_has_name (pit_record pit b e) n len) :
    (pit_lookup_and_update crc pit n len f ct now).1 = 0 ∧
    pit_live (pit_lookup_and_update crc pit n len f ct now).2 b e ∧
    pit_record (pit_lookup_and_update crc pit n len f ct now).2 b e =
      (if (pit_record pit b e).face_bitmask &&& face_mask f = 0 then
        { pit_record pit b e with
          face_bitmask := (pit_record pit b e).face_bitmask ||| face_mask f }
      else pit_record pit b e) ∧
    (pit_record (pit_lookup_and_update crc pit n len f ct now).2 b e).expiry =
      (pit_record pit b e).expiry ∧
    (pit_lookup_and_remove crc pit n len).1 = (pit_record pit b e).face_bitmask ∧
    (∀ (n2 : List Nat) (len2 f2 : Nat) (ct2 : Option Nat) (now2 : Nat),
      len2 ≤ MAX_NAME_LEN →
      pit_live (pit_lookup_and_update crc pit n2 len2 f2 ct2 now2).2 b e ∧
      pit_entry_has_name (pit_record (pit_lookup_and_update crc pit n2 len2 f2 ct2 now2).2 b e)
        n len ∧
      (pit_record (pit_lookup_and_update crc pit n2 len2 f2 ct2 now2).2 b e).expiry =
        (pit_record pit b e).expiry) := by
  have h := PitInv_of_reachable hreach
  obtain ⟨s1, s2, _, _, _, _, s7⟩ := h.slot b e hl
  have hcrc : ((pit.table b).entry e).crc = crc (n.take len) := by
    rw [s7, hn.1, hn.2]
  have hb : b = crc (n.take len) % pit.num_buckets := by rw [← hcrc]; exact s2
  have hm : pit_entry_matches pit n len (crc (n.take len))
      (crc (n.take len) % pit.num_buckets) e := by
    rw [← hb]
    exact ⟨hl, hcrc, hn.1.symm, hn.2.symm⟩
  have hupd : pit_lookup_and_update crc pit n len f ct now =
      (0, if (pit_record pit b e).face_bitmask &&& face_mask f = 0 then
          pit_set_mask pit ((pit.table b).entry e).index
            ((pit_record pit b e).face_bitmask ||| face_mask f)
        else pit) := by
    have hdef : pit_lookup_and_update crc pit n len f ct now =
        __pit_lookup_and_update_with_hash pit n len f ct now (crc (n.take len)) := rfl
    rw [hdef]
    rcases pit_update_cases pit n len f ct now (crc (n.take len)) with
      ⟨e0, _, hm0, _, heq⟩ | ⟨hnone, _, _⟩ | ⟨hnone, _, _⟩
    · obtain ⟨l0, _, n0⟩ := pit_match_active h hm0
      rw [← hb] at l0 n0 heq
      have hu := pit_live_unique h l0 hl (n0.1.trans hn.1.symm)
        (by rw [n0.1, n0.2, hn.1, hn.2])
      rw [hu.2] at heq
      exact heq
    · exact absurd hm (hnone e s1)
    · exact absurd hm (hnone e s1)
  refine ⟨by rw [hupd], ?_, ?_, ?_, ?_, fun n2 len2 f2 ct2 now2 _ => ?_⟩
  · rw [hupd]
    dsimp only
    split <;> exact hl
  · rw [hupd]
    dsimp only
    split
    · unfold pit_record pit_set_mask
      dsimp only
      rw [upd_same]
    · rfl
  · rw [hupd]
    dsimp only
    split
    · unfold pit_record pit_set_mask
      dsimp only
      rw [upd_same]
    · rfl
  · rw [pit_remove_live crc h hl hn]
  · obtain ⟨k1, k2, k3, k4⟩ := pit_update_keeps_live h n2 len2 f2 ct2 now2
      (crc (n2.take len2)) hl
    refine ⟨k1, ?_, k4⟩
    unfold pit_entry_has_name
    have hdef : pit_lookup_and_update crc pit n2 len2 f2 ct2 now2 =
        __pit_lookup_and_update_with_hash pit n2 len2 f2 ct2 now2 (crc (n2.take len2)) := rfl
    rw [hdef, k2, k3]
    exact hn

/-- Witness of C37: the PIT holds "/a", inserted at time 1000 with a TTL of 5000000
cycles; an Interest for "/a" on face 3 at time 90000000 is aggregated. -/
theorem pit_lookup_ignores_expiry_witness :
    (pit_record pit_one (sample_crc name_a % 1024) 0).expiry < 90000000 ∧
    (pit_lookup_and_update sample_crc pit_one name_a 2 3 (some 90000000) 0).1 = 0 ∧
    (pit_lookup_and_remove sample_crc pit_one name_a 2).1 =
      (pit_record pit_one (sample_crc name_a % 1024) 0).face_bitmask := by
  obtain ⟨h1, _, _, _, h5, _⟩ := pit_lookup_ignores_expiry sample_crc pit_one name_a 2 3
    (some 90000000) 0 (sample_crc name_a % 1024) 0 reach_pit_one (by decide) (by decide)
  exact ⟨by decide, h1, h5⟩

/-- C38: in every PIT state reached from the empty PIT by `pit_lookup_and_update`
for names of at most `MAX_NAME_LEN` bytes, `pit_lookup_and_remove` and the
purge, two busy bucket entries whose ring
entries hold the same name (length and bytes) are one bucket entry, and two
active ring entries that hold the same name are one ring entry. -/
theorem pit_name_unique (crc : List Nat → Nat) (pit : pit_t)
    (hreach : PitReachable crc pit) :
    (∀ b1 e1 b2 e2, pit_live pit b1 e1 → pit_live pit b2 e2 →
      (pit_record pit b1 e1).name_len = (pit_record pit b2 e2).name_len →
      (pit_record pit b1 e1).name.take (pit_record pit b1 e1).name_len =
        (pit_record pit b2 e2).name.take (pit_record pit b2 e2).name_len →
      b1 = b2 ∧ e1 = e2) ∧
    (∀ i j, (pit.ring i).active ≠ 0 → (pit.ring j).active ≠ 0 →
      (pit.ring i).name_len = (pit.ring j).name_len →
      (pit.ring i).name.take (pit.ring i).name_len =
        (pit.ring j).name.take (pit.ring j).name_len → i = j) ∧
    (∀ (n : List Nat) (len b1 e1 b2 e2 : Nat), pit_live pit b1 e1 → pit_live pit b2 e2 →
      pit_entry_has_name (pit_record pit b1 e1) n len →
      pit_entry_has_name (pit_record pit b2 e2) n len → b1 = b2 ∧ e1 = e2) := by
  have h := PitInv_of_reachable hreach
  refine ⟨fun b1 e1 b2 e2 h1 h2 hlen hname => pit_live_unique h h1 h2 hlen hname, h.unique,
    fun n len b1 e1 b2 e2 h1 h2 n1 n2 => ?_⟩
  exact pit_live_unique h h1 h2 (n1.1.trans n2.1.symm) (by rw [n1.1, n1.2, n2.1, n2.2])

/-- Witness of C38: in the PIT that holds "/a", the entry 0 of the bucket of "/a"
is live with the name "/a", and every live bucket entry with the name "/a" is
that entry. -/
theorem pit_name_unique_witness :
    (pit_live pit_one (sample_crc name_a % 1024) 0 ∧
      pit_entry_has_name (pit_record pit_one (sample_crc name_a % 1024) 0) name_a 2) ∧
    (∀ b e, pit_live pit_one b e → pit_entry_has_name (pit_record pit_one b e) name_a 2 →
      b = sample_crc name_a % 1024 ∧ e = 0) :=
  ⟨⟨by decide, by decide⟩,
    fun b e hl hn => (pit_name_unique sample_crc pit_one reach_pit_one).2.2 name_a 2 b e
      (sample_crc name_a % 1024) 0 hl (by decide) hn (by decide)⟩

/-- C39: for every PIT state reached by Interests for names of at most
`MAX_NAME_LEN` bytes, removals and purges, and every time `t`, the loop of
`pit_purge_expired_with_time(t)` ends within `pit_occupancy` iterations. The
value returned is the number of ring steps from the old `bottom` to the new
one and is at most `pit_occupancy`; `top` is the same; every ring entry keeps
its name, name length, mask and expiry time; and every entry that was active
with an expiry time after `t` is still active with its bucket entry busy. -/
theorem pit_purge_frame (crc : List Nat → Nat) (pit : pit_t) (t : Nat)
    (hreach : PitReachable crc pit) :
    ∃ purged pit',
      (∀ fuel, pit_occupancy pit ≤ fuel →
        pit_purge_expired_with_time fuel pit t = some (purged, pit')) ∧
      purged = ring_dist pit.max_elements pit.bottom pit'.bottom ∧
      purged ≤ pit_occupancy pit ∧
      pit'.top = pit.top ∧
      (∀ i, (pit'.ring i).name = (pit.ring i).name ∧
        (pit'.ring i).name_len = (pit.ring i).name_len ∧
        (pit'.ring i).face_bitmask = (pit.ring i).face_bitmask ∧
        (pit'.ring i).expiry = (pit.ring i).expiry) ∧
      (∀ i, (pit.ring i).active = 1 → t < (pit.ring i).expiry →
        (pit'.ring i).active = 1 ∧ pit_live pit' (pit.ring i).bucket (pit.ring i).tab) := by
  have h := PitInv_of_reachable hreach
  have hocc := pit_occupancy_eq h
  obtain ⟨⟨r, pit'⟩, hrun⟩ := pit_purge_loop_ends crc t _ (pit_occupancy pit) pit 0 h rfl
    (le_of_eq hocc.symm)
  have hcap : ring_dist pit.max_elements pit.bottom pit.top < pit.max_elements := by
    have := h.top_lt
    have := h.bottom_lt
    unfold ring_dist
    split <;> omega
  have hsmall : 0 + ring_dist pit.max_elements pit.bottom pit.top < 2 ^ 32 := by
    have := h.cap_le
    omega
  obtain ⟨q1, q2, q3, _, q5⟩ := pit_purge_loop_frame t _ pit 0 r pit' h hrun hsmall
  obtain ⟨_, _, _, q4⟩ := pit_purge_loop_static t _ pit 0 r pit' hrun
  refine ⟨r, pit', fun fuel hf => pit_purge_loop_mono t _ pit 0 _ hrun fuel hf, ?_, ?_, q4,
    fun i => ?_, q5⟩
  · rw [q1, Nat.zero_add]
  · rw [q1, Nat.zero_add, hocc]
    rcases q2 with q2 | q2
    · rw [q2]
    · exact le_of_lt (ring_dist_lt h.bottom_lt q2)
  · have := q3 i
    simp only [Prod.mk.injEq] at this
    exact ⟨this.2.2.2.2.1, this.2.2.2.1, this.2.2.2.2.2, this.2.2.1⟩

/-- Witness of C39: the PIT that holds "/a" with expiry time 5001000 is purged at
time 6000000. -/
theorem pit_purge_frame_witness :
    ∃ purged pit', pit_purge_expired_with_time 1 pit_one 6000000 = some (purged, pit') ∧
      purged ≤ pit_occupancy pit_one ∧ pit'.top = pit_one.top := by
  obtain ⟨purged, pit', h1, _, h3, h4, _⟩ := pit_purge_frame sample_crc pit_one 6000000
    reach_pit_one
  exact ⟨purged, pit', h1 1 (by decide), h3, h4⟩

/-- C31: for every batch with fewer than `MAX_PKT_BURST = 32` buffers,
`send_single_packet(m)` writes `m` at position `len` of the table, which lies
inside the table, and nowhere else, leaves the other batches alone, and sets
the length to `(len + 1) mod 32`, which is below 32. When `len + 1 < 32` no
DPDK call is made. When `len + 1 = 32` the 32 buffers of the table are handed in
the order of their positions to `rte_eth_tx_burst` by `send_burst`, and the
length is 0. Positions are filled in the order of the calls: 32 calls on an
empty batch hand the 32 buffers over in the order in which they were
enqueued. -/
theorem send_single_packet_batch (w : worker) (m t p q : Nat)
    (hlen : (w.tx_mbufs t).len < MAX_PKT_BURST) :
    ((send_single_packet w m t p q).tx_mbufs t).m_table =
      upd (w.tx_mbufs t).m_table (w.tx_mbufs t).len m ∧
    ((send_single_packet w m t p q).tx_mbufs t).len =
      ((w.tx_mbufs t).len + 1) % MAX_PKT_BURST ∧
    ((send_single_packet w m t p q).tx_mbufs t).len < MAX_PKT_BURST ∧
    (∀ t', t' ≠ t → (send_single_packet w m t p q).tx_mbufs t' = w.tx_mbufs t') ∧
    ((w.tx_mbufs t).len + 1 < MAX_PKT_BURST → (send_single_packet w m t p q).calls = w.calls) ∧
    ((w.tx_mbufs t).len + 1 = MAX_PKT_BURST →
      ∃ frees, (send_single_packet w m t p q).calls =
        w.calls ++
          dpdk_call.eth_tx_burst (p % 256) (q % 256)
            ((List.range MAX_PKT_BURST).map
              (upd (w.tx_mbufs t).m_table (w.tx_mbufs t).len m)) :: frees) ∧
    (∀ (w0 : worker) (ms : List Nat), (w0.tx_mbufs t).len = 0 → ms.length = MAX_PKT_BURST →
      ((send_packets w0 ms t p q).tx_mbufs t).len = 0 ∧
      ∃ frees, (send_packets w0 ms t p q).calls =
        w0.calls ++ dpdk_call.eth_tx_burst (p % 256) (q % 256) ms :: frees) := by
  have hcases : (w.tx_mbufs t).len + 1 < MAX_PKT_BURST ∨
      (w.tx_mbufs t).len + 1 = MAX_PKT_BURST := by omega
  refine ⟨?_, ?_, ?_, fun t' ht => send_single_packet_other w m t p q t' ht,
    fun h => (send_single_packet_keep w m t p q h).2.2,
    fun h => ⟨_, (send_single_packet_flush w m t p q h).2.2⟩, fun w0 ms h0 hms => ?_⟩
  · rcases hcases with h | h
    · exact (send_single_packet_keep w m t p q h).2.1
    · exact (send_single_packet_flush w m t p q h).2.1
  · rcases hcases with h | h
    · rw [(send_single_packet_keep w m t p q h).1, Nat.mod_eq_of_lt h]
    · rw [(send_single_packet_flush w m t p q h).1, h, Nat.mod_self]
  · rcases hcases with h | h
    · rw [(send_single_packet_keep w m t p q h).1]; exact h
    · rw [(send_single_packet_flush w m t p q h).1]; decide
  · obtain ⟨ms0, last, rfl⟩ : ∃ ms0 last, ms = ms0 ++ [last] := by
      rcases List.eq_nil_or_concat ms with h | ⟨l, a, h⟩
      · rw [h] at hms; exact absurd hms (by decide)
      · exact ⟨l, a, by rw [h, List.concat_eq_append]⟩
    rw [List.length_append, List.length_singleton] at hms
    have hsplit : send_packets w0 (ms0 ++ [last]) t p q =
        send_single_packet (send_packets w0 ms0 t p q) last t p q := by
      unfold send_packets
      rw [List.foldl_append]
      rfl
    obtain ⟨a1, a2, a3, _⟩ := send_packets_partial t p q ms0 w0 (by rw [h0]; omega)
    rw [h0, Nat.zero_add] at a1 a2
    rw [List.range_zero, List.map_nil, List.nil_append] at a2
    have hfull : ((send_packets w0 ms0 t p q).tx_mbufs t).len + 1 = MAX_PKT_BURST := by
      rw [a1]; omega
    obtain ⟨b1, _, b3⟩ := send_single_packet_flush (send_packets w0 ms0 t p q) last t p q hfull
    rw [hsplit]
    have hlist : (List.range MAX_PKT_BURST).map
        (upd ((send_packets w0 ms0 t p q).tx_mbufs t).m_table
          ((send_packets w0 ms0 t p q).tx_mbufs t).len last) = ms0 ++ [last] := by
      have h31 : MAX_PKT_BURST = ms0.length + 1 := by omega
      rw [a1, h31, List.range_succ, List.map_append, List.map_singleton, upd_same]
      congr 1
      refine Eq.trans ?_ a2
      apply List.map_congr_left
      intro i hi
      rw [upd_ne]
      exact ne_of_lt (List.mem_range.mp hi)
    rw [hlist, a3] at b3
    exact ⟨b1, _, b3⟩

/-- Witness of C31: the batch of face 1 holds 31 buffers; the next one is the 32nd
and the length goes back to 0. -/
theorem send_single_packet_batch_witness :
    ((send_single_packet worker_burst 104 1 1 0).tx_mbufs 1).len = (31 + 1) % MAX_PKT_BURST ∧
    ((send_single_packet worker_burst 104 1 1 0).tx_mbufs 1).len < MAX_PKT_BURST := by
  obtain ⟨_, h2, h3, _⟩ := send_single_packet_batch worker_burst 104 1 1 0 (by decide)
  exact ⟨h2, h3⟩

/-- C34: `reset_stats` sets the twelve counters to zero for the lcores whose
identifier is below the number of enabled lcores, and leaves the counters of
every other lcore as they were. When the enabled lcores among 0..15 are
exactly those below some `k`, every enabled lcore has its counters at zero
afterwards. -/
theorem reset_stats_outcome (rte_lcore_is_enabled : Nat → Int) (lcore_stats : Nat → stats)
    (lcore_id k : Nat) :
    (lcore_id < get_nb_lcores_available rte_lcore_is_enabled →
      reset_stats rte_lcore_is_enabled lcore_stats lcore_id = stats_zero) ∧
    (get_nb_lcores_available rte_lcore_is_enabled ≤ lcore_id →
      reset_stats rte_lcore_is_enabled lcore_stats lcore_id = lcore_stats lcore_id) ∧
    (k ≤ APP_MAX_LCORES → (∀ j, j < APP_MAX_LCORES → (rte_lcore_is_enabled j = 1 ↔ j < k)) →
      lcore_id < APP_MAX_LCORES → rte_lcore_is_enabled lcore_id = 1 →
      reset_stats rte_lcore_is_enabled lcore_stats lcore_id = stats_zero) := by
  unfold reset_stats
  rw [reset_stats_loop]
  refine ⟨fun h => ?_, fun h => ?_, fun hk hen hid hone => ?_⟩
  · rw [if_pos h]; rfl
  · rw [if_neg (by omega)]
  · rw [get_nb_lcores_available_initial rte_lcore_is_enabled k hk hen,
      if_pos ((hen lcore_id hid).mp hone)]
    rfl

/-- Witness of C34 at the failing input: the lcores 0 and 2 are enabled, so the
count is 2 and the loop resets the lcores 0 and 1. The enabled lcore 2 keeps
its counters: `int_recv` is still 5. -/
theorem reset_stats_outcome_witness :
    lcores_0_2 2 = 1 ∧ get_nb_lcores_available lcores_0_2 = 2 ∧
    reset_stats lcores_0_2 stats_five 2 = stats_five 2 ∧
    (reset_stats lcores_0_2 stats_five 2).int_recv = 5 := by
  have h := (reset_stats_outcome lcores_0_2 stats_five 2 0).2.1 (by decide)
  exact ⟨by decide, by decide, h, by rw [h]; decide⟩

/-- C35: for a TSC frequency `hz > 0` and a TTL `ttl_us`, with no value past 64
bits: `pit_set_ttl_us` stores `ceil(hz / 10^6) * ttl_us` cycles, which is never
less than the exact duration `ttl_us * hz / 10^6`. `pit_get_ttl_us` then
returns `(ttl / hz) * 10^6` with a truncating division: when `hz` is a multiple
of `10^6` this is `ttl_us` rounded down to a multiple of `10^6`, hence `ttl_us`
only when `ttl_us` is a whole number of seconds. -/
theorem pit_ttl_round_trip (pit : pit_t) (hz ttl_us : Nat) (hhz : 0 < hz)
    (h1 : hz + US_PER_S - 1 < 2 ^ 64)
    (h2 : (hz + US_PER_S - 1) / US_PER_S * ttl_us < 2 ^ 64)
    (h3 : (hz + US_PER_S - 1) / US_PER_S * ttl_us / hz * US_PER_S < 2 ^ 64) :
    (pit_set_ttl_us pit hz ttl_us).ttl = (hz + US_PER_S - 1) / US_PER_S * ttl_us ∧
    ttl_us * hz ≤ (pit_set_ttl_us pit hz ttl_us).ttl * US_PER_S ∧
    pit_get_ttl_us (pit_set_ttl_us pit hz ttl_us) hz =
      (hz + US_PER_S - 1) / US_PER_S * ttl_us / hz * US_PER_S ∧
    (hz % US_PER_S = 0 →
      pit_get_ttl_us (pit_set_ttl_us pit hz ttl_us) hz = ttl_us - ttl_us % US_PER_S) ∧
    (hz % US_PER_S = 0 →
      (pit_get_ttl_us (pit_set_ttl_us pit hz ttl_us) hz = ttl_us ↔ ttl_us % US_PER_S = 0)) := by
  have httl : (pit_set_ttl_us pit hz ttl_us).ttl = (hz + US_PER_S - 1) / US_PER_S * ttl_us := by
    unfold pit_set_ttl_us
    dsimp only
    rw [Nat.mod_eq_of_lt h1, Nat.mod_eq_of_lt h2]
  have hget : pit_get_ttl_us (pit_set_ttl_us pit hz ttl_us) hz =
      (hz + US_PER_S - 1) / US_PER_S * ttl_us / hz * US_PER_S := by
    unfold pit_get_ttl_us
    rw [httl, Nat.mod_eq_of_lt h3]
  have hmult : hz % US_PER_S = 0 →
      (hz + US_PER_S - 1) / US_PER_S * ttl_us / hz * US_PER_S = ttl_us - ttl_us % US_PER_S := by
    intro hm
    unfold US_PER_S at hm ⊢
    have hc : (hz + 1000000 - 1) / 1000000 = hz / 1000000 := by omega
    have hpos : 0 < hz / 1000000 := by omega
    have hhz2 : hz = hz / 1000000 * 1000000 := by omega
    rw [hc]
    have hdiv : hz / 1000000 * ttl_us / hz = ttl_us / 1000000 := by
      conv_lhs => rw [hhz2]
      rw [Nat.mul_div_cancel _ (by decide : 0 < 1000000)]
      exact Nat.mul_div_mul_left _ _ hpos
    rw [hdiv]
    omega
  refine ⟨httl, ?_, hget, fun hm => by rw [hget, hmult hm], fun hm => ?_⟩
  · rw [httl]
    have hc : hz ≤ (hz + US_PER_S - 1) / US_PER_S * US_PER_S := by
      unfold US_PER_S
      omega
    calc ttl_us * hz ≤ ttl_us * ((hz + US_PER_S - 1) / US_PER_S * US_PER_S) :=
          Nat.mul_le_mul_left _ hc
      _ = (hz + US_PER_S - 1) / US_PER_S * ttl_us * US_PER_S := by ring
  · rw [hget, hmult hm]
    unfold US_PER_S
    omega

/-- Witness of C35 at the failing input: with a TSC of 2.4 GHz and a TTL of
1500000 microseconds, 3600000000 cycles are stored and `pit_get_ttl_us`
returns 1000000. -/
theorem pit_ttl_round_trip_witness :
    (pit_set_ttl_us pit_empty 2400000000 1500000).ttl = 3600000000 ∧
    pit_get_ttl_us (pit_set_ttl_us pit_empty 2400000000 1500000) 2400000000 = 1000000 ∧
    pit_get_ttl_us (pit_set_ttl_us pit_empty 2400000000 1500000) 2400000000 ≠ 1500000 := by
  obtain ⟨h1, _, _, h4, _⟩ := pit_ttl_round_trip pit_empty 2400000000 1500000 (by decide)
    (by decide) (by decide) (by decide)
  refine ⟨h1, ?_, ?_⟩
  · rw [h4 (by decide)]; decide
  · rw [h4 (by decide)]; decide

/-- C32: for a control packet whose name is VERB ':' prefix ':' digits, with a
prefix that has neither ':' nor a zero byte and at most 4 decimal digits that
end the name, `ctrl_loop` extracts the prefix as the bytes from offset 4 up to
the first ':', `prefix_len` as their count and `face` as the decimal value of
the digits. It then compares the unterminated three-byte array `command` with
"ADD" and "DEL" by `strcmp`, which also reads the byte that follows the array:
when that byte is zero, every lcore below `APP_MAX_LCORES` gets the result of
the loop body for ADD or DEL, which calls `fib_add` or `fib_del` with the
prefix, `prefix_len` and the face on every lcore that has a FIB, a port number
not above `nb_ports` and a non-zero local address; when that byte is not zero
no lcore is touched, whatever the verb. -/
theorem ctrl_command_outcome (crc : List Nat → Nat) (lcore_conf : Nat → app_lcore_config)
    (buffer : List Nat) (packet : icn_packet) (command_end a b c : Nat)
    (pfx digits rest : List Nat)
    (hname : buffer.drop ICN_HDR_NAME_OFFSET = [a, b, c] ++ 58 :: (pfx ++ 58 :: (digits ++ rest)))
    (hlen : be16 buffer ICN_HDR_SIZE = 5 + pfx.length + digits.length)
    (hsmall : pfx.length < 65536)
    (hpfx : ∀ x, x ∈ pfx → x ≠ 58 ∧ x ≠ 0)
    (hdigits : ∀ x, x ∈ digits → 48 ≤ x ∧ x ≤ 57) (hd4 : digits.length ≤ 4) :
    ctrl_parse buffer packet =
      some ([a, b, c], pfx ++ 58 :: (digits ++ rest), pfx.length, decimal digits) ∧
    (pfx ++ 58 :: (digits ++ rest)).take pfx.length = pfx ∧
    (command_end = 0 → [a, b, c] = [65, 68, 68] → ∀ lcore_id,
      ctrl_loop_body crc lcore_conf buffer packet command_end lcore_id =
        if lcore_id < APP_MAX_LCORES then
          ctrl_update crc true (lcore_conf lcore_id) (pfx ++ 58 :: (digits ++ rest)) pfx.length
            (decimal digits)
        else lcore_conf lcore_id) ∧
    (command_end = 0 → [a, b, c] = [68, 69, 76] → ∀ lcore_id,
      ctrl_loop_body crc lcore_conf buffer packet command_end lcore_id =
        if lcore_id < APP_MAX_LCORES then
          ctrl_update crc false (lcore_conf lcore_id) (pfx ++ 58 :: (digits ++ rest)) pfx.length
            (decimal digits)
        else lcore_conf lcore_id) ∧
    (command_end ≠ 0 →
      ctrl_loop_body crc lcore_conf buffer packet command_end = lcore_conf) ∧
    (∀ (conf : app_lcore_config) (fib : fib_t), conf.fib = some fib →
      decimal digits ≤ conf.nb_ports →
      (conf.port_addr (decimal digits)).local_addr ≠ [0, 0, 0, 0, 0, 0] →
      ctrl_update crc true conf (pfx ++ 58 :: (digits ++ rest)) pfx.length (decimal digits) =
        { conf with
          fib := some (fib_add crc fib (pfx ++ 58 :: (digits ++ rest)) pfx.length
            (decimal digits % 256)).2 } ∧
      ctrl_update crc false conf (pfx ++ 58 :: (digits ++ rest)) pfx.length (decimal digits) =
        { conf with
          fib := some (fib_del crc fib (pfx ++ 58 :: (digits ++ rest)) pfx.length
            (decimal digits % 256)).2 }) := by
  have hparse := ctrl_parse_command buffer packet a b c pfx digits rest hname hlen hsmall hpfx
    hdigits hd4
  refine ⟨hparse, List.take_left' rfl, ?_, ?_, ?_, ?_⟩
  · intro he hv lcore_id
    unfold ctrl_loop_body
    rw [hparse]
    dsimp only
    injection hv with h1 hv
    injection hv with h2 hv
    injection hv with h3 _
    rw [if_pos ((strcmp_eq_add a b c command_end).2 ⟨h1, h2, h3, he⟩)]
  · intro he hv lcore_id
    unfold ctrl_loop_body
    rw [hparse]
    dsimp only
    injection hv with h1 hv
    injection hv with h2 hv
    injection hv with h3 _
    rw [if_neg (fun h => by
        have := (strcmp_eq_add a b c command_end).1 h
        omega),
      if_pos ((strcmp_eq_del a b c command_end).2 ⟨h1, h2, h3, he⟩)]
  · intro he
    unfold ctrl_loop_body
    rw [hparse]
    dsimp only
    rw [if_neg (fun h => he ((strcmp_eq_add a b c command_end).1 h).2.2.2),
      if_neg (fun h => he ((strcmp_eq_del a b c command_end).1 h).2.2.2)]
  · intro conf fib hf hface hmac
    exact ctrl_update_call crc conf fib _ _ _ hf hface hmac

/-- Witness of C32 at the failing input: the datagram "ADD:/b:1" for an lcore
that has a FIB and a local address for port 1 adds the route when the byte
after the array `command` is zero (the FIB then has a second record), and
leaves every lcore as it was when that byte is 7. -/
theorem ctrl_command_outcome_witness :
    ctrl_parse ctrl_add_b_1 junk_packet =
      some ([65, 68, 68], [47, 98, 58, 49, 0, 1, 0, 0], 2, 1) ∧
    (ctrl_loop_body sample_crc lcore_conf_two ctrl_add_b_1 junk_packet 0 0).fib =
      some (fib_add sample_crc fib_a [47, 98, 58, 49, 0, 1, 0, 0] 2 1).2 ∧
    fib_a.table.next_free_element = 1 ∧
    (fib_add sample_crc fib_a [47, 98, 58, 49, 0, 1, 0, 0] 2 1).2.table.next_free_element = 2 ∧
    ctrl_loop_body sample_crc lcore_conf_two ctrl_add_b_1 junk_packet 7 = lcore_conf_two := by
  have h0 := ctrl_command_outcome sample_crc lcore_conf_two ctrl_add_b_1 junk_packet 0 65 68 68
    [47, 98] [49] [0, 1, 0, 0] (by decide) (by decide) (by decide) (by decide) (by decide)
    (by decide)
  have h7 := ctrl_command_outcome sample_crc lcore_conf_two ctrl_add_b_1 junk_packet 7 65 68 68
    [47, 98] [49] [0, 1, 0, 0] (by decide) (by decide) (by decide) (by decide) (by decide)
    (by decide)
  refine ⟨h0.1, ?_, by decide, by decide, h7.2.2.2.2.1 (by decide)⟩
  rw [h0.2.2.1 rfl rfl 0, if_pos (by decide),
    (h0.2.2.2.2.2 (lcore_conf_two 0) fib_a rfl (by decide) (by decide)).1]
  rfl

/-- C36: no function of the PIT, CS or FIB compares a name length with
`MAX_NAME_LEN`. For a name length `len` above 33 and a PIT and a CS none of
whose live entries has a name length above 33: `cs_lookup_with_hash` returns
NULL, `pit_lookup_and_update_with_hash` does not return 0 and
`pit_lookup_and_remove_with_hash` returns 0 and changes nothing; but when the
update returns 1 the PIT has a live, active entry with the name length `len`,
and when `cs_insert_with_hash` returns 0 the CS has a live entry with the name
length `len`, so that the premise no longer holds afterwards. -/
theorem long_name_outcome (pit : pit_t) (cs : cs_t) (name : List Nat) (len face : Nat)
    (ct : Option Nat) (now c p : Nat)
    (hlen : MAX_NAME_LEN < len)
    (hpit : ∀ b e, pit_live pit b e → (pit_record pit b e).name_len ≤ MAX_NAME_LEN)
    (hcs : ∀ b e, cs_live cs b e → (cs_record cs b e).name_len ≤ MAX_NAME_LEN) :
    cs_lookup_with_hash cs name len c = 0 ∧
    (pit_lookup_and_update_with_hash pit name len face ct now c).1 ≠ 0 ∧
    pit_lookup_and_remove_with_hash pit name len c = (0, pit) ∧
    ((pit_lookup_and_update_with_hash pit name len face ct now c).1 = 1 →
      ∃ e, e < BUCKET_SIZE ∧
        pit_live (pit_lookup_and_update_with_hash pit name len face ct now c).2
          (c % pit.num_buckets) e ∧
        (pit_record (pit_lookup_and_update_with_hash pit name len face ct now c).2
          (c % pit.num_buckets) e).active = 1 ∧
        (pit_record (pit_lookup_and_update_with_hash pit name len face ct now c).2
          (c % pit.num_buckets) e).name_len = len) ∧
    ((cs_insert_with_hash cs name len p c).1 = 0 →
      ∃ e, e < BUCKET_SIZE ∧
        cs_live (cs_insert_with_hash cs name len p c).2.1 (c % cs.num_buckets) e ∧
        (cs_record (cs_insert_with_hash cs name len p c).2.1 (c % cs.num_buckets) e).active = 1 ∧
        (cs_record (cs_insert_with_hash cs name len p c).2.1 (c % cs.num_buckets) e).name_len =
          len) := by
  have hpm : ∀ e, ¬ pit_entry_matches pit name len c (c % pit.num_buckets) e := by
    intro e hm
    have := hpit (c % pit.num_buckets) e hm.1
    unfold pit_record at this
    have h3 := hm.2.2.1
    omega
  have hcm : ∀ e, ¬ cs_entry_matches cs name len c (c % cs.num_buckets) e := by
    intro e hm
    have := hcs (c % cs.num_buckets) e hm.1
    unfold cs_record at this
    have h3 := hm.2.2.1
    omega
  refine ⟨?_, ?_, ?_, ?_, ?_⟩
  · unfold cs_lookup_with_hash
    rcases cs_lookup_cases cs name len c with ⟨e0, _, hm, _⟩ | ⟨_, h⟩
    · exact absurd hm (hcm e0)
    · exact h
  · unfold pit_lookup_and_update_with_hash
    rcases pit_update_cases pit name len face ct now c with
      ⟨e0, _, hm, _⟩ | ⟨_, _, h⟩ | ⟨_, _, _, _, _, _, h⟩
    · exact absurd hm (hpm e0)
    · rw [h]; simp [ENOSPC]
    · rw [h]; simp
  · unfold pit_lookup_and_remove_with_hash
    rcases pit_remove_cases pit name len c with ⟨e0, _, hm, _⟩ | ⟨_, h⟩
    · exact absurd hm (hpm e0)
    · exact h
  · unfold pit_lookup_and_update_with_hash
    rcases pit_update_cases pit name len face ct now c with
      ⟨e0, _, hm, _⟩ | ⟨_, _, h⟩ | ⟨_, e0, he0, _, _, _, h⟩
    · exact absurd hm (hpm e0)
    · rw [h]; intro hret; simp [ENOSPC] at hret
    · obtain ⟨x, hx⟩ : ∃ x, __pit_lookup_and_update_with_hash pit name len face ct now c =
          ((1 : Int), pit_store pit (c % pit.num_buckets) e0 name len face x c) := ⟨_, h⟩
      rw [hx]
      intro _
      refine ⟨e0, he0, ?_, ?_, ?_⟩
      · simp [pit_live, pit_store, upd]
      · simp [pit_record, pit_store, upd]
      · simp [pit_record, pit_store, upd]
  · unfold cs_insert_with_hash
    rcases cs_insert_cases cs name len p c with ⟨_, h⟩ | ⟨e0, he0, _, _, h⟩
    · rw [h]; intro hret; simp [ENOSPC] at hret
    · rcases h with ⟨_, h⟩ | ⟨_, h⟩
      · rw [h]
        intro _
        refine ⟨e0, he0, ?_, ?_, ?_⟩
        · simp [cs_live, cs_store, upd]
        · simp [cs_record, cs_store, upd]
        · simp [cs_record, cs_store, upd]
      · rw [h]
        intro _
        refine ⟨e0, he0, ?_, ?_, ?_⟩
        · simp [cs_live, cs_store, upd]
        · simp [cs_record, cs_store, upd]
        · simp [cs_record, cs_store, upd]

/-- Witness of C36 at the failing input: an Interest for the 34 bytes of
`name_34` from face 1 on the empty PIT returns 1 and leaves a live, active PIT
entry with the name length 34. In the worker the same Interest is forwarded
and stored; a second one from face 1 is then aggregated (the update returns 0
and `int_pit_hit` is counted) and `pit_lookup_and_remove_with_hash` returns the
mask 2. `fib_add` and `cs_insert_with_hash` store the name length 34 as
well. -/
theorem long_name_outcome_witness :
    (pit_lookup_and_update_with_hash pit_empty name_34 34 1 none 0 (sample_crc name_34)).1 = 1 ∧
    (∃ e, e < BUCKET_SIZE ∧
      pit_live (pit_lookup_and_update_with_hash pit_empty name_34 34 1 none 0
        (sample_crc name_34)).2 (sample_crc name_34 % pit_empty.num_buckets) e ∧
      (pit_record (pit_lookup_and_update_with_hash pit_empty name_34 34 1 none 0
        (sample_crc name_34)).2 (sample_crc name_34 % pit_empty.num_buckets) e).active = 1 ∧
      (pit_record (pit_lookup_and_update_with_hash pit_empty name_34 34 1 none 0
        (sample_crc name_34)).2 (sample_crc name_34 % pit_empty.num_buckets) e).name_len = 34) ∧
    worker_long_1.stats.int_fib_hit = 1 ∧
    (worker_long_1.pit.ring 0).active = 1 ∧
    (worker_long_1.pit.ring 0).name_len = 34 ∧
    (pit_lookup_and_update_with_hash worker_long_1.pit name_34 34 1 none 0
      (sample_crc name_34)).1 = 0 ∧
    (icn_fwd sample_crc worker_long_1 105 1 junk_packet 0).stats.int_pit_hit = 1 ∧
    (pit_lookup_and_remove_with_hash worker_long_1.pit name_34 34 (sample_crc name_34)).1 = 2 ∧
    ((fib_add sample_crc (fib_create 10 20) name_34 34 2).2.table.fwd_table 0).name_len = 34 ∧
    ((cs_insert_with_hash (cs_create 1024 4096) name_34 34 7
      (sample_crc name_34)).2.1.ring 0).name_len = 34 := by
  have h := long_name_outcome pit_empty (cs_create 1024 4096) name_34 34 1 none 0
    (sample_crc name_34) 7 (by decide) (fun b e hl => absurd rfl hl) (fun b e hl => absurd rfl hl)
  have h1 : (pit_lookup_and_update_with_hash pit_empty name_34 34 1 none 0
      (sample_crc name_34)).1 = 1 := by decide
  refine ⟨h1, h.2.2.2.1 h1, ?_⟩
  repeat' apply And.intro
  all_goals decide

end Augustus
